import Mathlib

/-!
# Token tree layout: a shallow embedding of `script.js`

The definitions below follow `src/.notes/poc/script.js` function by function.

Conventions of the embedding:

* JavaScript numbers are modelled as exact rationals (`ℚ`); rounding of
  floating-point arithmetic is not modelled.
* The module-level `state` object is passed explicitly as a `State` value.
* The DOM text measurement (`tempText.getBBox().width` after setting the text
  and the font size) is an injected function `measure text fontSize`.
* A tree is a `List Node`; the identity of a node object is its position in
  the list.  Mutation of a node is replacement of the list entry.
* Reading `tokens[i].probability` for an index outside the array throws in
  JavaScript; the embedding returns `none` there.
* The SVG surface is the list of path elements appended to it, and the `d`
  attribute of a path is a list of path commands instead of its string
  rendering.
-/

namespace TokenTree

/-! ## Configuration -/

/-- The fields of the `config` object. -/
structure Config where
  nodeHeight : ℚ
  wordSpacing : ℚ
  verticalSpacing : ℚ
  startX : ℚ
  startY : ℚ
  padding : ℚ
  minLineThickness : ℚ
  maxLineThickness : ℚ
  fontSize : ℚ
  altFontSize : ℚ
  altNodePadding : ℚ
  minAlternativeProbability : ℚ
  maxTopLogprobs : Nat

/-- The `config` constant of the script (lines 11-28). -/
def config : Config where
  nodeHeight := 40
  wordSpacing := 15
  verticalSpacing := 80
  startX := 50
  startY := 400
  padding := 100
  minLineThickness := 8
  maxLineThickness := 60
  fontSize := 18
  altFontSize := 14
  altNodePadding := 8
  minAlternativeProbability := 5 / 100
  maxTopLogprobs := 4

/-! ## Data model -/

/-- An alternative of a token: `{ text, probability }`. -/
structure AltToken where
  text : String
  probability : ℚ
deriving DecidableEq, Repr

/-- A token of the generated sequence. A missing `alternatives` field and an
empty array are treated alike by the script (line 143), both are `[]` here. -/
structure Token where
  text : String
  probability : ℚ
  alternatives : List AltToken
deriving DecidableEq, Repr

/-- A node of the tree. Fields a node object does not carry are `false`
(`isActiveBranch`, `isBranchContinuation`) or `none` (`branchId`,
`parentNode`, `parentBranchId`). `parentNode` holds the position in the tree
of the main-path node object it refers to. -/
structure Node where
  text : String
  x : ℚ
  y : ℚ
  width : ℚ
  probability : ℚ
  cumulativeProbability : ℚ
  isMainPath : Bool
  isActiveBranch : Bool
  isBranchContinuation : Bool
  tokenIndex : Int
  branchIndex : Nat
  branchId : Option String
  parentNode : Option Nat
  parentBranchId : Option String
deriving DecidableEq, Repr

/-- An entry of `state.activeBranches`. -/
structure ActiveBranch where
  branchId : String
  tokenIndex : Int
  text : String
deriving DecidableEq, Repr

/-- The module-level `state` object; the `Map` of continuations is an
association list read with `List.lookup`. -/
structure State where
  baseTokens : List Token
  activeBranches : List ActiveBranch
  branchContinuations : List (String × List Token)

/-! ## Tree builder -/

/-- Function `calculateCumulativeProbability(tokens, index)` (lines 69-75): the loop
`for (i = 0; i <= index; i++) cumProb *= tokens[i].probability`. -/
def calculateCumulativeProbability (tokens : List Token) (index : Nat) : Option ℚ :=
  (List.range (index + 1)).foldlM
    (fun cumProb i => (tokens[i]?).map (fun t => cumProb * t.probability)) 1

/-- The inner `token.alternatives.forEach((alt, altIndex) => ...)` of
`buildTreeStructure` (lines 144-176), pushing one node per alternative. -/
def buildAlternatives (measure : String → ℚ → ℚ) (st : State) (tokens : List Token)
    (index : Nat) (currentX : ℚ) (mainPos : Nat) :
    List AltToken → Nat → List Node → Option (List Node)
  | [], _, tree => some tree
  | alt :: rest, altIndex, tree => do
    let prev ← (if index > 0 then calculateCumulativeProbability tokens (index - 1) else some 1)
    let altCumProb := prev * alt.probability
    let altTextWidth := measure alt.text config.altFontSize
    let branchId := toString index ++ "-" ++ toString altIndex
    let isActive := st.activeBranches.any (fun b => b.branchId == branchId)
    let altNode : Node :=
      { text := alt.text
        x := currentX
        y := config.startY
        width := altTextWidth
        probability := alt.probability
        cumulativeProbability := altCumProb
        isMainPath := false
        isActiveBranch := isActive
        isBranchContinuation := false
        tokenIndex := index
        branchIndex := altIndex + 1
        branchId := some branchId
        parentNode := some mainPos
        parentBranchId := none }
    buildAlternatives measure st tokens index currentX mainPos rest (altIndex + 1)
      (tree ++ [altNode])

/-- The outer `tokens.forEach((token, index) => ...)` of `buildTreeStructure`
(lines 119-181); `currentX` and `tree` are the loop-carried variables. -/
def buildMainPath (measure : String → ℚ → ℚ) (st : State) (tokens : List Token) :
    List Token → Nat → ℚ → List Node → Option (List Node)
  | [], _, _, tree => some tree
  | token :: rest, index, currentX, tree => do
    let cumProb ← calculateCumulativeProbability tokens index
    let textWidth := measure token.text config.fontSize
    let mainNode : Node :=
      { text := token.text
        x := currentX
        y := config.startY
        width := textWidth
        probability := token.probability
        cumulativeProbability := cumProb
        isMainPath := true
        isActiveBranch := false
        isBranchContinuation := false
        tokenIndex := index
        branchIndex := 0
        branchId := none
        parentNode := none
        parentBranchId := none }
    let tree ← buildAlternatives measure st tokens index currentX tree.length
      token.alternatives 0 (tree ++ [mainNode])
    buildMainPath measure st tokens rest (index + 1)
      (currentX + textWidth + config.wordSpacing) tree

/-- The body of `addBranchContinuation` (lines 204-235): the `forEach` over the
continuation tokens, started at `currentX = startNode.x + startNode.width +
wordSpacing` with `index = 0`. -/
def addBranchContinuationLoop (measure : String → ℚ → ℚ) (startNode : Node)
    (continuationTokens : List Token) (branchId : String) :
    List Token → Nat → ℚ → List Node → Option (List Node)
  | [], _, _, tree => some tree
  | token :: rest, index, currentX, tree => do
    let textWidth := measure token.text config.fontSize
    let cum ← calculateCumulativeProbability continuationTokens index
    let cumProb := startNode.cumulativeProbability * cum
    let branchNode : Node :=
      { text := token.text
        x := currentX
        y := startNode.y
        width := textWidth
        probability := token.probability
        cumulativeProbability := cumProb
        isMainPath := false
        isActiveBranch := true
        isBranchContinuation := true
        tokenIndex := startNode.tokenIndex + index + 1
        branchIndex := startNode.branchIndex
        branchId := some branchId
        parentNode := none
        parentBranchId := some branchId }
    addBranchContinuationLoop measure startNode continuationTokens branchId rest (index + 1)
      (currentX + textWidth + config.wordSpacing) (tree ++ [branchNode])

/-- Function `addBranchContinuation(tree, tempText, startNode, continuationTokens,
branchId)`; the tree with the continuation nodes pushed is the result. -/
def addBranchContinuation (tree : List Node) (measure : String → ℚ → ℚ) (startNode : Node)
    (continuationTokens : List Token) (branchId : String) : Option (List Node) :=
  addBranchContinuationLoop measure startNode continuationTokens branchId continuationTokens 0
    (startNode.x + startNode.width + config.wordSpacing) tree

/-- The loop `state.activeBranches.forEach(branch => ...)` of
`buildTreeStructure` (lines 184-192). -/
def addActiveBranches (measure : String → ℚ → ℚ) (st : State) :
    List ActiveBranch → List Node → Option (List Node)
  | [], tree => some tree
  | branch :: rest, tree =>
    match st.branchContinuations.lookup branch.branchId with
    | some continuation =>
      if continuation.length > 0 then
        match tree.find? (fun n => n.branchId == some branch.branchId) with
        | some branchStartNode => do
          let tree ← addBranchContinuation tree measure branchStartNode continuation
            branch.branchId
          addActiveBranches measure st rest tree
        | none => addActiveBranches measure st rest tree
      else addActiveBranches measure st rest tree
    | none => addActiveBranches measure st rest tree

/-! ## Force relaxation -/

/-- The push `alternativesByToken[key].push(node)`, creating the group when the key is
new. A group lists the tree positions of its members in insertion order. -/
def pushToGroup (key : Int) (pos : Nat) : List (Int × List Nat) → List (Int × List Nat)
  | [] => [(key, [pos])]
  | (k, members) :: rest =>
    if k = key then (k, members ++ [pos]) :: rest
    else (k, members) :: pushToGroup key pos rest

/-- The grouping loop of `relaxAlternativePositions` (lines 246-254), run on
the nodes from position `pos` on. -/
def groupAlternatives : List Node → Nat → List (Int × List Nat) → List (Int × List Nat)
  | [], _, groups => groups
  | node :: rest, pos, groups =>
    groupAlternatives rest (pos + 1)
      (if !node.isMainPath then pushToGroup node.tokenIndex pos groups else groups)

/-- The object `alternativesByToken` built for a tree. -/
def alternativesByToken (tree : List Node) : List (Int × List Nat) :=
  groupAlternatives tree 0 []

/-- The read `alternativesByToken[key] || []`. -/
def groupOf (groups : List (Int × List Nat)) (key : Int) : List Nat :=
  (groups.lookup key).getD []

/-- Assignment `node.y = y` to the node at position `pos`. -/
def setY : List Node → Nat → ℚ → List Node
  | [], _, _ => []
  | node :: rest, 0, y => { node with y := y } :: rest
  | node :: rest, pos + 1, y => node :: setY rest pos y

/-- The inner `alts.forEach((alt, idx) => ...)` of the initialisation
(lines 258-263). -/
def initGroup : List Nat → Nat → List Node → List Node
  | [], _, tree => tree
  | pos :: rest, idx, tree =>
    let direction : ℚ := if idx % 2 = 0 then -1 else 1
    let offset : ℚ := ((idx / 2 + 1 : Nat) : ℚ)
    initGroup rest (idx + 1)
      (setY tree pos (config.startY + direction * offset * config.verticalSpacing))

/-- The initialisation `Object.values(alternativesByToken).forEach(...)`
(lines 257-264). Every node belongs to one group only, so the order in which
the groups are visited does not influence the result. -/
def initPositions : List (Int × List Nat) → List Node → List Node
  | [], tree => tree
  | (_, alts) :: rest, tree => initPositions rest (initGroup alts 0 tree)

/-- Target distance from the main branch, `config.verticalSpacing * 0.55`. -/
def targetDistance : ℚ := config.verticalSpacing * 0.55

/-- Minimum distance between nodes, `config.verticalSpacing * 0.45`. -/
def minDistance : ℚ := config.verticalSpacing * 0.45

/-- The constant `iterations` of `relaxAlternativePositions`. -/
def iterations : Nat := 200

/-- The constant `damping` of `relaxAlternativePositions`. -/
def damping : ℚ := 0.5

/-- Repulsion from one other alternative at the same token position
(lines 295-301); `q` is the position of `other`, `pos` that of `node`. -/
def sameTokenForce (tree : List Node) (pos : Nat) (node : Node) (force : ℚ) (q : Nat) : ℚ :=
  match tree[q]? with
  | some other =>
    if q ≠ pos then
      let dist := |node.y - other.y|
      if dist < minDistance * 1.5 then
        let repulsion := (minDistance * 1.5 - dist) * 0.8
        force + (if node.y > other.y then repulsion else -repulsion)
      else force
    else force
  | none => force

/-- Repulsion from one alternative at an adjacent token position
(lines 308-319). -/
def adjacentForce (tree : List Node) (node : Node) (force : ℚ) (q : Nat) : ℚ :=
  match tree[q]? with
  | some other =>
    let dist := |node.y - other.y|
    let xDist := |node.x - other.x|
    if xDist < config.wordSpacing * 3 ∧ dist < minDistance then
      let repulsion := (minDistance - dist) * 0.7
      force + (if node.y > other.y then repulsion else -repulsion)
    else if dist < minDistance * 0.8 then
      let repulsion := (minDistance * 0.8 - dist) * 0.4
      force + (if node.y > other.y then repulsion else -repulsion)
    else force
  | none => force

/-- The force computed for one non-main-path node in one iteration
(lines 279-324), from the positions all nodes have at the start of the
iteration. -/
def nodeForce (tree : List Node) (groups : List (Int × List Nat)) (pos : Nat) (node : Node) : ℚ :=
  let mainY := config.startY
  let force : ℚ := 0
  let distToMain := |node.y - mainY|
  let targetForce := (distToMain - targetDistance) * (-0.2)
  let force := force + (if node.y > mainY then targetForce else -targetForce)
  let force :=
    if distToMain < minDistance then
      let mainForce := (minDistance - distToMain) * 1.5
      force + (if node.y > mainY then mainForce else -mainForce)
    else force
  let sameTokenAlts := groupOf groups node.tokenIndex
  let force := sameTokenAlts.foldl (sameTokenForce tree pos node) force
  let adjacentTokens := [node.tokenIndex - 1, node.tokenIndex + 1]
  let force := adjacentTokens.foldl
    (fun force adjIdx => (groupOf groups adjIdx).foldl (adjacentForce tree node) force) force
  force * damping

/-- Applying the forces (lines 329-331) to the nodes from position `pos` on;
`tree` is the whole tree at the start of the iteration. -/
def applyForces (tree : List Node) (groups : List (Int × List Nat)) :
    List Node → Nat → List Node
  | [], _ => []
  | node :: rest, pos =>
    (if !node.isMainPath then { node with y := node.y + nodeForce tree groups pos node }
     else node) :: applyForces tree groups rest (pos + 1)

/-- One relaxation iteration (the body of the loop at line 267). -/
def relaxStep (groups : List (Int × List Nat)) (tree : List Node) : List Node :=
  applyForces tree groups tree 0

/-- The loop `for (iter = 0; iter < iterations; iter++)`. -/
def relaxLoop (groups : List (Int × List Nat)) : Nat → List Node → List Node
  | 0, tree => tree
  | n + 1, tree => relaxLoop groups n (relaxStep groups tree)

/-- Function `relaxAlternativePositions(tree)` (lines 238-333); the mutated tree is the
result. -/
def relaxAlternativePositions (tree : List Node) : List Node :=
  let groups := alternativesByToken tree
  relaxLoop groups iterations (initPositions groups tree)

/-- Function `buildTreeStructure(tokens)` (lines 106-201): the main and
alternative nodes, then the continuations of the active branches, then the
relaxation. -/
def buildTreeStructure (measure : String → ℚ → ℚ) (st : State) (tokens : List Token) :
    Option (List Node) := do
  let tree ← buildMainPath measure st tokens tokens 0 config.startX []
  let tree ← addActiveBranches measure st st.activeBranches tree
  pure (relaxAlternativePositions tree)


/-! ## Path geometry -/

/-- A control point of `drawContinuousMainPath`: `{ x, thickness }`. -/
structure ControlPoint where
  x : ℚ
  thickness : ℚ
deriving DecidableEq, Repr, Inhabited

/-- An entry of `samples`: `{ x, thickness }`. -/
structure Sample where
  x : ℚ
  thickness : ℚ
deriving DecidableEq, Repr, Inhabited

/-- A point `{ x, y }` of `topPath` or `bottomPath`. -/
structure Point where
  x : ℚ
  y : ℚ
deriving DecidableEq, Repr, Inhabited

/-- A command of the path string `pathData`: `M x y`, `L x y` or `Z`. -/
inductive PathCommand where
  | moveTo (p : Point)
  | lineTo (p : Point)
  | closePath
deriving DecidableEq, Repr

/-- A `path` element appended to the SVG surface. -/
structure SvgPath where
  d : List PathCommand
  cssClass : String
  fill : String
  opacity : ℚ
deriving DecidableEq, Repr

instance : Inhabited Node :=
  ⟨{ text := "", x := 0, y := 0, width := 0, probability := 0, cumulativeProbability := 0,
     isMainPath := false, isActiveBranch := false, isBranchContinuation := false,
     tokenIndex := 0, branchIndex := 0, branchId := none, parentNode := none,
     parentBranchId := none }⟩

/-- The constant `numSamples` of `drawContinuousMainPath`. -/
def numSamples : Nat := 200

/-- The control point pushed for one node (lines 425-430): the word centre
with the thickness of the node. -/
def controlPointOf (node : Node) : ControlPoint :=
  { x := node.x + node.width / 2
    thickness := config.minLineThickness +
      node.cumulativeProbability * (config.maxLineThickness - config.minLineThickness) }

/-- The control points (lines 423-431): one per node, in path order. -/
def controlPoints (pathNodes : List Node) : List ControlPoint :=
  pathNodes.map controlPointOf

/-- The search loop of lines 458-464, from index `j` on: the first `j` with
`x >= controlPoints[j].x && x <= controlPoints[j + 1].x`, and the initial
value `0` of `idx` when the loop ends without a hit. -/
def findBracket (x : ℚ) : List ControlPoint → Nat → Nat
  | p1 :: p2 :: rest, j =>
    if x ≥ p1.x ∧ x ≤ p2.x then j else findBracket x (p2 :: rest) (j + 1)
  | _, _ => 0

/-- The thickness interpolated at position `x` (lines 448-473). The array
reads are within bounds whenever there are at least two control points; the
default value of `getD` is never used then. -/
def sampleThickness (controlPoints : List ControlPoint) (x : ℚ) : ℚ :=
  if x < (controlPoints.getD 0 default).x then
    (controlPoints.getD 0 default).thickness
  else if x > (controlPoints.getD (controlPoints.length - 1) default).x then
    (controlPoints.getD (controlPoints.length - 1) default).thickness
  else
    let idx := findBracket x controlPoints 0
    let p1 := controlPoints.getD idx default
    let p2 := controlPoints.getD (idx + 1) default
    let localT := (x - p1.x) / (p2.x - p1.x)
    let smoothT := localT * localT * (3 - 2 * localT)
    p1.thickness + (p2.thickness - p1.thickness) * smoothT

/-- The sampling loop `for (i = 0; i <= numSamples; i++)` (lines 443-479). -/
def samples (controlPoints : List ControlPoint) (startX endX : ℚ) : List Sample :=
  (List.range (numSamples + 1)).map (fun i =>
    let t : ℚ := (i : ℚ) / (numSamples : ℚ)
    let x := startX + (endX - startX) * t
    { x := x, thickness := sampleThickness controlPoints x })

/-- Function `drawContinuousMainPath(svg, pathNodes, color, opacity)` (lines 416-515);
the result is the surface after the call. -/
def drawContinuousMainPath (svg : List SvgPath) (pathNodes : List Node) (color : String)
    (opacity : ℚ) : List SvgPath :=
  if pathNodes.length < 2 then svg
  else
    let y := (pathNodes.getD 0 default).y
    let controlPoints := controlPoints pathNodes
    let firstNode := pathNodes.getD 0 default
    let lastNode := pathNodes.getD (pathNodes.length - 1) default
    let startX := firstNode.x - config.wordSpacing
    let endX := lastNode.x + lastNode.width + config.wordSpacing
    let samples := samples controlPoints startX endX
    let topPath : List Point :=
      samples.map (fun sample => { x := sample.x, y := y - sample.thickness / 2 })
    let bottomPath : List Point :=
      samples.map (fun sample => { x := sample.x, y := y + sample.thickness / 2 })
    let pathData : List PathCommand :=
      [PathCommand.moveTo (topPath.getD 0 default)] ++
        (topPath.drop 1).map PathCommand.lineTo ++
        bottomPath.reverse.map PathCommand.lineTo ++
        [PathCommand.closePath]
    svg ++ [{ d := pathData, cssClass := "main-path-shape", fill := color, opacity := opacity }]

/-- The points of a path, in the order of its commands. -/
def outlinePoints : List PathCommand → List Point
  | [] => []
  | PathCommand.moveTo p :: rest => p :: outlinePoints rest
  | PathCommand.lineTo p :: rest => p :: outlinePoints rest
  | PathCommand.closePath :: rest => outlinePoints rest

/-! ## Session state: branch activation -/

/-- The array `mockContinuations` of `generateBranchContinuation`
(lines 640-677). -/
def mockContinuations : List (List Token) :=
  [ [ { text := "magical", probability := 0.7, alternatives := [] },
      { text := "kingdom", probability := 0.8, alternatives := [] },
      { text := "awaited", probability := 0.6, alternatives := [] },
      { text := "discovery", probability := 0.75, alternatives := [] } ],
    [ { text := "ancient", probability := 0.65, alternatives := [] },
      { text := "times", probability := 0.85, alternatives := [] },
      { text := "long", probability := 0.7, alternatives := [] },
      { text := "forgotten", probability := 0.6, alternatives := [] } ],
    [ { text := "enchanted", probability := 0.8, alternatives := [] },
      { text := "forest", probability := 0.75, alternatives := [] },
      { text := "where", probability := 0.85, alternatives := [] },
      { text := "magic", probability := 0.7, alternatives := [] } ],
    [ { text := "girl", probability := 0.9, alternatives := [] },
      { text := "with", probability := 0.85, alternatives := [] },
      { text := "golden", probability := 0.7, alternatives := [] },
      { text := "hair", probability := 0.8, alternatives := [] } ],
    [ { text := "made", probability := 0.75, alternatives := [] },
      { text := "of", probability := 0.95, alternatives := [] },
      { text := "crystal", probability := 0.7, alternatives := [] },
      { text := "and", probability := 0.85, alternatives := [] },
      { text := "gold", probability := 0.8, alternatives := [] } ] ]

/-- The call `map.set(key, value)` of a JavaScript `Map`: the value of an
existing key is replaced in place, a new key is added at the end. -/
def mapSet (key : String) (value : List Token) :
    List (String × List Token) → List (String × List Token)
  | [] => [(key, value)]
  | (k, v) :: rest =>
    if k = key then (k, value) :: rest else (k, v) :: mapSet key value rest

/-- Function `generateBranchContinuation(branchNode)` (lines 637-684);
`branchId` is `branchNode.branchId` and `pick` is the index
`Math.floor(Math.random() * mockContinuations.length)` drawn by the call. -/
def generateBranchContinuation (st : State) (branchId : String)
    (pick : Fin mockContinuations.length) : State :=
  let continuation := mockContinuations.get pick
  { st with branchContinuations := mapSet branchId continuation st.branchContinuations }

/-- Function `handleAlternativeClick(node)` (lines 614-634), with the random
index `pick` its call of `generateBranchContinuation` draws. The handler is
registered only on nodes that carry a branch id (line 605); for a node without
one the state is returned as it is. The final `renderTree(state.baseTokens)`
redraws and does not write to the state. -/
def handleAlternativeClick (st : State) (node : Node)
    (pick : Fin mockContinuations.length) : State :=
  match node.branchId with
  | none => st
  | some branchId =>
    if st.activeBranches.any (fun b => b.branchId == branchId) then st
    else
      let st : State :=
        { st with activeBranches := st.activeBranches ++
            [{ branchId := branchId, tokenIndex := node.tokenIndex, text := node.text }] }
      generateBranchContinuation st branchId pick

/-! ## Generation: the backend response -/

/-- The message of an error: a text the script spells out, or the message of
the `TypeError` the engine raises when a property of `null` is read, whose
wording is the engine's. -/
inductive Message where
  | text (s : String)
  | ofTypeError
deriving DecidableEq, Repr

/-- A field of the response that the script tests with `Array.isArray`: it is
missing (or otherwise falsy), holds a value that is not an array, or holds an
array. -/
inductive ArrayField (α : Type) where
  | absent
  | notArray
  | array (items : List α)

/-- An object among `top_logprobs`: `{ token, logprob }`. -/
structure TopLogprob where
  token : String
  logprob : ℚ

/-- An object among `logprobs`: `{ token, logprob, top_logprobs }`. An element
of a JSON array can also be `null`, which is `none` in the lists below. -/
structure LogprobEntry where
  token : String
  logprob : ℚ
  top_logprobs : ArrayField (Option TopLogprob)

/-- The parsed body `data` of a backend response, when it is not `null`. -/
structure OllamaResponse where
  logprobs : ArrayField (Option LogprobEntry)

/-- The loop `tokenData.top_logprobs.forEach(altData => ...)` (lines 784-800):
the chosen token is skipped, and an alternative is pushed when its probability
reaches the threshold. Reading `altData.token` of a `null` element raises a
`TypeError` (line 786). `exp` is `Math.exp`. -/
def collectAlternatives (exp : ℚ → ℚ) (minAlternativeProbability : ℚ) (mainToken : String) :
    List (Option TopLogprob) → Except Message (List AltToken)
  | [] => Except.ok []
  | none :: _ => Except.error Message.ofTypeError
  | some altData :: rest =>
    if altData.token = mainToken then
      collectAlternatives exp minAlternativeProbability mainToken rest
    else
      let altProbability := exp altData.logprob
      if altProbability ≥ minAlternativeProbability then
        match collectAlternatives exp minAlternativeProbability mainToken rest with
        | Except.ok alternatives =>
          Except.ok ({ text := altData.token, probability := altProbability } :: alternatives)
        | Except.error message => Except.error message
      else collectAlternatives exp minAlternativeProbability mainToken rest

/-- The call `alternatives.sort((a, b) => b.probability - a.probability)`
(line 804): a stable sort that puts `a` before `b` when `a.probability` is the
larger one. -/
def sortAlternatives (alternatives : List AltToken) : List AltToken :=
  alternatives.insertionSort (fun a b => a.probability ≥ b.probability)

/-- The body of `data.logprobs.forEach(tokenData => ...)` (lines 774-812): the
token built for one element. Reading `tokenData.token` of a `null` element
raises a `TypeError` (line 776). The `isMainPath` marks the script adds to
tokens and alternatives are not read anywhere and are left out. -/
def transformEntry (exp : ℚ → ℚ) (minAlternativeProbability : ℚ) :
    Option LogprobEntry → Except Message Token
  | none => Except.error Message.ofTypeError
  | some tokenData =>
    let mainToken := tokenData.token
    let mainLogprob := tokenData.logprob
    let mainProbability := exp mainLogprob
    let alternatives :=
      match tokenData.top_logprobs with
      | ArrayField.array items =>
        collectAlternatives exp minAlternativeProbability mainToken items
      | _ => Except.ok []
    match alternatives with
    | Except.ok alternatives =>
      Except.ok { text := mainToken, probability := mainProbability,
                  alternatives := sortAlternatives alternatives }
    | Except.error message => Except.error message

/-- The loop `data.logprobs.forEach(tokenData => ...)` (line 774): the tokens
pushed for the elements, unless an element makes the body throw. -/
def transformEntries (exp : ℚ → ℚ) (minAlternativeProbability : ℚ) :
    List (Option LogprobEntry) → Except Message (List Token)
  | [] => Except.ok []
  | tokenData :: rest =>
    match transformEntry exp minAlternativeProbability tokenData with
    | Except.ok token =>
      match transformEntries exp minAlternativeProbability rest with
      | Except.ok tokens => Except.ok (token :: tokens)
      | Except.error message => Except.error message
    | Except.error message => Except.error message

/-- Function `transformOllamaResponse(data)` (lines 767-815). `data` is the
parsed body, `none` when it is `null`: reading `data.logprobs` then raises a
`TypeError` (line 768). `exp` is `Math.exp` and `minAlternativeProbability`
the value of `config.minAlternativeProbability` at the time of the call; a
thrown error is `Except.error` with its message. -/
def transformOllamaResponse (exp : ℚ → ℚ) (minAlternativeProbability : ℚ) :
    Option OllamaResponse → Except Message (List Token)
  | none => Except.error Message.ofTypeError
  | some data =>
    match data.logprobs with
    | ArrayField.array entries => transformEntries exp minAlternativeProbability entries
    | _ =>
      Except.error (Message.text
        "No logprobs in response. Make sure your Ollama version supports logprobs.")

/-- The request body `generateFromOllama` posts (lines 742-752). -/
structure OllamaRequest where
  model : String
  prompt : String
  stream : Bool
  logprobs : Bool
  top_logprobs : Option Int
  num_predict : Option Int
  temperature : ℚ

/-- What the script reads off the `fetch` response: `ok`, `status`,
`statusText`, the body as text and the outcome of `response.json()`: the
parsed body (`none` for `null`), or the message of the error it rejects with
when the body is not JSON. -/
structure HttpResponse where
  ok : Bool
  status : Nat
  statusText : String
  text : String
  json : Except Message (Option OllamaResponse)

/-- The request body built at lines 742-752, with `config.modelName`. -/
def ollamaRequest (prompt : String) (maxTokens : Option Int) (temperature : ℚ)
    (topLogprobs : Option Int) : OllamaRequest :=
  { model := "gemma3:1b", prompt := prompt, stream := false, logprobs := true,
    top_logprobs := topLogprobs, num_predict := maxTokens, temperature := temperature }

/-- Function `generateFromOllama(prompt, maxTokens, temperature, topLogprobs)`
(lines 736-764). The backend is the function `fetch`, which answers a request
or fails with a message (a rejected promise). -/
def generateFromOllama (fetch : OllamaRequest → Except Message HttpResponse) (exp : ℚ → ℚ)
    (minAlternativeProbability : ℚ) (prompt : String) (maxTokens : Option Int)
    (temperature : ℚ) (topLogprobs : Option Int) : Except Message (List Token) :=
  match fetch (ollamaRequest prompt maxTokens temperature topLogprobs) with
  | Except.error message => Except.error message
  | Except.ok response =>
    if !response.ok then
      Except.error (Message.text ("Ollama API error: " ++ toString response.status ++ " " ++
        response.statusText ++ "\n" ++ response.text))
    else
      match response.json with
      | Except.error message => Except.error message
      | Except.ok data => transformOllamaResponse exp minAlternativeProbability data

/-- The code points `String.prototype.trim` removes from both ends: the
ECMAScript WhiteSpace (TAB, VT, FF, SP, NBSP, ZWNBSP and the other space
separators of Unicode) and LineTerminator (LF, CR, LS, PS) code points. -/
def isTrimmed (c : Char) : Bool :=
  c.val.toNat ∈ [0x9, 0xA, 0xB, 0xC, 0xD, 0x20, 0xA0, 0x1680, 0x2000, 0x2001, 0x2002, 0x2003,
    0x2004, 0x2005, 0x2006, 0x2007, 0x2008, 0x2009, 0x200A, 0x2028, 0x2029, 0x202F, 0x205F,
    0x3000, 0xFEFF]

/-- The method `String.prototype.trim`. -/
def trim (s : String) : String :=
  String.mk ((s.data.dropWhile isTrimmed).reverse.dropWhile isTrimmed).reverse

/-- The values `handleGenerate` reads from the input elements: the prompt,
`parseInt` of the maximum token count and of the number of top logprobs
(`none` for `NaN`), the temperature and the minimum probability in percent. -/
structure GenerateInputs where
  prompt : String
  maxTokens : Option Int
  temperature : ℚ
  topLogprobs : Option Int
  minProbability : ℚ

/-- What a call of `handleGenerate` leaves behind: the session state, the
value of `config.minAlternativeProbability` and the error message on display
(`none` when the error element is hidden). -/
structure Session where
  state : State
  minAlternativeProbability : ℚ
  errorMessage : Option Message

/-- The test `maxTokens < 1 || maxTokens > 200` (line 706); both comparisons
are false for `NaN`. -/
def maxTokensOutOfRange : Option Int → Bool
  | some m => decide (m < 1) || decide (m > 200)
  | none => false

/-- Function `handleGenerate()` (lines 687-733), run to completion with the
answer of the backend. -/
def handleGenerate (fetch : OllamaRequest → Except Message HttpResponse) (exp : ℚ → ℚ)
    (session : Session) (inputs : GenerateInputs) : Session :=
  let prompt := trim inputs.prompt
  let maxTokens := inputs.maxTokens
  let minProbability := inputs.minProbability / 100
  if prompt = "" then
    { session with errorMessage := some (Message.text "Please enter a prompt") }
  else if maxTokensOutOfRange maxTokens then
    { session with
      errorMessage := some (Message.text "Max tokens must be between 1 and 200") }
  else
    match generateFromOllama fetch exp minProbability prompt maxTokens inputs.temperature
        inputs.topLogprobs with
    | Except.ok tokens =>
      { state := { baseTokens := tokens, activeBranches := [], branchContinuations := [] }
        minAlternativeProbability := minProbability
        errorMessage := none }
    | Except.error message =>
      { state := session.state
        minAlternativeProbability := minProbability
        errorMessage := some message }

/-! ## Session state: mock data and reachable states -/

/-- The array `mockData.tokens` of `mock-data.js`. -/
def mockDataTokens : List Token :=
  [ { text := "there", probability := 0.8,
      alternatives := [ { text := "a", probability := 0.15 },
                        { text := "in", probability := 0.05 } ] },
    { text := "was", probability := 0.9, alternatives := [] },
    { text := "a", probability := 0.75,
      alternatives := [ { text := "an", probability := 0.12 },
                        { text := "one", probability := 0.08 },
                        { text := "the", probability := 0.05 } ] },
    { text := "young", probability := 0.6,
      alternatives := [ { text := "little", probability := 0.25 },
                        { text := "small", probability := 0.15 } ] },
    { text := "princess", probability := 0.85,
      alternatives := [ { text := "girl", probability := 0.1 },
                        { text := "woman", probability := 0.05 } ] },
    { text := "who", probability := 0.92,
      alternatives := [ { text := "named", probability := 0.05 },
                        { text := "called", probability := 0.03 } ] },
    { text := "lived", probability := 0.88,
      alternatives := [ { text := "dwelt", probability := 0.06 },
                        { text := "resided", probability := 0.04 },
                        { text := "stayed", probability := 0.02 } ] },
    { text := "in", probability := 0.95, alternatives := [] },
    { text := "a", probability := 0.82,
      alternatives := [ { text := "an", probability := 0.1 },
                        { text := "the", probability := 0.08 } ] },
    { text := "castle", probability := 0.7,
      alternatives := [ { text := "palace", probability := 0.18 },
                        { text := "tower", probability := 0.08 },
                        { text := "kingdom", probability := 0.04 } ] } ]

/-- The value of `state` when the script is loaded (lines 4-8). -/
def initialState : State :=
  { baseTokens := [], activeBranches := [], branchContinuations := [] }

/-- Function `loadMockData()` (lines 59-66), as far as it writes to `state`. -/
def loadMockData (_st : State) : State :=
  { baseTokens := mockDataTokens, activeBranches := [], branchContinuations := [] }

/-- The states the session can be in: the initial state, and the state after
`loadMockData`, after a call of `handleGenerate` (successful or not) and after
`handleAlternativeClick` from a state the session can be in. -/
inductive Reachable : State → Prop where
  | initial : Reachable initialState
  | loadMockData (st : State) : Reachable st → Reachable (loadMockData st)
  | handleGenerate (fetch : OllamaRequest → Except Message HttpResponse) (exp : ℚ → ℚ)
      (session : Session) (inputs : GenerateInputs) :
      Reachable session.state → Reachable (handleGenerate fetch exp session inputs).state
  | handleAlternativeClick (st : State) (node : Node) (pick : Fin mockContinuations.length) :
      Reachable st → Reachable (handleAlternativeClick st node pick)


/-! ## Rendering of the paths -/

/-- Function `renderMainPath(svg, treeData)` (lines 372-375). -/
def renderMainPath (svg : List SvgPath) (treeData : List Node) : List SvgPath :=
  drawContinuousMainPath svg (treeData.filter (fun n => n.isMainPath)) "#4a90e2" 1

/-- The array `branchColors` of `renderActiveBranches` (line 393). -/
def branchColors : List String := ["#e74c3c", "#9b59b6", "#f39c12", "#27ae60", "#e67e22"]

/-- The push `branchGroups.get(node.branchId).push(node)`, creating the group
when the key is new (lines 384-387). The `Map` is an association list in
insertion order. -/
def pushToBranchGroup (key : Option String) (node : Node) :
    List (Option String × List Node) → List (Option String × List Node)
  | [] => [(key, [node])]
  | (k, members) :: rest =>
    if k = key then (k, members ++ [node]) :: rest
    else (k, members) :: pushToBranchGroup key node rest

/-- The grouping loop `treeData.forEach(node => ...)` of `renderActiveBranches`
(lines 382-389). -/
def groupBranchNodes :
    List Node → List (Option String × List Node) → List (Option String × List Node)
  | [], groups => groups
  | node :: rest, groups =>
    groupBranchNodes rest
      (if node.isActiveBranch && node.isBranchContinuation then
        pushToBranchGroup node.branchId node groups
       else groups)

/-- The call `nodes.sort((a, b) => a.tokenIndex - b.tokenIndex)` (line 399): a
stable sort by increasing `tokenIndex`. -/
def sortByTokenIndex (nodes : List Node) : List Node :=
  nodes.insertionSort (fun a b => a.tokenIndex ≤ b.tokenIndex)

/-- The loop `branchGroups.forEach((nodes, branchId) => ...)` of
`renderActiveBranches` (lines 396-412); `colorIndex` and the surface are the
loop-carried variables. -/
def drawBranchGroups (treeData : List Node) :
    List (Option String × List Node) → Nat → List SvgPath → List SvgPath
  | [], _, svg => svg
  | (branchId, nodes) :: rest, colorIndex, svg =>
    if nodes.length > 0 then
      let nodes := sortByTokenIndex nodes
      match treeData.find? (fun n => n.branchId == branchId && !n.isBranchContinuation) with
      | some branchStart =>
        let fullPath := branchStart :: nodes
        let color := branchColors.getD (colorIndex % branchColors.length) ""
        drawBranchGroups treeData rest (colorIndex + 1)
          (drawContinuousMainPath svg fullPath color 0.85)
      | none => drawBranchGroups treeData rest colorIndex svg
    else drawBranchGroups treeData rest colorIndex svg

/-- Function `renderActiveBranches(svg, treeData)` (lines 378-413); the result
is the surface after the call. -/
def renderActiveBranches (svg : List SvgPath) (treeData : List Node) : List SvgPath :=
  drawBranchGroups treeData (groupBranchNodes treeData []) 0 svg

/-! ## Double-precision arithmetic

JavaScript numbers are IEEE 754 binary64 values, and every arithmetic
operation of the script returns the exact result rounded to the nearest such
value, ties to the value with the even significand. The definitions above
compute exactly; the definitions of this section repeat the numeric core of
`calculateCumulativeProbability` and `drawContinuousMainPath` with the
rounding after every operation. A double is represented by the rational it
denotes. Overflow to `Infinity` is not modelled (no value below comes near
`2 ^ 1024`), nor is the sign of zero. -/

/-- The natural number nearest to `p / q`, the even one of two that are equally
near. -/
def roundHalfEven (p q : Nat) : Nat :=
  let k := p / q
  let r := p % q
  if 2 * r < q then k
  else if 2 * r > q then k + 1
  else if k % 2 = 0 then k else k + 1

/-- The least `k' ≥ k` with `n < 2 ^ 2 ^ k'`, searched upwards from `k`; the
first argument bounds the number of steps. -/
def widthLevel (n : Nat) : Nat → Nat → Nat
  | 0, k => k
  | fuel + 1, k => if n < 2 ^ 2 ^ k then k else widthLevel n fuel (k + 1)

/-- Binary search for the leading binary digit of `n < 2 ^ 2 ^ k`: at level
`k`, if `2 ^ 2 ^ (k - 1) ≤ n`, the digits below position `2 ^ (k - 1)` are
dropped and `2 ^ (k - 1)` is added to the position found so far. -/
def leadingBitFrom : Nat → Nat → Nat → Nat
  | 0, _, acc => acc
  | k + 1, n, acc =>
    if 2 ^ 2 ^ k ≤ n then leadingBitFrom k (n / 2 ^ 2 ^ k) (acc + 2 ^ k)
    else leadingBitFrom k n acc

/-- The position of the leading binary digit of `n`, that is the `k` with
`2 ^ k ≤ n < 2 ^ (k + 1)` for positive `n`. -/
def leadingBit (n : Nat) : Nat := leadingBitFrom (widthLevel n n 0) n 0

/-- The exponent `e` with `2 ^ e ≤ p / q < 2 ^ (e + 1)`, for positive `p` and
`q`: the difference of the positions of the leading bits, corrected by one
where needed. -/
def binaryExponent (p q : Nat) : Int :=
  let e0 : Int := (leadingBit p : Int) - (leadingBit q : Int)
  if e0 ≥ 0 then
    if q * 2 ^ e0.toNat ≤ p then e0 else e0 - 1
  else
    if q ≤ p * 2 ^ (-e0).toNat then e0 else e0 - 1

/-- The double nearest to `p / q` for naturals `p` and `q > 0`: the quotient is
rounded to a multiple of `2 ^ u`, where `u` is the exponent of the last of the
53 significand bits, and not less than `-1074`, the exponent of the smallest
subnormal. -/
def roundDoubleNat (p q : Nat) : ℚ :=
  if p = 0 then 0
  else
    let e := binaryExponent p q
    let u := max (e - 52) (-1074)
    if u ≥ 0 then mkRat ((roundHalfEven p (q * 2 ^ u.toNat) * 2 ^ u.toNat : Nat) : Int) 1
    else mkRat ((roundHalfEven (p * 2 ^ (-u).toNat) q : Nat) : Int) (2 ^ (-u).toNat)

/-- The double nearest to the rational `x`, ties to even. -/
def roundDouble (x : ℚ) : ℚ :=
  if x < 0 then -roundDoubleNat x.num.natAbs x.den else roundDoubleNat x.num.natAbs x.den

/-- Function `calculateCumulativeProbability(tokens, index)` (lines 69-75) in
doubles: `cumProb *= tokens[i].probability` rounds each product. -/
def calculateCumulativeProbabilityDouble (tokens : List Token) (index : Nat) : Option ℚ :=
  (List.range (index + 1)).foldlM
    (fun cumProb i => (tokens[i]?).map (fun t => roundDouble (cumProb * t.probability))) 1

/-- The control point pushed for one node (lines 425-430) in doubles. -/
def controlPointOfDouble (node : Node) : ControlPoint :=
  { x := roundDouble (node.x + roundDouble (node.width / 2))
    thickness := roundDouble (config.minLineThickness +
      roundDouble (node.cumulativeProbability *
        roundDouble (config.maxLineThickness - config.minLineThickness))) }

/-- The control points (lines 423-431) in doubles. -/
def controlPointsDouble (pathNodes : List Node) : List ControlPoint :=
  pathNodes.map controlPointOfDouble

/-- The thickness interpolated at position `x` (lines 448-473) in doubles; the
comparisons and the bracket search are exact on doubles. -/
def sampleThicknessDouble (controlPoints : List ControlPoint) (x : ℚ) : ℚ :=
  if x < (controlPoints.getD 0 default).x then
    (controlPoints.getD 0 default).thickness
  else if x > (controlPoints.getD (controlPoints.length - 1) default).x then
    (controlPoints.getD (controlPoints.length - 1) default).thickness
  else
    let idx := findBracket x controlPoints 0
    let p1 := controlPoints.getD idx default
    let p2 := controlPoints.getD (idx + 1) default
    let localT := roundDouble (roundDouble (x - p1.x) / roundDouble (p2.x - p1.x))
    let smoothT := roundDouble (roundDouble (localT * localT) *
      roundDouble (3 - roundDouble (2 * localT)))
    roundDouble (p1.thickness +
      roundDouble (roundDouble (p2.thickness - p1.thickness) * smoothT))

/-- The position `x` of sample `i` (lines 444-445) in doubles. -/
def sampleXDouble (startX endX : ℚ) (i : Nat) : ℚ :=
  roundDouble (startX +
    roundDouble (roundDouble (endX - startX) * roundDouble ((i : ℚ) / (numSamples : ℚ))))

/-- The sampling loop `for (i = 0; i <= numSamples; i++)` (lines 443-479) in
doubles. -/
def samplesDouble (controlPoints : List ControlPoint) (startX endX : ℚ) : List Sample :=
  (List.range (numSamples + 1)).map (fun (i : Nat) =>
    { x := sampleXDouble startX endX i
      thickness := sampleThicknessDouble controlPoints (sampleXDouble startX endX i) })

/-! ## Closed forms used in the proofs -/

/-- Product of the probabilities of the first `n` tokens of a sequence. -/
def cumProd (tokens : List Token) (n : Nat) : ℚ :=
  ((tokens.take n).map (fun t => t.probability)).prod

/-- The nodes `buildAlternatives` pushes, with the cumulative probability of
the preceding main path written as `cumProd tokens index`. -/
def altNodes (measure : String → ℚ → ℚ) (st : State) (tokens : List Token)
    (index : Nat) (currentX : ℚ) (mainPos : Nat) : List AltToken → Nat → List Node
  | [], _ => []
  | alt :: rest, altIndex =>
    { text := alt.text
      x := currentX
      y := config.startY
      width := measure alt.text config.altFontSize
      probability := alt.probability
      cumulativeProbability := cumProd tokens index * alt.probability
      isMainPath := false
      isActiveBranch :=
        st.activeBranches.any (fun b => b.branchId == toString index ++ "-" ++ toString altIndex)
      isBranchContinuation := false
      tokenIndex := index
      branchIndex := altIndex + 1
      branchId := some (toString index ++ "-" ++ toString altIndex)
      parentNode := some mainPos
      parentBranchId := none } ::
    altNodes measure st tokens index currentX mainPos rest (altIndex + 1)

/-- The nodes `buildMainPath` pushes for the tokens `rest`, the first of which
has index `index`, is placed at `currentX` and lands at tree position `len`. -/
def baseNodes (measure : String → ℚ → ℚ) (st : State) (tokens : List Token) :
    List Token → Nat → ℚ → Nat → List Node
  | [], _, _, _ => []
  | token :: rest, index, currentX, len =>
    ({ text := token.text
       x := currentX
       y := config.startY
       width := measure token.text config.fontSize
       probability := token.probability
       cumulativeProbability := cumProd tokens (index + 1)
       isMainPath := true
       isActiveBranch := false
       isBranchContinuation := false
       tokenIndex := index
       branchIndex := 0
       branchId := none
       parentNode := none
       parentBranchId := none } ::
      altNodes measure st tokens index currentX len token.alternatives 0) ++
    baseNodes measure st tokens rest (index + 1)
      (currentX + measure token.text config.fontSize + config.wordSpacing)
      (len + 1 + token.alternatives.length)

/-- The nodes `addBranchContinuationLoop` pushes. -/
def continuationNodes (measure : String → ℚ → ℚ) (startNode : Node)
    (continuationTokens : List Token) (branchId : String) : List Token → Nat → ℚ → List Node
  | [], _, _ => []
  | token :: rest, index, currentX =>
    { text := token.text
      x := currentX
      y := startNode.y
      width := measure token.text config.fontSize
      probability := token.probability
      cumulativeProbability :=
        startNode.cumulativeProbability * cumProd continuationTokens (index + 1)
      isMainPath := false
      isActiveBranch := true
      isBranchContinuation := true
      tokenIndex := startNode.tokenIndex + index + 1
      branchIndex := startNode.branchIndex
      branchId := some branchId
      parentNode := none
      parentBranchId := some branchId } ::
    continuationNodes measure startNode continuationTokens branchId rest (index + 1)
      (currentX + measure token.text config.fontSize + config.wordSpacing)

/-- The continuation chain one active branch contributes to the tree `tree`:
empty unless a non-empty continuation is cached and an anchor is found. -/
def branchChain (measure : String → ℚ → ℚ) (st : State) (branch : ActiveBranch)
    (tree : List Node) : List Node :=
  match st.branchContinuations.lookup branch.branchId with
  | some continuation =>
    match tree.find? (fun n => n.branchId == some branch.branchId) with
    | some startNode =>
      continuationNodes measure startNode continuation branch.branchId continuation 0
        (startNode.x + startNode.width + config.wordSpacing)
    | none => []
  | none => []

/-- The tree after the active branches `branches` were processed in order. -/
def withBranches (measure : String → ℚ → ℚ) (st : State) :
    List ActiveBranch → List Node → List Node
  | [], tree => tree
  | branch :: rest, tree =>
    withBranches measure st rest (tree ++ branchChain measure st branch tree)

/-- What relaxation may change between a node and its image: nothing but `y`,
and not even that for a main-path node. -/
def RelaxFrame (a b : Node) : Prop :=
  b = { a with y := b.y } ∧ (a.isMainPath = true → b = a)

/-- Every member of every group satisfies `P`. -/
def AllMembers (P : Nat → Prop) (groups : List (Int × List Nat)) : Prop :=
  ∀ g ∈ groups, ∀ p ∈ g.2, P p

/-! ## Projections and concrete inputs used in the statements -/

/-- What is read off a main-path node: its token index and cumulative
probability. -/
def mainView (n : Node) : Option (Int × ℚ) :=
  if n.isMainPath then some (n.tokenIndex, n.cumulativeProbability) else none

/-- What is read off an alternative node (neither main path nor branch
continuation): token index, branch index, text, probability and cumulative
probability. -/
def altView (n : Node) : Option (Int × Nat × String × ℚ × ℚ) :=
  if !n.isMainPath && !n.isBranchContinuation then
    some (n.tokenIndex, n.branchIndex, n.text, n.probability, n.cumulativeProbability)
  else none

/-- The view `altView` is expected to give for alternative `a` of token `i`. -/
def altExpected (tokens : List Token) (i : Nat) (p : Nat × AltToken) :
    Int × Nat × String × ℚ × ℚ :=
  ((i : Int), p.1 + 1, p.2.text, p.2.probability,
    ((tokens.take i).map (fun t => t.probability)).prod * p.2.probability)

/-- Three tokens: the one at index 2 is preceded by a cumulative product of
`0.9` and has alternatives of probability `0.12` and `0.08`. -/
def exampleTokens : List Token :=
  [ { text := "once", probability := 1, alternatives := [] },
    { text := "was", probability := 0.9, alternatives := [] },
    { text := "a", probability := 0.75,
      alternatives := [ { text := "an", probability := 0.12 },
                        { text := "one", probability := 0.08 } ] } ]

/-- A text measurement used in the concrete inputs: half the font size per
character. -/
def exampleMeasure (text : String) (fontSize : ℚ) : ℚ :=
  (text.length : ℚ) * fontSize / 2

/-- Two tokens with one alternative each. -/
def branchTokens : List Token :=
  [ { text := "a", probability := 1, alternatives := [ { text := "b", probability := 1 / 2 } ] },
    { text := "c", probability := 1, alternatives := [ { text := "d", probability := 1 / 2 } ] } ]

/-- The entry of `state.activeBranches` for alternative 0 of token 0. -/
def branchEntry : ActiveBranch :=
  { branchId := "0-0", tokenIndex := 0, text := "b" }

/-- A session state in which alternative `"0-0"` of `branchTokens` is active
with a cached continuation of one token. -/
def branchState : State :=
  { baseTokens := branchTokens
    activeBranches := [branchEntry]
    branchContinuations := [("0-0", [ { text := "e", probability := 1 / 2, alternatives := [] } ])] }

/-- The alternative node `"0-0"` as built for `branchTokens`. -/
def branchAnchor : Node :=
  { text := "b", x := 50, y := 400, width := 7, probability := 1 / 2,
    cumulativeProbability := 1 / 2, isMainPath := false, isActiveBranch := true,
    isBranchContinuation := false, tokenIndex := 0, branchIndex := 1, branchId := some "0-0",
    parentNode := some 0, parentBranchId := none }

/-- A node with the given position, width and cumulative probability, as a
main-path node on the baseline. -/
def pathNode (x width cumulativeProbability : ℚ) : Node :=
  { text := "w", x := x, y := config.startY, width := width, probability := 1,
    cumulativeProbability := cumulativeProbability, isMainPath := true,
    isActiveBranch := false, isBranchContinuation := false, tokenIndex := 0, branchIndex := 0,
    branchId := none, parentNode := none, parentBranchId := none }

/-- A path of two nodes of equal cumulative probability `1`, the second to the
right of the first. -/
def flatPath : List Node := [pathNode 50 10 1, pathNode 75 10 1]

/-- The `x` of sample `i` between `startX` and `endX`. -/
def sampleX (startX endX : ℚ) (i : Nat) : ℚ :=
  startX + (endX - startX) * ((i : ℚ) / (numSamples : ℚ))

/-- The `startX` of `drawContinuousMainPath`: one word spacing before the
first node. -/
def pathStartX (pathNodes : List Node) : ℚ :=
  (pathNodes.getD 0 default).x - config.wordSpacing

/-- The `endX` of `drawContinuousMainPath`: one word spacing after the right
edge of the last node. -/
def pathEndX (pathNodes : List Node) : ℚ :=
  (pathNodes.getD (pathNodes.length - 1) default).x +
    (pathNodes.getD (pathNodes.length - 1) default).width + config.wordSpacing

/-- The thickness `drawContinuousMainPath` samples at sample `i` of a path. -/
def pathThickness (pathNodes : List Node) (i : Nat) : ℚ :=
  sampleThickness (controlPoints pathNodes)
    (sampleX (pathStartX pathNodes) (pathEndX pathNodes) i)

/-- The top point of sample `i` of a path. -/
def topPoint (pathNodes : List Node) (i : Nat) : Point :=
  { x := sampleX (pathStartX pathNodes) (pathEndX pathNodes) i
    y := (pathNodes.getD 0 default).y - pathThickness pathNodes i / 2 }

/-- The bottom point of sample `i` of a path. -/
def bottomPoint (pathNodes : List Node) (i : Nat) : Point :=
  { x := sampleX (pathStartX pathNodes) (pathEndX pathNodes) i
    y := (pathNodes.getD 0 default).y + pathThickness pathNodes i / 2 }

/-! ## Definitions for branch ids, positions and the initial layout -/

/-- The number a list of decimal digit characters stands for. -/
def decodeDecimal (digits : List Char) : Nat :=
  digits.foldl (fun acc c => acc * 10 + (c.toNat - 48)) 0

/-- The branch id string of alternative `altIndex` of token `index`, as
`buildAlternatives` writes it. -/
def branchIdOf (index altIndex : Nat) : String :=
  toString index ++ "-" ++ toString altIndex

/-- The `x` of the main-path node of token `i`: `config.startX` plus, for every
earlier token, its measured width and one word spacing. -/
def mainX (measure : String → ℚ → ℚ) (tokens : List Token) (i : Nat) : ℚ :=
  config.startX +
    ((tokens.take i).map (fun t => measure t.text config.fontSize + config.wordSpacing)).sum

/-- A node that is neither on the main path nor a branch continuation: an
alternative node. -/
def isAlternative (n : Node) : Bool :=
  !n.isMainPath && !n.isBranchContinuation

/-- An entry of `state.activeBranches` whose branch id names no alternative of
`branchTokens`. -/
def strayEntry : ActiveBranch :=
  { branchId := "7-7", tokenIndex := 7, text := "z" }

/-- A session state whose only active branch is `strayEntry`, with a cached
continuation. -/
def strayState : State :=
  { baseTokens := branchTokens
    activeBranches := [strayEntry]
    branchContinuations := [("7-7", [ { text := "e", probability := 1 / 2, alternatives := [] } ])] }

/-- The entries of a field when it holds an array, no entries otherwise. -/
def arrayItems {α : Type} : ArrayField α → List α
  | ArrayField.array items => items
  | _ => []

/-- The alternatives the response offers for one entry: the objects among its
`top_logprobs` whose token differs from the chosen token and whose probability
`exp logprob` reaches the threshold, as `{ text, probability }`. -/
def offeredAlternatives (exp : ℚ → ℚ) (minAlternativeProbability : ℚ)
    (tokenData : LogprobEntry) : List AltToken :=
  ((arrayItems tokenData.top_logprobs).reduceOption.filter
      (fun altData => decide (altData.token ≠ tokenData.token) &&
        decide (exp altData.logprob ≥ minAlternativeProbability))).map
    (fun altData => { text := altData.token, probability := exp altData.logprob })

/-- No element of the `logprobs` array is `null`, and no element of a
`top_logprobs` array of its entries. -/
def NullFree (entries : List (Option LogprobEntry)) : Prop :=
  ∀ tokenData ∈ entries, ∃ entry, tokenData = some entry ∧
    none ∉ arrayItems entry.top_logprobs

/-- A stand-in for `Math.exp` in concrete inputs. -/
def exampleExp (x : ℚ) : ℚ := 1 + x

/-- A response with one entry: the chosen token `"a"`, offered again among
its `top_logprobs` together with `"b"` and `"c"`. -/
def exampleResponse : OllamaResponse :=
  { logprobs := ArrayField.array
      [ some { token := "a", logprob := 0,
               top_logprobs := ArrayField.array
                 [ some { token := "a", logprob := 0 },
                   some { token := "b", logprob := -9 / 10 },
                   some { token := "c", logprob := -1 / 2 } ] } ] }

/-- The body `{"logprobs": [null]}`: its `logprobs` is an array, with `null`
as its only element. -/
def nullEntryResponse : OllamaResponse :=
  { logprobs := ArrayField.array [none] }

/-- The `y` the initialisation of `relaxAlternativePositions` gives to member
`idx` of a group (lines 260-262). -/
def initialY (idx : Nat) : ℚ :=
  config.startY + (if idx % 2 = 0 then -1 else 1) * ((idx / 2 + 1 : Nat) : ℚ) *
    config.verticalSpacing

/-- A node that belongs to the group of token index `t`: not on the main path,
with `tokenIndex = t`. -/
def inGroup (t : Int) (n : Node) : Bool :=
  !n.isMainPath && decide (n.tokenIndex = t)

/-- The positions `pos + j` of the nodes `l[j]` that belong to the group of
token index `t`, in increasing order. -/
def membersFrom (t : Int) : List Node → Nat → List Nat
  | [], _ => []
  | n :: rest, pos =>
    if inGroup t n then pos :: membersFrom t rest (pos + 1) else membersFrom t rest (pos + 1)

/-- The rank of position `p` within the group of token index `t`: the number
of nodes of that group before position `p` in the tree. -/
def groupIndex (tree : List Node) (p : Nat) (t : Int) : Nat :=
  ((tree.take p).filter (inGroup t)).length

/-- The members a group has after `members` are pushed to it: `prior` when
nothing is pushed. -/
def pushedMembers (prior : Option (List Nat)) (members : List Nat) : Option (List Nat) :=
  if members = [] then prior else some (prior.getD [] ++ members)

/-! ## Definitions for the session invariant and the drawn paths -/

/-- The invariant of the session state: the active branch ids are pairwise
distinct, and the keys of the continuation cache are exactly these ids, in the
order of activation. -/
def SessionInvariant (st : State) : Prop :=
  (st.activeBranches.map (fun b => b.branchId)).Nodup ∧
  st.branchContinuations.map Prod.fst = st.activeBranches.map (fun b => b.branchId)

/-- A clickable alternative node of the mock data: alternative 0 of token 0. -/
def mockAlternative : Node :=
  { text := "a", x := 50, y := 400, width := 7, probability := 0.15,
    cumulativeProbability := 0.15, isMainPath := false, isActiveBranch := false,
    isBranchContinuation := false, tokenIndex := 0, branchIndex := 1, branchId := some "0-0",
    parentNode := some 0, parentBranchId := none }

/-- The tree of one main-path node and one alternative node whose `y` on entry
is `y`. -/
def loneTree (y : ℚ) : List Node :=
  [ pathNode 50 10 1,
    { text := "b", x := 50, y := y, width := 7, probability := 1 / 2,
      cumulativeProbability := 1 / 2, isMainPath := false, isActiveBranch := false,
      isBranchContinuation := false, tokenIndex := 0, branchIndex := 1,
      branchId := some "0-0", parentNode := some 0, parentBranchId := none } ]

/-- The distance from the baseline of a lone alternative after `k` relaxation
iterations: `44 + 36 * (9 / 10) ^ k`. -/
def loneDistance (k : Nat) : ℚ :=
  44 + 36 * (9 / 10) ^ k

/-- The smoothstep `t * t * (3 - 2 * t)` of line 471. -/
def smoothstep (t : ℚ) : ℚ :=
  t * t * (3 - 2 * t)

/-- A path of three nodes from left to right whose cumulative probability
halves at each node. -/
def taperedPath : List Node := [pathNode 50 10 1, pathNode 75 10 (1/2), pathNode 100 10 (1/4)]

/-! ## Definitions for the drawn branch paths -/


/-- One call `drawContinuousMainPath(svg, fullPath, color, 0.85)` made by
`renderActiveBranches`, with the key of the group it was made for. -/
structure BranchCall where
  branchId : Option String
  fullPath : List Node
  color : String

/-- The calls of `drawContinuousMainPath` the loop of `drawBranchGroups` makes,
in order. -/
def drawBranchCalls (treeData : List Node) :
    List (Option String × List Node) → Nat → List BranchCall
  | [], _ => []
  | (branchId, nodes) :: rest, colorIndex =>
    if nodes.length > 0 then
      match treeData.find? (fun n => n.branchId == branchId && !n.isBranchContinuation) with
      | some branchStart =>
        { branchId := branchId, fullPath := branchStart :: sortByTokenIndex nodes,
          color := branchColors.getD (colorIndex % branchColors.length) "" } ::
          drawBranchCalls treeData rest (colorIndex + 1)
      | none => drawBranchCalls treeData rest colorIndex
    else drawBranchCalls treeData rest colorIndex

/-- The calls of `drawContinuousMainPath` that `renderActiveBranches` makes for
a tree, in order. -/
def branchCalls (treeData : List Node) : List BranchCall :=
  drawBranchCalls treeData (groupBranchNodes treeData []) 0

/-- The test of the grouping loop for a node to enter the group of key `k`. -/
def inBranchGroup (k : Option String) (n : Node) : Bool :=
  n.isActiveBranch && n.isBranchContinuation && n.branchId == k

/-- The test `n.branchId === branchId && !n.isBranchContinuation` by which the
renderer finds the start node of a branch. -/
def isBranchStart (k : Option String) (n : Node) : Bool :=
  n.branchId == k && !n.isBranchContinuation

/-- What `pushToBranchGroup` makes of a group: `old` extended by the nodes `new`. -/
def pushedNodes (old : Option (List Node)) (new : List Node) : Option (List Node) :=
  if new = [] then old else some (old.getD [] ++ new)

/-- No text measurement the builder makes is negative: it measures at the font
size of the main path and at that of the alternatives. -/
def NonnegWidths (measure : String → ℚ → ℚ) : Prop :=
  ∀ text, 0 ≤ measure text config.fontSize ∧ 0 ≤ measure text config.altFontSize

/-- How an earlier node `a` and a later node `b` of one path lie to each
other: `b` has the larger token index, the cumulative probabilities are
`scale` times the product of a shorter and of a longer prefix of `tokens`, and,
when no measured width is negative, `b` starts at least one word spacing after
the right edge of `a`. -/
def PathOrder (measure : String → ℚ → ℚ) (scale : ℚ) (tokens : List Token) (a b : Node) : Prop :=
  a.tokenIndex < b.tokenIndex ∧
  (∃ i j, i ≤ j ∧ a.cumulativeProbability = scale * cumProd tokens i ∧
    b.cumulativeProbability = scale * cumProd tokens j) ∧
  (NonnegWidths measure →
    0 ≤ a.width ∧ 0 ≤ b.width ∧ a.x + a.width + config.wordSpacing ≤ b.x)

/-! ## Concrete inputs for the rounding of doubles -/

/-- The double next below `1 / 2`, that is `1 / 2 - 2 ^ (-54)`, printed
`0.49999999999999994`. -/
def belowHalf : ℚ := 1 / 2 - 1 / 2 ^ 54

/-- Two tokens, the second of probability `0.33` (the double nearest to it). -/
def roundingTokens : List Token :=
  [ { text := "ab", probability := 1, alternatives := [] },
    { text := "c", probability := roundDouble (33 / 100), alternatives := [] } ]

/-- A text measurement that gives the width `30.125` to `"ab"` and `15.125`
to every other text. -/
def roundingMeasure (text : String) (_fontSize : ℚ) : ℚ :=
  if text = "ab" then 30.125 else 15.125

/-- The first main-path node built for `roundingTokens` with
`roundingMeasure`. -/
def roundingFirst : Node :=
  { text := "ab", x := 50, y := 400, width := 30.125, probability := 1,
    cumulativeProbability := 1, isMainPath := true, isActiveBranch := false,
    isBranchContinuation := false, tokenIndex := 0, branchIndex := 0, branchId := none,
    parentNode := none, parentBranchId := none }

/-- The second main-path node built for `roundingTokens` with
`roundingMeasure`. -/
def roundingSecond : Node :=
  { text := "c", x := 95.125, y := 400, width := 15.125,
    probability := roundDouble (33 / 100), cumulativeProbability := roundDouble (33 / 100),
    isMainPath := true, isActiveBranch := false, isBranchContinuation := false,
    tokenIndex := 1, branchIndex := 0, branchId := none, parentNode := none,
    parentBranchId := none }

/-- The token sequence of 200 tokens of probability `0.02` (the double nearest
to it). -/
def underflowTokens : List Token :=
  List.replicate 200 { text := "a", probability := roundDouble (2 / 100), alternatives := [] }

/-- The `startX` of `drawContinuousMainPath` (line 436) in doubles. -/
def pathStartXDouble (pathNodes : List Node) : ℚ :=
  roundDouble ((pathNodes.getD 0 default).x - config.wordSpacing)

/-- The `endX` of `drawContinuousMainPath` (line 437) in doubles. -/
def pathEndXDouble (pathNodes : List Node) : ℚ :=
  roundDouble (roundDouble ((pathNodes.getD (pathNodes.length - 1) default).x +
    (pathNodes.getD (pathNodes.length - 1) default).width) + config.wordSpacing)

/-- The first main-path node built for `branchTokens` with `exampleMeasure`. -/
def certainFirst : Node :=
  { text := "a", x := 50, y := 400, width := 9, probability := 1,
    cumulativeProbability := 1, isMainPath := true, isActiveBranch := false,
    isBranchContinuation := false, tokenIndex := 0, branchIndex := 0, branchId := none,
    parentNode := none, parentBranchId := none }

/-- The second main-path node built for `branchTokens` with `exampleMeasure`. -/
def certainSecond : Node :=
  { text := "c", x := 74, y := 400, width := 9, probability := 1,
    cumulativeProbability := 1, isMainPath := true, isActiveBranch := false,
    isBranchContinuation := false, tokenIndex := 1, branchIndex := 0, branchId := none,
    parentNode := none, parentBranchId := none }

/-! ## Agreement of two trees on the fields the relaxation reads -/

/-- Two nodes agree on what `relaxAlternativePositions` reads of its input:
the main-path flag, the token index, `x`, and, for a main-path node, `y`. -/
def SameLayoutInput (a b : Node) : Prop :=
  a.isMainPath = b.isMainPath ∧ a.tokenIndex = b.tokenIndex ∧ a.x = b.x ∧
    (a.isMainPath = true → a.y = b.y)

/-- Two nodes agree on the main-path flag, the token index, `x` and `y`. -/
def SameLayout (a b : Node) : Prop :=
  a.isMainPath = b.isMainPath ∧ a.tokenIndex = b.tokenIndex ∧ a.x = b.x ∧ a.y = b.y

theorem cumProd_zero (tokens : List Token) : cumProd tokens 0 = 1 := by
  simp [cumProd]

theorem cumProd_succ (tokens : List Token) (n : Nat) (t : Token) (h : tokens[n]? = some t) :
    cumProd tokens (n + 1) = cumProd tokens n * t.probability := by
  have hn : n < tokens.length := by
    by_contra hc
    rw [List.getElem?_eq_none (by omega)] at h
    cases h
  have ht : tokens[n] = t := by
    rw [List.getElem?_eq_getElem hn] at h
    exact Option.some.inj h
  unfold cumProd
  rw [List.take_succ, List.getElem?_eq_getElem hn]
  simp [ht]

theorem foldlM_range_cumProd (tokens : List Token) (n : Nat) (hn : n ≤ tokens.length) :
    (List.range n).foldlM
      (fun cumProb i => (tokens[i]?).map (fun t => cumProb * t.probability)) (1 : ℚ)
      = some (cumProd tokens n) := by
  induction n with
  | zero => simp [cumProd]
  | succ k ih =>
    have hk : k < tokens.length := hn
    rw [List.range_succ, List.foldlM_append, ih (Nat.le_of_lt hk)]
    simp [List.getElem?_eq_getElem hk, cumProd_succ tokens k tokens[k] (List.getElem?_eq_getElem hk)]

theorem calculateCumulativeProbability_eq (tokens : List Token) (index : Nat)
    (h : index < tokens.length) :
    calculateCumulativeProbability tokens index = some (cumProd tokens (index + 1)) :=
  foldlM_range_cumProd tokens (index + 1) h

theorem prevCumProd_eq (tokens : List Token) (index : Nat) (h : index ≤ tokens.length) :
    (if index > 0 then calculateCumulativeProbability tokens (index - 1) else some 1)
      = some (cumProd tokens index) := by
  by_cases h0 : index > 0
  · rw [if_pos h0, calculateCumulativeProbability_eq tokens (index - 1) (by omega)]
    have : index - 1 + 1 = index := by omega
    rw [this]
  · have : index = 0 := by omega
    subst this
    simp [cumProd_zero]

theorem buildAlternatives_eq (measure : String → ℚ → ℚ) (st : State) (tokens : List Token)
    (index : Nat) (currentX : ℚ) (mainPos : Nat) (h : index ≤ tokens.length)
    (alts : List AltToken) (altIndex : Nat) (tree : List Node) :
    buildAlternatives measure st tokens index currentX mainPos alts altIndex tree
      = some (tree ++ altNodes measure st tokens index currentX mainPos alts altIndex) := by
  induction alts generalizing altIndex tree with
  | nil => simp [buildAlternatives, altNodes]
  | cons alt rest ih =>
    unfold buildAlternatives
    rw [prevCumProd_eq tokens index h]
    simp only [Option.bind_eq_bind, Option.some_bind]
    rw [ih]
    simp [altNodes]

theorem altNodes_length (measure : String → ℚ → ℚ) (st : State) (tokens : List Token)
    (index : Nat) (currentX : ℚ) (mainPos : Nat) (alts : List AltToken) (altIndex : Nat) :
    (altNodes measure st tokens index currentX mainPos alts altIndex).length = alts.length := by
  induction alts generalizing altIndex with
  | nil => rfl
  | cons alt rest ih => simp [altNodes, ih]

theorem buildMainPath_eq (measure : String → ℚ → ℚ) (st : State) (tokens : List Token)
    (rest : List Token) (index : Nat) (currentX : ℚ) (tree : List Node)
    (h : index + rest.length ≤ tokens.length) :
    buildMainPath measure st tokens rest index currentX tree
      = some (tree ++ baseNodes measure st tokens rest index currentX tree.length) := by
  induction rest generalizing index currentX tree with
  | nil => simp [buildMainPath, baseNodes]
  | cons token rest ih =>
    simp only [List.length_cons] at h
    unfold buildMainPath
    rw [calculateCumulativeProbability_eq tokens index (by omega)]
    simp only [Option.bind_eq_bind, Option.some_bind]
    rw [buildAlternatives_eq measure st tokens index currentX tree.length (by omega)]
    simp only [Option.some_bind]
    rw [ih (index + 1) _ _ (by omega)]
    simp [baseNodes, altNodes_length, Nat.add_assoc, Nat.add_comm 1]

theorem addBranchContinuationLoop_eq (measure : String → ℚ → ℚ) (startNode : Node)
    (continuationTokens : List Token) (branchId : String) (rest : List Token) (index : Nat)
    (currentX : ℚ) (tree : List Node) (h : index + rest.length ≤ continuationTokens.length) :
    addBranchContinuationLoop measure startNode continuationTokens branchId rest index
        currentX tree
      = some (tree ++ continuationNodes measure startNode continuationTokens branchId rest
          index currentX) := by
  induction rest generalizing index currentX tree with
  | nil => simp [addBranchContinuationLoop, continuationNodes]
  | cons token rest ih =>
    simp only [List.length_cons] at h
    unfold addBranchContinuationLoop
    rw [calculateCumulativeProbability_eq continuationTokens index (by omega)]
    simp only [Option.bind_eq_bind, Option.some_bind]
    rw [ih (index + 1) _ _ (by omega)]
    simp [continuationNodes]

theorem addActiveBranches_eq (measure : String → ℚ → ℚ) (st : State)
    (branches : List ActiveBranch) (tree : List Node) :
    addActiveBranches measure st branches tree = some (withBranches measure st branches tree) := by
  induction branches generalizing tree with
  | nil => rfl
  | cons branch rest ih =>
    unfold addActiveBranches withBranches branchChain
    cases hc : st.branchContinuations.lookup branch.branchId with
    | none => simp [ih]
    | some continuation =>
      by_cases hlen : continuation.length > 0
      · cases hf : tree.find? (fun n => n.branchId == some branch.branchId) with
        | none => simp [hlen, ih]
        | some startNode =>
          simp only [hlen, if_true, addBranchContinuation]
          rw [addBranchContinuationLoop_eq measure startNode continuation branch.branchId
            continuation 0 _ tree (by omega)]
          simp [ih]
      · have hnil : continuation = [] := by
          cases continuation with
          | nil => rfl
          | cons a b => simp at hlen
        subst hnil
        cases hf : tree.find? (fun n => n.branchId == some branch.branchId) <;>
          simp [ih, continuationNodes]

theorem buildTreeStructure_eq (measure : String → ℚ → ℚ) (st : State) (tokens : List Token) :
    buildTreeStructure measure st tokens
      = some (relaxAlternativePositions (withBranches measure st st.activeBranches
          (baseNodes measure st tokens tokens 0 config.startX 0))) := by
  unfold buildTreeStructure
  rw [buildMainPath_eq measure st tokens tokens 0 config.startX [] (by simp)]
  simp [addActiveBranches_eq]


/-! ## Relaxation touches nothing but `y` of non-main-path nodes -/

theorem RelaxFrame.refl (a : Node) : RelaxFrame a a := ⟨rfl, fun _ => rfl⟩

theorem RelaxFrame.setY {a b : Node} (h : RelaxFrame a b) (hm : a.isMainPath = false) (y : ℚ) :
    RelaxFrame a { b with y := y } := by
  obtain ⟨h1, _⟩ := h
  refine ⟨?_, fun ht => ?_⟩
  · rw [h1]
  · rw [hm] at ht
    cases ht

theorem forall₂_relaxFrame_refl (tree : List Node) : List.Forall₂ RelaxFrame tree tree := by
  induction tree with
  | nil => exact List.Forall₂.nil
  | cons a rest ih => exact List.Forall₂.cons (RelaxFrame.refl a) ih

theorem setY_frame (t0 t : List Node) (h : List.Forall₂ RelaxFrame t0 t) (pos : Nat) (y : ℚ)
    (hpos : ∀ n, t0[pos]? = some n → n.isMainPath = false) :
    List.Forall₂ RelaxFrame t0 (setY t pos y) := by
  induction h generalizing pos with
  | nil => exact List.Forall₂.nil
  | @cons a b l₁ l₂ hab _ ih =>
    cases pos with
    | zero =>
      have hm : a.isMainPath = false := hpos a (by simp)
      exact List.Forall₂.cons (hab.setY hm y) (by assumption)
    | succ p =>
      exact List.Forall₂.cons hab (ih p (fun n hn => hpos n (by simpa using hn)))


theorem pushToGroup_allMembers (P : Nat → Prop) (key : Int) (pos : Nat) (hpos : P pos)
    (groups : List (Int × List Nat)) (h : AllMembers P groups) :
    AllMembers P (pushToGroup key pos groups) := by
  induction groups with
  | nil =>
    intro g hg p hp
    simp [pushToGroup] at hg
    subst hg
    simp at hp
    subst hp
    exact hpos
  | cons g0 rest ih =>
    obtain ⟨k, members⟩ := g0
    have hrest : AllMembers P rest := fun g hg => h g (List.mem_cons_of_mem _ hg)
    have h0 : ∀ p ∈ members, P p := h (k, members) (List.mem_cons_self _ _)
    unfold pushToGroup
    by_cases hk : k = key
    · rw [if_pos hk]
      intro g hg p hp
      rcases List.mem_cons.mp hg with rfl | hg
      · rcases List.mem_append.mp hp with hp | hp
        · exact h0 p hp
        · simp at hp
          subst hp
          exact hpos
      · exact hrest g hg p hp
    · rw [if_neg hk]
      intro g hg p hp
      rcases List.mem_cons.mp hg with rfl | hg
      · exact h0 p hp
      · exact ih hrest g hg p hp

theorem groupAlternatives_allMembers (P : Nat → Prop) (suffix : List Node) (pos : Nat)
    (groups : List (Int × List Nat)) (h : AllMembers P groups)
    (hs : ∀ j n, suffix[j]? = some n → n.isMainPath = false → P (pos + j)) :
    AllMembers P (groupAlternatives suffix pos groups) := by
  induction suffix generalizing pos groups with
  | nil => exact h
  | cons node rest ih =>
    unfold groupAlternatives
    apply ih
    · cases hm : node.isMainPath with
      | true => simpa using h
      | false =>
        simp only [Bool.not_false, if_true]
        exact pushToGroup_allMembers P _ pos (by simpa using hs 0 node (by simp) hm) groups h
    · intro j n hj hn
      have := hs (j + 1) n (by simpa using hj) hn
      rw [show pos + 1 + j = pos + (j + 1) by omega]
      exact this

theorem alternativesByToken_nonMain (tree : List Node) :
    AllMembers (fun p => ∀ n, tree[p]? = some n → n.isMainPath = false)
      (alternativesByToken tree) := by
  apply groupAlternatives_allMembers
  · intro g hg
    cases hg
  · intro j n hj hn m hm
    simp only [Nat.zero_add] at hm
    rw [hj] at hm
    cases hm
    exact hn

theorem initGroup_frame (t0 : List Node) (alts : List Nat)
    (halts : ∀ p ∈ alts, ∀ n, t0[p]? = some n → n.isMainPath = false) (idx : Nat)
    (t : List Node) (h : List.Forall₂ RelaxFrame t0 t) :
    List.Forall₂ RelaxFrame t0 (initGroup alts idx t) := by
  induction alts generalizing idx t with
  | nil => exact h
  | cons pos rest ih =>
    unfold initGroup
    exact ih (fun p hp => halts p (List.mem_cons_of_mem _ hp)) _ _
      (setY_frame t0 t h pos _ (halts pos (List.mem_cons_self _ _)))

theorem initPositions_frame (t0 : List Node) (groups : List (Int × List Nat))
    (hg : AllMembers (fun p => ∀ n, t0[p]? = some n → n.isMainPath = false) groups)
    (t : List Node) (h : List.Forall₂ RelaxFrame t0 t) :
    List.Forall₂ RelaxFrame t0 (initPositions groups t) := by
  induction groups generalizing t with
  | nil => exact h
  | cons g rest ih =>
    obtain ⟨k, alts⟩ := g
    unfold initPositions
    exact ih (fun g' hg' => hg g' (List.mem_cons_of_mem _ hg')) _
      (initGroup_frame t0 alts (hg (k, alts) (List.mem_cons_self _ _)) 0 t h)

theorem applyForces_frame (whole : List Node) (groups : List (Int × List Nat))
    (t0 t : List Node) (h : List.Forall₂ RelaxFrame t0 t) (pos : Nat) :
    List.Forall₂ RelaxFrame t0 (applyForces whole groups t pos) := by
  induction h generalizing pos with
  | nil => exact List.Forall₂.nil
  | @cons a b l₁ l₂ hab _ ih =>
    unfold applyForces
    refine List.Forall₂.cons ?_ (ih (pos + 1))
    by_cases hm : b.isMainPath = true
    · have hn : (!b.isMainPath) = false := by simp [hm]
      rw [hn]
      simpa using hab
    · have hm' : b.isMainPath = false := by simpa using hm
      have hn : (!b.isMainPath) = true := by simp [hm']
      rw [if_pos hn]
      have ha : a.isMainPath = false := by
        have := hab.1
        rw [this] at hm'
        exact hm'
      exact hab.setY ha _

theorem relaxLoop_frame (groups : List (Int × List Nat)) (n : Nat) (t0 t : List Node)
    (h : List.Forall₂ RelaxFrame t0 t) :
    List.Forall₂ RelaxFrame t0 (relaxLoop groups n t) := by
  induction n generalizing t with
  | zero => exact h
  | succ k ih =>
    unfold relaxLoop
    exact ih _ (applyForces_frame t groups t0 t h 0)

theorem relaxAlternativePositions_frame (tree : List Node) :
    List.Forall₂ RelaxFrame tree (relaxAlternativePositions tree) := by
  unfold relaxAlternativePositions
  exact relaxLoop_frame _ _ _ _
    (initPositions_frame tree _ (alternativesByToken_nonMain tree) tree
      (forall₂_relaxFrame_refl tree))

theorem filterMap_of_frame (h : Node → Option α) (hh : ∀ a b, RelaxFrame a b → h a = h b)
    (t t' : List Node) (hf : List.Forall₂ RelaxFrame t t') :
    t'.filterMap h = t.filterMap h := by
  induction hf with
  | nil => rfl
  | @cons a b l₁ l₂ hab _ ih =>
    simp only [List.filterMap_cons, hh a b hab, ih]


/-! ## Control points -/

theorem config_minLineThickness : config.minLineThickness = 8 := rfl

theorem config_maxLineThickness : config.maxLineThickness = 60 := rfl

theorem config_wordSpacing : config.wordSpacing = 15 := rfl

theorem controlPointOf_thickness (node : Node) :
    (controlPointOf node).thickness = 8 + node.cumulativeProbability * 52 := by
  simp only [controlPointOf, config_minLineThickness, config_maxLineThickness]
  norm_num


/-! ## Main-path and alternative nodes of the built tree -/

theorem mainView_frame (a b : Node) (h : RelaxFrame a b) : mainView a = mainView b := by
  rw [h.1]
  rfl

theorem altView_frame (a b : Node) (h : RelaxFrame a b) : altView a = altView b := by
  rw [h.1]
  rfl

theorem continuationNodes_forall (P : Node → Prop) (measure : String → ℚ → ℚ) (startNode : Node)
    (continuationTokens : List Token) (branchId : String)
    (hP : ∀ n : Node, n.isMainPath = false → n.isBranchContinuation = true →
      n.isActiveBranch = true → n.branchId = some branchId → P n)
    (rest : List Token) (index : Nat) (currentX : ℚ) :
    ∀ n ∈ continuationNodes measure startNode continuationTokens branchId rest index currentX,
      P n := by
  induction rest generalizing index currentX with
  | nil => intro n hn; cases hn
  | cons token rest ih =>
    intro n hn
    unfold continuationNodes at hn
    rcases List.mem_cons.mp hn with rfl | hn
    · exact hP _ rfl rfl rfl rfl
    · exact ih _ _ n hn

theorem branchChain_forall (P : Node → Prop) (measure : String → ℚ → ℚ) (st : State)
    (branch : ActiveBranch) (tree : List Node)
    (hP : ∀ n : Node, n.isMainPath = false → n.isBranchContinuation = true →
      n.isActiveBranch = true → n.branchId = some branch.branchId → P n) :
    ∀ n ∈ branchChain measure st branch tree, P n := by
  unfold branchChain
  cases st.branchContinuations.lookup branch.branchId with
  | none => intro n hn; cases hn
  | some continuation =>
    cases tree.find? (fun n => n.branchId == some branch.branchId) with
    | none => intro n hn; cases hn
    | some startNode => exact continuationNodes_forall P measure startNode _ _ hP _ _ _

theorem filterMap_eq_nil_of_forall (h : Node → Option α) (l : List Node)
    (hl : ∀ n ∈ l, h n = none) : l.filterMap h = [] := by
  induction l with
  | nil => rfl
  | cons a rest ih =>
    rw [List.filterMap_cons, hl a (List.mem_cons_self _ _)]
    exact ih (fun n hn => hl n (List.mem_cons_of_mem _ hn))

theorem withBranches_filterMap (h : Node → Option α)
    (hh : ∀ n : Node, n.isMainPath = false → n.isBranchContinuation = true → h n = none)
    (measure : String → ℚ → ℚ) (st : State) (branches : List ActiveBranch) (tree : List Node) :
    (withBranches measure st branches tree).filterMap h = tree.filterMap h := by
  induction branches generalizing tree with
  | nil => rfl
  | cons branch rest ih =>
    unfold withBranches
    rw [ih, List.filterMap_append,
      filterMap_eq_nil_of_forall h _
        (branchChain_forall (fun n => h n = none) measure st branch tree
          (fun n hm hc _ _ => hh n hm hc)),
      List.append_nil]

theorem altNodes_mainView (measure : String → ℚ → ℚ) (st : State) (tokens : List Token)
    (index : Nat) (currentX : ℚ) (mainPos : Nat) (alts : List AltToken) (altIndex : Nat) :
    (altNodes measure st tokens index currentX mainPos alts altIndex).filterMap mainView = [] := by
  induction alts generalizing altIndex with
  | nil => rfl
  | cons alt rest ih =>
    unfold altNodes
    rw [List.filterMap_cons, ih]
    rfl

theorem baseNodes_mainView (measure : String → ℚ → ℚ) (st : State) (tokens : List Token)
    (rest : List Token) (index : Nat) (currentX : ℚ) (len : Nat) :
    (baseNodes measure st tokens rest index currentX len).filterMap mainView
      = (List.range' index rest.length).map (fun (i : Nat) => ((i : Int), cumProd tokens (i + 1))) := by
  induction rest generalizing index currentX len with
  | nil => rfl
  | cons token rest ih =>
    unfold baseNodes
    rw [List.filterMap_append, List.filterMap_cons, altNodes_mainView, ih]
    simp [mainView, List.range'_succ]

theorem altNodes_altView (measure : String → ℚ → ℚ) (st : State) (tokens : List Token)
    (index : Nat) (currentX : ℚ) (mainPos : Nat) (alts : List AltToken) (altIndex : Nat) :
    (altNodes measure st tokens index currentX mainPos alts altIndex).filterMap altView
      = (alts.enumFrom altIndex).map (altExpected tokens index) := by
  induction alts generalizing altIndex with
  | nil => rfl
  | cons alt rest ih =>
    unfold altNodes
    rw [List.filterMap_cons, ih]
    simp [altView, altExpected, cumProd, List.enumFrom]

theorem baseNodes_altView (measure : String → ℚ → ℚ) (st : State) (tokens : List Token)
    (rest : List Token) (index : Nat) (currentX : ℚ) (len : Nat) :
    (baseNodes measure st tokens rest index currentX len).filterMap altView
      = ((rest.enumFrom index).map
          (fun p => p.2.alternatives.enum.map (altExpected tokens p.1))).flatten := by
  induction rest generalizing index currentX len with
  | nil => rfl
  | cons token rest ih =>
    unfold baseNodes
    rw [List.filterMap_append, List.filterMap_cons, altNodes_altView, ih]
    simp [altView, List.enumFrom, List.enum]

theorem filter_map_eq_filterMap_mainView (tree : List Node) :
    (tree.filter (fun n => n.isMainPath)).map (fun n => (n.tokenIndex, n.cumulativeProbability))
      = tree.filterMap mainView := by
  induction tree with
  | nil => rfl
  | cons a rest ih =>
    by_cases h : a.isMainPath = true
    · simp [List.filter_cons, List.filterMap_cons, mainView, h, ih]
    · simp [List.filter_cons, List.filterMap_cons, mainView, h, ih]

theorem filter_map_eq_filterMap_altView (tree : List Node) :
    (tree.filter (fun n => !n.isMainPath && !n.isBranchContinuation)).map
        (fun n => (n.tokenIndex, n.branchIndex, n.text, n.probability, n.cumulativeProbability))
      = tree.filterMap altView := by
  induction tree with
  | nil => rfl
  | cons a rest ih =>
    by_cases h : (!a.isMainPath && !a.isBranchContinuation) = true
    · simp only [List.filter_cons, List.filterMap_cons, altView, h, if_true, List.map_cons, ih]
    · simp only [List.filter_cons, List.filterMap_cons, altView, h, if_false]
      simpa using ih

/-- Claim C1. For every token sequence and every active-branch state,
`buildTreeStructure` returns a tree whose main-path nodes, in tree order, are
exactly one per token: the `i`-th has `tokenIndex = i` and
`cumulativeProbability` equal to the product of the probabilities of
`tokens[0..i]`; in particular there are `tokens.length` of them. -/
theorem buildTreeStructure_main_path (measure : String → ℚ → ℚ) (st : State)
    (tokens : List Token) :
    ∃ tree, buildTreeStructure measure st tokens = some tree ∧
      (tree.filter (fun n => n.isMainPath)).length = tokens.length ∧
      (tree.filter (fun n => n.isMainPath)).map
          (fun n => (n.tokenIndex, n.cumulativeProbability))
        = (List.range tokens.length).map
            (fun (i : Nat) => ((i : Int), ((tokens.take (i + 1)).map (fun t => t.probability)).prod)) := by
  have key : ((relaxAlternativePositions (withBranches measure st st.activeBranches
      (baseNodes measure st tokens tokens 0 config.startX 0))).filter
        (fun n => n.isMainPath)).map (fun n => (n.tokenIndex, n.cumulativeProbability))
      = (List.range tokens.length).map
          (fun (i : Nat) => ((i : Int), ((tokens.take (i + 1)).map (fun t => t.probability)).prod)) := by
    rw [filter_map_eq_filterMap_mainView,
      filterMap_of_frame mainView mainView_frame _ _ (relaxAlternativePositions_frame _),
      withBranches_filterMap mainView (fun n hm _ => by simp [mainView, hm]), baseNodes_mainView,
      List.range_eq_range']
    rfl
  refine ⟨_, buildTreeStructure_eq measure st tokens, ?_, key⟩
  have := congrArg List.length key
  simpa using this

/-- Claim C2. For every token sequence and every active-branch state, the
alternative nodes of the tree `buildTreeStructure` returns (the nodes that are
neither main path nor branch continuation) are, in tree order, exactly one per
alternative `alt` of each token `i`, with `cumulativeProbability` equal to the
product of the probabilities of `tokens[0..i-1]` (the empty product `1` for
`i = 0`) times `alt.probability`. For `exampleTokens`, whose token 2 is preceded
by a product of `0.9` and has alternatives `0.12` and `0.08`, the values are
`0.108` and `0.072`. -/
theorem buildTreeStructure_alternatives :
    (∀ (measure : String → ℚ → ℚ) (st : State) (tokens : List Token),
      ∃ tree, buildTreeStructure measure st tokens = some tree ∧
        (tree.filter (fun n => !n.isMainPath && !n.isBranchContinuation)).map
            (fun n => (n.tokenIndex, n.branchIndex, n.text, n.probability,
              n.cumulativeProbability))
          = (tokens.enum.map
              (fun p => p.2.alternatives.enum.map (altExpected tokens p.1))).flatten) ∧
    (∀ (measure : String → ℚ → ℚ) (st : State),
      ∃ tree, buildTreeStructure measure st exampleTokens = some tree ∧
        (tree.filter (fun n => !n.isMainPath && !n.isBranchContinuation)).map
            (fun n => (n.tokenIndex, n.cumulativeProbability))
          = [(2, 0.108), (2, 0.072)]) := by
  have key : ∀ (measure : String → ℚ → ℚ) (st : State) (tokens : List Token),
      ((relaxAlternativePositions (withBranches measure st st.activeBranches
        (baseNodes measure st tokens tokens 0 config.startX 0))).filter
          (fun n => !n.isMainPath && !n.isBranchContinuation)).map
            (fun n => (n.tokenIndex, n.branchIndex, n.text, n.probability,
              n.cumulativeProbability))
        = (tokens.enum.map
            (fun p => p.2.alternatives.enum.map (altExpected tokens p.1))).flatten := by
    intro measure st tokens
    rw [filter_map_eq_filterMap_altView,
      filterMap_of_frame altView altView_frame _ _ (relaxAlternativePositions_frame _),
      withBranches_filterMap altView (fun n _ hc => by simp [altView, hc]), baseNodes_altView]
    rfl
  refine ⟨fun measure st tokens => ⟨_, buildTreeStructure_eq measure st tokens, key _ _ _⟩,
    fun measure st => ⟨_, buildTreeStructure_eq measure st exampleTokens, ?_⟩⟩
  have h := congrArg (List.map (fun q : Int × Nat × String × ℚ × ℚ => (q.1, q.2.2.2.2)))
    (key measure st exampleTokens)
  rw [List.map_map] at h
  rw [show (fun n : Node => (n.tokenIndex, n.cumulativeProbability))
      = (fun q : Int × Nat × String × ℚ × ℚ => (q.1, q.2.2.2.2)) ∘
        (fun n : Node => (n.tokenIndex, n.branchIndex, n.text, n.probability,
          n.cumulativeProbability)) from rfl, h]
  simp [exampleTokens, altExpected, List.enum, List.enumFrom]
  norm_num

/-! ## Branch continuations -/

theorem withBranches_append (measure : String → ℚ → ℚ) (st : State)
    (pre post : List ActiveBranch) (tree : List Node) :
    withBranches measure st (pre ++ post) tree
      = withBranches measure st post (withBranches measure st pre tree) := by
  induction pre generalizing tree with
  | nil => rfl
  | cons branch rest ih =>
    simp only [List.cons_append, withBranches]
    exact ih _

theorem withBranches_extends (measure : String → ℚ → ℚ) (st : State)
    (branches : List ActiveBranch) (tree : List Node) :
    ∃ ext, withBranches measure st branches tree = tree ++ ext := by
  induction branches generalizing tree with
  | nil => exact ⟨[], by simp [withBranches]⟩
  | cons branch rest ih =>
    obtain ⟨ext, hext⟩ := ih (tree ++ branchChain measure st branch tree)
    exact ⟨branchChain measure st branch tree ++ ext, by
      simp only [withBranches, hext, List.append_assoc]⟩

theorem find?_append_of_some {α : Type} (p : α → Bool) (l ext : List α) (a : α)
    (h : l.find? p = some a) : (l ++ ext).find? p = some a := by
  rw [List.find?_append, h]
  rfl

theorem continuationNodes_length (measure : String → ℚ → ℚ) (startNode : Node)
    (continuationTokens : List Token) (branchId : String) (rest : List Token) (index : Nat)
    (currentX : ℚ) :
    (continuationNodes measure startNode continuationTokens branchId rest index currentX).length
      = rest.length := by
  induction rest generalizing index currentX with
  | nil => rfl
  | cons token rest ih => simp [continuationNodes, ih]

theorem continuationNodes_getElem? (measure : String → ℚ → ℚ) (startNode : Node)
    (continuationTokens : List Token) (branchId : String) (rest : List Token) (index : Nat)
    (currentX : ℚ) (k : Nat) (hk : k < rest.length) :
    ∃ n, (continuationNodes measure startNode continuationTokens branchId rest index
        currentX)[k]? = some n ∧
      n.cumulativeProbability
        = startNode.cumulativeProbability * cumProd continuationTokens (index + k + 1) ∧
      n.isActiveBranch = true ∧ n.isBranchContinuation = true ∧ n.isMainPath = false ∧
      n.tokenIndex = startNode.tokenIndex + ((index + k : Nat) : Int) + 1 ∧
      n.y = startNode.y ∧
      n.branchId = some branchId := by
  induction rest generalizing index currentX k with
  | nil => simp at hk
  | cons token rest ih =>
    unfold continuationNodes
    cases k with
    | zero => exact ⟨_, List.getElem?_cons_zero, rfl, rfl, rfl, rfl, by simp, rfl, rfl⟩
    | succ j =>
      obtain ⟨n, hn, h1, h2, h3, h4, h5, h6, h7⟩ := ih (index + 1) _ j (by simpa using hk)
      refine ⟨n, by simpa using hn, ?_, h2, h3, h4, ?_, h6, h7⟩
      · rw [h1, show index + 1 + j + 1 = index + (j + 1) + 1 by omega]
      · rw [h5, show index + 1 + j = index + (j + 1) by omega]

theorem forall₂_getElem? {α β : Type} (R : α → β → Prop) (l₁ : List α) (l₂ : List β)
    (h : List.Forall₂ R l₁ l₂) (i : Nat) (a : α) (ha : l₁[i]? = some a) :
    ∃ b, l₂[i]? = some b ∧ R a b := by
  induction h generalizing i with
  | nil => simp at ha
  | @cons x y t₁ t₂ hxy _ ih =>
    cases i with
    | zero =>
      simp at ha
      subst ha
      exact ⟨y, by simp, hxy⟩
    | succ j => simpa using ih j (by simpa using ha)

/-- Claim C3. Let `b` be an entry of `state.activeBranches` whose `branchId`
is found on a node `anchor` of the main/alternative nodes and for which the
continuation `c` is cached. Processing `b` appends exactly `c.length` nodes to
the tree, and in the tree `buildTreeStructure` returns the `k`-th of them has
`cumulativeProbability = anchor.cumulativeProbability * c[0].probability * ... *
c[k].probability`, `isActiveBranch = true`, `isBranchContinuation = true` and
`tokenIndex = anchor.tokenIndex + k + 1` (and carries the branch id of `b`).
`before` is the tree before `b` is processed, `after` the tree right after. -/
theorem buildTreeStructure_branch_continuation (measure : String → ℚ → ℚ) (st : State)
    (tokens : List Token) (pre post : List ActiveBranch) (b : ActiveBranch) (c : List Token)
    (base : List Node) (anchor : Node)
    (hsplit : st.activeBranches = pre ++ b :: post)
    (hbase : buildMainPath measure st tokens tokens 0 config.startX [] = some base)
    (hanchor : base.find? (fun n => n.branchId == some b.branchId) = some anchor)
    (hc : st.branchContinuations.lookup b.branchId = some c) :
    ∃ before after tree,
      addActiveBranches measure st pre base = some before ∧
      addActiveBranches measure st [b] before = some after ∧
      after.length = before.length + c.length ∧
      after.take before.length = before ∧
      buildTreeStructure measure st tokens = some tree ∧
      ∀ k, k < c.length → ∃ n, tree[before.length + k]? = some n ∧
        n.cumulativeProbability
          = anchor.cumulativeProbability * ((c.take (k + 1)).map (fun t => t.probability)).prod ∧
        n.isActiveBranch = true ∧ n.isBranchContinuation = true ∧ n.isMainPath = false ∧
        n.tokenIndex = anchor.tokenIndex + (k : Int) + 1 ∧
        n.branchId = some b.branchId := by
  have hbase' : base = baseNodes measure st tokens tokens 0 config.startX 0 := by
    rw [buildMainPath_eq measure st tokens tokens 0 config.startX [] (by simp)] at hbase
    simpa using hbase.symm
  obtain ⟨ext, hext⟩ := withBranches_extends measure st pre base
  have hfind : (withBranches measure st pre base).find? (fun n => n.branchId == some b.branchId)
      = some anchor := by
    rw [hext]
    exact find?_append_of_some _ _ _ _ hanchor
  have hchain : branchChain measure st b (withBranches measure st pre base)
      = continuationNodes measure anchor c b.branchId c 0
          (anchor.x + anchor.width + config.wordSpacing) := by
    unfold branchChain
    rw [hc]
    simp only [hfind]
  have hafter : withBranches measure st [b] (withBranches measure st pre base)
      = withBranches measure st pre base ++ continuationNodes measure anchor c b.branchId c 0
          (anchor.x + anchor.width + config.wordSpacing) := by
    simp only [withBranches, hchain]
  refine ⟨withBranches measure st pre base, _, _, addActiveBranches_eq _ _ _ _,
    addActiveBranches_eq _ _ _ _, ?_, ?_, buildTreeStructure_eq measure st tokens, ?_⟩
  · rw [hafter, List.length_append, continuationNodes_length]
  · rw [hafter, List.take_left']
    rfl
  · intro k hk
    obtain ⟨n, hn, h1, h2, h3, h4, h5, _, h7⟩ :=
      continuationNodes_getElem? measure anchor c b.branchId c 0
        (anchor.x + anchor.width + config.wordSpacing) k hk
    obtain ⟨ext2, hext2⟩ := withBranches_extends measure st post
      (withBranches measure st [b] (withBranches measure st pre base))
    have hpre : (withBranches measure st st.activeBranches
        (baseNodes measure st tokens tokens 0 config.startX 0))[
          (withBranches measure st pre base).length + k]? = some n := by
      rw [hsplit, ← hbase', withBranches_append,
        show b :: post = [b] ++ post from rfl, withBranches_append, hext2, hafter,
        List.getElem?_append_left (by
          rw [List.length_append, continuationNodes_length]; omega),
        List.getElem?_append_right (Nat.le_add_right _ _), Nat.add_sub_cancel_left]
      exact hn
    obtain ⟨m, hm, hframe⟩ := forall₂_getElem? RelaxFrame _ _
      (relaxAlternativePositions_frame _) _ n hpre
    refine ⟨m, hm, ?_⟩
    rw [hframe.1]
    refine ⟨?_, h2, h3, h4, ?_, h7⟩
    · show n.cumulativeProbability = _
      rw [h1]
      simp [cumProd]
    · show n.tokenIndex = _
      rw [h5]
      simp

/-- Witness for claim C3: the hypotheses hold for `branchState`, whose active
branch `"0-0"` has the anchor `branchAnchor` and a one-token continuation. -/
theorem buildTreeStructure_branch_continuation_witness :
    ∃ before after tree,
      addActiveBranches exampleMeasure branchState [] 
          (baseNodes exampleMeasure branchState branchTokens branchTokens 0 config.startX 0)
        = some before ∧
      addActiveBranches exampleMeasure branchState [branchEntry] before = some after ∧
      after.length = before.length + 1 ∧
      after.take before.length = before ∧
      buildTreeStructure exampleMeasure branchState branchTokens = some tree ∧
      ∀ k, k < 1 → ∃ n, tree[before.length + k]? = some n ∧
        n.cumulativeProbability
          = branchAnchor.cumulativeProbability *
            (([({ text := "e", probability := 1 / 2, alternatives := [] } : Token)].take
              (k + 1)).map (fun t => t.probability)).prod ∧
        n.isActiveBranch = true ∧ n.isBranchContinuation = true ∧ n.isMainPath = false ∧
        n.tokenIndex = branchAnchor.tokenIndex + (k : Int) + 1 ∧
        n.branchId = some branchEntry.branchId :=
  buildTreeStructure_branch_continuation exampleMeasure branchState branchTokens [] []
    branchEntry [ { text := "e", probability := 1 / 2, alternatives := [] } ]
    (baseNodes exampleMeasure branchState branchTokens branchTokens 0 config.startX 0)
    branchAnchor rfl
    (buildMainPath_eq exampleMeasure branchState branchTokens branchTokens 0 config.startX []
      (by decide))
    (by decide!) (by decide!)

/-! ## Frame of the relaxation and the baseline of the main path -/

/-- The `y` of a main-path node, nothing for other nodes. -/
theorem mainY_frame (a b : Node) (h : RelaxFrame a b) :
    (if a.isMainPath then some a.y else none) = (if b.isMainPath then some b.y else none) := by
  by_cases hm : a.isMainPath = true
  · rw [h.2 hm]
  · have hb : b.isMainPath = a.isMainPath := by rw [h.1]
    rw [hb]
    simp [hm]

theorem altNodes_y (measure : String → ℚ → ℚ) (st : State) (tokens : List Token)
    (index : Nat) (currentX : ℚ) (mainPos : Nat) (alts : List AltToken) (altIndex : Nat) :
    ∀ n ∈ altNodes measure st tokens index currentX mainPos alts altIndex,
      n.y = config.startY := by
  induction alts generalizing altIndex with
  | nil => intro n hn; cases hn
  | cons alt rest ih =>
    intro n hn
    unfold altNodes at hn
    rcases List.mem_cons.mp hn with rfl | hn
    · rfl
    · exact ih _ n hn

theorem baseNodes_y (measure : String → ℚ → ℚ) (st : State) (tokens : List Token)
    (rest : List Token) (index : Nat) (currentX : ℚ) (len : Nat) :
    ∀ n ∈ baseNodes measure st tokens rest index currentX len, n.y = config.startY := by
  induction rest generalizing index currentX len with
  | nil => intro n hn; cases hn
  | cons token rest ih =>
    intro n hn
    unfold baseNodes at hn
    rcases List.mem_append.mp hn with hn | hn
    · rcases List.mem_cons.mp hn with rfl | hn
      · rfl
      · exact altNodes_y _ _ _ _ _ _ _ _ n hn
    · exact ih _ _ _ n hn

theorem buildTreeStructure_main_y (measure : String → ℚ → ℚ) (st : State)
    (tokens : List Token) :
    ∀ n ∈ relaxAlternativePositions (withBranches measure st st.activeBranches
        (baseNodes measure st tokens tokens 0 config.startX 0)),
      n.isMainPath = true → n.y = config.startY := by
  intro n hn hm
  have hmem : n.y ∈ (relaxAlternativePositions (withBranches measure st st.activeBranches
      (baseNodes measure st tokens tokens 0 config.startX 0))).filterMap
        (fun m => if m.isMainPath then some m.y else none) :=
    List.mem_filterMap.mpr ⟨n, hn, by simp [hm]⟩
  rw [filterMap_of_frame _ mainY_frame _ _ (relaxAlternativePositions_frame _),
    withBranches_filterMap _ (fun m hmm _ => by simp [hmm])] at hmem
  obtain ⟨m, hmb, hmy⟩ := List.mem_filterMap.mp hmem
  have := baseNodes_y _ _ _ _ _ _ _ m hmb
  by_cases hmm : m.isMainPath = true
  · simp [hmm] at hmy
    rw [← hmy, this]
  · simp [hmm] at hmy

/-- Claim C4. `relaxAlternativePositions` keeps the number and order of the
nodes; position by position, the node after relaxation is the node before
with at most its `y` replaced (so `x`, `width`, `text`, `probability`,
`cumulativeProbability`, `tokenIndex`, `branchId` and all other fields are
kept), and a main-path node is returned unchanged. In the tree
`buildTreeStructure` returns, every main-path node has `y = config.startY`. -/
theorem relaxAlternativePositions_changes_only_alt_y :
    (∀ tree : List Node,
      (relaxAlternativePositions tree).length = tree.length ∧
      List.Forall₂ (fun a b => b = { a with y := b.y } ∧ (a.isMainPath = true → b = a))
        tree (relaxAlternativePositions tree)) ∧
    (∀ (measure : String → ℚ → ℚ) (st : State) (tokens : List Token),
      ∃ tree, buildTreeStructure measure st tokens = some tree ∧
        ∀ n ∈ tree, n.isMainPath = true → n.y = config.startY) :=
  ⟨fun tree => ⟨(List.Forall₂.length_eq (relaxAlternativePositions_frame tree)).symm,
      relaxAlternativePositions_frame tree⟩,
    fun measure st tokens => ⟨_, buildTreeStructure_eq measure st tokens,
      buildTreeStructure_main_y measure st tokens⟩⟩

/-! ## Branch continuations do not keep the anchor's `y` -/

/-- Claim C5, evaluated on `branchState`: the tree returned for `branchTokens`
lists, in order, the main node `a`, the anchor alternative `b` (branch `0-0`),
the main node `c`, the alternative `d` and the continuation node `e` of branch
`0-0`. The anchor `b` ends above the baseline (`y < config.startY`), its
continuation `e` ends below it (`y > config.startY`): they do not share a `y`. -/
theorem buildTreeStructure_continuation_y_differs :
    (buildTreeStructure exampleMeasure branchState branchTokens).map
        (fun tree => tree.map (fun n =>
          (n.text, n.branchId, n.isBranchContinuation,
            decide (n.y < config.startY), decide (n.y > config.startY))))
      = some [ ("a", none, false, false, false),
               ("b", some "0-0", false, true, false),
               ("c", none, false, false, false),
               ("d", some "1-0", false, true, false),
               ("e", some "0-0", true, false, true) ] := by
  decide!

/-! ## Interpolated thickness -/

theorem sampleThickness_before_first (cps : List ControlPoint) (x : ℚ)
    (h : x < (cps.getD 0 default).x) :
    sampleThickness cps x = (cps.getD 0 default).thickness := by
  unfold sampleThickness
  rw [if_pos h]

theorem sampleThickness_after_last (cps : List ControlPoint) (x : ℚ)
    (h1 : ¬ x < (cps.getD 0 default).x) (h2 : x > (cps.getD (cps.length - 1) default).x) :
    sampleThickness cps x = (cps.getD (cps.length - 1) default).thickness := by
  unfold sampleThickness
  rw [if_neg h1, if_pos h2]

theorem sampleThickness_two_mid (p0 p1 : ControlPoint) (h : p0.x < p1.x) :
    sampleThickness [p0, p1] ((p0.x + p1.x) / 2) = (p0.thickness + p1.thickness) / 2 := by
  have h1 : ¬ (p0.x + p1.x) / 2 < p0.x := by
    intro hc
    linarith
  have h2 : ¬ (p0.x + p1.x) / 2 > p1.x := by
    intro hc
    linarith
  have h3 : (p0.x + p1.x) / 2 ≥ p0.x ∧ (p0.x + p1.x) / 2 ≤ p1.x := by
    constructor <;> linarith
  have hd : p1.x - p0.x ≠ 0 := by
    intro hc
    linarith
  have ht : ((p0.x + p1.x) / 2 - p0.x) / (p1.x - p0.x) = 1 / 2 := by
    field_simp
    ring
  unfold sampleThickness
  simp only [List.getD_cons_zero, List.length_cons, List.length_nil, findBracket, h3,
    and_self, if_true, Nat.zero_add, Nat.reduceAdd, Nat.add_one_sub_one, List.getD_cons_succ,
    if_neg h1, if_neg h2, ht]
  ring

/-! ## The outline drawn for a path -/

theorem outlinePoints_lineTo_append (pts : List Point) (rest : List PathCommand) :
    outlinePoints (pts.map PathCommand.lineTo ++ rest) = pts ++ outlinePoints rest := by
  induction pts with
  | nil => rfl
  | cons p tail ih => simp [outlinePoints, ih]

theorem head_cons_drop_one {α : Type} [Inhabited α] (l : List α) (h : l ≠ []) :
    l.getD 0 default :: l.drop 1 = l := by
  cases l with
  | nil => exact absurd rfl h
  | cons a tail => simp

/-- The path data `drawContinuousMainPath` builds, with the top points and the
bottom points written as maps over the sample indices `0..numSamples`. -/
theorem drawContinuousMainPath_of_two_le (svg : List SvgPath) (pathNodes : List Node)
    (color : String) (opacity : ℚ) (h : 2 ≤ pathNodes.length) :
    drawContinuousMainPath svg pathNodes color opacity
      = svg ++ [{ d := [PathCommand.moveTo
                      (((List.range (numSamples + 1)).map (topPoint pathNodes)).getD 0 default)] ++
                    (((List.range (numSamples + 1)).map (topPoint pathNodes)).drop 1).map
                      PathCommand.lineTo ++
                    ((List.range (numSamples + 1)).map (bottomPoint pathNodes)).reverse.map
                      PathCommand.lineTo ++
                    [PathCommand.closePath]
                  cssClass := "main-path-shape", fill := color, opacity := opacity }] := by
  unfold drawContinuousMainPath
  rw [if_neg (by omega)]
  simp only [samples, List.map_map]
  rfl

theorem outlinePoints_pathData (pathNodes : List Node) :
    outlinePoints ([PathCommand.moveTo
          (((List.range (numSamples + 1)).map (topPoint pathNodes)).getD 0 default)] ++
        (((List.range (numSamples + 1)).map (topPoint pathNodes)).drop 1).map
          PathCommand.lineTo ++
        ((List.range (numSamples + 1)).map (bottomPoint pathNodes)).reverse.map
          PathCommand.lineTo ++
        [PathCommand.closePath])
      = (List.range (numSamples + 1)).map (topPoint pathNodes) ++
        ((List.range (numSamples + 1)).map (bottomPoint pathNodes)).reverse := by
  rw [List.append_assoc, List.append_assoc, List.singleton_append, outlinePoints,
    outlinePoints_lineTo_append, outlinePoints_lineTo_append]
  simp only [outlinePoints, List.append_nil]
  rw [← List.cons_append, head_cons_drop_one _ (by simp [numSamples])]

theorem outline_getElem?_top (pathNodes : List Node) (k : Nat) (hk : k ≤ numSamples) :
    ((List.range (numSamples + 1)).map (topPoint pathNodes) ++
        ((List.range (numSamples + 1)).map (bottomPoint pathNodes)).reverse)[k]?
      = some (topPoint pathNodes k) := by
  rw [List.getElem?_append_left (by simp; omega)]
  simp [List.getElem?_range (show k < numSamples + 1 by omega)]

theorem outline_getElem?_bottom (pathNodes : List Node) (k : Nat) (hk : k ≤ numSamples) :
    ((List.range (numSamples + 1)).map (topPoint pathNodes) ++
        ((List.range (numSamples + 1)).map (bottomPoint pathNodes)).reverse)[
          2 * numSamples + 1 - k]?
      = some (bottomPoint pathNodes k) := by
  rw [List.getElem?_append_right (by simp; omega)]
  rw [List.getElem?_reverse (by simp; omega)]
  simp only [List.length_map, List.length_range]
  have hidx : numSamples + 1 - 1 - (2 * numSamples + 1 - k - (numSamples + 1)) = k := by omega
  rw [hidx]
  simp [List.getElem?_range (show k < numSamples + 1 by omega)]

theorem sampleX_lt (startX endX : ℚ) (h : startX < endX) (i j : Nat) (hij : i < j) :
    sampleX startX endX i < sampleX startX endX j := by
  unfold sampleX
  have hi : ((i : ℚ) / (numSamples : ℚ)) < ((j : ℚ) / (numSamples : ℚ)) := by
    apply div_lt_div_of_pos_right
    · exact_mod_cast hij
    · simp [numSamples]
  have hpos : 0 < endX - startX := by linarith
  nlinarith [mul_lt_mul_of_pos_left hi hpos]

/-- Claim C7. For a node list of length 0 or 1 `drawContinuousMainPath`
leaves the drawing surface as it was; for a list of length at least 2 it
appends exactly one path element, whose path data is one `M` command, then
`L` commands only, then the closing `Z`: a single closed outline. -/
theorem drawContinuousMainPath_outline_count (svg : List SvgPath) (pathNodes : List Node)
    (color : String) (opacity : ℚ) :
    (pathNodes.length < 2 → drawContinuousMainPath svg pathNodes color opacity = svg) ∧
    (2 ≤ pathNodes.length → ∃ (start : Point) (rest : List Point),
      drawContinuousMainPath svg pathNodes color opacity
        = svg ++ [{ d := [PathCommand.moveTo start] ++ rest.map PathCommand.lineTo ++
                      [PathCommand.closePath]
                    cssClass := "main-path-shape", fill := color, opacity := opacity }]) := by
  constructor
  · intro h
    unfold drawContinuousMainPath
    rw [if_pos h]
  · intro h
    refine ⟨((List.range (numSamples + 1)).map (topPoint pathNodes)).getD 0 default,
      ((List.range (numSamples + 1)).map (topPoint pathNodes)).drop 1 ++
        ((List.range (numSamples + 1)).map (bottomPoint pathNodes)).reverse, ?_⟩
    rw [drawContinuousMainPath_of_two_le svg pathNodes color opacity h]
    simp only [List.map_append, List.append_assoc]

theorem getD_map_of_lt {α β : Type} (f : α → β) (l : List α) (i : Nat) (a : α) (b : β)
    (h : i < l.length) : (l.map f).getD i b = f (l.getD i a) := by
  rw [List.getD_eq_getElem _ _ (by simpa using h), List.getD_eq_getElem _ _ h]
  simp

/-- For a node list of at least two nodes the outline has
`2 * (200 + 1) = 402` points. For every sample index `k ≤ 200`, point `k` is
the top point and point `401 - k` the bottom point of sample `k`: both have
`x = startX + (endX - startX) * (k / 200)` and their `y` is `y0 - thickness / 2`
and `y0 + thickness / 2`, with `startX = first.x - wordSpacing`,
`endX = last.x + last.width + wordSpacing` and `y0` the `y` of the first node.
So the top points come in sample order and the bottom points in reverse sample
order; when `startX < endX` this is increasing-x and then decreasing-x order. -/
theorem outline_of_two_le (svg : List SvgPath) (pathNodes : List Node)
    (color : String) (opacity : ℚ) (h : 2 ≤ pathNodes.length) :
    ∃ p, drawContinuousMainPath svg pathNodes color opacity = svg ++ [p] ∧
      (outlinePoints p.d).length = 2 * (200 + 1) ∧
      pathStartX pathNodes = (pathNodes.getD 0 default).x - config.wordSpacing ∧
      pathEndX pathNodes = (pathNodes.getD (pathNodes.length - 1) default).x +
        (pathNodes.getD (pathNodes.length - 1) default).width + config.wordSpacing ∧
      (∀ k, k ≤ 200 →
        (outlinePoints p.d)[k]? = some
          { x := pathStartX pathNodes +
              (pathEndX pathNodes - pathStartX pathNodes) * ((k : ℚ) / 200)
            y := (pathNodes.getD 0 default).y -
              sampleThickness (controlPoints pathNodes)
                (pathStartX pathNodes +
                  (pathEndX pathNodes - pathStartX pathNodes) * ((k : ℚ) / 200)) / 2 } ∧
        (outlinePoints p.d)[401 - k]? = some
          { x := pathStartX pathNodes +
              (pathEndX pathNodes - pathStartX pathNodes) * ((k : ℚ) / 200)
            y := (pathNodes.getD 0 default).y +
              sampleThickness (controlPoints pathNodes)
                (pathStartX pathNodes +
                  (pathEndX pathNodes - pathStartX pathNodes) * ((k : ℚ) / 200)) / 2 }) ∧
      (pathStartX pathNodes < pathEndX pathNodes → ∀ i j : Nat, i < j → j ≤ 200 →
        pathStartX pathNodes + (pathEndX pathNodes - pathStartX pathNodes) * ((i : ℚ) / 200)
          < pathStartX pathNodes +
              (pathEndX pathNodes - pathStartX pathNodes) * ((j : ℚ) / 200)) := by
  refine ⟨_, drawContinuousMainPath_of_two_le svg pathNodes color opacity h, ?_, rfl, rfl,
    ?_, ?_⟩
  · simp only [outlinePoints_pathData]
    simp [numSamples]
  · intro k hk
    simp only [outlinePoints_pathData]
    have h1 := outline_getElem?_top pathNodes k (by simpa [numSamples] using hk)
    have h2 := outline_getElem?_bottom pathNodes k (by simpa [numSamples] using hk)
    have e1 : topPoint pathNodes k =
        { x := pathStartX pathNodes +
            (pathEndX pathNodes - pathStartX pathNodes) * ((k : ℚ) / 200)
          y := (pathNodes.getD 0 default).y -
            sampleThickness (controlPoints pathNodes)
              (pathStartX pathNodes +
                (pathEndX pathNodes - pathStartX pathNodes) * ((k : ℚ) / 200)) / 2 } := by
      simp [topPoint, pathThickness, sampleX, numSamples]
    have e2 : bottomPoint pathNodes k =
        { x := pathStartX pathNodes +
            (pathEndX pathNodes - pathStartX pathNodes) * ((k : ℚ) / 200)
          y := (pathNodes.getD 0 default).y +
            sampleThickness (controlPoints pathNodes)
              (pathStartX pathNodes +
                (pathEndX pathNodes - pathStartX pathNodes) * ((k : ℚ) / 200)) / 2 } := by
      simp [bottomPoint, pathThickness, sampleX, numSamples]
    rw [← e1, ← e2]
    exact ⟨h1, by simpa [numSamples] using h2⟩
  · intro hlt i j hij _
    have := sampleX_lt _ _ hlt i j hij
    simpa [sampleX, numSamples] using this

/-! ## Clamping outside the control points -/

/-- For a node list of at least two nodes and every position
`x`: if `x` is less than the first control point's `x`, the thickness is the
first control point's; if `x` is greater than the last control point's `x` and
not less than the first's, it is the last control point's. The second
condition holds for every `x` greater than the last control point's `x` when
the first control point is not to the right of the last. -/
theorem sampleThickness_clamped_of_two_le (pathNodes : List Node) (x : ℚ) (h : 2 ≤ pathNodes.length) :
    (x < (controlPointOf (pathNodes.getD 0 default)).x →
      sampleThickness (controlPoints pathNodes) x
        = (controlPointOf (pathNodes.getD 0 default)).thickness) ∧
    (x > (controlPointOf (pathNodes.getD (pathNodes.length - 1) default)).x →
      ¬ x < (controlPointOf (pathNodes.getD 0 default)).x →
      sampleThickness (controlPoints pathNodes) x
        = (controlPointOf (pathNodes.getD (pathNodes.length - 1) default)).thickness) ∧
    ((controlPointOf (pathNodes.getD 0 default)).x
        ≤ (controlPointOf (pathNodes.getD (pathNodes.length - 1) default)).x →
      x > (controlPointOf (pathNodes.getD (pathNodes.length - 1) default)).x →
      sampleThickness (controlPoints pathNodes) x
        = (controlPointOf (pathNodes.getD (pathNodes.length - 1) default)).thickness) := by
  have hfirst : (controlPoints pathNodes).getD 0 default
      = controlPointOf (pathNodes.getD 0 default) :=
    getD_map_of_lt controlPointOf pathNodes 0 default default (by omega)
  have hlast : (controlPoints pathNodes).getD ((controlPoints pathNodes).length - 1) default
      = controlPointOf (pathNodes.getD (pathNodes.length - 1) default) := by
    have hl : (controlPoints pathNodes).length = pathNodes.length := by simp [controlPoints]
    rw [hl]
    exact getD_map_of_lt controlPointOf pathNodes _ default default (by omega)
  have hafter : x > (controlPointOf (pathNodes.getD (pathNodes.length - 1) default)).x →
      ¬ x < (controlPointOf (pathNodes.getD 0 default)).x →
      sampleThickness (controlPoints pathNodes) x
        = (controlPointOf (pathNodes.getD (pathNodes.length - 1) default)).thickness := by
    intro h2 h1
    rw [← hlast]
    exact sampleThickness_after_last _ x (by rw [hfirst]; exact h1) (by rw [hlast]; exact h2)
  refine ⟨fun h1 => ?_, hafter, fun hle h2 => hafter h2 (by intro hc; linarith)⟩
  rw [← hfirst]
  exact sampleThickness_before_first _ x (by rw [hfirst]; exact h1)

/-! ## Branch ids -/

theorem digitChar_toNat (k : Nat) (hk : k < 10) : (Nat.digitChar k).toNat - 48 = k := by
  interval_cases k <;> rfl

theorem digitChar_ne_dash (k : Nat) (hk : k < 10) : Nat.digitChar k ≠ '-' := by
  interval_cases k <;> decide

theorem decodeDecimal_append_singleton (pre : List Char) (c : Char) :
    decodeDecimal (pre ++ [c]) = decodeDecimal pre * 10 + (c.toNat - 48) := by
  simp [decodeDecimal, List.foldl_append]

theorem toDigitsCore_spec (fuel n : Nat) (ds : List Char) (h : n < fuel) :
    ∃ pre, Nat.toDigitsCore 10 fuel n ds = pre ++ ds ∧ decodeDecimal pre = n ∧
      ∀ c ∈ pre, c ≠ '-' := by
  induction fuel generalizing n ds with
  | zero => omega
  | succ fuel ih =>
    unfold Nat.toDigitsCore
    by_cases h0 : n / 10 = 0
    · simp only [h0, if_true]
      refine ⟨[Nat.digitChar (n % 10)], rfl, ?_, ?_⟩
      · have hn : n < 10 := by omega
        rw [Nat.mod_eq_of_lt hn]
        simp [decodeDecimal, digitChar_toNat n hn]
      · intro c hc
        simp at hc
        subst hc
        exact digitChar_ne_dash _ (Nat.mod_lt _ (by decide))
    · simp only [h0, if_false]
      obtain ⟨pre, hpre, hdec, hdash⟩ := ih (n / 10) (Nat.digitChar (n % 10) :: ds) (by omega)
      refine ⟨pre ++ [Nat.digitChar (n % 10)], by simp [hpre], ?_, ?_⟩
      · rw [decodeDecimal_append_singleton, hdec,
          digitChar_toNat (n % 10) (Nat.mod_lt _ (by decide))]
        omega
      · intro c hc
        rcases List.mem_append.mp hc with hc | hc
        · exact hdash c hc
        · simp at hc
          subst hc
          exact digitChar_ne_dash _ (Nat.mod_lt _ (by decide))

theorem toString_nat_data (n : Nat) :
    decodeDecimal (toString n).data = n ∧ ∀ c ∈ (toString n).data, c ≠ '-' := by
  obtain ⟨pre, hpre, hdec, hdash⟩ := toDigitsCore_spec (n + 1) n [] (by omega)
  have hdata : (toString n).data = pre := by
    show (Nat.repr n).data = pre
    simp [Nat.repr, Nat.toDigits, hpre, List.asString]
  rw [hdata]
  exact ⟨hdec, hdash⟩

theorem append_dash_inj (l₁ l₂ r₁ r₂ : List Char) (h₁ : ∀ c ∈ l₁, c ≠ '-')
    (h₂ : ∀ c ∈ l₂, c ≠ '-') (h : l₁ ++ '-' :: r₁ = l₂ ++ '-' :: r₂) :
    l₁ = l₂ ∧ r₁ = r₂ := by
  induction l₁ generalizing l₂ with
  | nil =>
    cases l₂ with
    | nil => simpa using h
    | cons c rest =>
      simp only [List.nil_append, List.cons_append, List.cons.injEq] at h
      exact absurd h.1.symm (h₂ c (List.mem_cons_self _ _))
  | cons a rest ih =>
    cases l₂ with
    | nil =>
      simp only [List.nil_append, List.cons_append, List.cons.injEq] at h
      exact absurd h.1 (h₁ a (List.mem_cons_self _ _))
    | cons c rest₂ =>
      simp only [List.cons_append, List.cons.injEq] at h
      obtain ⟨hl, hr⟩ := ih rest₂ (fun x hx => h₁ x (List.mem_cons_of_mem _ hx))
        (fun x hx => h₂ x (List.mem_cons_of_mem _ hx)) h.2
      exact ⟨by rw [h.1, hl], hr⟩

theorem branchIdOf_data (index altIndex : Nat) :
    (branchIdOf index altIndex).data
      = (toString index).data ++ '-' :: (toString altIndex).data := by
  simp [branchIdOf, String.data_append]

theorem branchIdOf_injective (i a j b : Nat) (h : branchIdOf i a = branchIdOf j b) :
    i = j ∧ a = b := by
  have hd := congrArg String.data h
  rw [branchIdOf_data, branchIdOf_data] at hd
  obtain ⟨h1, h2⟩ := append_dash_inj _ _ _ _ (toString_nat_data i).2 (toString_nat_data j).2 hd
  constructor
  · rw [← (toString_nat_data i).1, ← (toString_nat_data j).1, h1]
  · rw [← (toString_nat_data a).1, ← (toString_nat_data b).1, h2]

/-! ## Nodes of the returned tree come from the builder's nodes -/

theorem filter_map_eq_filterMap {α β : Type} (p : α → Bool) (f : α → β) (l : List α) :
    (l.filter p).map f = l.filterMap (fun n => if p n then some (f n) else none) := by
  induction l with
  | nil => rfl
  | cons a rest ih =>
    by_cases h : p a = true
    · simp [List.filter_cons, List.filterMap_cons, h, ih]
    · simp [List.filter_cons, List.filterMap_cons, h, ih]

theorem forall₂_mem_right {α β : Type} (R : α → β → Prop) (l₁ : List α) (l₂ : List β)
    (h : List.Forall₂ R l₁ l₂) (b : β) (hb : b ∈ l₂) : ∃ a ∈ l₁, R a b := by
  induction h with
  | nil => cases hb
  | @cons x y t₁ t₂ hxy _ ih =>
    rcases List.mem_cons.mp hb with rfl | hb
    · exact ⟨x, List.mem_cons_self _ _, hxy⟩
    · obtain ⟨a, ha, hr⟩ := ih hb
      exact ⟨a, List.mem_cons_of_mem _ ha, hr⟩

theorem withBranches_mem (measure : String → ℚ → ℚ) (st : State)
    (branches : List ActiveBranch) (tree : List Node) (n : Node)
    (hn : n ∈ withBranches measure st branches tree) :
    n ∈ tree ∨ (n.isMainPath = false ∧ n.isBranchContinuation = true) := by
  induction branches generalizing tree with
  | nil => exact Or.inl hn
  | cons branch rest ih =>
    unfold withBranches at hn
    rcases ih _ hn with h | h
    · rcases List.mem_append.mp h with h | h
      · exact Or.inl h
      · exact Or.inr (branchChain_forall
          (fun m => m.isMainPath = false ∧ m.isBranchContinuation = true) measure st branch tree
          (fun m hm hc _ _ => ⟨hm, hc⟩) n h)
    · exact Or.inr h

/-- A node of the returned tree that is not a branch continuation is a node
the builder made for a token or an alternative, with at most its `y` changed. -/
theorem returned_node_of_base (measure : String → ℚ → ℚ) (st : State) (tokens : List Token)
    (n : Node)
    (hn : n ∈ relaxAlternativePositions (withBranches measure st st.activeBranches
      (baseNodes measure st tokens tokens 0 config.startX 0)))
    (hc : n.isBranchContinuation = false) :
    ∃ a ∈ baseNodes measure st tokens tokens 0 config.startX 0, RelaxFrame a n := by
  obtain ⟨a, ha, hr⟩ := forall₂_mem_right RelaxFrame _ _ (relaxAlternativePositions_frame _) n hn
  rcases withBranches_mem measure st _ _ a ha with h | h
  · exact ⟨a, h, hr⟩
  · have : n.isBranchContinuation = a.isBranchContinuation := by rw [hr.1]
    rw [this, h.2] at hc
    cases hc

theorem altNodes_forall (P : Node → Prop) (measure : String → ℚ → ℚ) (st : State)
    (tokens : List Token) (index : Nat) (currentX : ℚ) (mainPos : Nat)
    (hP : ∀ n : Node, n.isMainPath = false → n.isBranchContinuation = false →
      (∃ a, n.branchId = some (branchIdOf index a)) → n.x = currentX →
      n.tokenIndex = index → P n)
    (alts : List AltToken) (altIndex : Nat) :
    ∀ n ∈ altNodes measure st tokens index currentX mainPos alts altIndex, P n := by
  induction alts generalizing altIndex with
  | nil => intro n hn; cases hn
  | cons alt rest ih =>
    intro n hn
    unfold altNodes at hn
    rcases List.mem_cons.mp hn with rfl | hn
    · exact hP _ rfl rfl ⟨altIndex, rfl⟩ rfl rfl
    · exact ih _ n hn

theorem baseNodes_forall (P : Node → Prop) (measure : String → ℚ → ℚ) (st : State)
    (tokens : List Token)
    (hmain : ∀ n : Node, n.isMainPath = true → n.isBranchContinuation = false →
      n.branchId = none → P n)
    (halt : ∀ n : Node, n.isMainPath = false → n.isBranchContinuation = false →
      (∃ i a, n.branchId = some (branchIdOf i a)) → P n)
    (rest : List Token) (index : Nat) (currentX : ℚ) (len : Nat) :
    ∀ n ∈ baseNodes measure st tokens rest index currentX len, P n := by
  induction rest generalizing index currentX len with
  | nil => intro n hn; cases hn
  | cons token rest ih =>
    intro n hn
    unfold baseNodes at hn
    rcases List.mem_append.mp hn with hn | hn
    · rcases List.mem_cons.mp hn with rfl | hn
      · exact hmain _ rfl rfl rfl
      · exact altNodes_forall P measure st tokens index currentX len
          (fun m h1 h2 h3 _ _ => halt m h1 h2 (h3.elim (fun a ha => ⟨index, a, ha⟩)))
          token.alternatives 0 n hn
    · exact ih _ _ _ n hn

/-! ## Branch ids of the built tree -/

theorem altNodes_idView (measure : String → ℚ → ℚ) (st : State) (tokens : List Token)
    (index : Nat) (currentX : ℚ) (mainPos : Nat) (alts : List AltToken) (altIndex : Nat) :
    (altNodes measure st tokens index currentX mainPos alts altIndex).filterMap
        (fun n => if isAlternative n then some (n.tokenIndex, n.branchIndex, n.branchId)
          else none)
      = (alts.enumFrom altIndex).map
          (fun q => ((index : Int), q.1 + 1, some (toString index ++ "-" ++ toString q.1))) := by
  induction alts generalizing altIndex with
  | nil => rfl
  | cons alt rest ih =>
    unfold altNodes
    rw [List.filterMap_cons, ih]
    simp [isAlternative, List.enumFrom]

theorem baseNodes_idView (measure : String → ℚ → ℚ) (st : State) (tokens : List Token)
    (rest : List Token) (index : Nat) (currentX : ℚ) (len : Nat) :
    (baseNodes measure st tokens rest index currentX len).filterMap
        (fun n => if isAlternative n then some (n.tokenIndex, n.branchIndex, n.branchId)
          else none)
      = ((rest.enumFrom index).map
          (fun p => p.2.alternatives.enum.map
            (fun q => ((p.1 : Int), q.1 + 1,
              some (toString p.1 ++ "-" ++ toString q.1))))).flatten := by
  induction rest generalizing index currentX len with
  | nil => rfl
  | cons token rest ih =>
    unfold baseNodes
    rw [List.filterMap_append, List.filterMap_cons, altNodes_idView, ih]
    simp [isAlternative, List.enumFrom, List.enum]

/-- Claim C11. In the tree `buildTreeStructure` returns, the alternative nodes
are, in tree order, one per alternative slot `(index, altIndex)` and carry the
branch id `toString index ++ "-" ++ toString altIndex`; every main-path node has
no branch id. `toString` of a natural number is its decimal rendering (it
decodes back to the number in base 10 and contains no dash), and two slots
with the same branch id string are the same slot. -/
theorem buildTreeStructure_branch_ids :
    (∀ (measure : String → ℚ → ℚ) (st : State) (tokens : List Token),
      ∃ tree, buildTreeStructure measure st tokens = some tree ∧
        (tree.filter isAlternative).map (fun n => (n.tokenIndex, n.branchIndex, n.branchId))
          = (tokens.enum.map
              (fun p => p.2.alternatives.enum.map
                (fun q => ((p.1 : Int), q.1 + 1,
                  some (toString p.1 ++ "-" ++ toString q.1))))).flatten ∧
        ∀ n ∈ tree, n.isMainPath = true → n.branchId = none) ∧
    (∀ n : Nat, decodeDecimal (toString n).data = n ∧ ∀ c ∈ (toString n).data, c ≠ '-') ∧
    (∀ i a j b : Nat,
      toString i ++ "-" ++ toString a = toString j ++ "-" ++ toString b → i = j ∧ a = b) := by
  refine ⟨fun measure st tokens => ⟨_, buildTreeStructure_eq measure st tokens, ?_, ?_⟩,
    toString_nat_data, fun i a j b h => branchIdOf_injective i a j b h⟩
  · rw [filter_map_eq_filterMap,
      filterMap_of_frame _ (fun a b h => by rw [h.1]; rfl) _ _
        (relaxAlternativePositions_frame _),
      withBranches_filterMap _ (fun n _ hc => by simp [isAlternative, hc]), baseNodes_idView]
    rfl
  · intro n hn hm
    have hc : n.isBranchContinuation = false := by
      obtain ⟨a, ha, hr⟩ := forall₂_mem_right RelaxFrame _ _
        (relaxAlternativePositions_frame _) n hn
      rcases withBranches_mem measure st _ _ a ha with h | h
      · have hb := baseNodes_forall (fun m => m.isBranchContinuation = false) measure st tokens
          (fun _ _ h2 _ => h2) (fun _ _ h2 _ => h2) _ _ _ _ a h
        rw [hr.1]
        exact hb
      · have : n.isMainPath = a.isMainPath := by rw [hr.1]
        rw [this, h.1] at hm
        cases hm
    obtain ⟨a, ha, hr⟩ := returned_node_of_base measure st tokens n hn hc
    have hma : a.isMainPath = true := by
      have : n.isMainPath = a.isMainPath := by rw [hr.1]
      rw [← this]
      exact hm
    rw [hr.2 hma]
    exact baseNodes_forall (fun m => m.isMainPath = true → m.branchId = none) measure st tokens
      (fun _ _ _ h3 _ => h3) (fun m h1 _ _ h4 => by rw [h1] at h4; cases h4) _ _ _ _ a ha hma

/-! ## Horizontal positions -/

theorem mainX_zero (measure : String → ℚ → ℚ) (tokens : List Token) :
    mainX measure tokens 0 = config.startX := by
  simp [mainX]

theorem mainX_succ (measure : String → ℚ → ℚ) (tokens : List Token) (i : Nat) (t : Token)
    (h : tokens[i]? = some t) :
    mainX measure tokens (i + 1)
      = mainX measure tokens i + measure t.text config.fontSize + config.wordSpacing := by
  have hi : i < tokens.length := by
    by_contra hc
    rw [List.getElem?_eq_none (by omega)] at h
    cases h
  have ht : tokens[i] = t := by
    rw [List.getElem?_eq_getElem hi] at h
    exact Option.some.inj h
  unfold mainX
  rw [List.take_succ, List.getElem?_eq_getElem hi]
  simp [ht]
  ring

theorem altNodes_xView (measure : String → ℚ → ℚ) (st : State) (tokens : List Token)
    (index : Nat) (currentX : ℚ) (mainPos : Nat) (alts : List AltToken) (altIndex : Nat) :
    (altNodes measure st tokens index currentX mainPos alts altIndex).filterMap
        (fun n => if isAlternative n then some (n.tokenIndex, n.branchIndex, n.x) else none)
      = (alts.enumFrom altIndex).map (fun q => ((index : Int), q.1 + 1, currentX)) := by
  induction alts generalizing altIndex with
  | nil => rfl
  | cons alt rest ih =>
    unfold altNodes
    rw [List.filterMap_cons, ih]
    simp [isAlternative, List.enumFrom]

theorem altNodes_mainXView (measure : String → ℚ → ℚ) (st : State) (tokens : List Token)
    (index : Nat) (currentX : ℚ) (mainPos : Nat) (alts : List AltToken) (altIndex : Nat) :
    (altNodes measure st tokens index currentX mainPos alts altIndex).filterMap
        (fun n => if n.isMainPath then some (n.tokenIndex, n.x) else none) = [] := by
  induction alts generalizing altIndex with
  | nil => rfl
  | cons alt rest ih =>
    unfold altNodes
    rw [List.filterMap_cons, ih]
    rfl

theorem baseNodes_mainXView (measure : String → ℚ → ℚ) (st : State) (tokens : List Token)
    (rest : List Token) (index : Nat) (currentX : ℚ) (len : Nat)
    (hrest : ∀ j, rest[j]? = tokens[index + j]?) (hx : currentX = mainX measure tokens index) :
    (baseNodes measure st tokens rest index currentX len).filterMap
        (fun n => if n.isMainPath then some (n.tokenIndex, n.x) else none)
      = (List.range' index rest.length).map
          (fun (i : Nat) => ((i : Int), mainX measure tokens i)) := by
  induction rest generalizing index currentX len with
  | nil => rfl
  | cons token rest ih =>
    unfold baseNodes
    have ht : tokens[index]? = some token := by
      have := hrest 0
      simpa using this.symm
    rw [List.filterMap_append, List.filterMap_cons, altNodes_mainXView,
      ih (index + 1) _ _ (fun j => by
        have := hrest (j + 1)
        rw [show index + 1 + j = index + (j + 1) by omega]
        simpa using this)
        (by rw [mainX_succ measure tokens index token ht, hx])]
    simp [List.range'_succ, hx]

theorem baseNodes_altXView (measure : String → ℚ → ℚ) (st : State) (tokens : List Token)
    (rest : List Token) (index : Nat) (currentX : ℚ) (len : Nat)
    (hrest : ∀ j, rest[j]? = tokens[index + j]?) (hx : currentX = mainX measure tokens index) :
    (baseNodes measure st tokens rest index currentX len).filterMap
        (fun n => if isAlternative n then some (n.tokenIndex, n.branchIndex, n.x) else none)
      = ((rest.enumFrom index).map
          (fun p => p.2.alternatives.enum.map
            (fun q => ((p.1 : Int), q.1 + 1, mainX measure tokens p.1)))).flatten := by
  induction rest generalizing index currentX len with
  | nil => rfl
  | cons token rest ih =>
    unfold baseNodes
    have ht : tokens[index]? = some token := by
      have := hrest 0
      simpa using this.symm
    rw [List.filterMap_append, List.filterMap_cons, altNodes_xView,
      ih (index + 1) _ _ (fun j => by
        have := hrest (j + 1)
        rw [show index + 1 + j = index + (j + 1) by omega]
        simpa using this)
        (by rw [mainX_succ measure tokens index token ht, hx])]
    simp [isAlternative, List.enumFrom, List.enum, hx]

/-- Claim C12. In the tree `buildTreeStructure` returns, the main-path node of
token `i` has `x = config.startX + sum over j < i of (measure(tokens[j].text,
config.fontSize) + config.wordSpacing)`, and every alternative node of token
`i` has the same `x`. -/
theorem buildTreeStructure_x_positions (measure : String → ℚ → ℚ) (st : State)
    (tokens : List Token) :
    ∃ tree, buildTreeStructure measure st tokens = some tree ∧
      (tree.filter (fun n => n.isMainPath)).map (fun n => (n.tokenIndex, n.x))
        = (List.range tokens.length).map (fun (i : Nat) => ((i : Int),
            config.startX + ((tokens.take i).map
              (fun t => measure t.text config.fontSize + config.wordSpacing)).sum)) ∧
      (tree.filter isAlternative).map (fun n => (n.tokenIndex, n.branchIndex, n.x))
        = (tokens.enum.map
            (fun p => p.2.alternatives.enum.map
              (fun q => ((p.1 : Int), q.1 + 1,
                config.startX + ((tokens.take p.1).map
                  (fun t => measure t.text config.fontSize + config.wordSpacing)).sum)))).flatten := by
  refine ⟨_, buildTreeStructure_eq measure st tokens, ?_, ?_⟩
  · rw [filter_map_eq_filterMap,
      filterMap_of_frame _ (fun a b h => by rw [h.1]) _ _
        (relaxAlternativePositions_frame _),
      withBranches_filterMap _ (fun n hm _ => by simp [hm]),
      baseNodes_mainXView measure st tokens tokens 0 config.startX 0 (fun j => by simp)
        (mainX_zero measure tokens).symm,
      List.range_eq_range']
    rfl
  · rw [filter_map_eq_filterMap,
      filterMap_of_frame _ (fun a b h => by rw [h.1]; rfl) _ _
        (relaxAlternativePositions_frame _),
      withBranches_filterMap _ (fun n _ hc => by simp [isAlternative, hc]),
      baseNodes_altXView measure st tokens tokens 0 config.startX 0 (fun j => by simp)
        (mainX_zero measure tokens).symm]
    rfl

/-! ## Active branches that are skipped -/

theorem forall₂_mem_left {α β : Type} (R : α → β → Prop) (l₁ : List α) (l₂ : List β)
    (h : List.Forall₂ R l₁ l₂) (a : α) (ha : a ∈ l₁) : ∃ b ∈ l₂, R a b := by
  induction h with
  | nil => cases ha
  | @cons x y t₁ t₂ hxy _ ih =>
    rcases List.mem_cons.mp ha with rfl | ha
    · exact ⟨y, List.mem_cons_self _ _, hxy⟩
    · obtain ⟨b, hb, hr⟩ := ih ha
      exact ⟨b, List.mem_cons_of_mem _ hb, hr⟩

theorem withBranches_subset (measure : String → ℚ → ℚ) (st : State)
    (branches : List ActiveBranch) (tree : List Node) (n : Node) (hn : n ∈ tree) :
    n ∈ withBranches measure st branches tree := by
  obtain ⟨ext, hext⟩ := withBranches_extends measure st branches tree
  rw [hext]
  exact List.mem_append_left _ hn

theorem any_remove_entry (pre post : List ActiveBranch) (b : ActiveBranch) (id : String)
    (h : id ≠ b.branchId) :
    (pre ++ b :: post).any (fun e => e.branchId == id)
      = (pre ++ post).any (fun e => e.branchId == id) := by
  have hb : (b.branchId == id) = false := by
    simp only [beq_eq_false_iff_ne, ne_eq]
    exact fun hc => h hc.symm
  simp [List.any_append, hb]

theorem altNodes_remove_entry (measure : String → ℚ → ℚ) (st st' : State)
    (pre post : List ActiveBranch) (b : ActiveBranch)
    (hst : st.activeBranches = pre ++ b :: post) (hst' : st'.activeBranches = pre ++ post)
    (tokens : List Token) (index : Nat) (currentX : ℚ) (mainPos : Nat)
    (alts : List AltToken) (altIndex : Nat)
    (h : ∀ n ∈ altNodes measure st tokens index currentX mainPos alts altIndex,
      n.branchId ≠ some b.branchId) :
    altNodes measure st' tokens index currentX mainPos alts altIndex
      = altNodes measure st tokens index currentX mainPos alts altIndex := by
  induction alts generalizing altIndex with
  | nil => rfl
  | cons alt rest ih =>
    unfold altNodes at h
    have h0 := h _ (List.mem_cons_self _ _)
    have hid : toString index ++ "-" ++ toString altIndex ≠ b.branchId := by
      intro hc
      exact h0 (by rw [← hc])
    have hrest := ih (altIndex + 1) (fun n hn => h n (List.mem_cons_of_mem _ hn))
    unfold altNodes
    rw [hrest, hst, hst', any_remove_entry pre post b _ hid]

theorem baseNodes_remove_entry (measure : String → ℚ → ℚ) (st st' : State)
    (pre post : List ActiveBranch) (b : ActiveBranch)
    (hst : st.activeBranches = pre ++ b :: post) (hst' : st'.activeBranches = pre ++ post)
    (tokens : List Token) (rest : List Token) (index : Nat) (currentX : ℚ) (len : Nat)
    (h : ∀ n ∈ baseNodes measure st tokens rest index currentX len,
      n.branchId ≠ some b.branchId) :
    baseNodes measure st' tokens rest index currentX len
      = baseNodes measure st tokens rest index currentX len := by
  induction rest generalizing index currentX len with
  | nil => rfl
  | cons token rest ih =>
    unfold baseNodes at h
    have halts := altNodes_remove_entry measure st st' pre post b hst hst' tokens index currentX
      len token.alternatives 0
      (fun n hn => h n (List.mem_append_left _ (List.mem_cons_of_mem _ hn)))
    have hrest := ih (index + 1)
      (currentX + measure token.text config.fontSize + config.wordSpacing)
      (len + 1 + token.alternatives.length) (fun n hn => h n (List.mem_append_right _ hn))
    unfold baseNodes
    rw [halts, hrest]

theorem branchChain_congr (measure : String → ℚ → ℚ) (st st' : State)
    (h : st.branchContinuations = st'.branchContinuations) (branch : ActiveBranch)
    (tree : List Node) :
    branchChain measure st branch tree = branchChain measure st' branch tree := by
  unfold branchChain
  rw [h]

theorem withBranches_congr (measure : String → ℚ → ℚ) (st st' : State)
    (h : st.branchContinuations = st'.branchContinuations) (branches : List ActiveBranch)
    (tree : List Node) :
    withBranches measure st branches tree = withBranches measure st' branches tree := by
  induction branches generalizing tree with
  | nil => rfl
  | cons branch rest ih =>
    unfold withBranches
    rw [branchChain_congr measure st st' h, ih]

theorem branchChain_eq_nil_of_no_anchor (measure : String → ℚ → ℚ) (st : State)
    (branch : ActiveBranch) (tree : List Node)
    (h : ∀ n ∈ tree, n.branchId ≠ some branch.branchId) :
    branchChain measure st branch tree = [] := by
  have hfind : tree.find? (fun n => n.branchId == some branch.branchId) = none := by
    rw [List.find?_eq_none]
    intro n hn
    simpa using h n hn
  unfold branchChain
  rw [hfind]
  cases st.branchContinuations.lookup branch.branchId <;> rfl

theorem branchChain_eq_nil_of_lookup (measure : String → ℚ → ℚ) (st : State)
    (branch : ActiveBranch) (tree : List Node)
    (h : st.branchContinuations.lookup branch.branchId = none ∨
      st.branchContinuations.lookup branch.branchId = some []) :
    branchChain measure st branch tree = [] := by
  unfold branchChain
  rcases h with h | h
  · rw [h]
  · rw [h]
    cases tree.find? (fun n => n.branchId == some branch.branchId) <;> rfl

theorem withBranches_no_id (measure : String → ℚ → ℚ) (st : State) (id : String)
    (branches : List ActiveBranch) (tree : List Node)
    (h : ∀ n ∈ tree, n.branchId ≠ some id) :
    ∀ n ∈ withBranches measure st branches tree, n.branchId ≠ some id := by
  induction branches generalizing tree with
  | nil => exact h
  | cons branch rest ih =>
    unfold withBranches
    apply ih
    intro n hn
    rcases List.mem_append.mp hn with hn | hn
    · exact h n hn
    · by_cases hid : branch.branchId = id
      · rw [branchChain_eq_nil_of_no_anchor measure st branch tree (by rw [hid]; exact h)] at hn
        cases hn
      · have := branchChain_forall (fun m => m.branchId = some branch.branchId) measure st
          branch tree (fun _ _ _ _ h4 => h4) n hn
        rw [this]
        intro hc
        exact hid (Option.some.inj hc)

theorem withBranches_continuation_cached (measure : String → ℚ → ℚ) (st : State)
    (branches : List ActiveBranch) (tree : List Node) (n : Node)
    (hn : n ∈ withBranches measure st branches tree) :
    n ∈ tree ∨ ∃ id c, n.branchId = some id ∧
      st.branchContinuations.lookup id = some c ∧ c ≠ [] := by
  induction branches generalizing tree with
  | nil => exact Or.inl hn
  | cons branch rest ih =>
    unfold withBranches at hn
    rcases ih _ hn with h | h
    · rcases List.mem_append.mp h with h | h
      · exact Or.inl h
      · right
        have hid := branchChain_forall (fun m => m.branchId = some branch.branchId) measure st
          branch tree (fun _ _ _ _ h4 => h4) n h
        cases hl : st.branchContinuations.lookup branch.branchId with
        | none =>
          rw [branchChain_eq_nil_of_lookup measure st branch tree (Or.inl hl)] at h
          cases h
        | some c =>
          cases c with
          | nil =>
            rw [branchChain_eq_nil_of_lookup measure st branch tree (Or.inr hl)] at h
            cases h
          | cons t ts => exact ⟨branch.branchId, t :: ts, hid, hl, by simp⟩
    · exact Or.inr h

/-- Claim C13. Let `b` be an entry of `state.activeBranches`. The builder
returns a tree (it raises no error). If the branch id of `b` is carried by no
alternative node of that tree, the builder returns the same tree for the state
without the entry, whatever is cached for `b`. If no continuation or an empty
one is cached for `b`, processing `b` leaves the tree as it is and the returned
tree has no continuation node with the branch id of `b`. -/
theorem buildTreeStructure_skips_branch (measure : String → ℚ → ℚ) (st : State)
    (tokens : List Token) (pre post : List ActiveBranch) (b : ActiveBranch)
    (hsplit : st.activeBranches = pre ++ b :: post) :
    ∃ tree, buildTreeStructure measure st tokens = some tree ∧
      ((∀ n ∈ tree, isAlternative n = true → n.branchId ≠ some b.branchId) →
        buildTreeStructure measure { st with activeBranches := pre ++ post } tokens
          = some tree) ∧
      ((st.branchContinuations.lookup b.branchId = none ∨
          st.branchContinuations.lookup b.branchId = some []) →
        (∀ (rest : List ActiveBranch) (before : List Node),
          addActiveBranches measure st (b :: rest) before
            = addActiveBranches measure st rest before) ∧
        ∀ n ∈ tree, n.isBranchContinuation = true → n.branchId ≠ some b.branchId) := by
  refine ⟨_, buildTreeStructure_eq measure st tokens, ?_, ?_⟩
  · intro hno
    rw [buildTreeStructure_eq]
    have hbase : ∀ a ∈ baseNodes measure st tokens tokens 0 config.startX 0,
        a.branchId ≠ some b.branchId := by
      intro a ha
      by_cases hm : a.isMainPath = true
      · have := baseNodes_forall (fun m => m.isMainPath = true → m.branchId = none) measure st
          tokens (fun _ _ _ h3 _ => h3) (fun m h1 _ _ h4 => by rw [h1] at h4; cases h4)
          _ _ _ _ a ha hm
        rw [this]
        exact fun hc => by cases hc
      · have hm' : a.isMainPath = false := by simpa using hm
        have hc := baseNodes_forall (fun m => m.isBranchContinuation = false) measure st tokens
          (fun _ _ h2 _ => h2) (fun _ _ h2 _ => h2) _ _ _ _ a ha
        obtain ⟨n, hn, hr⟩ := forall₂_mem_left RelaxFrame _ _
          (relaxAlternativePositions_frame _) a
          (withBranches_subset measure st st.activeBranches _ a ha)
        have halt : isAlternative n = true := by
          rw [hr.1]
          simp [isAlternative, hm', hc]
        have hid : n.branchId = a.branchId := by rw [hr.1]
        rw [← hid]
        exact hno n hn halt
    have hb := baseNodes_remove_entry measure st { st with activeBranches := pre ++ post }
      pre post b hsplit rfl tokens tokens 0 config.startX 0 hbase
    have hchain : branchChain measure st b (withBranches measure st pre
        (baseNodes measure st tokens tokens 0 config.startX 0)) = [] :=
      branchChain_eq_nil_of_no_anchor measure st b _
        (withBranches_no_id measure st b.branchId pre _ hbase)
    have hw : withBranches measure st (pre ++ b :: post)
          (baseNodes measure st tokens tokens 0 config.startX 0)
        = withBranches measure st (pre ++ post)
          (baseNodes measure st tokens tokens 0 config.startX 0) := by
      rw [withBranches_append, withBranches_append]
      simp only [withBranches, hchain, List.append_nil]
    rw [hb, hsplit, hw]
    simp only
    rw [withBranches_congr measure { st with activeBranches := pre ++ post } st rfl]
  · intro hl
    constructor
    · intro rest before
      rw [addActiveBranches_eq, addActiveBranches_eq]
      simp only [withBranches, branchChain_eq_nil_of_lookup measure st b before hl,
        List.append_nil]
    · intro n hn hc hid
      obtain ⟨a, ha, hr⟩ := forall₂_mem_right RelaxFrame _ _
        (relaxAlternativePositions_frame _) n hn
      have hca : a.isBranchContinuation = true := by
        have : n.isBranchContinuation = a.isBranchContinuation := by rw [hr.1]
        rw [← this]
        exact hc
      have hida : a.branchId = some b.branchId := by
        have : n.branchId = a.branchId := by rw [hr.1]
        rw [← this]
        exact hid
      rcases withBranches_continuation_cached measure st _ _ a ha with h | ⟨id, c, h1, h2, h3⟩
      · have := baseNodes_forall (fun m => m.isBranchContinuation = false) measure st tokens
          (fun _ _ h2 _ => h2) (fun _ _ h2 _ => h2) _ _ _ _ a h
        rw [this] at hca
        cases hca
      · rw [hida] at h1
        have hidb : b.branchId = id := Option.some.inj h1
        rw [← hidb] at h2
        rcases hl with hl | hl
        · rw [hl] at h2
          cases h2
        · rw [hl] at h2
          exact h3 (Option.some.inj h2).symm

/-- Witness for claim C13: `strayState`, whose only active branch `"7-7"`
names no alternative of `branchTokens`. -/
theorem buildTreeStructure_skips_branch_witness :
    strayState.activeBranches = [] ++ strayEntry :: [] ∧
    ∃ tree, buildTreeStructure exampleMeasure strayState branchTokens = some tree ∧
      ((∀ n ∈ tree, isAlternative n = true → n.branchId ≠ some strayEntry.branchId) →
        buildTreeStructure exampleMeasure { strayState with activeBranches := [] ++ [] }
          branchTokens = some tree) :=
  ⟨rfl, (buildTreeStructure_skips_branch exampleMeasure strayState branchTokens [] []
    strayEntry rfl).elim (fun tree h => ⟨tree, h.1, h.2.1⟩)⟩

/-! ## Branch activation -/

theorem handleAlternativeClick_of_active (st : State) (node : Node) (id : String)
    (pick : Fin mockContinuations.length) (hid : node.branchId = some id)
    (h : st.activeBranches.any (fun b => b.branchId == id) = true) :
    handleAlternativeClick st node pick = st := by
  unfold handleAlternativeClick
  rw [hid]
  simp only [h, if_true]

theorem handleAlternativeClick_active_after (st : State) (node : Node) (id : String)
    (pick : Fin mockContinuations.length) (hid : node.branchId = some id) :
    (handleAlternativeClick st node pick).activeBranches.any (fun b => b.branchId == id)
      = true := by
  by_cases h : st.activeBranches.any (fun b => b.branchId == id) = true
  · rw [handleAlternativeClick_of_active st node id pick hid h]
    exact h
  · unfold handleAlternativeClick
    rw [hid]
    simp only [h]
    simp [generateBranchContinuation, List.any_append]

/-- Claim C14. A click on a node whose branch id is already in
`state.activeBranches` returns the state unchanged, whatever continuation
index the generator would draw: no entry is pushed and the cached
continuation is kept. Hence two clicks on the same node, with any two draws,
give the state the first click gives. -/
theorem handleAlternativeClick_idempotent (st : State) (node : Node)
    (pick pick' : Fin mockContinuations.length) :
    ((∃ id, node.branchId = some id ∧ ∃ b ∈ st.activeBranches, b.branchId = id) →
      handleAlternativeClick st node pick = st ∧
      (handleAlternativeClick st node pick).activeBranches = st.activeBranches ∧
      (handleAlternativeClick st node pick).branchContinuations = st.branchContinuations) ∧
    handleAlternativeClick (handleAlternativeClick st node pick) node pick'
      = handleAlternativeClick st node pick := by
  constructor
  · rintro ⟨id, hid, b, hb, hbid⟩
    have h : st.activeBranches.any (fun e => e.branchId == id) = true :=
      List.any_eq_true.mpr ⟨b, hb, by simp [hbid]⟩
    rw [handleAlternativeClick_of_active st node id pick hid h]
    exact ⟨rfl, rfl, rfl⟩
  · cases hid : node.branchId with
    | none =>
      unfold handleAlternativeClick
      simp only [hid]
    | some id =>
      exact handleAlternativeClick_of_active _ node id pick' hid
        (handleAlternativeClick_active_after st node id pick hid)

/-! ## The backend response -/

theorem collectAlternatives_of_some (exp : ℚ → ℚ) (minAlternativeProbability : ℚ)
    (mainToken : String) (items : List TopLogprob) :
    collectAlternatives exp minAlternativeProbability mainToken (items.map some)
      = Except.ok ((items.filter (fun altData => decide (altData.token ≠ mainToken) &&
            decide (exp altData.logprob ≥ minAlternativeProbability))).map
          (fun altData => { text := altData.token, probability := exp altData.logprob })) := by
  induction items with
  | nil => rfl
  | cons altData rest ih =>
    simp only [List.map_cons]
    unfold collectAlternatives
    by_cases h1 : altData.token = mainToken
    · simp [h1, ih]
    · by_cases h2 : exp altData.logprob ≥ minAlternativeProbability
      · simp [h1, h2, ih]
      · simp [h1, h2, ih]

theorem collectAlternatives_of_null (exp : ℚ → ℚ) (minAlternativeProbability : ℚ)
    (mainToken : String) (items : List (Option TopLogprob)) (h : none ∈ items) :
    collectAlternatives exp minAlternativeProbability mainToken items
      = Except.error Message.ofTypeError := by
  induction items with
  | nil => cases h
  | cons item rest ih =>
    cases item with
    | none => rfl
    | some altData =>
      have hrest : none ∈ rest := by
        rcases List.mem_cons.mp h with hc | hc
        · cases hc
        · exact hc
      unfold collectAlternatives
      by_cases h1 : altData.token = mainToken
      · simp [h1, ih hrest]
      · by_cases h2 : exp altData.logprob ≥ minAlternativeProbability
        · simp [h1, h2, ih hrest]
        · simp [h1, h2, ih hrest]

theorem eq_map_some_of_not_mem {α : Type} (items : List (Option α)) (h : none ∉ items) :
    items = items.reduceOption.map some := by
  induction items with
  | nil => rfl
  | cons item rest ih =>
    cases item with
    | none => exact absurd (List.mem_cons_self _ _) h
    | some a =>
      rw [List.reduceOption_cons_of_some, List.map_cons,
        ← ih (fun hc => h (List.mem_cons_of_mem _ hc))]

theorem collectAlternatives_cases (exp : ℚ → ℚ) (minAlternativeProbability : ℚ)
    (mainToken : String) (items : List (Option TopLogprob)) :
    (none ∈ items ∧ collectAlternatives exp minAlternativeProbability mainToken items
        = Except.error Message.ofTypeError) ∨
    (none ∉ items ∧ collectAlternatives exp minAlternativeProbability mainToken items
        = Except.ok ((items.reduceOption.filter
            (fun altData => decide (altData.token ≠ mainToken) &&
              decide (exp altData.logprob ≥ minAlternativeProbability))).map
          (fun altData => { text := altData.token, probability := exp altData.logprob }))) := by
  by_cases h : none ∈ items
  · exact Or.inl ⟨h, collectAlternatives_of_null exp minAlternativeProbability mainToken items h⟩
  · right
    refine ⟨h, ?_⟩
    conv_lhs => rw [eq_map_some_of_not_mem items h]
    exact collectAlternatives_of_some exp minAlternativeProbability mainToken _

/-- The token built for an object of `logprobs`: a `TypeError` when its
`top_logprobs` array has a `null` element, and otherwise the chosen token with
the offered alternatives, sorted. -/
theorem transformEntry_cases (exp : ℚ → ℚ) (minAlternativeProbability : ℚ)
    (tokenData : LogprobEntry) :
    (none ∈ arrayItems tokenData.top_logprobs ∧
      transformEntry exp minAlternativeProbability (some tokenData)
        = Except.error Message.ofTypeError) ∨
    (none ∉ arrayItems tokenData.top_logprobs ∧
      transformEntry exp minAlternativeProbability (some tokenData)
        = Except.ok { text := tokenData.token, probability := exp tokenData.logprob,
                      alternatives := sortAlternatives
                        (offeredAlternatives exp minAlternativeProbability tokenData) }) := by
  unfold transformEntry offeredAlternatives
  cases h : tokenData.top_logprobs with
  | absent => exact Or.inr ⟨by simp [arrayItems], by simp [h, arrayItems]⟩
  | notArray => exact Or.inr ⟨by simp [arrayItems], by simp [h, arrayItems]⟩
  | array items =>
    rcases collectAlternatives_cases exp minAlternativeProbability tokenData.token items
      with ⟨h1, h2⟩ | ⟨h1, h2⟩
    · exact Or.inl ⟨by simpa [arrayItems] using h1, by simp [h, h2]⟩
    · exact Or.inr ⟨by simpa [arrayItems] using h1, by simp [h, h2, arrayItems]⟩

/-- The outcome of the loop over `logprobs`: a `TypeError` when an element or
an element of a `top_logprobs` array is `null`, and otherwise one token per
element, in order. -/
theorem transformEntries_cases (exp : ℚ → ℚ) (minAlternativeProbability : ℚ)
    (entries : List (Option LogprobEntry)) :
    (¬ NullFree entries ∧ transformEntries exp minAlternativeProbability entries
        = Except.error Message.ofTypeError) ∨
    (NullFree entries ∧ transformEntries exp minAlternativeProbability entries
        = Except.ok (entries.reduceOption.map (fun tokenData =>
            { text := tokenData.token, probability := exp tokenData.logprob,
              alternatives := sortAlternatives
                (offeredAlternatives exp minAlternativeProbability tokenData) }))) := by
  induction entries with
  | nil =>
    right
    exact ⟨fun _ h => absurd h (List.not_mem_nil _), rfl⟩
  | cons tokenData rest ih =>
    unfold transformEntries
    cases tokenData with
    | none =>
      left
      refine ⟨?_, rfl⟩
      intro hnf
      obtain ⟨entry, he, _⟩ := hnf none (List.mem_cons_self _ _)
      cases he
    | some entry =>
      rcases transformEntry_cases exp minAlternativeProbability entry with ⟨h1, h2⟩ | ⟨h1, h2⟩
      · left
        refine ⟨?_, by rw [h2]⟩
        intro hnf
        obtain ⟨e, he, hn⟩ := hnf (some entry) (List.mem_cons_self _ _)
        cases he
        exact hn h1
      · rw [h2]
        rcases ih with ⟨h3, h4⟩ | ⟨h3, h4⟩
        · left
          refine ⟨?_, by simp only [h4]⟩
          intro hnf
          exact h3 (fun t ht => hnf t (List.mem_cons_of_mem _ ht))
        · right
          refine ⟨?_, by simp only [h4, List.reduceOption_cons_of_some, List.map_cons]⟩
          intro t ht
          rcases List.mem_cons.mp ht with rfl | ht
          · exact ⟨entry, rfl, h1⟩
          · exact h3 t ht

theorem sortAlternatives_perm (alternatives : List AltToken) :
    (sortAlternatives alternatives).Perm alternatives :=
  List.perm_insertionSort _ alternatives

theorem sortAlternatives_sorted (alternatives : List AltToken) :
    (sortAlternatives alternatives).Sorted (fun a b => a.probability ≥ b.probability) := by
  haveI : IsTotal AltToken (fun a b => a.probability ≥ b.probability) :=
    ⟨fun a b => le_total b.probability a.probability⟩
  haveI : IsTrans AltToken (fun a b => a.probability ≥ b.probability) :=
    ⟨fun a b c hab hbc => le_trans hbc hab⟩
  exact List.sorted_insertionSort _ alternatives

theorem transformOllamaResponse_of_array (exp : ℚ → ℚ) (minAlternativeProbability : ℚ)
    (data : OllamaResponse) (entries : List (Option LogprobEntry))
    (h : data.logprobs = ArrayField.array entries) :
    transformOllamaResponse exp minAlternativeProbability (some data)
      = transformEntries exp minAlternativeProbability entries := by
  unfold transformOllamaResponse
  simp only [h]

/-- The tokens returned for an array: they are returned exactly when nothing
is `null`, one per entry in order. -/
theorem transformOllamaResponse_ok_iff (exp : ℚ → ℚ) (minAlternativeProbability : ℚ)
    (data : OllamaResponse) (entries : List (Option LogprobEntry))
    (h : data.logprobs = ArrayField.array entries) (tokens : List Token) :
    transformOllamaResponse exp minAlternativeProbability (some data) = Except.ok tokens ↔
      NullFree entries ∧ tokens = entries.reduceOption.map (fun tokenData =>
        { text := tokenData.token, probability := exp tokenData.logprob,
          alternatives := sortAlternatives
            (offeredAlternatives exp minAlternativeProbability tokenData) }) := by
  rw [transformOllamaResponse_of_array exp minAlternativeProbability data entries h]
  rcases transformEntries_cases exp minAlternativeProbability entries with ⟨h1, h2⟩ | ⟨h1, h2⟩
  · rw [h2]
    constructor
    · intro hc
      cases hc
    · intro hc
      exact absurd hc.1 h1
  · rw [h2]
    constructor
    · intro hc
      exact ⟨h1, (Except.ok.inj hc).symm⟩
    · intro hc
      rw [hc.2]

theorem forall₂_reduceOption {α β : Type} (R : α → β → Prop) (l : List (Option α))
    (f : α → β) (hR : ∀ a, R a (f a)) (hl : none ∉ l) :
    List.Forall₂ (fun (x : Option α) (b : β) => ∃ a, x = some a ∧ R a b) l
      (l.reduceOption.map f) := by
  induction l with
  | nil => exact List.Forall₂.nil
  | cons x rest ih =>
    cases x with
    | none => exact absurd (List.mem_cons_self _ _) hl
    | some a =>
      rw [List.reduceOption_cons_of_some, List.map_cons]
      exact List.Forall₂.cons ⟨a, rfl, hR a⟩ (ih (fun hc => hl (List.mem_cons_of_mem _ hc)))

theorem NullFree.not_mem {entries : List (Option LogprobEntry)} (h : NullFree entries) :
    none ∉ entries := by
  intro hc
  obtain ⟨e, he, _⟩ := h none hc
  cases he

/-- Claim C15. For a response whose `logprobs` is an array: whenever tokens
are returned, every element of the array is an object and the token built for
it has as alternatives a permutation of the entry's `top_logprobs` objects
whose token differs from the chosen token and whose probability `exp logprob`
is at least the threshold, each as `{ text := token, probability := exp
logprob }`; so no alternative has the chosen token as text and none has a
probability below the threshold. Tokens are returned when no element of
`logprobs` and of a `top_logprobs` array is `null`. -/
theorem transformOllamaResponse_alternatives (exp : ℚ → ℚ) (minAlternativeProbability : ℚ)
    (data : OllamaResponse) (entries : List (Option LogprobEntry))
    (h : data.logprobs = ArrayField.array entries) :
    (∀ tokens, transformOllamaResponse exp minAlternativeProbability (some data)
        = Except.ok tokens →
      List.Forall₂
        (fun (element : Option LogprobEntry) (token : Token) =>
          ∃ tokenData, element = some tokenData ∧
            token.alternatives.Perm
              (((arrayItems tokenData.top_logprobs).reduceOption.filter
                  (fun altData => decide (altData.token ≠ tokenData.token) &&
                    decide (exp altData.logprob ≥ minAlternativeProbability))).map
                (fun altData => { text := altData.token, probability := exp altData.logprob })) ∧
            ∀ alt ∈ token.alternatives,
              alt.text ≠ tokenData.token ∧ alt.probability ≥ minAlternativeProbability)
        entries tokens) ∧
    (NullFree entries →
      ∃ tokens, transformOllamaResponse exp minAlternativeProbability (some data)
        = Except.ok tokens) := by
  constructor
  · intro tokens hok
    obtain ⟨hnf, rfl⟩ :=
      (transformOllamaResponse_ok_iff exp minAlternativeProbability data entries h tokens).mp hok
    apply forall₂_reduceOption _ entries _ _ hnf.not_mem
    intro tokenData
    have hperm : (sortAlternatives
        (offeredAlternatives exp minAlternativeProbability tokenData)).Perm
        (offeredAlternatives exp minAlternativeProbability tokenData) :=
      sortAlternatives_perm _
    refine ⟨hperm, fun alt halt => ?_⟩
    have hmem := hperm.subset halt
    unfold offeredAlternatives at hmem
    obtain ⟨altData, hd, rfl⟩ := List.mem_map.mp hmem
    have hf := (List.mem_filter.mp hd).2
    simp only [Bool.and_eq_true, decide_eq_true_eq] at hf
    exact hf
  · intro hnf
    exact ⟨_, (transformOllamaResponse_ok_iff exp minAlternativeProbability data entries h
      _).mpr ⟨hnf, rfl⟩⟩

/-- Witness for claim C15: `exampleResponse`, with threshold `1 / 4`. -/
theorem transformOllamaResponse_alternatives_witness :
    exampleResponse.logprobs = ArrayField.array (arrayItems exampleResponse.logprobs) ∧
    ∃ tokens, transformOllamaResponse exampleExp (1 / 4) (some exampleResponse)
      = Except.ok tokens :=
  ⟨rfl, (transformOllamaResponse_alternatives exampleExp (1 / 4) exampleResponse
    (arrayItems exampleResponse.logprobs) rfl).2 (by
      intro tokenData ht
      simp only [exampleResponse, arrayItems, List.mem_singleton] at ht
      subst ht
      exact ⟨_, rfl, by simp [arrayItems]⟩)⟩

/-- Claim C16. For a response whose `logprobs` is an array, the alternatives
of every returned token are sorted by probability in non-increasing order:
each alternative's probability is at least that of every later one, in
particular of the next one. Tokens are returned when no element of `logprobs`
and of a `top_logprobs` array is `null`. -/
theorem transformOllamaResponse_sorted (exp : ℚ → ℚ) (minAlternativeProbability : ℚ)
    (data : OllamaResponse) (entries : List (Option LogprobEntry))
    (h : data.logprobs = ArrayField.array entries) :
    (∀ tokens, transformOllamaResponse exp minAlternativeProbability (some data)
        = Except.ok tokens →
      ∀ token ∈ tokens,
        (token.alternatives.map (fun alt => alt.probability)).Sorted (fun p q => p ≥ q) ∧
        ∀ i (a b : AltToken), token.alternatives[i]? = some a →
          token.alternatives[i + 1]? = some b → a.probability ≥ b.probability) ∧
    (NullFree entries →
      ∃ tokens, transformOllamaResponse exp minAlternativeProbability (some data)
        = Except.ok tokens) := by
  constructor
  · intro tokens hok token htoken
    obtain ⟨_, rfl⟩ :=
      (transformOllamaResponse_ok_iff exp minAlternativeProbability data entries h tokens).mp hok
    obtain ⟨tokenData, _, rfl⟩ := List.mem_map.mp htoken
    have hs : (sortAlternatives
        (offeredAlternatives exp minAlternativeProbability tokenData)).Sorted
        (fun a b => a.probability ≥ b.probability) := sortAlternatives_sorted _
    refine ⟨List.pairwise_map.mpr hs, ?_⟩
    intro i a b ha hb
    change (sortAlternatives
      (offeredAlternatives exp minAlternativeProbability tokenData))[i]? = some a at ha
    change (sortAlternatives
      (offeredAlternatives exp minAlternativeProbability tokenData))[i + 1]? = some b at hb
    have hi : i < (sortAlternatives
        (offeredAlternatives exp minAlternativeProbability tokenData)).length := by
      by_contra hc
      rw [List.getElem?_eq_none (by omega)] at ha
      cases ha
    have hi1 : i + 1 < (sortAlternatives
        (offeredAlternatives exp minAlternativeProbability tokenData)).length := by
      by_contra hc
      rw [List.getElem?_eq_none (by omega)] at hb
      cases hb
    rw [List.getElem?_eq_getElem hi] at ha
    rw [List.getElem?_eq_getElem hi1] at hb
    have := List.pairwise_iff_getElem.mp hs i (i + 1) hi hi1 (by omega)
    rw [Option.some.inj ha, Option.some.inj hb] at this
    exact this
  · intro hnf
    exact ⟨_, (transformOllamaResponse_ok_iff exp minAlternativeProbability data entries h
      _).mpr ⟨hnf, rfl⟩⟩

/-- Witness for claim C16: `exampleResponse`, with threshold `1 / 4`. -/
theorem transformOllamaResponse_sorted_witness :
    exampleResponse.logprobs = ArrayField.array (arrayItems exampleResponse.logprobs) ∧
    ∃ tokens, transformOllamaResponse exampleExp (1 / 4) (some exampleResponse)
        = Except.ok tokens ∧
      ∀ token ∈ tokens,
        (token.alternatives.map (fun alt => alt.probability)).Sorted (fun p q => p ≥ q) := by
  have h := transformOllamaResponse_sorted exampleExp (1 / 4) exampleResponse
    (arrayItems exampleResponse.logprobs) rfl
  obtain ⟨tokens, ht⟩ := h.2 (by
    intro tokenData ht
    simp only [exampleResponse, arrayItems, List.mem_singleton] at ht
    subst ht
    exact ⟨_, rfl, by simp [arrayItems]⟩)
  exact ⟨rfl, tokens, ht, fun token hm => (h.1 tokens ht token hm).1⟩

/-- Claim C17, as amended. The call `transformOllamaResponse(data)` throws its
own error, "No logprobs in response", exactly when `data.logprobs` is missing
or is not an array. When `data` is `null`, and when `logprobs` is an array of
which an element, or an element of an entry's `top_logprobs` array, is `null`,
it throws a `TypeError` (and only then). In every other case it returns one
token per entry of `logprobs`, in the same order, with `text = entry.token`
and `probability = exp(entry.logprob)`. -/
theorem transformOllamaResponse_result (exp : ℚ → ℚ) (minAlternativeProbability : ℚ) :
    transformOllamaResponse exp minAlternativeProbability none
      = Except.error Message.ofTypeError ∧
    ∀ data : OllamaResponse,
      (transformOllamaResponse exp minAlternativeProbability (some data)
          = Except.error (Message.text
            "No logprobs in response. Make sure your Ollama version supports logprobs.")
        ↔ ¬ ∃ entries, data.logprobs = ArrayField.array entries) ∧
      (transformOllamaResponse exp minAlternativeProbability (some data)
          = Except.error Message.ofTypeError
        ↔ ∃ entries, data.logprobs = ArrayField.array entries ∧ ¬ NullFree entries) ∧
      (∀ entries, data.logprobs = ArrayField.array entries → NullFree entries →
        ∃ tokens, transformOllamaResponse exp minAlternativeProbability (some data)
            = Except.ok tokens ∧
          tokens.length = entries.length ∧
          tokens.map (fun token => (token.text, token.probability))
            = entries.reduceOption.map
                (fun tokenData => (tokenData.token, exp tokenData.logprob))) := by
  refine ⟨rfl, fun data => ?_⟩
  have hno : (¬ ∃ entries, data.logprobs = ArrayField.array entries) →
      transformOllamaResponse exp minAlternativeProbability (some data)
        = Except.error (Message.text
          "No logprobs in response. Make sure your Ollama version supports logprobs.") := by
    intro hno
    unfold transformOllamaResponse
    cases hl : data.logprobs with
    | absent => simp only [hl]
    | notArray => simp only [hl]
    | array entries => exact absurd ⟨entries, hl⟩ hno
  refine ⟨⟨?_, hno⟩, ⟨?_, ?_⟩, ?_⟩
  · rintro hc ⟨entries, he⟩
    rw [transformOllamaResponse_of_array exp minAlternativeProbability data entries he] at hc
    rcases transformEntries_cases exp minAlternativeProbability entries with ⟨_, h2⟩ | ⟨_, h2⟩
    · rw [h2] at hc
      cases hc
    · rw [h2] at hc
      cases hc
  · intro hc
    by_cases harr : ∃ entries, data.logprobs = ArrayField.array entries
    · obtain ⟨entries, he⟩ := harr
      refine ⟨entries, he, ?_⟩
      intro hnf
      rw [transformOllamaResponse_of_array exp minAlternativeProbability data entries he] at hc
      rcases transformEntries_cases exp minAlternativeProbability entries with ⟨h1, _⟩ | ⟨_, h2⟩
      · exact h1 hnf
      · rw [h2] at hc
        cases hc
    · rw [hno harr] at hc
      cases hc
  · rintro ⟨entries, he, hn⟩
    rw [transformOllamaResponse_of_array exp minAlternativeProbability data entries he]
    rcases transformEntries_cases exp minAlternativeProbability entries with ⟨_, h2⟩ | ⟨h1, _⟩
    · exact h2
    · exact absurd h1 hn
  · intro entries he hnf
    refine ⟨_, (transformOllamaResponse_ok_iff exp minAlternativeProbability data entries he
      _).mpr ⟨hnf, rfl⟩, ?_, ?_⟩
    · rw [List.length_map]
      conv_rhs => rw [eq_map_some_of_not_mem entries hnf.not_mem]
      rw [List.length_map]
    · rw [List.map_map]
      rfl

/-- Counterexample to claim C17 as stated: for the body `{"logprobs": [null]}`
the field `logprobs` is an array, and the call throws (a `TypeError`, at the
read of `tokenData.token` in line 776). -/
theorem transformOllamaResponse_null_entry :
    (∃ entries, nullEntryResponse.logprobs = ArrayField.array entries) ∧
    ∀ (exp : ℚ → ℚ) (minAlternativeProbability : ℚ),
      transformOllamaResponse exp minAlternativeProbability (some nullEntryResponse)
        = Except.error Message.ofTypeError :=
  ⟨⟨[none], rfl⟩, fun _ _ => rfl⟩

/-! ## Generation and the session state -/

theorem trim_eq_empty_of_all (s : String) (h : ∀ c ∈ s.data, isTrimmed c = true) :
    trim s = "" := by
  unfold trim
  rw [List.dropWhile_eq_nil_iff.mpr h]
  rfl

theorem generateFromOllama_of_fetch_error
    (fetch : OllamaRequest → Except Message HttpResponse) (exp : ℚ → ℚ)
    (minAlternativeProbability : ℚ) (prompt : String) (maxTokens : Option Int)
    (temperature : ℚ) (topLogprobs : Option Int) (message : Message)
    (h : fetch (ollamaRequest prompt maxTokens temperature topLogprobs) = Except.error message) :
    generateFromOllama fetch exp minAlternativeProbability prompt maxTokens temperature
      topLogprobs = Except.error message := by
  unfold generateFromOllama
  rw [h]

theorem generateFromOllama_of_not_ok
    (fetch : OllamaRequest → Except Message HttpResponse) (exp : ℚ → ℚ)
    (minAlternativeProbability : ℚ) (prompt : String) (maxTokens : Option Int)
    (temperature : ℚ) (topLogprobs : Option Int) (response : HttpResponse)
    (h : fetch (ollamaRequest prompt maxTokens temperature topLogprobs) = Except.ok response)
    (hok : response.ok = false) :
    ∃ message, generateFromOllama fetch exp minAlternativeProbability prompt maxTokens
      temperature topLogprobs = Except.error message := by
  unfold generateFromOllama
  rw [h]
  simp only [hok, Bool.not_false, if_true]
  exact ⟨_, rfl⟩

theorem generateFromOllama_of_ok
    (fetch : OllamaRequest → Except Message HttpResponse) (exp : ℚ → ℚ)
    (minAlternativeProbability : ℚ) (prompt : String) (maxTokens : Option Int)
    (temperature : ℚ) (topLogprobs : Option Int) (response : HttpResponse)
    (h : fetch (ollamaRequest prompt maxTokens temperature topLogprobs) = Except.ok response)
    (hok : response.ok = true) :
    generateFromOllama fetch exp minAlternativeProbability prompt maxTokens temperature
      topLogprobs =
        match response.json with
        | Except.error message => Except.error message
        | Except.ok data => transformOllamaResponse exp minAlternativeProbability data := by
  unfold generateFromOllama
  rw [h]
  simp only [hok, Bool.not_true]
  rfl

/-- A response without a `logprobs` array makes the generation fail: the body
is not JSON, is `null`, or its `logprobs` is missing or not an array. -/
theorem generateFromOllama_of_no_array
    (fetch : OllamaRequest → Except Message HttpResponse) (exp : ℚ → ℚ)
    (minAlternativeProbability : ℚ) (prompt : String) (maxTokens : Option Int)
    (temperature : ℚ) (topLogprobs : Option Int) (response : HttpResponse)
    (h : fetch (ollamaRequest prompt maxTokens temperature topLogprobs) = Except.ok response)
    (hno : ¬ ∃ data entries, response.json = Except.ok (some data) ∧
      data.logprobs = ArrayField.array entries) :
    ∃ message, generateFromOllama fetch exp minAlternativeProbability prompt maxTokens
      temperature topLogprobs = Except.error message := by
  by_cases hok : response.ok = true
  · rw [generateFromOllama_of_ok fetch exp _ _ _ _ _ response h hok]
    cases hj : response.json with
    | error message => exact ⟨message, rfl⟩
    | ok data =>
      cases data with
      | none => exact ⟨_, rfl⟩
      | some data =>
        cases hl : data.logprobs with
        | absent =>
          refine ⟨Message.text
            "No logprobs in response. Make sure your Ollama version supports logprobs.", ?_⟩
          show transformOllamaResponse exp minAlternativeProbability (some data) = _
          unfold transformOllamaResponse
          simp only [hl]
        | notArray =>
          refine ⟨Message.text
            "No logprobs in response. Make sure your Ollama version supports logprobs.", ?_⟩
          show transformOllamaResponse exp minAlternativeProbability (some data) = _
          unfold transformOllamaResponse
          simp only [hl]
        | array entries => exact absurd ⟨data, entries, hj, hl⟩ hno
  · exact generateFromOllama_of_not_ok fetch exp _ _ _ _ _ response h (by simpa using hok)

theorem handleGenerate_of_error
    (fetch : OllamaRequest → Except Message HttpResponse) (exp : ℚ → ℚ)
    (session : Session) (inputs : GenerateInputs) (message : Message)
    (h : generateFromOllama fetch exp (inputs.minProbability / 100) (trim inputs.prompt)
      inputs.maxTokens inputs.temperature inputs.topLogprobs = Except.error message) :
    (handleGenerate fetch exp session inputs).state = session.state := by
  unfold handleGenerate
  by_cases h1 : trim inputs.prompt = ""
  · simp only [h1, if_true]
  · by_cases h2 : maxTokensOutOfRange inputs.maxTokens = true
    · simp only [h1, h2, if_true, if_false]
    · simp [h1, h2, h]

theorem handleGenerate_of_ok
    (fetch : OllamaRequest → Except Message HttpResponse) (exp : ℚ → ℚ)
    (session : Session) (inputs : GenerateInputs) (tokens : List Token)
    (h1 : trim inputs.prompt ≠ "") (h2 : maxTokensOutOfRange inputs.maxTokens = false)
    (h : generateFromOllama fetch exp (inputs.minProbability / 100) (trim inputs.prompt)
      inputs.maxTokens inputs.temperature inputs.topLogprobs = Except.ok tokens) :
    (handleGenerate fetch exp session inputs).state
      = { baseTokens := tokens, activeBranches := [], branchContinuations := [] } := by
  unfold handleGenerate
  simp [h1, h2, h]

/-- The threshold `config.minAlternativeProbability` is written before the
request is sent: it is replaced also when the backend then fails. -/
theorem handleGenerate_threshold_on_failure
    (fetch : OllamaRequest → Except Message HttpResponse) (exp : ℚ → ℚ)
    (session : Session) (inputs : GenerateInputs) (message : Message)
    (h1 : trim inputs.prompt ≠ "") (h2 : maxTokensOutOfRange inputs.maxTokens = false)
    (h : generateFromOllama fetch exp (inputs.minProbability / 100) (trim inputs.prompt)
      inputs.maxTokens inputs.temperature inputs.topLogprobs = Except.error message) :
    (handleGenerate fetch exp session inputs).minAlternativeProbability
      = inputs.minProbability / 100 := by
  unfold handleGenerate
  simp [h1, h2, h]

/-- After `handleGenerate` the state is the one before the call, or the new
tokens of a successful generation with nothing active and nothing cached. -/
theorem handleGenerate_cases (fetch : OllamaRequest → Except Message HttpResponse)
    (exp : ℚ → ℚ) (session : Session) (inputs : GenerateInputs) :
    (handleGenerate fetch exp session inputs).state = session.state ∨
      ∃ tokens, generateFromOllama fetch exp (inputs.minProbability / 100) (trim inputs.prompt)
          inputs.maxTokens inputs.temperature inputs.topLogprobs = Except.ok tokens ∧
        trim inputs.prompt ≠ "" ∧ maxTokensOutOfRange inputs.maxTokens = false ∧
        (handleGenerate fetch exp session inputs).state
          = { baseTokens := tokens, activeBranches := [], branchContinuations := [] } := by
  by_cases h1 : trim inputs.prompt = ""
  · left
    unfold handleGenerate
    simp only [h1, if_true]
  · by_cases h2 : maxTokensOutOfRange inputs.maxTokens = true
    · left
      unfold handleGenerate
      simp only [h1, h2, if_true, if_false]
    · have h2' : maxTokensOutOfRange inputs.maxTokens = false := by simpa using h2
      cases hg : generateFromOllama fetch exp (inputs.minProbability / 100)
          (trim inputs.prompt) inputs.maxTokens inputs.temperature inputs.topLogprobs with
      | error message => exact Or.inl (handleGenerate_of_error fetch exp session inputs _ hg)
      | ok tokens =>
        exact Or.inr ⟨tokens, rfl, h1, h2',
          handleGenerate_of_ok fetch exp session inputs tokens h1 h2' hg⟩

/-- Claim C18. A call of `handleGenerate` leaves `state` (its `baseTokens`,
`activeBranches` and `branchContinuations`) exactly as it was when the trimmed
prompt is empty (as it is for a prompt of white space and line terminators
only), when `maxTokens` is below 1 or above 200, when the request fails or is
answered with a non-success status, when the response has no `logprobs` array
(its body is not JSON, is `null`, or has `logprobs` missing or not an array),
and whenever the generation throws for another reason. The state is replaced
only by a successful generation, and then by the new tokens with no active
branch and no cached continuation. -/
theorem handleGenerate_state (fetch : OllamaRequest → Except Message HttpResponse)
    (exp : ℚ → ℚ) (session : Session) (inputs : GenerateInputs) :
    (trim inputs.prompt = "" →
      (handleGenerate fetch exp session inputs).state = session.state) ∧
    ((∀ c ∈ inputs.prompt.data, isTrimmed c = true) →
      (handleGenerate fetch exp session inputs).state = session.state) ∧
    (∀ m : Int, inputs.maxTokens = some m → (m < 1 ∨ m > 200) →
      (handleGenerate fetch exp session inputs).state = session.state) ∧
    (∀ message, fetch (ollamaRequest (trim inputs.prompt) inputs.maxTokens inputs.temperature
        inputs.topLogprobs) = Except.error message →
      (handleGenerate fetch exp session inputs).state = session.state) ∧
    (∀ response, fetch (ollamaRequest (trim inputs.prompt) inputs.maxTokens inputs.temperature
        inputs.topLogprobs) = Except.ok response →
      (response.ok = false ∨ ¬ ∃ data entries, response.json = Except.ok (some data) ∧
        data.logprobs = ArrayField.array entries) →
      (handleGenerate fetch exp session inputs).state = session.state) ∧
    (∀ message, generateFromOllama fetch exp (inputs.minProbability / 100) (trim inputs.prompt)
        inputs.maxTokens inputs.temperature inputs.topLogprobs = Except.error message →
      (handleGenerate fetch exp session inputs).state = session.state) ∧
    ((handleGenerate fetch exp session inputs).state = session.state ∨
      ∃ tokens, generateFromOllama fetch exp (inputs.minProbability / 100) (trim inputs.prompt)
          inputs.maxTokens inputs.temperature inputs.topLogprobs = Except.ok tokens ∧
        trim inputs.prompt ≠ "" ∧ maxTokensOutOfRange inputs.maxTokens = false ∧
        (handleGenerate fetch exp session inputs).state
          = { baseTokens := tokens, activeBranches := [], branchContinuations := [] }) := by
  have hempty : trim inputs.prompt = "" →
      (handleGenerate fetch exp session inputs).state = session.state := by
    intro h1
    unfold handleGenerate
    simp only [h1, if_true]
  refine ⟨hempty, fun hall => hempty (trim_eq_empty_of_all _ hall), ?_, ?_, ?_,
    fun message hm => handleGenerate_of_error fetch exp session inputs message hm,
    handleGenerate_cases fetch exp session inputs⟩
  · intro m hm hr
    unfold handleGenerate
    by_cases h1 : trim inputs.prompt = ""
    · simp only [h1, if_true]
    · have h2 : maxTokensOutOfRange inputs.maxTokens = true := by
        rw [hm]
        simpa [maxTokensOutOfRange] using hr
      simp only [h1, h2, if_true, if_false]
  · intro message hf
    exact handleGenerate_of_error fetch exp session inputs message
      (generateFromOllama_of_fetch_error fetch exp _ _ _ _ _ message hf)
  · intro response hf hbad
    rcases hbad with hb | hb
    · obtain ⟨message, hm⟩ := generateFromOllama_of_not_ok fetch exp
        (inputs.minProbability / 100) _ _ _ _ response hf hb
      exact handleGenerate_of_error fetch exp session inputs message hm
    · obtain ⟨message, hm⟩ := generateFromOllama_of_no_array fetch exp
        (inputs.minProbability / 100) _ _ _ _ response hf hb
      exact handleGenerate_of_error fetch exp session inputs message hm

/-! ## The groups of `relaxAlternativePositions` -/

theorem lookup_pushToGroup (key : Int) (pos : Nat) (groups : List (Int × List Nat)) (k : Int) :
    (pushToGroup key pos groups).lookup k
      = if k = key then some ((groups.lookup key).getD [] ++ [pos]) else groups.lookup k := by
  induction groups with
  | nil =>
    by_cases h : k = key
    · simp [pushToGroup, List.lookup, h]
    · have hb : (k == key) = false := by simpa using h
      simp [pushToGroup, List.lookup, h, hb]
  | cons g rest ih =>
    obtain ⟨k0, ms⟩ := g
    unfold pushToGroup
    by_cases h0 : k0 = key
    · subst h0
      by_cases h : k = k0
      · subst h
        simp [List.lookup]
      · have hb : (k == k0) = false := by simpa using h
        simp [List.lookup, hb, h]
    · rw [if_neg h0]
      by_cases h : k = key
      · subst h
        have hb : (k == k0) = false := by
          simp only [beq_eq_false_iff_ne, ne_eq]
          exact fun hc => h0 hc.symm
        simp only [List.lookup, hb, ih, if_true]
      · by_cases hk : k = k0
        · subst hk
          simp [List.lookup, h]
        · have hb : (k == k0) = false := by simpa using hk
          simp only [List.lookup, hb, ih, if_neg h]

theorem keys_pushToGroup (key : Int) (pos : Nat) (groups : List (Int × List Nat)) :
    (pushToGroup key pos groups).map Prod.fst
      = if key ∈ groups.map Prod.fst then groups.map Prod.fst
        else groups.map Prod.fst ++ [key] := by
  induction groups with
  | nil => simp [pushToGroup]
  | cons g rest ih =>
    obtain ⟨k0, ms⟩ := g
    unfold pushToGroup
    by_cases h0 : k0 = key
    · subst h0
      simp
    · rw [if_neg h0]
      have hne : ¬ key = k0 := fun hc => h0 hc.symm
      by_cases hmem : key ∈ rest.map Prod.fst
      · simp only [List.map_cons, ih, if_pos hmem, List.mem_cons, hne, false_or]
      · simp only [List.map_cons, ih, if_neg hmem, List.mem_cons, hne, false_or,
          List.cons_append]

theorem nodup_keys_pushToGroup (key : Int) (pos : Nat) (groups : List (Int × List Nat))
    (h : (groups.map Prod.fst).Nodup) : ((pushToGroup key pos groups).map Prod.fst).Nodup := by
  rw [keys_pushToGroup]
  by_cases hmem : key ∈ groups.map Prod.fst
  · rw [if_pos hmem]
    exact h
  · rw [if_neg hmem]
    exact List.Nodup.append h (List.nodup_singleton _) (by simpa using hmem)

theorem groupAlternatives_nodup_keys (suffix : List Node) (pos : Nat)
    (groups : List (Int × List Nat)) (h : (groups.map Prod.fst).Nodup) :
    ((groupAlternatives suffix pos groups).map Prod.fst).Nodup := by
  induction suffix generalizing pos groups with
  | nil => exact h
  | cons node rest ih =>
    unfold groupAlternatives
    apply ih
    by_cases hm : (!node.isMainPath) = true
    · rw [if_pos hm]
      exact nodup_keys_pushToGroup _ _ _ h
    · rw [if_neg hm]
      exact h

theorem groupAlternatives_lookup (suffix : List Node) (pos : Nat)
    (groups : List (Int × List Nat)) (t : Int) :
    (groupAlternatives suffix pos groups).lookup t
      = pushedMembers (groups.lookup t) (membersFrom t suffix pos) := by
  induction suffix generalizing pos groups with
  | nil => simp [groupAlternatives, membersFrom, pushedMembers]
  | cons node rest ih =>
    unfold groupAlternatives membersFrom
    rw [ih]
    by_cases hm : node.isMainPath = true
    · simp [hm, inGroup]
    · have hm' : node.isMainPath = false := by simpa using hm
      by_cases ht : node.tokenIndex = t
      · subst ht
        simp only [hm', Bool.not_false, if_true, lookup_pushToGroup, inGroup, decide_True,
          Bool.and_self]
        unfold pushedMembers
        by_cases hnil : membersFrom node.tokenIndex rest (pos + 1) = []
        · simp [hnil]
        · simp [hnil]
      · have ht' : ¬ t = node.tokenIndex := fun hc => ht hc.symm
        simp [hm', lookup_pushToGroup, inGroup, ht, ht']

theorem lookup_of_mem_nodup (groups : List (Int × List Nat)) (k : Int) (ms : List Nat)
    (hn : (groups.map Prod.fst).Nodup) (hm : (k, ms) ∈ groups) :
    groups.lookup k = some ms := by
  induction groups with
  | nil => cases hm
  | cons g rest ih =>
    obtain ⟨k0, ms0⟩ := g
    simp only [List.map_cons, List.nodup_cons] at hn
    rcases List.mem_cons.mp hm with heq | hmem
    · cases heq
      simp [List.lookup]
    · have hne : k ≠ k0 := by
        intro hc
        subst hc
        exact hn.1 (List.mem_map.mpr ⟨(k, ms), hmem, rfl⟩)
      have hb : (k == k0) = false := by simpa using hne
      simp only [List.lookup, hb]
      exact ih hn.2 hmem

theorem alternativesByToken_nodup_keys (tree : List Node) :
    ((alternativesByToken tree).map Prod.fst).Nodup :=
  groupAlternatives_nodup_keys tree 0 [] List.nodup_nil

theorem alternativesByToken_lookup (tree : List Node) (t : Int) :
    (alternativesByToken tree).lookup t = pushedMembers none (membersFrom t tree 0) :=
  groupAlternatives_lookup tree 0 [] t

theorem alternativesByToken_members (tree : List Node) (k : Int) (ms : List Nat)
    (h : (k, ms) ∈ alternativesByToken tree) : ms = membersFrom k tree 0 := by
  have hl := lookup_of_mem_nodup _ k ms (alternativesByToken_nodup_keys tree) h
  rw [alternativesByToken_lookup] at hl
  unfold pushedMembers at hl
  by_cases hnil : membersFrom k tree 0 = []
  · rw [if_pos hnil] at hl
    cases hl
  · rw [if_neg hnil] at hl
    simpa using (Option.some.inj hl).symm

theorem groupOf_alternativesByToken (tree : List Node) (t : Int) :
    groupOf (alternativesByToken tree) t = membersFrom t tree 0 := by
  unfold groupOf
  rw [alternativesByToken_lookup]
  unfold pushedMembers
  by_cases hnil : membersFrom t tree 0 = []
  · simp [hnil]
  · simp [hnil]

theorem mem_of_lookup (groups : List (Int × List Nat)) (k : Int) (ms : List Nat)
    (h : groups.lookup k = some ms) : (k, ms) ∈ groups := by
  induction groups with
  | nil => simp [List.lookup] at h
  | cons g rest ih =>
    obtain ⟨k0, ms0⟩ := g
    by_cases hk : k = k0
    · subst hk
      simp [List.lookup] at h
      subst h
      exact List.mem_cons_self _ _
    · have hb : (k == k0) = false := by simpa using hk
      simp only [List.lookup, hb] at h
      exact List.mem_cons_of_mem _ (ih h)

theorem mem_alternativesByToken_of_members (tree : List Node) (t : Int)
    (h : membersFrom t tree 0 ≠ []) : (t, membersFrom t tree 0) ∈ alternativesByToken tree := by
  have hl := alternativesByToken_lookup tree t
  unfold pushedMembers at hl
  rw [if_neg h] at hl
  simp only [Option.getD_none, List.nil_append] at hl
  exact mem_of_lookup _ t _ hl

/-! ## Members of a group -/

theorem membersFrom_mem (t : Int) (l : List Node) (pos q : Nat)
    (h : q ∈ membersFrom t l pos) :
    ∃ j n, q = pos + j ∧ l[j]? = some n ∧ inGroup t n = true := by
  induction l generalizing pos with
  | nil => cases h
  | cons a rest ih =>
    unfold membersFrom at h
    by_cases ha : inGroup t a = true
    · rw [if_pos ha] at h
      rcases List.mem_cons.mp h with rfl | h
      · exact ⟨0, a, rfl, List.getElem?_cons_zero, ha⟩
      · obtain ⟨j, n, hq, hj, hn⟩ := ih (pos + 1) h
        exact ⟨j + 1, n, by omega, by simpa using hj, hn⟩
    · rw [if_neg ha] at h
      obtain ⟨j, n, hq, hj, hn⟩ := ih (pos + 1) h
      exact ⟨j + 1, n, by omega, by simpa using hj, hn⟩

theorem membersFrom_nodup (t : Int) (l : List Node) (pos : Nat) :
    (membersFrom t l pos).Nodup := by
  induction l generalizing pos with
  | nil => exact List.nodup_nil
  | cons a rest ih =>
    unfold membersFrom
    by_cases ha : inGroup t a = true
    · rw [if_pos ha]
      refine List.nodup_cons.mpr ⟨?_, ih (pos + 1)⟩
      intro hmem
      obtain ⟨j, _, hq, _, _⟩ := membersFrom_mem t rest (pos + 1) pos hmem
      omega
    · rw [if_neg ha]
      exact ih (pos + 1)

theorem membersFrom_getElem? (t : Int) (l : List Node) (pos j : Nat) (n : Node)
    (hj : l[j]? = some n) (hn : inGroup t n = true) :
    (membersFrom t l pos)[((l.take j).filter (inGroup t)).length]? = some (pos + j) := by
  induction l generalizing pos j with
  | nil => simp at hj
  | cons a rest ih =>
    cases j with
    | zero =>
      simp only [List.getElem?_cons_zero, Option.some.injEq] at hj
      subst hj
      simp [membersFrom, hn]
    | succ i =>
      have hi : rest[i]? = some n := by simpa using hj
      have := ih (pos + 1) i hi
      unfold membersFrom
      by_cases ha : inGroup t a = true
      · simp only [ha, if_true, List.take_succ_cons, List.filter_cons, List.length_cons,
          List.getElem?_cons_succ]
        rw [this]
        congr 1
        omega
      · have ha' : inGroup t a = false := by simpa using ha
        simp only [ha', List.take_succ_cons, List.filter_cons, Bool.false_eq_true, if_false]
        rw [this]
        congr 1
        omega

theorem membersFrom_same_token (t t' : Int) (l : List Node) (q : Nat)
    (h : q ∈ membersFrom t l 0) (h' : q ∈ membersFrom t' l 0) : t = t' := by
  obtain ⟨j, n, hq, hj, hn⟩ := membersFrom_mem t l 0 q h
  obtain ⟨j', n', hq', hj', hn'⟩ := membersFrom_mem t' l 0 q h'
  have hjj : j = j' := by omega
  subst hjj
  rw [hj] at hj'
  cases hj'
  simp only [inGroup, Bool.and_eq_true, decide_eq_true_eq] at hn hn'
  rw [← hn.2, ← hn'.2]

/-! ## The initial layout -/

theorem setY_getElem? (tree : List Node) (pos : Nat) (y : ℚ) (p : Nat) :
    (setY tree pos y)[p]?
      = if p = pos then (tree[p]?).map (fun n => { n with y := y }) else tree[p]? := by
  induction tree generalizing pos p with
  | nil => cases pos <;> simp [setY]
  | cons a rest ih =>
    cases pos with
    | zero =>
      cases p with
      | zero => simp [setY]
      | succ i => simp [setY]
    | succ k =>
      cases p with
      | zero => simp [setY]
      | succ i => simp [setY, ih]

theorem initGroup_getElem?_of_not_mem (alts : List Nat) (idx : Nat) (tree : List Node)
    (p : Nat) (h : p ∉ alts) : (initGroup alts idx tree)[p]? = tree[p]? := by
  induction alts generalizing idx tree with
  | nil => rfl
  | cons pos rest ih =>
    unfold initGroup
    have hne : p ≠ pos := fun hc => h (by rw [hc]; exact List.mem_cons_self _ _)
    rw [ih _ _ (fun hc => h (List.mem_cons_of_mem _ hc)), setY_getElem?, if_neg hne]

theorem initGroup_getElem?_of_mem (alts : List Nat) (idx : Nat) (tree : List Node)
    (p c : Nat) (hn : alts.Nodup) (hc : alts[c]? = some p) :
    (initGroup alts idx tree)[p]?
      = (tree[p]?).map (fun n => { n with y := initialY (idx + c) }) := by
  induction alts generalizing idx tree c with
  | nil => simp at hc
  | cons pos rest ih =>
    unfold initGroup
    have hnd := List.nodup_cons.mp hn
    cases c with
    | zero =>
      simp only [List.getElem?_cons_zero, Option.some.injEq] at hc
      subst hc
      rw [initGroup_getElem?_of_not_mem rest _ _ pos hnd.1, setY_getElem?, if_pos rfl]
      rfl
    | succ i =>
      have hi : rest[i]? = some p := by simpa using hc
      have hne : p ≠ pos := by
        intro heq
        subst heq
        exact hnd.1 (List.mem_iff_getElem?.mpr ⟨_, hi⟩)
      rw [ih (idx + 1) _ i hnd.2 hi, setY_getElem?, if_neg hne,
        show idx + 1 + i = idx + (i + 1) by omega]

theorem initPositions_getElem?_of_not_mem (groups : List (Int × List Nat)) (tree : List Node)
    (p : Nat) (h : ∀ g ∈ groups, p ∉ g.2) : (initPositions groups tree)[p]? = tree[p]? := by
  induction groups generalizing tree with
  | nil => rfl
  | cons g rest ih =>
    obtain ⟨k, alts⟩ := g
    unfold initPositions
    rw [ih _ (fun g' hg' => h g' (List.mem_cons_of_mem _ hg')),
      initGroup_getElem?_of_not_mem alts 0 tree p (h (k, alts) (List.mem_cons_self _ _))]

theorem initPositions_getElem?_of_mem (groups : List (Int × List Nat)) (tree : List Node)
    (hn : ∀ g ∈ groups, g.2.Nodup)
    (hd : groups.Pairwise (fun g g' => ∀ q, q ∈ g.2 → q ∉ g'.2))
    (g : Int × List Nat) (hg : g ∈ groups) (p c : Nat) (hc : g.2[c]? = some p) :
    (initPositions groups tree)[p]?
      = (tree[p]?).map (fun n => { n with y := initialY c }) := by
  induction groups generalizing tree with
  | nil => cases hg
  | cons g0 rest ih =>
    obtain ⟨k0, alts0⟩ := g0
    have hpw := List.pairwise_cons.mp hd
    unfold initPositions
    rcases List.mem_cons.mp hg with heq | hmem
    · subst heq
      rw [initPositions_getElem?_of_not_mem rest _ p
          (fun g' hg' => hpw.1 g' hg' p (List.mem_iff_getElem?.mpr ⟨_, hc⟩)),
        initGroup_getElem?_of_mem alts0 0 tree p c (hn _ (List.mem_cons_self _ _)) hc,
        Nat.zero_add]
    · have hnot : p ∉ alts0 := fun hp => hpw.1 g hmem p hp (List.mem_iff_getElem?.mpr ⟨_, hc⟩)
      rw [ih _ (fun g' hg' => hn g' (List.mem_cons_of_mem _ hg')) hpw.2 hmem,
        initGroup_getElem?_of_not_mem alts0 0 tree p hnot]

theorem alternativesByToken_disjoint (tree : List Node) :
    (alternativesByToken tree).Pairwise (fun g g' => ∀ q, q ∈ g.2 → q ∉ g'.2) := by
  have hk : (alternativesByToken tree).Pairwise (fun g g' => g.1 ≠ g'.1) :=
    List.pairwise_map.mp (alternativesByToken_nodup_keys tree)
  refine List.Pairwise.imp_of_mem ?_ hk
  intro g g' hg hg' hne q hq hq'
  obtain ⟨k, ms⟩ := g
  obtain ⟨k', ms'⟩ := g'
  have h1 := alternativesByToken_members tree k ms hg
  have h2 := alternativesByToken_members tree k' ms' hg'
  simp only at hq hq' hne
  rw [h1] at hq
  rw [h2] at hq'
  exact hne (membersFrom_same_token k k' tree q hq hq')

/-- After the initialisation, a non-main-path node keeps all fields but `y`,
and its `y` is `initialY` of its rank within its group. -/
theorem initPositions_node (tree : List Node) (p : Nat) (n : Node) (hp : tree[p]? = some n)
    (hm : n.isMainPath = false) :
    (initPositions (alternativesByToken tree) tree)[p]?
      = some { n with y := initialY (groupIndex tree p n.tokenIndex) } := by
  have hin : inGroup n.tokenIndex n = true := by simp [inGroup, hm]
  have hc := membersFrom_getElem? n.tokenIndex tree 0 p n hp hin
  rw [Nat.zero_add] at hc
  have hne : membersFrom n.tokenIndex tree 0 ≠ [] := by
    intro hnil
    rw [hnil] at hc
    simp at hc
  have hg := mem_alternativesByToken_of_members tree n.tokenIndex hne
  rw [initPositions_getElem?_of_mem (alternativesByToken tree) tree
    (fun g hg' => by
      obtain ⟨k, ms⟩ := g
      rw [alternativesByToken_members tree k ms hg']
      exact membersFrom_nodup k tree 0)
    (alternativesByToken_disjoint tree) _ hg p (groupIndex tree p n.tokenIndex) hc, hp]
  rfl

theorem config_startY : config.startY = 400 := rfl

theorem config_verticalSpacing : config.verticalSpacing = 80 := rfl

theorem initialY_even (idx : Nat) (h : idx % 2 = 0) :
    initialY idx = config.startY - (((idx / 2 : Nat) : ℚ) + 1) * config.verticalSpacing := by
  unfold initialY
  rw [if_pos h]
  push_cast
  ring

theorem initialY_odd (idx : Nat) (h : idx % 2 = 1) :
    initialY idx
      = config.startY + ((((idx - 1) / 2 : Nat) : ℚ) + 1) * config.verticalSpacing := by
  unfold initialY
  have h0 : ¬ idx % 2 = 0 := by omega
  have hd : (idx - 1) / 2 = idx / 2 := by omega
  rw [if_neg h0, hd]
  push_cast
  ring

theorem initialY_ne_startY (idx : Nat) : initialY idx ≠ config.startY := by
  have hpos : (0 : ℚ) < ((idx / 2 : Nat) : ℚ) + 1 := by positivity
  have hpos' : (0 : ℚ) < (((idx - 1) / 2 : Nat) : ℚ) + 1 := by positivity
  rcases Nat.mod_two_eq_zero_or_one idx with h | h
  · rw [initialY_even idx h, config_verticalSpacing]
    intro hc
    nlinarith
  · rw [initialY_odd idx h, config_verticalSpacing]
    intro hc
    nlinarith

theorem initialY_mirror (k : Nat) :
    initialY (2 * k) - config.startY = -(initialY (2 * k + 1) - config.startY) := by
  rw [initialY_even (2 * k) (by omega), initialY_odd (2 * k + 1) (by omega)]
  have h1 : 2 * k / 2 = k := by omega
  have h2 : (2 * k + 1 - 1) / 2 = k := by omega
  rw [h1, h2]
  ring

theorem initialY_apart (i j : Nat) (h : i ≠ j) :
    |initialY i - initialY j| ≥ config.verticalSpacing := by
  rw [config_verticalSpacing]
  have hi0 : (0 : ℚ) ≤ ((i / 2 : Nat) : ℚ) := Nat.cast_nonneg _
  have hj0 : (0 : ℚ) ≤ ((j / 2 : Nat) : ℚ) := Nat.cast_nonneg _
  rcases Nat.mod_two_eq_zero_or_one i with hi | hi <;>
    rcases Nat.mod_two_eq_zero_or_one j with hj | hj
  · have hne : i / 2 ≠ j / 2 := by omega
    rw [initialY_even i hi, initialY_even j hj, config_verticalSpacing]
    rcases lt_or_gt_of_ne hne with hlt | hlt
    · have : ((i / 2 : Nat) : ℚ) + 1 ≤ ((j / 2 : Nat) : ℚ) := by exact_mod_cast hlt
      exact le_trans (by linarith) (le_abs_self _)
    · have : ((j / 2 : Nat) : ℚ) + 1 ≤ ((i / 2 : Nat) : ℚ) := by exact_mod_cast hlt
      exact le_trans (by linarith) (neg_le_abs _)
  · have hd : (j - 1) / 2 = j / 2 := by omega
    rw [initialY_even i hi, initialY_odd j hj, hd, config_verticalSpacing]
    exact le_trans (by linarith) (neg_le_abs _)
  · have hd : (i - 1) / 2 = i / 2 := by omega
    rw [initialY_odd i hi, hd, initialY_even j hj, config_verticalSpacing]
    exact le_trans (by linarith) (le_abs_self _)
  · have hne : i / 2 ≠ j / 2 := by omega
    have hdi : (i - 1) / 2 = i / 2 := by omega
    have hdj : (j - 1) / 2 = j / 2 := by omega
    rw [initialY_odd i hi, initialY_odd j hj, hdi, hdj, config_verticalSpacing]
    rcases lt_or_gt_of_ne hne with hlt | hlt
    · have : ((i / 2 : Nat) : ℚ) + 1 ≤ ((j / 2 : Nat) : ℚ) := by exact_mod_cast hlt
      exact le_trans (by linarith) (neg_le_abs _)
    · have : ((j / 2 : Nat) : ℚ) + 1 ≤ ((i / 2 : Nat) : ℚ) := by exact_mod_cast hlt
      exact le_trans (by linarith) (le_abs_self _)

theorem groupIndex_lt (tree : List Node) (p q : Nat) (n : Node) (t : Int)
    (hp : tree[p]? = some n) (hn : inGroup t n = true) (hpq : p < q) :
    groupIndex tree p t < groupIndex tree q t := by
  have hlen : p < tree.length := by
    by_contra hc
    rw [List.getElem?_eq_none (by omega)] at hp
    cases hp
  have hget : tree[p] = n := by
    rw [List.getElem?_eq_getElem hlen] at hp
    exact Option.some.inj hp
  unfold groupIndex
  have hq : q = p + (q - p) := by omega
  rw [hq, List.take_add, List.filter_append, List.length_append]
  have hdrop : List.drop p tree = n :: List.drop (p + 1) tree := by
    rw [← hget]
    exact List.drop_eq_getElem_cons hlen
  obtain ⟨d, hd⟩ : ∃ d, q - p = d + 1 := ⟨q - p - 1, by omega⟩
  rw [hdrop, hd, List.take_succ_cons, List.filter_cons, if_pos hn, List.length_cons]
  omega

theorem groupIndex_ne (tree : List Node) (p q : Nat) (n n' : Node) (t : Int)
    (hp : tree[p]? = some n) (hq : tree[q]? = some n') (hn : inGroup t n = true)
    (hn' : inGroup t n' = true) (hpq : p ≠ q) : groupIndex tree p t ≠ groupIndex tree q t := by
  rcases lt_or_gt_of_ne hpq with h | h
  · exact Nat.ne_of_lt (groupIndex_lt tree p q n t hp hn h)
  · exact Nat.ne_of_gt (groupIndex_lt tree q p n' t hq hn' h)

/-- Claim C19. Before the first relaxation iteration, the node at tree
position `p` that is not on the main path keeps all fields but `y`. With `idx`
its rank in tree order among the non-main-path nodes of the same `tokenIndex`,
its `y` is `startY - (idx / 2 + 1) * verticalSpacing` for even `idx` and
`startY + ((idx - 1) / 2 + 1) * verticalSpacing` for odd `idx`, never the
baseline. Two different members of one group are at least `verticalSpacing`
apart, and members `2 k` and `2 k + 1` are mirror images about the baseline. -/
theorem initPositions_initial_layout (tree : List Node) :
    (∀ (p : Nat) (n : Node), tree[p]? = some n → n.isMainPath = false →
      ∃ m, (initPositions (alternativesByToken tree) tree)[p]? = some m ∧
        m = { n with y := m.y } ∧
        (groupIndex tree p n.tokenIndex % 2 = 0 →
          m.y = config.startY -
            (((groupIndex tree p n.tokenIndex / 2 : Nat) : ℚ) + 1) * config.verticalSpacing) ∧
        (groupIndex tree p n.tokenIndex % 2 = 1 →
          m.y = config.startY +
            ((((groupIndex tree p n.tokenIndex - 1) / 2 : Nat) : ℚ) + 1) *
              config.verticalSpacing) ∧
        m.y ≠ config.startY) ∧
    (∀ (p q : Nat) (n n' m m' : Node), tree[p]? = some n → tree[q]? = some n' →
      n.isMainPath = false → n'.isMainPath = false → n.tokenIndex = n'.tokenIndex →
      (initPositions (alternativesByToken tree) tree)[p]? = some m →
      (initPositions (alternativesByToken tree) tree)[q]? = some m' →
      (p ≠ q → |m.y - m'.y| ≥ config.verticalSpacing) ∧
      (∀ k, groupIndex tree p n.tokenIndex = 2 * k →
        groupIndex tree q n.tokenIndex = 2 * k + 1 →
        m.y - config.startY = -(m'.y - config.startY))) := by
  constructor
  · intro p n hp hm
    refine ⟨_, initPositions_node tree p n hp hm, rfl, ?_, ?_, ?_⟩
    · exact initialY_even _
    · exact initialY_odd _
    · exact initialY_ne_startY _
  · intro p q n n' m m' hp hq hm hm' ht hmp hmq
    rw [initPositions_node tree p n hp hm] at hmp
    rw [initPositions_node tree q n' hq hm'] at hmq
    have hy : m.y = initialY (groupIndex tree p n.tokenIndex) := by
      rw [← Option.some.inj hmp]
    have hy' : m'.y = initialY (groupIndex tree q n.tokenIndex) := by
      rw [← Option.some.inj hmq, ht]
    rw [hy, hy']
    constructor
    · intro hpq
      exact initialY_apart _ _ (groupIndex_ne tree p q n n' n.tokenIndex hp hq
        (by simp [inGroup, hm]) (by simp [inGroup, hm', ht]) hpq)
    · intro k hk hk'
      rw [hk, hk']
      exact initialY_mirror k

/-! ## The builder reads only the active branches of the state -/

theorem altNodes_congr (measure : String → ℚ → ℚ) (st st' : State)
    (h : st.activeBranches = st'.activeBranches) (tokens : List Token) (index : Nat)
    (currentX : ℚ) (mainPos : Nat) (alts : List AltToken) (altIndex : Nat) :
    altNodes measure st tokens index currentX mainPos alts altIndex
      = altNodes measure st' tokens index currentX mainPos alts altIndex := by
  induction alts generalizing altIndex with
  | nil => rfl
  | cons alt rest ih =>
    unfold altNodes
    rw [ih, h]

theorem baseNodes_congr (measure : String → ℚ → ℚ) (st st' : State)
    (h : st.activeBranches = st'.activeBranches) (tokens : List Token) (rest : List Token)
    (index : Nat) (currentX : ℚ) (len : Nat) :
    baseNodes measure st tokens rest index currentX len
      = baseNodes measure st' tokens rest index currentX len := by
  induction rest generalizing index currentX len with
  | nil => rfl
  | cons token rest ih =>
    unfold baseNodes
    rw [ih, altNodes_congr measure st st' h]

/-! ## The session invariant -/

theorem keys_mapSet_of_not_mem (key : String) (value : List Token)
    (m : List (String × List Token)) (h : key ∉ m.map Prod.fst) :
    (mapSet key value m).map Prod.fst = m.map Prod.fst ++ [key] := by
  induction m with
  | nil => rfl
  | cons e rest ih =>
    obtain ⟨k, v⟩ := e
    have hk : ¬ k = key := by
      intro hc
      exact h (by simp [hc])
    have hrest : key ∉ rest.map Prod.fst := fun hc => h (by simp [hc])
    simp [mapSet, hk, ih hrest]

theorem lookup_isSome_iff_mem_keys (m : List (String × List Token)) (id : String) :
    (∃ c, m.lookup id = some c) ↔ id ∈ m.map Prod.fst := by
  induction m with
  | nil => simp [List.lookup]
  | cons e rest ih =>
    obtain ⟨k, v⟩ := e
    by_cases hk : id = k
    · subst hk
      simp [List.lookup]
    · have hb : (id == k) = false := by simpa using hk
      simp only [List.lookup, hb, ih, List.map_cons, List.mem_cons, hk, false_or]

theorem sessionInvariant_handleAlternativeClick (st : State) (node : Node)
    (pick : Fin mockContinuations.length) (h : SessionInvariant st) :
    SessionInvariant (handleAlternativeClick st node pick) := by
  unfold handleAlternativeClick
  cases hid : node.branchId with
  | none => exact h
  | some id =>
    by_cases hact : st.activeBranches.any (fun b => b.branchId == id) = true
    · simp only [hact, if_true]
      exact h
    · have hact' : st.activeBranches.any (fun b => b.branchId == id) = false := by
        simpa using hact
      simp only [hact', Bool.false_eq_true, if_false]
      have hnot : id ∉ st.activeBranches.map (fun b => b.branchId) := by
        intro hmem
        obtain ⟨b, hb, hbid⟩ := List.mem_map.mp hmem
        exact hact (List.any_eq_true.mpr ⟨b, hb, by simp [hbid]⟩)
      obtain ⟨hn, hk⟩ := h
      refine ⟨?_, ?_⟩
      · simp only [generateBranchContinuation, List.map_append, List.map_cons, List.map_nil]
        exact List.Nodup.append hn (List.nodup_singleton _) (by simpa using hnot)
      · simp only [generateBranchContinuation, List.map_append, List.map_cons, List.map_nil]
        rw [keys_mapSet_of_not_mem id _ _ (by rw [hk]; exact hnot), hk]

theorem sessionInvariant_handleGenerate (fetch : OllamaRequest → Except Message HttpResponse)
    (exp : ℚ → ℚ) (session : Session) (inputs : GenerateInputs)
    (h : SessionInvariant session.state) :
    SessionInvariant (handleGenerate fetch exp session inputs).state := by
  rcases handleGenerate_cases fetch exp session inputs with hs | ⟨tokens, _, _, _, hs⟩
  · rw [hs]
    exact h
  · rw [hs]
    exact ⟨List.nodup_nil, rfl⟩

theorem sessionInvariant_of_reachable (st : State) (h : Reachable st) : SessionInvariant st := by
  induction h with
  | initial => exact ⟨List.nodup_nil, rfl⟩
  | loadMockData st _ _ => exact ⟨List.nodup_nil, rfl⟩
  | handleGenerate fetch exp session inputs _ ih =>
    exact sessionInvariant_handleGenerate fetch exp session inputs ih
  | handleAlternativeClick st node pick _ ih =>
    exact sessionInvariant_handleAlternativeClick st node pick ih

/-- Claim C21. In every state reachable from the initial state by
`loadMockData`, `handleGenerate` and `handleAlternativeClick` steps, the branch
ids of `state.activeBranches` are pairwise distinct, and a continuation is
cached for a branch id exactly when that id is active; the keys of the cache
are the active ids, in the order of activation. -/
theorem reachable_state_invariant (st : State) (h : Reachable st) :
    (st.activeBranches.map (fun b => b.branchId)).Nodup ∧
    (∀ id : String, (∃ c, st.branchContinuations.lookup id = some c) ↔
      ∃ b ∈ st.activeBranches, b.branchId = id) ∧
    st.branchContinuations.map Prod.fst = st.activeBranches.map (fun b => b.branchId) := by
  obtain ⟨hn, hk⟩ := sessionInvariant_of_reachable st h
  refine ⟨hn, fun id => ?_, hk⟩
  rw [lookup_isSome_iff_mem_keys, hk]
  constructor
  · intro hmem
    obtain ⟨b, hb, hbid⟩ := List.mem_map.mp hmem
    exact ⟨b, hb, hbid⟩
  · rintro ⟨b, hb, hbid⟩
    exact List.mem_map.mpr ⟨b, hb, hbid⟩

/-- Witness for claim C21: the state after loading the mock data and clicking
its alternative `"0-0"`. -/
theorem reachable_state_invariant_witness :
    Reachable (handleAlternativeClick (loadMockData initialState) mockAlternative
      ⟨0, by decide⟩) ∧
    ((handleAlternativeClick (loadMockData initialState) mockAlternative
      ⟨0, by decide⟩).activeBranches.map (fun b => b.branchId)).Nodup :=
  ⟨Reachable.handleAlternativeClick _ _ _ (Reachable.loadMockData _ Reachable.initial),
    (reachable_state_invariant _
      (Reachable.handleAlternativeClick _ _ _
        (Reachable.loadMockData _ Reachable.initial))).1⟩

/-! ## Repulsion between adjacent token positions -/

theorem minDistance_eq : minDistance = 36 := by
  unfold minDistance
  rw [config_verticalSpacing]
  norm_num

theorem targetDistance_eq : targetDistance = 44 := by
  unfold targetDistance
  rw [config_verticalSpacing]
  norm_num

theorem adjacentForce_close (node other : Node) (force : ℚ)
    (hx : |node.x - other.x| < config.wordSpacing * 3)
    (hd : |node.y - other.y| < minDistance) :
    adjacentForce [other] node force 0
      = force + (if node.y > other.y then (minDistance - |node.y - other.y|) * 0.7
          else -((minDistance - |node.y - other.y|) * 0.7)) := by
  unfold adjacentForce
  simp only [List.getElem?_cons_zero, hx, hd, and_self, if_true]

theorem adjacentForce_far (node other : Node) (force : ℚ)
    (hx : ¬ |node.x - other.x| < config.wordSpacing * 3) :
    adjacentForce [other] node force 0
      = if |node.y - other.y| < minDistance * 0.8 then
          force + (if node.y > other.y then (minDistance * 0.8 - |node.y - other.y|) * 0.4
            else -((minDistance * 0.8 - |node.y - other.y|) * 0.4))
        else force := by
  unfold adjacentForce
  simp only [List.getElem?_cons_zero, hx, false_and, if_false]

theorem abs_add_signed_sub (force r : ℚ) (c : Prop) [Decidable c] (hr : 0 ≤ r) :
    |force + (if c then r else -r) - force| = r := by
  by_cases h : c
  · rw [if_pos h, add_sub_cancel_left, abs_of_nonneg hr]
  · rw [if_neg h, add_sub_cancel_left, abs_neg, abs_of_nonneg hr]

/-- Claim C23. Let `d < minDistance = 36` be the vertical gap between a node
and a node of an adjacent token position. When the two are horizontally close
(`|x difference| < 3 * wordSpacing`) the repulsion changes the force by
`0.7 * (minDistance - d)` in magnitude; when they are not, by
`0.4 * (0.8 * minDistance - d)` if `d < 0.8 * minDistance` and by `0` otherwise.
The first magnitude is strictly greater than the second. -/
theorem adjacentForce_close_stronger (node otherClose otherFar : Node) (force : ℚ)
    (hclose : |node.x - otherClose.x| < config.wordSpacing * 3)
    (hfar : ¬ |node.x - otherFar.x| < config.wordSpacing * 3)
    (hgap : |node.y - otherFar.y| = |node.y - otherClose.y|)
    (hd : |node.y - otherClose.y| < minDistance) :
    minDistance = 36 ∧
    |adjacentForce [otherClose] node force 0 - force|
      = 0.7 * (minDistance - |node.y - otherClose.y|) ∧
    |adjacentForce [otherFar] node force 0 - force|
      = (if |node.y - otherClose.y| < 0.8 * minDistance then
          0.4 * (0.8 * minDistance - |node.y - otherClose.y|) else 0) ∧
    |adjacentForce [otherFar] node force 0 - force|
      < |adjacentForce [otherClose] node force 0 - force| := by
  have h0 : 0 ≤ |node.y - otherClose.y| := abs_nonneg _
  have hc : |adjacentForce [otherClose] node force 0 - force|
      = 0.7 * (minDistance - |node.y - otherClose.y|) := by
    rw [adjacentForce_close node otherClose force hclose hd,
      abs_add_signed_sub force _ _ (by nlinarith)]
    ring
  have hf : |adjacentForce [otherFar] node force 0 - force|
      = (if |node.y - otherClose.y| < 0.8 * minDistance then
          0.4 * (0.8 * minDistance - |node.y - otherClose.y|) else 0) := by
    rw [adjacentForce_far node otherFar force hfar, hgap]
    by_cases hlt : |node.y - otherClose.y| < minDistance * 0.8
    · have hlt' : |node.y - otherClose.y| < 0.8 * minDistance := by linarith
      rw [if_pos hlt, if_pos hlt', abs_add_signed_sub force _ _ (by nlinarith)]
      ring
    · have hlt' : ¬ |node.y - otherClose.y| < 0.8 * minDistance := by
        intro hc'
        exact hlt (by linarith)
      rw [if_neg hlt, if_neg hlt']
      simp
  refine ⟨minDistance_eq, hc, hf, ?_⟩
  rw [hc, hf]
  rw [minDistance_eq] at hd ⊢
  by_cases hlt : |node.y - otherClose.y| < 0.8 * 36
  · rw [if_pos hlt]
    linarith
  · rw [if_neg hlt]
    linarith

/-- Witness for claim C23: a node at `x = 0`, one neighbour at `x = 10` and
one at `x = 100`, all three on the same `y` (gap `0`). -/
theorem adjacentForce_close_stronger_witness :
    |adjacentForce [pathNode 100 0 0] (pathNode 0 0 0) 0 0 - 0|
      < |adjacentForce [pathNode 10 0 0] (pathNode 0 0 0) 0 0 - 0| :=
  (adjacentForce_close_stronger (pathNode 0 0 0) (pathNode 10 0 0) (pathNode 100 0 0) 0
    (by simp only [pathNode, config_wordSpacing]; norm_num)
    (by simp only [pathNode, config_wordSpacing]; norm_num)
    (by simp only [pathNode])
    (by simp only [pathNode, minDistance_eq]; norm_num)).2.2.2

/-! ## Relaxation does not read the `y` of non-main-path nodes -/

theorem groupAlternatives_of_frame (s₁ s₂ : List Node) (h : List.Forall₂ RelaxFrame s₁ s₂)
    (pos : Nat) (groups : List (Int × List Nat)) :
    groupAlternatives s₁ pos groups = groupAlternatives s₂ pos groups := by
  induction h generalizing pos groups with
  | nil => rfl
  | @cons a b l₁ l₂ hab _ ih =>
    unfold groupAlternatives
    have hm : b.isMainPath = a.isMainPath := by rw [hab.1]
    have ht : b.tokenIndex = a.tokenIndex := by rw [hab.1]
    rw [hm, ht, ih]

theorem groupIndex_of_frame (t₁ t₂ : List Node) (h : List.Forall₂ RelaxFrame t₁ t₂) (p : Nat)
    (t : Int) : groupIndex t₂ p t = groupIndex t₁ p t := by
  unfold groupIndex
  induction h generalizing p with
  | nil => simp
  | @cons a b l₁ l₂ hab _ ih =>
    cases p with
    | zero => simp
    | succ q =>
      have hin : inGroup t b = inGroup t a := by
        rw [hab.1]
        rfl
      simp only [List.take_succ_cons, List.filter_cons, hin]
      by_cases ha : inGroup t a = true
      · simp only [ha, if_true, List.length_cons, ih q]
      · have ha' : inGroup t a = false := by simpa using ha
        simp only [ha', Bool.false_eq_true, if_false, ih q]

theorem not_mem_group_of_main (tree : List Node) (p : Nat)
    (h : ∀ n, tree[p]? = some n → n.isMainPath = true) :
    ∀ g ∈ alternativesByToken tree, p ∉ g.2 := by
  intro g hg hp
  obtain ⟨k, ms⟩ := g
  have hms := alternativesByToken_members tree k ms hg
  simp only at hp
  rw [hms] at hp
  obtain ⟨j, n, hj, hget, hin⟩ := membersFrom_mem k tree 0 p hp
  have hpj : p = j := by omega
  subst hpj
  have := h n hget
  simp [inGroup, this] at hin

theorem initPositions_of_frame (t₁ t₂ : List Node) (h : List.Forall₂ RelaxFrame t₁ t₂) :
    initPositions (alternativesByToken t₁) t₁ = initPositions (alternativesByToken t₂) t₂ := by
  have hg : alternativesByToken t₂ = alternativesByToken t₁ :=
    (groupAlternatives_of_frame t₁ t₂ h 0 []).symm
  apply List.ext_getElem?
  intro p
  cases h1 : t₁[p]? with
  | none =>
    have h2 : t₂[p]? = none := by
      rw [List.getElem?_eq_none_iff] at h1 ⊢
      rw [← List.Forall₂.length_eq h]
      exact h1
    rw [initPositions_getElem?_of_not_mem _ t₁ p
        (not_mem_group_of_main t₁ p (fun n hn => by rw [h1] at hn; cases hn)),
      initPositions_getElem?_of_not_mem _ t₂ p
        (not_mem_group_of_main t₂ p (fun n hn => by rw [h2] at hn; cases hn)), h1, h2]
  | some a =>
    obtain ⟨b, h2, hab⟩ := forall₂_getElem? RelaxFrame t₁ t₂ h p a h1
    by_cases hm : a.isMainPath = true
    · have hb : b = a := hab.2 hm
      subst hb
      rw [initPositions_getElem?_of_not_mem _ t₁ p
          (not_mem_group_of_main t₁ p (fun n hn => by
            rw [h1] at hn
            cases hn
            exact hm)),
        initPositions_getElem?_of_not_mem _ t₂ p
          (not_mem_group_of_main t₂ p (fun n hn => by
            rw [h2] at hn
            cases hn
            exact hm)), h1, h2]
    · have hm' : a.isMainPath = false := by simpa using hm
      have hmb : b.isMainPath = false := by
        rw [hab.1]
        exact hm'
      have htb : b.tokenIndex = a.tokenIndex := by rw [hab.1]
      rw [initPositions_node t₁ p a h1 hm', initPositions_node t₂ p b h2 hmb, htb,
        groupIndex_of_frame t₁ t₂ h]
      congr 1
      rw [hab.1]

/-- Claim C27. Two input trees that differ only in the `y` of non-main-path
nodes (position by position the second node is the first with at most `y`
replaced, and main-path nodes are equal) have the same tree after the
initialisation and therefore the same result of `relaxAlternativePositions`:
every node has the same `y` in both results. -/
theorem relaxAlternativePositions_ignores_input_y (tree₁ tree₂ : List Node)
    (h : List.Forall₂ (fun a b => b = { a with y := b.y } ∧ (a.isMainPath = true → b = a))
      tree₁ tree₂) :
    initPositions (alternativesByToken tree₁) tree₁
      = initPositions (alternativesByToken tree₂) tree₂ ∧
    relaxAlternativePositions tree₁ = relaxAlternativePositions tree₂ ∧
    (relaxAlternativePositions tree₁).map (fun n => n.y)
      = (relaxAlternativePositions tree₂).map (fun n => n.y) := by
  have hinit := initPositions_of_frame tree₁ tree₂ h
  have hg : alternativesByToken tree₂ = alternativesByToken tree₁ :=
    (groupAlternatives_of_frame tree₁ tree₂ h 0 []).symm
  have hr : relaxAlternativePositions tree₁ = relaxAlternativePositions tree₂ := by
    unfold relaxAlternativePositions
    simp only
    rw [hinit, hg]
  exact ⟨hinit, hr, by rw [hr]⟩

/-- Witness for claim C27: the tree `loneTree`, entered with `y = 400` and with
`y = 0` for its alternative node. -/
theorem relaxAlternativePositions_ignores_input_y_witness :
    relaxAlternativePositions (loneTree 400) = relaxAlternativePositions (loneTree 0) :=
  (relaxAlternativePositions_ignores_input_y (loneTree 400) (loneTree 0)
    (List.Forall₂.cons ⟨rfl, fun _ => rfl⟩
      (List.Forall₂.cons ⟨rfl, fun h => by simp at h⟩ List.Forall₂.nil))).2.1

/-! ## A lone alternative -/

theorem membersFrom_eq_nil (t : Int) (l : List Node) (pos : Nat)
    (h : ∀ (j : Nat) (m : Node), l[j]? = some m → inGroup t m = false) : membersFrom t l pos = [] := by
  induction l generalizing pos with
  | nil => rfl
  | cons a rest ih =>
    unfold membersFrom
    have ha : inGroup t a = false := h 0 a (by simp)
    rw [ha]
    simp only [Bool.false_eq_true, if_false]
    exact ih (pos + 1) (fun j m hj => h (j + 1) m (by simpa using hj))

theorem membersFrom_eq_singleton (t : Int) (l : List Node) (pos p : Nat) (n : Node)
    (hp : l[p]? = some n) (hn : inGroup t n = true)
    (h : ∀ (j : Nat) (m : Node), l[j]? = some m → j ≠ p → inGroup t m = false) :
    membersFrom t l pos = [pos + p] := by
  induction l generalizing pos p with
  | nil => simp at hp
  | cons a rest ih =>
    unfold membersFrom
    cases p with
    | zero =>
      simp only [List.getElem?_cons_zero, Option.some.injEq] at hp
      subst hp
      rw [if_pos hn, membersFrom_eq_nil t rest (pos + 1)
        (fun j m hj => h (j + 1) m (by simpa using hj) (by omega))]
      rfl
    | succ q =>
      have ha : inGroup t a = false := h 0 a (by simp) (by omega)
      rw [ha]
      simp only [Bool.false_eq_true, if_false]
      rw [ih (pos + 1) q (by simpa using hp)
        (fun j m hj hne => h (j + 1) m (by simpa using hj) (by omega))]
      congr 1
      omega

theorem applyForces_getElem? (whole : List Node) (groups : List (Int × List Nat))
    (suffix : List Node) (pos j : Nat) :
    (applyForces whole groups suffix pos)[j]?
      = (suffix[j]?).map (fun node =>
          if !node.isMainPath then
            { node with y := node.y + nodeForce whole groups (pos + j) node }
          else node) := by
  induction suffix generalizing pos j with
  | nil => simp [applyForces]
  | cons a rest ih =>
    unfold applyForces
    cases j with
    | zero => simp
    | succ i =>
      simp only [List.getElem?_cons_succ, ih]
      rw [show pos + 1 + i = pos + (i + 1) by omega]

theorem nodeForce_lone (cur : List Node) (groups : List (Int × List Nat)) (p : Nat) (m : Node)
    (hcur : cur[p]? = some m)
    (hsame : groupOf groups m.tokenIndex = [p])
    (hprev : groupOf groups (m.tokenIndex - 1) = [])
    (hnext : groupOf groups (m.tokenIndex + 1) = [])
    (hy : m.y < config.startY) (hd : ¬ config.startY - m.y < minDistance) :
    nodeForce cur groups p m = 0.1 * (config.startY - m.y - targetDistance) := by
  have habs : |m.y - config.startY| = config.startY - m.y := by
    rw [abs_of_neg (by linarith)]
    ring
  have hgt : ¬ m.y > config.startY := by
    intro hc
    linarith
  unfold nodeForce
  simp only [hsame, hprev, hnext, habs, hgt, hd, if_false, List.foldl_cons, List.foldl_nil,
    sameTokenForce, hcur, ne_eq, not_true_eq_false, damping]
  ring

theorem relaxStep_lone (cur : List Node) (groups : List (Int × List Nat)) (p : Nat) (m : Node)
    (k : Nat) (hcur : cur[p]? = some m) (hm : m.isMainPath = false)
    (hsame : groupOf groups m.tokenIndex = [p])
    (hprev : groupOf groups (m.tokenIndex - 1) = [])
    (hnext : groupOf groups (m.tokenIndex + 1) = [])
    (hy : config.startY - m.y = loneDistance k) :
    (relaxStep groups cur)[p]?
      = some { m with y := config.startY - loneDistance (k + 1) } := by
  have hpow : (0 : ℚ) < (9 / 10) ^ k := by positivity
  have hlt : m.y < config.startY := by
    unfold loneDistance at hy
    nlinarith
  have hd : ¬ config.startY - m.y < minDistance := by
    rw [hy, minDistance_eq]
    unfold loneDistance
    intro hc
    nlinarith
  unfold relaxStep
  rw [applyForces_getElem?, hcur, Nat.zero_add]
  simp only [Option.map_some', hm, Bool.not_false, if_true]
  rw [nodeForce_lone cur groups p m hcur hsame hprev hnext hlt hd, targetDistance_eq]
  congr 2
  have : m.y = config.startY - loneDistance k := by linarith
  rw [this]
  unfold loneDistance
  rw [pow_succ]
  ring

theorem relaxLoop_lone (groups : List (Int × List Nat)) (p : Nat) (steps : Nat)
    (cur : List Node) (m : Node) (k : Nat) (hcur : cur[p]? = some m)
    (hm : m.isMainPath = false)
    (hsame : groupOf groups m.tokenIndex = [p])
    (hprev : groupOf groups (m.tokenIndex - 1) = [])
    (hnext : groupOf groups (m.tokenIndex + 1) = [])
    (hy : config.startY - m.y = loneDistance k) :
    (relaxLoop groups steps cur)[p]?
      = some { m with y := config.startY - loneDistance (k + steps) } := by
  induction steps generalizing cur m k with
  | zero =>
    rw [relaxLoop, hcur]
    congr 1
    have : m.y = config.startY - loneDistance k := by linarith
    rw [Nat.add_zero, ← this]
  | succ s ih =>
    unfold relaxLoop
    rw [ih (relaxStep groups cur) { m with y := config.startY - loneDistance (k + 1) } (k + 1)
      (relaxStep_lone cur groups p m k hcur hm hsame hprev hnext hy) hm hsame hprev hnext
      (by simp)]
    congr 2
    rw [show k + 1 + s = k + (s + 1) by omega]

theorem loneDistance_zero : loneDistance 0 = config.verticalSpacing := by
  unfold loneDistance
  rw [config_verticalSpacing]
  norm_num

theorem loneDistance_step (k : Nat) :
    loneDistance (k + 1) = loneDistance k - 0.1 * (loneDistance k - targetDistance) ∧
    loneDistance (k + 1) < loneDistance k ∧
    targetDistance < loneDistance k ∧
    ¬ loneDistance k < minDistance := by
  have hpow : (0 : ℚ) < (9 / 10) ^ k := by positivity
  rw [targetDistance_eq, minDistance_eq]
  unfold loneDistance
  rw [pow_succ]
  refine ⟨by ring, by nlinarith, by nlinarith, ?_⟩
  intro hc
  nlinarith

/-- Claim C24. Let the node at tree position `p` be off the main path, the
only such node with its `tokenIndex`, with no such node at `tokenIndex - 1` or
`tokenIndex + 1`. After `k` relaxation iterations its distance from the
baseline is `loneDistance k = 44 + 36 * (9 / 10) ^ k` and it lies above the
baseline. The distance starts at `verticalSpacing = 80`, follows
`d' = d - 0.1 * (d - 44)`, decreases strictly and stays above the target
distance `44`, hence never below `minDistance`. After the 200 iterations
`y = startY - (44 + 36 * (9 / 10) ^ 200)`. -/
theorem lone_alternative_relaxation (tree : List Node) (p : Nat) (n : Node)
    (hp : tree[p]? = some n) (hm : n.isMainPath = false)
    (halone : ∀ (q : Nat) (m : Node), tree[q]? = some m → m.isMainPath = false → q ≠ p →
      m.tokenIndex ≠ n.tokenIndex ∧ m.tokenIndex ≠ n.tokenIndex - 1 ∧
        m.tokenIndex ≠ n.tokenIndex + 1) :
    (∀ k, ∃ m, (relaxLoop (alternativesByToken tree) k
          (initPositions (alternativesByToken tree) tree))[p]? = some m ∧
        config.startY - m.y = loneDistance k ∧ m.y < config.startY) ∧
    loneDistance 0 = config.verticalSpacing ∧ config.verticalSpacing = 80 ∧
    targetDistance = 44 ∧
    (∀ k, loneDistance (k + 1) = loneDistance k - 0.1 * (loneDistance k - targetDistance) ∧
      loneDistance (k + 1) < loneDistance k ∧
      targetDistance < loneDistance k ∧
      ¬ loneDistance k < minDistance) ∧
    ∃ m, (relaxAlternativePositions tree)[p]? = some m ∧
      m.y = config.startY - (44 + 36 * (9 / 10) ^ 200) := by
  have hin : inGroup n.tokenIndex n = true := by simp [inGroup, hm]
  have hsame : groupOf (alternativesByToken tree) n.tokenIndex = [p] := by
    rw [groupOf_alternativesByToken,
      membersFrom_eq_singleton n.tokenIndex tree 0 p n hp hin (fun j m hj hne => by
        by_cases hmm : m.isMainPath = true
        · simp [inGroup, hmm]
        · have := (halone j m hj (by simpa using hmm) hne).1
          simp [inGroup, this]), Nat.zero_add]
  have hprev : groupOf (alternativesByToken tree) (n.tokenIndex - 1) = [] := by
    rw [groupOf_alternativesByToken]
    apply membersFrom_eq_nil
    intro j m hj
    by_cases hmm : m.isMainPath = true
    · simp [inGroup, hmm]
    · by_cases hjp : j = p
      · subst hjp
        rw [hp] at hj
        cases hj
        simp [inGroup]
        intro _
        omega
      · have := (halone j m hj (by simpa using hmm) hjp).2.1
        simp [inGroup, this]
  have hnext : groupOf (alternativesByToken tree) (n.tokenIndex + 1) = [] := by
    rw [groupOf_alternativesByToken]
    apply membersFrom_eq_nil
    intro j m hj
    by_cases hmm : m.isMainPath = true
    · simp [inGroup, hmm]
    · by_cases hjp : j = p
      · subst hjp
        rw [hp] at hj
        cases hj
        simp [inGroup]
      · have := (halone j m hj (by simpa using hmm) hjp).2.2
        simp [inGroup, this]
  have hidx : groupIndex tree p n.tokenIndex = 0 := by
    have hc := membersFrom_getElem? n.tokenIndex tree 0 p n hp hin
    rw [← groupOf_alternativesByToken, hsame] at hc
    by_contra hne
    obtain ⟨c, hcs⟩ : ∃ c, ((tree.take p).filter (inGroup n.tokenIndex)).length = c + 1 :=
      ⟨((tree.take p).filter (inGroup n.tokenIndex)).length - 1, by
        unfold groupIndex at hne
        omega⟩
    rw [hcs] at hc
    simp at hc
  have hinit := initPositions_node tree p n hp hm
  rw [hidx] at hinit
  have hy0 : config.startY - ({ n with y := initialY 0 } : Node).y = loneDistance 0 := by
    show config.startY - initialY 0 = loneDistance 0
    rw [initialY_even 0 (by decide), loneDistance_zero]
    norm_num
  have hloop : ∀ k, (relaxLoop (alternativesByToken tree) k
      (initPositions (alternativesByToken tree) tree))[p]?
        = some { n with y := config.startY - loneDistance k } := by
    intro k
    have := relaxLoop_lone (alternativesByToken tree) p k _ { n with y := initialY 0 } 0 hinit
      hm hsame hprev hnext hy0
    rw [Nat.zero_add] at this
    exact this
  refine ⟨fun k => ⟨_, hloop k, by simp, ?_⟩, loneDistance_zero, config_verticalSpacing,
    targetDistance_eq, loneDistance_step, ⟨_, hloop iterations, ?_⟩⟩
  · have hpow : (0 : ℚ) < (9 / 10) ^ k := by positivity
    show config.startY - loneDistance k < config.startY
    unfold loneDistance
    nlinarith
  · show config.startY - loneDistance iterations = _
    rfl

/-- Witness for claim C24: the alternative node of `loneTree 400`, at tree
position 1. -/
theorem lone_alternative_relaxation_witness :
    ∃ m, (relaxAlternativePositions (loneTree 400))[1]? = some m ∧
      m.y = config.startY - (44 + 36 * (9 / 10) ^ 200) :=
  (lone_alternative_relaxation (loneTree 400) 1 _ rfl rfl (fun q m hq hmm hne => by
    cases q with
    | zero =>
      simp only [loneTree, List.getElem?_cons_zero, Option.some.injEq] at hq
      subst hq
      simp [pathNode] at hmm
    | succ r =>
      cases r with
      | zero => exact absurd rfl hne
      | succ s => simp [loneTree] at hq)).2.2.2.2.2

/-! ## The bracket search and the interpolation -/

theorem smoothstep_bounds (t : ℚ) (h0 : 0 ≤ t) (h1 : t ≤ 1) :
    0 ≤ smoothstep t ∧ smoothstep t ≤ 1 := by
  unfold smoothstep
  constructor
  · have : 0 ≤ 3 - 2 * t := by linarith
    positivity
  · nlinarith [mul_nonneg h0 h0, mul_nonneg (sub_nonneg.mpr h1) (sub_nonneg.mpr h1),
      mul_nonneg (mul_nonneg (sub_nonneg.mpr h1) (sub_nonneg.mpr h1)) (by linarith : (0:ℚ) ≤ 1 + 2 * t)]

theorem between_of_unit (a b s : ℚ) (h0 : 0 ≤ s) (h1 : s ≤ 1) :
    min a b ≤ a + (b - a) * s ∧ a + (b - a) * s ≤ max a b := by
  rcases le_total a b with h | h
  · rw [min_eq_left h, max_eq_right h]
    constructor <;> nlinarith
  · rw [min_eq_right h, max_eq_left h]
    constructor <;> nlinarith

theorem findBracket_spec (x : ℚ) (cps : List ControlPoint) (j : Nat) (first last : ControlPoint)
    (hfirst : cps.head? = some first) (hlast : cps.getLast? = some last)
    (hx0 : first.x ≤ x) (hx1 : x ≤ last.x) (hlen : 2 ≤ cps.length) :
    ∃ i p1 p2, findBracket x cps j = j + i ∧ cps[i]? = some p1 ∧ cps[i + 1]? = some p2 ∧
      p1.x ≤ x ∧ x ≤ p2.x := by
  induction cps generalizing j first with
  | nil => simp at hlen
  | cons a tail ih =>
    cases tail with
    | nil => simp at hlen
    | cons b rest =>
      simp only [List.head?_cons, Option.some.injEq] at hfirst
      subst hfirst
      by_cases hb : a.x ≤ x ∧ x ≤ b.x
      · refine ⟨0, a, b, ?_, by simp, by simp, hb.1, hb.2⟩
        unfold findBracket
        simp [hb]
      · have hgt : b.x < x := by
          by_contra hc
          exact hb ⟨hx0, by linarith⟩
        cases rest with
        | nil =>
          simp at hlast
          subst hlast
          linarith
        | cons c rest' =>
          obtain ⟨i, p1, p2, hf, h1, h2, h3, h4⟩ := ih (j + 1) b rfl
            (by simpa using hlast) (le_of_lt hgt) (by simp)
          refine ⟨i + 1, p1, p2, ?_, by simpa using h1, by simpa using h2, h3, h4⟩
          unfold findBracket
          simp only [ge_iff_le, hb, if_false]
          rw [hf]
          omega

theorem getD_eq_of_getElem? {α : Type} (l : List α) (i : Nat) (d a : α) (h : l[i]? = some a) :
    l.getD i d = a := by
  rw [List.getD_eq_getElem?_getD, h]
  rfl

theorem getLast?_eq_getElem? {α : Type} (l : List α) : l.getLast? = l[l.length - 1]? := by
  rw [List.getLast?_eq_getElem?]

/-- For a position between the first and the last control point the bracket
search returns a pair of adjacent control points around it, and the sampled
thickness is the smoothstep interpolation between the two. -/
theorem sampleThickness_bracket (cps : List ControlPoint) (x : ℚ) (hlen : 2 ≤ cps.length)
    (hinc : cps.Pairwise (fun a b => a.x < b.x))
    (hx0 : ¬ x < (cps.getD 0 default).x)
    (hx1 : ¬ x > (cps.getD (cps.length - 1) default).x) :
    ∃ idx p1 p2, findBracket x cps 0 = idx ∧ cps[idx]? = some p1 ∧ cps[idx + 1]? = some p2 ∧
      p1.x ≤ x ∧ x ≤ p2.x ∧ p2.x - p1.x ≠ 0 ∧
      0 ≤ (x - p1.x) / (p2.x - p1.x) ∧ (x - p1.x) / (p2.x - p1.x) ≤ 1 ∧
      sampleThickness cps x
        = p1.thickness + (p2.thickness - p1.thickness) *
            smoothstep ((x - p1.x) / (p2.x - p1.x)) := by
  have h0 : 0 < cps.length := by omega
  have hl : cps.length - 1 < cps.length := by omega
  have hfirst : cps.head? = some cps[0] := by
    rw [List.head?_eq_getElem?, List.getElem?_eq_getElem h0]
  have hlast : cps.getLast? = some (cps[cps.length - 1]) := by
    rw [getLast?_eq_getElem?, List.getElem?_eq_getElem hl]
  have hd0 : cps.getD 0 default = cps[0] :=
    getD_eq_of_getElem? cps 0 default _ (List.getElem?_eq_getElem h0)
  have hd1 : cps.getD (cps.length - 1) default = cps[cps.length - 1] :=
    getD_eq_of_getElem? cps _ default _ (List.getElem?_eq_getElem hl)
  rw [hd0] at hx0
  rw [hd1] at hx1
  obtain ⟨i, p1, p2, hf, h1, h2, h3, h4⟩ := findBracket_spec x cps 0 _ _ hfirst hlast
    (not_lt.mp hx0) (not_lt.mp hx1) hlen
  rw [Nat.zero_add] at hf
  have hi : i < cps.length := by
    by_contra hc
    rw [List.getElem?_eq_none (by omega)] at h1
    cases h1
  have hi1 : i + 1 < cps.length := by
    by_contra hc
    rw [List.getElem?_eq_none (by omega)] at h2
    cases h2
  have hp1 : cps[i] = p1 := by
    rw [List.getElem?_eq_getElem hi] at h1
    exact Option.some.inj h1
  have hp2 : cps[i + 1] = p2 := by
    rw [List.getElem?_eq_getElem hi1] at h2
    exact Option.some.inj h2
  have hlt : p1.x < p2.x := by
    have := List.pairwise_iff_getElem.mp hinc i (i + 1) hi hi1 (by omega)
    rw [hp1, hp2] at this
    exact this
  have hpos : 0 < p2.x - p1.x := by linarith
  refine ⟨i, p1, p2, hf, h1, h2, h3, h4, ne_of_gt hpos, ?_, ?_, ?_⟩
  · exact div_nonneg (by linarith) (le_of_lt hpos)
  · rw [div_le_one hpos]
    linarith
  · unfold sampleThickness
    rw [hd0, hd1, if_neg hx0, if_neg hx1]
    simp only [hf, getD_eq_of_getElem? cps i default p1 h1,
      getD_eq_of_getElem? cps (i + 1) default p2 h2, smoothstep]

theorem samples_length (cps : List ControlPoint) (a b : ℚ) :
    (samples cps a b).length = 201 := by
  unfold samples
  rw [List.length_map]
  rfl

theorem pairwise_x_lt (cps : List ControlPoint) (hinc : cps.Pairwise (fun a b => a.x < b.x))
    (i j : Nat) (a b : ControlPoint) (hi : cps[i]? = some a) (hj : cps[j]? = some b)
    (hij : i < j) : a.x < b.x := by
  have hjl : j < cps.length := by
    by_contra hc
    rw [List.getElem?_eq_none (by omega)] at hj
    cases hj
  have hil : i < cps.length := by omega
  have := List.pairwise_iff_getElem.mp hinc i j hil hjl hij
  rw [List.getElem?_eq_getElem hil] at hi
  rw [List.getElem?_eq_getElem hjl] at hj
  rw [Option.some.inj hi, Option.some.inj hj] at this
  exact this

theorem pairwise_x_le (cps : List ControlPoint) (hinc : cps.Pairwise (fun a b => a.x < b.x))
    (i j : Nat) (a b : ControlPoint) (hi : cps[i]? = some a) (hj : cps[j]? = some b)
    (hij : i ≤ j) : a.x ≤ b.x := by
  rcases Nat.lt_or_eq_of_le hij with h | h
  · exact le_of_lt (pairwise_x_lt cps hinc i j a b hi hj h)
  · subst h
    rw [hi] at hj
    cases hj
    exact le_refl _

theorem sampleThickness_at_controlPoint (cps : List ControlPoint) (hlen : 2 ≤ cps.length)
    (hinc : cps.Pairwise (fun a b => a.x < b.x)) (j : Nat) (p : ControlPoint)
    (hj : cps[j]? = some p) : sampleThickness cps p.x = p.thickness := by
  have h0 : 0 < cps.length := by omega
  have hl : cps.length - 1 < cps.length := by omega
  have hjl : j < cps.length := by
    by_contra hc
    rw [List.getElem?_eq_none (by omega)] at hj
    cases hj
  have hd0 : cps.getD 0 default = cps[0] :=
    getD_eq_of_getElem? cps 0 default _ (List.getElem?_eq_getElem h0)
  have hd1 : cps.getD (cps.length - 1) default = cps[cps.length - 1] :=
    getD_eq_of_getElem? cps _ default _ (List.getElem?_eq_getElem hl)
  have hx0 : ¬ p.x < (cps.getD 0 default).x := by
    rw [hd0]
    exact not_lt.mpr (pairwise_x_le cps hinc 0 j _ p (List.getElem?_eq_getElem h0) hj
      (Nat.zero_le _))
  have hx1 : ¬ p.x > (cps.getD (cps.length - 1) default).x := by
    rw [hd1]
    exact not_lt.mpr (pairwise_x_le cps hinc j (cps.length - 1) p _ hj
      (List.getElem?_eq_getElem hl) (by omega))
  obtain ⟨idx, p1, p2, _, h1, h2, h3, h4, hne, _, _, hs⟩ :=
    sampleThickness_bracket cps p.x hlen hinc hx0 hx1
  rw [hs]
  have hle : idx ≤ j := by
    by_contra hc
    have := pairwise_x_lt cps hinc j idx p p1 hj h1 (by omega)
    linarith
  have hge : j ≤ idx + 1 := by
    by_contra hc
    have := pairwise_x_lt cps hinc (idx + 1) j p2 p h2 hj (by omega)
    linarith
  rcases Nat.lt_or_eq_of_le hle with hlt | heq
  · have hj1 : j = idx + 1 := by omega
    subst hj1
    rw [h2] at hj
    cases hj
    rw [div_self hne]
    simp [smoothstep]
    ring
  · subst heq
    rw [h1] at hj
    cases hj
    simp [smoothstep]

/-- Claim C25, as amended. In exact arithmetic, for a path of at least two
nodes whose control-point `x` values are strictly increasing: the thickness
sampled at any position, in particular each of the 201 samples, lies between
any lower and upper bound of the control-point thicknesses, so between the
smallest and the largest; at a position between two adjacent control points it
lies between the thicknesses of that pair; and at the `x` of a control point it
is that control point's thickness. Here `sampleThickness` and `samples` compute
with rationals, without the rounding of doubles. -/
theorem sampleThickness_no_overshoot (pathNodes : List Node) (hlen : 2 ≤ pathNodes.length)
    (hinc : (controlPoints pathNodes).Pairwise (fun a b => a.x < b.x)) :
    (∀ (x lo hi : ℚ),
      (∀ cp ∈ controlPoints pathNodes, lo ≤ cp.thickness ∧ cp.thickness ≤ hi) →
      lo ≤ sampleThickness (controlPoints pathNodes) x ∧
        sampleThickness (controlPoints pathNodes) x ≤ hi) ∧
    (∀ (lo hi : ℚ),
      (∀ cp ∈ controlPoints pathNodes, lo ≤ cp.thickness ∧ cp.thickness ≤ hi) →
      (samples (controlPoints pathNodes) (pathStartX pathNodes) (pathEndX pathNodes)).length
          = 201 ∧
        ∀ sample ∈ samples (controlPoints pathNodes) (pathStartX pathNodes)
            (pathEndX pathNodes),
          lo ≤ sample.thickness ∧ sample.thickness ≤ hi) ∧
    (∀ (x : ℚ) (j : Nat) (p1 p2 : ControlPoint),
      (controlPoints pathNodes)[j]? = some p1 → (controlPoints pathNodes)[j + 1]? = some p2 →
      p1.x ≤ x → x ≤ p2.x →
      min p1.thickness p2.thickness ≤ sampleThickness (controlPoints pathNodes) x ∧
        sampleThickness (controlPoints pathNodes) x ≤ max p1.thickness p2.thickness) ∧
    (∀ (j : Nat) (p : ControlPoint), (controlPoints pathNodes)[j]? = some p →
      sampleThickness (controlPoints pathNodes) p.x = p.thickness) := by
  have hclen : 2 ≤ (controlPoints pathNodes).length := by simpa [controlPoints] using hlen
  have h0 : 0 < (controlPoints pathNodes).length := by omega
  have hl : (controlPoints pathNodes).length - 1 < (controlPoints pathNodes).length := by omega
  have hd0 : (controlPoints pathNodes).getD 0 default = (controlPoints pathNodes)[0] :=
    getD_eq_of_getElem? _ 0 default _ (List.getElem?_eq_getElem h0)
  have hd1 : (controlPoints pathNodes).getD ((controlPoints pathNodes).length - 1) default
      = (controlPoints pathNodes)[(controlPoints pathNodes).length - 1] :=
    getD_eq_of_getElem? _ _ default _ (List.getElem?_eq_getElem hl)
  have hglobal : ∀ (x lo hi : ℚ),
      (∀ cp ∈ controlPoints pathNodes, lo ≤ cp.thickness ∧ cp.thickness ≤ hi) →
      lo ≤ sampleThickness (controlPoints pathNodes) x ∧
        sampleThickness (controlPoints pathNodes) x ≤ hi := by
    intro x lo hi hb
    by_cases hx0 : x < ((controlPoints pathNodes).getD 0 default).x
    · rw [sampleThickness_before_first _ x hx0, hd0]
      exact hb _ (List.getElem_mem _)
    · by_cases hx1 : x > ((controlPoints pathNodes).getD
          ((controlPoints pathNodes).length - 1) default).x
      · rw [sampleThickness_after_last _ x hx0 hx1, hd1]
        exact hb _ (List.getElem_mem _)
      · obtain ⟨idx, p1, p2, _, h1, h2, _, _, _, ht0, ht1, hs⟩ :=
          sampleThickness_bracket _ x hclen hinc hx0 hx1
        rw [hs]
        obtain ⟨s0, s1⟩ := smoothstep_bounds _ ht0 ht1
        obtain ⟨b0, b1⟩ := between_of_unit p1.thickness p2.thickness _ s0 s1
        have hb1 := hb p1 (List.getElem?_mem h1)
        have hb2 := hb p2 (List.getElem?_mem h2)
        exact ⟨le_trans (le_min hb1.1 hb2.1) b0, le_trans b1 (max_le hb1.2 hb2.2)⟩
  refine ⟨hglobal, ?_, ?_, sampleThickness_at_controlPoint _ hclen hinc⟩
  · intro lo hi hb
    refine ⟨samples_length _ _ _, ?_⟩
    intro sample hs
    unfold samples at hs
    obtain ⟨i, _, rfl⟩ := List.mem_map.mp hs
    exact hglobal _ lo hi hb
  · intro x j p1 p2 hj hj1 hx0 hx1
    have hfirst := pairwise_x_le (controlPoints pathNodes) hinc 0 j _ p1
      (List.getElem?_eq_getElem h0) hj (Nat.zero_le _)
    have hj1l : j + 1 < (controlPoints pathNodes).length := by
      by_contra hc
      rw [List.getElem?_eq_none (by omega)] at hj1
      cases hj1
    have hlast := pairwise_x_le (controlPoints pathNodes) hinc (j + 1)
      ((controlPoints pathNodes).length - 1) p2 _ hj1 (List.getElem?_eq_getElem hl) (by omega)
    have hnx0 : ¬ x < ((controlPoints pathNodes).getD 0 default).x := by
      rw [hd0]
      exact not_lt.mpr (le_trans hfirst hx0)
    have hnx1 : ¬ x > ((controlPoints pathNodes).getD
        ((controlPoints pathNodes).length - 1) default).x := by
      rw [hd1]
      exact not_lt.mpr (le_trans hx1 hlast)
    obtain ⟨idx, q1, q2, _, h1, h2, h3, h4, _, ht0, ht1, hs⟩ :=
      sampleThickness_bracket _ x hclen hinc hnx0 hnx1
    rcases Nat.lt_trichotomy idx j with hlt | heq | hgt
    · have hle := pairwise_x_le (controlPoints pathNodes) hinc (idx + 1) j q2 p1 h2 hj
        (by omega)
      have hxe : x = p1.x := le_antisymm (le_trans h4 hle) hx0
      rw [hxe, sampleThickness_at_controlPoint _ hclen hinc j p1 hj]
      exact ⟨min_le_left _ _, le_max_left _ _⟩
    · subst heq
      rw [h1] at hj
      rw [h2] at hj1
      cases hj
      cases hj1
      rw [hs]
      obtain ⟨s0, s1⟩ := smoothstep_bounds _ ht0 ht1
      exact between_of_unit _ _ _ s0 s1
    · have hle := pairwise_x_le (controlPoints pathNodes) hinc (j + 1) idx p2 q1 hj1 h1
        (by omega)
      have hxe : x = p2.x := le_antisymm hx1 (le_trans hle h3)
      rw [hxe, sampleThickness_at_controlPoint _ hclen hinc (j + 1) p2 hj1]
      exact ⟨min_le_right _ _, le_max_right _ _⟩

/-- Witness for claim C25 as amended: `taperedPath` has three control points at
`55 < 80 < 105`, so the hypotheses hold there. -/
theorem sampleThickness_no_overshoot_witness :
    2 ≤ taperedPath.length ∧
    (controlPoints taperedPath).Pairwise (fun a b => a.x < b.x) ∧
    (∀ (x : ℚ) (j : Nat) (p1 p2 : ControlPoint),
      (controlPoints taperedPath)[j]? = some p1 → (controlPoints taperedPath)[j + 1]? = some p2 →
      p1.x ≤ x → x ≤ p2.x →
      min p1.thickness p2.thickness ≤ sampleThickness (controlPoints taperedPath) x ∧
        sampleThickness (controlPoints taperedPath) x ≤ max p1.thickness p2.thickness) ∧
    (∀ (j : Nat) (p : ControlPoint), (controlPoints taperedPath)[j]? = some p →
      sampleThickness (controlPoints taperedPath) p.x = p.thickness) :=
  ⟨by decide,
    by simp [taperedPath, controlPoints, controlPointOf, pathNode]; norm_num,
    (sampleThickness_no_overshoot taperedPath (by decide)
      (by simp [taperedPath, controlPoints, controlPointOf, pathNode]; norm_num)).2.2⟩

/-! ## The paths drawn by the renderer -/

theorem drawBranchGroups_eq (treeData : List Node) (groups : List (Option String × List Node))
    (colorIndex : Nat) (svg : List SvgPath) :
    drawBranchGroups treeData groups colorIndex svg
      = (drawBranchCalls treeData groups colorIndex).foldl
          (fun svg call => drawContinuousMainPath svg call.fullPath call.color 0.85) svg := by
  induction groups generalizing colorIndex svg with
  | nil => rfl
  | cons g rest ih =>
    obtain ⟨k, nodes⟩ := g
    unfold drawBranchGroups drawBranchCalls
    by_cases hlen : nodes.length > 0
    · simp only [hlen, if_true]
      cases hf : treeData.find? (fun n => n.branchId == k && !n.isBranchContinuation) with
      | none => simp only [ih]
      | some start => simp only [ih, List.foldl_cons]
    · simp only [hlen, if_false, ih]

theorem renderActiveBranches_eq (svg : List SvgPath) (treeData : List Node) :
    renderActiveBranches svg treeData
      = (branchCalls treeData).foldl
          (fun svg call => drawContinuousMainPath svg call.fullPath call.color 0.85) svg :=
  drawBranchGroups_eq _ _ _ _

theorem lookup_pushToBranchGroup (key : Option String) (node : Node)
    (groups : List (Option String × List Node)) (k : Option String) :
    (pushToBranchGroup key node groups).lookup k
      = if k = key then some ((groups.lookup key).getD [] ++ [node]) else groups.lookup k := by
  induction groups with
  | nil =>
    by_cases h : k = key
    · simp [pushToBranchGroup, List.lookup, h]
    · have hb : (k == key) = false := by simpa using h
      simp [pushToBranchGroup, List.lookup, h, hb]
  | cons g rest ih =>
    obtain ⟨k0, ms⟩ := g
    unfold pushToBranchGroup
    by_cases h0 : k0 = key
    · subst h0
      by_cases h : k = k0
      · subst h
        simp [List.lookup]
      · have hb : (k == k0) = false := by simpa using h
        simp [List.lookup, hb, h]
    · rw [if_neg h0]
      by_cases h : k = key
      · subst h
        have hb : (k == k0) = false := by
          simp only [beq_eq_false_iff_ne, ne_eq]
          exact fun hc => h0 hc.symm
        simp only [List.lookup, hb, ih, if_true]
      · by_cases hk : k = k0
        · subst hk
          simp [List.lookup, h]
        · have hb : (k == k0) = false := by simpa using hk
          simp only [List.lookup, hb, ih, if_neg h]

theorem keys_pushToBranchGroup (key : Option String) (node : Node)
    (groups : List (Option String × List Node)) :
    (pushToBranchGroup key node groups).map Prod.fst
      = if key ∈ groups.map Prod.fst then groups.map Prod.fst
        else groups.map Prod.fst ++ [key] := by
  induction groups with
  | nil => simp [pushToBranchGroup]
  | cons g rest ih =>
    obtain ⟨k0, ms⟩ := g
    unfold pushToBranchGroup
    by_cases h0 : k0 = key
    · subst h0
      simp
    · rw [if_neg h0]
      have hne : ¬ key = k0 := fun hc => h0 hc.symm
      by_cases hmem : key ∈ rest.map Prod.fst
      · simp only [List.map_cons, ih, if_pos hmem, List.mem_cons, hne, false_or]
      · simp only [List.map_cons, ih, if_neg hmem, List.mem_cons, hne, false_or,
          List.cons_append]

theorem groupBranchNodes_nodup_keys (suffix : List Node)
    (groups : List (Option String × List Node)) (h : (groups.map Prod.fst).Nodup) :
    ((groupBranchNodes suffix groups).map Prod.fst).Nodup := by
  induction suffix generalizing groups with
  | nil => exact h
  | cons node rest ih =>
    unfold groupBranchNodes
    apply ih
    by_cases hm : (node.isActiveBranch && node.isBranchContinuation) = true
    · rw [if_pos hm, keys_pushToBranchGroup]
      by_cases hmem : node.branchId ∈ groups.map Prod.fst
      · rw [if_pos hmem]
        exact h
      · rw [if_neg hmem]
        exact List.Nodup.append h (List.nodup_singleton _) (by simpa using hmem)
    · rw [if_neg hm]
      exact h

theorem groupBranchNodes_lookup (suffix : List Node)
    (groups : List (Option String × List Node)) (k : Option String) :
    (groupBranchNodes suffix groups).lookup k
      = pushedNodes (groups.lookup k) (suffix.filter (inBranchGroup k)) := by
  induction suffix generalizing groups with
  | nil => simp [groupBranchNodes, pushedNodes]
  | cons node rest ih =>
    unfold groupBranchNodes
    rw [ih]
    by_cases hm : (node.isActiveBranch && node.isBranchContinuation) = true
    · by_cases hk : node.branchId = k
      · subst hk
        have hin : inBranchGroup node.branchId node = true := by
          simp only [inBranchGroup, hm, beq_self_eq_true, Bool.and_self]
        simp only [hm, if_true, lookup_pushToBranchGroup, List.filter_cons, hin]
        unfold pushedNodes
        by_cases hnil : rest.filter (inBranchGroup node.branchId) = []
        · simp [hnil]
        · simp [hnil]
      · have hk' : ¬ k = node.branchId := fun hc => hk hc.symm
        have hin : inBranchGroup k node = false := by
          simp [inBranchGroup, hk]
        simp only [hm, if_true, lookup_pushToBranchGroup, if_neg hk', List.filter_cons, hin,
          Bool.false_eq_true, if_false]
    · have hin : inBranchGroup k node = false := by
        have hm' : (node.isActiveBranch && node.isBranchContinuation) = false := by
          simpa using hm
        simp only [inBranchGroup, hm', Bool.false_and]
      simp only [hm, if_false, List.filter_cons, hin, Bool.false_eq_true]

theorem lookup_of_mem_nodup_keys {β : Type} (groups : List (Option String × β))
    (k : Option String) (v : β) (hn : (groups.map Prod.fst).Nodup) (hm : (k, v) ∈ groups) :
    groups.lookup k = some v := by
  induction groups with
  | nil => cases hm
  | cons g rest ih =>
    obtain ⟨k0, v0⟩ := g
    simp only [List.map_cons, List.nodup_cons] at hn
    rcases List.mem_cons.mp hm with heq | hmem
    · cases heq
      simp [List.lookup]
    · have hne : k ≠ k0 := by
        intro hc
        subst hc
        exact hn.1 (List.mem_map.mpr ⟨(k, v), hmem, rfl⟩)
      have hb : (k == k0) = false := by simpa using hne
      simp only [List.lookup, hb]
      exact ih hn.2 hmem

theorem mem_of_lookup_key {β : Type} (groups : List (Option String × β)) (k : Option String)
    (v : β) (h : groups.lookup k = some v) : (k, v) ∈ groups := by
  induction groups with
  | nil => simp [List.lookup] at h
  | cons g rest ih =>
    obtain ⟨k0, v0⟩ := g
    by_cases hk : k = k0
    · subst hk
      simp [List.lookup] at h
      subst h
      exact List.mem_cons_self _ _
    · have hb : (k == k0) = false := by simpa using hk
      simp only [List.lookup, hb] at h
      exact List.mem_cons_of_mem _ (ih h)

theorem branchGroups_nodup_keys (tree : List Node) :
    ((groupBranchNodes tree []).map Prod.fst).Nodup :=
  groupBranchNodes_nodup_keys tree [] List.nodup_nil

theorem branchGroups_members (tree : List Node) (k : Option String) (nodes : List Node)
    (h : (k, nodes) ∈ groupBranchNodes tree []) :
    nodes = tree.filter (inBranchGroup k) ∧ nodes ≠ [] := by
  have hl := lookup_of_mem_nodup_keys _ k nodes (branchGroups_nodup_keys tree) h
  rw [groupBranchNodes_lookup] at hl
  unfold pushedNodes at hl
  by_cases hnil : tree.filter (inBranchGroup k) = []
  · rw [if_pos hnil] at hl
    cases hl
  · rw [if_neg hnil] at hl
    have : tree.filter (inBranchGroup k) = nodes := by simpa using Option.some.inj hl
    exact ⟨this.symm, this ▸ hnil⟩

theorem mem_branchGroups_of_filter (tree : List Node) (k : Option String)
    (h : tree.filter (inBranchGroup k) ≠ []) :
    (k, tree.filter (inBranchGroup k)) ∈ groupBranchNodes tree [] := by
  have hl := groupBranchNodes_lookup tree [] k
  unfold pushedNodes at hl
  rw [if_neg h] at hl
  apply mem_of_lookup_key
  rw [hl]
  simp [List.lookup]

/-! ### The calls made for the groups -/

theorem drawBranchCalls_mem (treeData : List Node) (groups : List (Option String × List Node))
    (colorIndex : Nat) (call : BranchCall)
    (h : call ∈ drawBranchCalls treeData groups colorIndex) :
    ∃ nodes start, (call.branchId, nodes) ∈ groups ∧ nodes ≠ [] ∧
      treeData.find? (isBranchStart call.branchId) = some start ∧
      call.fullPath = start :: sortByTokenIndex nodes := by
  induction groups generalizing colorIndex with
  | nil => cases h
  | cons g rest ih =>
    obtain ⟨k, nodes⟩ := g
    unfold drawBranchCalls at h
    by_cases hlen : nodes.length > 0
    · simp only [hlen, if_true] at h
      cases hf : treeData.find? (fun n => n.branchId == k && !n.isBranchContinuation) with
      | none =>
        rw [hf] at h
        obtain ⟨ns, s, h1, h2⟩ := ih _ h
        exact ⟨ns, s, List.mem_cons_of_mem _ h1, h2⟩
      | some start =>
        rw [hf] at h
        rcases List.mem_cons.mp h with rfl | h
        · exact ⟨nodes, start, List.mem_cons_self _ _, List.ne_nil_of_length_pos hlen, hf, rfl⟩
        · obtain ⟨ns, s, h1, h2⟩ := ih _ h
          exact ⟨ns, s, List.mem_cons_of_mem _ h1, h2⟩
    · simp only [hlen, if_false] at h
      obtain ⟨ns, s, h1, h2⟩ := ih _ h
      exact ⟨ns, s, List.mem_cons_of_mem _ h1, h2⟩

theorem drawBranchCalls_filter_nil (treeData : List Node)
    (groups : List (Option String × List Node)) (colorIndex : Nat) (k : Option String)
    (hk : k ∉ groups.map Prod.fst) :
    (drawBranchCalls treeData groups colorIndex).filter (fun call => call.branchId == k) = [] := by
  rw [List.filter_eq_nil_iff]
  intro call hcall
  obtain ⟨nodes, _, hmem, _⟩ := drawBranchCalls_mem treeData groups colorIndex call hcall
  have : call.branchId ≠ k := by
    intro hc
    exact hk (List.mem_map.mpr ⟨(call.branchId, nodes), hmem, hc⟩)
  simpa using this

theorem drawBranchCalls_filter (treeData : List Node)
    (groups : List (Option String × List Node)) (colorIndex : Nat) (k : Option String)
    (nodes : List Node) (start : Node) (hmem : (k, nodes) ∈ groups)
    (hnd : (groups.map Prod.fst).Nodup) (hne : nodes ≠ [])
    (hfind : treeData.find? (isBranchStart k) = some start) :
    ∃ color, (drawBranchCalls treeData groups colorIndex).filter
        (fun call => call.branchId == k)
      = [{ branchId := k, fullPath := start :: sortByTokenIndex nodes, color := color }] := by
  induction groups generalizing colorIndex with
  | nil => cases hmem
  | cons g rest ih =>
    obtain ⟨k0, nodes0⟩ := g
    simp only [List.map_cons, List.nodup_cons] at hnd
    rcases List.mem_cons.mp hmem with heq | hrest
    · cases heq
      have hlen : nodes.length > 0 := List.length_pos.mpr hne
      have hfind' : treeData.find? (fun n => n.branchId == k && !n.isBranchContinuation)
          = some start := hfind
      unfold drawBranchCalls
      simp only [hlen, if_true, hfind']
      refine ⟨branchColors.getD (colorIndex % branchColors.length) "", ?_⟩
      rw [List.filter_cons]
      simp only [beq_self_eq_true, if_true]
      rw [drawBranchCalls_filter_nil treeData rest _ k hnd.1]
    · have hk : k ≠ k0 := by
        intro hc
        exact hnd.1 (List.mem_map.mpr ⟨(k, nodes), hrest, hc⟩)
      have hk' : (k0 == k) = false := by
        simp only [beq_eq_false_iff_ne, ne_eq]
        exact fun hc => hk hc.symm
      unfold drawBranchCalls
      by_cases hlen : nodes0.length > 0
      · simp only [hlen, if_true]
        cases hf : treeData.find? (fun n => n.branchId == k0 && !n.isBranchContinuation) with
        | none => exact ih _ hrest hnd.2
        | some s =>
          simp only [List.filter_cons, hk', Bool.false_eq_true, if_false]
          exact ih _ hrest hnd.2
      · simp only [hlen, if_false]
        exact ih _ hrest hnd.2

/-! ### Relaxation and the selections of the renderer -/

theorem forall₂_filter {α : Type} (R : α → α → Prop) (p : α → Bool)
    (hp : ∀ a b, R a b → p a = p b) (l₁ l₂ : List α) (h : List.Forall₂ R l₁ l₂) :
    List.Forall₂ R (l₁.filter p) (l₂.filter p) := by
  induction h with
  | nil => exact List.Forall₂.nil
  | @cons a b t₁ t₂ hab _ ih =>
    rw [List.filter_cons, List.filter_cons, ← hp a b hab]
    by_cases hpa : p a = true
    · rw [if_pos hpa, if_pos hpa]
      exact List.Forall₂.cons hab ih
    · rw [if_neg hpa, if_neg hpa]
      exact ih

theorem forall₂_find?_right {α : Type} (R : α → α → Prop) (p : α → Bool)
    (hp : ∀ a b, R a b → p a = p b) (l₁ l₂ : List α) (h : List.Forall₂ R l₁ l₂) (b : α)
    (hb : l₂.find? p = some b) : ∃ a, l₁.find? p = some a ∧ R a b := by
  induction h with
  | nil => cases hb
  | @cons x y t₁ t₂ hxy _ ih =>
    rw [List.find?_cons] at hb
    rw [List.find?_cons, hp x y hxy]
    cases hpy : p y with
    | true =>
      rw [hpy] at hb
      cases hb
      exact ⟨x, rfl, hxy⟩
    | false =>
      rw [hpy] at hb
      exact ih hb

theorem forall₂_find?_left {α : Type} (R : α → α → Prop) (p : α → Bool)
    (hp : ∀ a b, R a b → p a = p b) (l₁ l₂ : List α) (h : List.Forall₂ R l₁ l₂) (a : α)
    (ha : l₁.find? p = some a) : ∃ b, l₂.find? p = some b ∧ R a b := by
  induction h with
  | nil => cases ha
  | @cons x y t₁ t₂ hxy _ ih =>
    rw [List.find?_cons] at ha
    rw [List.find?_cons, ← hp x y hxy]
    cases hpx : p x with
    | true =>
      rw [hpx] at ha
      cases ha
      exact ⟨y, rfl, hxy⟩
    | false =>
      rw [hpx] at ha
      exact ih ha

theorem forall₂_pairwise {α : Type} (R : α → α → Prop) (r s : α → α → Prop)
    (hrs : ∀ a a2 b b2, R a a2 → R b b2 → r a b → s a2 b2) (l₁ l₂ : List α)
    (h : List.Forall₂ R l₁ l₂) (hp : l₁.Pairwise r) : l₂.Pairwise s := by
  induction h with
  | nil => exact List.Pairwise.nil
  | @cons x y t₁ t₂ hxy ht ih =>
    rw [List.pairwise_cons] at hp ⊢
    refine ⟨?_, ih hp.2⟩
    intro b2 hb2
    obtain ⟨b, hb, hr⟩ := forall₂_mem_right R _ _ ht b2 hb2
    exact hrs x y b b2 hxy hr (hp.1 b hb)

theorem find?_congr_mem {α : Type} (p q : α → Bool) (l : List α) (h : ∀ a ∈ l, p a = q a) :
    l.find? p = l.find? q := by
  induction l with
  | nil => rfl
  | cons a rest ih =>
    rw [List.find?_cons, List.find?_cons, h a (List.mem_cons_self _ _),
      ih (fun b hb => h b (List.mem_cons_of_mem _ hb))]

theorem inBranchGroup_frame (k : Option String) (a b : Node) (h : RelaxFrame a b) :
    inBranchGroup k a = inBranchGroup k b := by
  rw [h.1]
  rfl

theorem isBranchStart_frame (k : Option String) (a b : Node) (h : RelaxFrame a b) :
    isBranchStart k a = isBranchStart k b := by
  rw [h.1]
  rfl

theorem isMainPath_frame (a b : Node) (h : RelaxFrame a b) : a.isMainPath = b.isMainPath := by
  rw [h.1]

theorem controlPoints_of_frame (l₁ l₂ : List Node) (h : List.Forall₂ RelaxFrame l₁ l₂) :
    controlPoints l₂ = controlPoints l₁ := by
  induction h with
  | nil => rfl
  | @cons a b t₁ t₂ hab _ ih =>
    unfold controlPoints at ih ⊢
    rw [List.map_cons, List.map_cons, ih]
    congr 1
    rw [hab.1]
    rfl

/-! ### The groups of the tree before relaxation -/

theorem baseNodes_filter_inBranchGroup (measure : String → ℚ → ℚ) (st : State)
    (tokens : List Token) (k : Option String) (rest : List Token) (index : Nat) (currentX : ℚ)
    (len : Nat) :
    (baseNodes measure st tokens rest index currentX len).filter (inBranchGroup k) = [] := by
  rw [List.filter_eq_nil_iff]
  exact baseNodes_forall (fun n => ¬ inBranchGroup k n = true) measure st tokens
    (fun n _ hc _ => by simp [inBranchGroup, hc])
    (fun n _ hc _ => by simp [inBranchGroup, hc]) rest index currentX len

theorem branchChain_filter_self (measure : String → ℚ → ℚ) (st : State) (b : ActiveBranch)
    (tree : List Node) :
    (branchChain measure st b tree).filter (inBranchGroup (some b.branchId))
      = branchChain measure st b tree := by
  rw [List.filter_eq_self]
  exact branchChain_forall (fun n => inBranchGroup (some b.branchId) n = true) measure st b tree
    (fun n _ hc ha hid => by simp [inBranchGroup, hc, ha, hid])

theorem branchChain_filter_other (measure : String → ℚ → ℚ) (st : State) (b : ActiveBranch)
    (tree : List Node) (k : Option String) (hk : some b.branchId ≠ k) :
    (branchChain measure st b tree).filter (inBranchGroup k) = [] := by
  rw [List.filter_eq_nil_iff]
  exact branchChain_forall (fun n => ¬ inBranchGroup k n = true) measure st b tree
    (fun n _ _ _ hid => by simp [inBranchGroup, hid, hk])

theorem withBranches_filter_other (measure : String → ℚ → ℚ) (st : State)
    (k : Option String) (branches : List ActiveBranch) (tree : List Node)
    (h : ∀ b ∈ branches, some b.branchId ≠ k) :
    (withBranches measure st branches tree).filter (inBranchGroup k)
      = tree.filter (inBranchGroup k) := by
  induction branches generalizing tree with
  | nil => rfl
  | cons branch rest ih =>
    unfold withBranches
    rw [ih _ (fun b hb => h b (List.mem_cons_of_mem _ hb)), List.filter_append,
      branchChain_filter_other measure st branch tree k (h branch (List.mem_cons_self _ _)),
      List.append_nil]

theorem branchChain_find?_none (measure : String → ℚ → ℚ) (st : State) (b : ActiveBranch)
    (tree : List Node) (p : Node → Bool)
    (hp : ∀ n : Node, n.isBranchContinuation = true → n.branchId = some b.branchId →
      p n = false) :
    (branchChain measure st b tree).find? p = none := by
  rw [List.find?_eq_none]
  exact branchChain_forall (fun n => ¬ p n = true) measure st b tree
    (fun n _ hc _ hid => by simp [hp n hc hid])

theorem withBranches_find?_start (measure : String → ℚ → ℚ) (st : State)
    (k : Option String) (branches : List ActiveBranch) (tree : List Node) :
    (withBranches measure st branches tree).find? (isBranchStart k)
      = tree.find? (isBranchStart k) := by
  induction branches generalizing tree with
  | nil => rfl
  | cons branch rest ih =>
    unfold withBranches
    rw [ih, List.find?_append,
      branchChain_find?_none measure st branch tree (isBranchStart k)
        (fun n hc _ => by simp [isBranchStart, hc]),
      Option.or_none]

theorem withBranches_find?_other (measure : String → ℚ → ℚ) (st : State)
    (id : String) (branches : List ActiveBranch) (tree : List Node)
    (h : ∀ b ∈ branches, b.branchId ≠ id) :
    (withBranches measure st branches tree).find? (fun n => n.branchId == some id)
      = tree.find? (fun n => n.branchId == some id) := by
  induction branches generalizing tree with
  | nil => rfl
  | cons branch rest ih =>
    unfold withBranches
    rw [ih _ (fun b hb => h b (List.mem_cons_of_mem _ hb)), List.find?_append,
      branchChain_find?_none measure st branch tree (fun n => n.branchId == some id)
        (fun n _ hid => by
          have := h branch (List.mem_cons_self _ _)
          simp [hid, this]),
      Option.or_none]

theorem baseNodes_find?_start (measure : String → ℚ → ℚ) (st : State) (tokens : List Token)
    (k : Option String) (rest : List Token) (index : Nat) (currentX : ℚ) (len : Nat) :
    (baseNodes measure st tokens rest index currentX len).find? (isBranchStart k)
      = (baseNodes measure st tokens rest index currentX len).find?
          (fun n => n.branchId == k) := by
  apply find?_congr_mem
  exact baseNodes_forall (fun n => isBranchStart k n = (n.branchId == k)) measure st tokens
    (fun n _ hc _ => by simp [isBranchStart, hc])
    (fun n _ hc _ => by simp [isBranchStart, hc]) rest index currentX len

theorem branchChain_congr_find (measure : String → ℚ → ℚ) (st : State) (b : ActiveBranch)
    (tree tree2 : List Node)
    (h : tree.find? (fun n => n.branchId == some b.branchId)
      = tree2.find? (fun n => n.branchId == some b.branchId)) :
    branchChain measure st b tree = branchChain measure st b tree2 := by
  unfold branchChain
  rw [h]

/-- With pairwise distinct active branch ids, the nodes the renderer groups
under the id of an active branch are, before relaxation, the chain that branch
contributes, anchored in the main and alternative nodes. -/
theorem withBranches_filter_group (measure : String → ℚ → ℚ) (st : State)
    (base : List Node) (hbase : ∀ k, base.filter (inBranchGroup k) = [])
    (hnodup : (st.activeBranches.map (fun b => b.branchId)).Nodup)
    (b : ActiveBranch) (hb : b ∈ st.activeBranches) :
    (withBranches measure st st.activeBranches base).filter (inBranchGroup (some b.branchId))
      = branchChain measure st b base := by
  obtain ⟨pre, post, hsplit⟩ := List.append_of_mem hb
  rw [hsplit, List.map_append, List.map_cons] at hnodup
  have hnd := List.nodup_append.mp hnodup
  have hpre : ∀ a ∈ pre, a.branchId ≠ b.branchId := by
    intro a ha hc
    exact hnd.2.2 (List.mem_map.mpr ⟨a, ha, rfl⟩) (by
      rw [hc]
      exact List.mem_cons_self _ _)
  have hpost : ∀ a ∈ post, a.branchId ≠ b.branchId := by
    intro a ha hc
    have := (List.nodup_cons.mp hnd.2.1).1
    exact this (by
      rw [← hc]
      exact List.mem_map.mpr ⟨a, ha, rfl⟩)
  rw [hsplit, withBranches_append]
  unfold withBranches
  rw [withBranches_filter_other measure st _ post _
      (fun a ha hc => hpost a ha (Option.some.inj hc)),
    List.filter_append, branchChain_filter_self,
    withBranches_filter_other measure st _ pre _
      (fun a ha hc => hpre a ha (Option.some.inj hc)),
    hbase, List.nil_append]
  exact branchChain_congr_find measure st b _ _
    (withBranches_find?_other measure st b.branchId pre base hpre)

theorem withBranches_filter_group_nil (measure : String → ℚ → ℚ) (st : State)
    (base : List Node) (hbase : ∀ k, base.filter (inBranchGroup k) = [])
    (k : Option String) (hk : ∀ b ∈ st.activeBranches, some b.branchId ≠ k) :
    (withBranches measure st st.activeBranches base).filter (inBranchGroup k) = [] := by
  rw [withBranches_filter_other measure st k _ _ hk, hbase]

/-! ### Order along the drawn paths -/

theorem PathOrder.frame (measure : String → ℚ → ℚ) (scale : ℚ) (tokens : List Token)
    (a a2 b b2 : Node) (ha : RelaxFrame a a2) (hb : RelaxFrame b b2)
    (h : PathOrder measure scale tokens a b) : PathOrder measure scale tokens a2 b2 := by
  unfold PathOrder
  rw [ha.1, hb.1]
  exact h

/-! ### Order along the main path -/

theorem baseNodes_main_mem (measure : String → ℚ → ℚ) (st : State) (tokens rest : List Token)
    (index : Nat) (currentX : ℚ) (len : Nat) :
    ∀ n ∈ baseNodes measure st tokens rest index currentX len, n.isMainPath = true →
      ∃ j : Nat, index ≤ j ∧ n.tokenIndex = (j : Int) ∧
        n.cumulativeProbability = cumProd tokens (j + 1) ∧
        (NonnegWidths measure → 0 ≤ n.width ∧ currentX ≤ n.x) := by
  induction rest generalizing index currentX len with
  | nil => intro n hn; cases hn
  | cons token rest ih =>
    intro n hn hmain
    unfold baseNodes at hn
    rcases List.mem_append.mp hn with hn | hn
    · rcases List.mem_cons.mp hn with rfl | hn
      · exact ⟨index, le_refl _, rfl, rfl, fun hw => ⟨(hw _).1, le_refl _⟩⟩
      · have := altNodes_forall (fun m => m.isMainPath = false) measure st tokens index currentX
          len (fun m h1 _ _ _ _ => h1) token.alternatives 0 n hn
        rw [this] at hmain
        cases hmain
    · obtain ⟨j, hj, h1, h2, h3⟩ := ih _ _ _ n hn hmain
      refine ⟨j, by omega, h1, h2, fun hw => ⟨(h3 hw).1, ?_⟩⟩
      have hx := (h3 hw).2
      have hwid := (hw token.text).1
      have hsp : (0 : ℚ) ≤ config.wordSpacing := by rw [config_wordSpacing]; norm_num
      linarith

theorem baseNodes_main_pairwise (measure : String → ℚ → ℚ) (st : State)
    (tokens rest : List Token) (index : Nat) (currentX : ℚ) (len : Nat) :
    ((baseNodes measure st tokens rest index currentX len).filter
      (fun n => n.isMainPath)).Pairwise (PathOrder measure 1 tokens) := by
  induction rest generalizing index currentX len with
  | nil => exact List.Pairwise.nil
  | cons token rest ih =>
    unfold baseNodes
    have halts : (altNodes measure st tokens index currentX len token.alternatives 0).filter
        (fun n => n.isMainPath) = [] := by
      rw [List.filter_eq_nil_iff]
      exact altNodes_forall (fun m => ¬ m.isMainPath = true) measure st tokens index currentX
        len (fun m h1 _ _ _ _ => by simp [h1]) token.alternatives 0
    rw [List.filter_append, List.filter_cons]
    simp only [if_true, halts, List.cons_append, List.nil_append]
    rw [List.pairwise_cons]
    refine ⟨?_, ih _ _ _⟩
    intro b hb
    obtain ⟨hb1, hb2⟩ := List.mem_filter.mp hb
    obtain ⟨j, hj, h1, h2, h3⟩ := baseNodes_main_mem measure st tokens rest _ _ _ b hb1
      (by simpa using hb2)
    refine ⟨?_, ⟨index + 1, j + 1, by omega, by simp, by rw [h2]; simp⟩, ?_⟩
    · show (index : Int) < b.tokenIndex
      rw [h1]
      exact_mod_cast hj
    · intro hw
      exact ⟨(hw _).1, (h3 hw).1, (h3 hw).2⟩

/-! ### Order along a branch path -/

theorem continuationNodes_mem (measure : String → ℚ → ℚ) (startNode : Node)
    (continuationTokens : List Token) (branchId : String) (rest : List Token) (index : Nat)
    (currentX : ℚ) :
    ∀ n ∈ continuationNodes measure startNode continuationTokens branchId rest index currentX,
      ∃ j : Nat, index + 1 ≤ j ∧ n.tokenIndex = startNode.tokenIndex + (j : Int) ∧
        n.cumulativeProbability
          = startNode.cumulativeProbability * cumProd continuationTokens j ∧
        (NonnegWidths measure → 0 ≤ n.width ∧ currentX ≤ n.x) := by
  induction rest generalizing index currentX with
  | nil => intro n hn; cases hn
  | cons token rest ih =>
    intro n hn
    unfold continuationNodes at hn
    rcases List.mem_cons.mp hn with rfl | hn
    · refine ⟨index + 1, le_refl _, ?_, rfl, fun hw => ⟨(hw _).1, le_refl _⟩⟩
      show startNode.tokenIndex + (index : Int) + 1 = _
      push_cast
      ring
    · obtain ⟨j, hj, h1, h2, h3⟩ := ih _ _ n hn
      refine ⟨j, by omega, h1, h2, fun hw => ⟨(h3 hw).1, ?_⟩⟩
      have hx := (h3 hw).2
      have hwid := (hw token.text).1
      have hsp : (0 : ℚ) ≤ config.wordSpacing := by rw [config_wordSpacing]; norm_num
      linarith

theorem continuationNodes_pairwise (measure : String → ℚ → ℚ) (startNode : Node)
    (continuationTokens : List Token) (branchId : String) (rest : List Token) (index : Nat)
    (currentX : ℚ) :
    (continuationNodes measure startNode continuationTokens branchId rest index
      currentX).Pairwise
        (PathOrder measure startNode.cumulativeProbability continuationTokens) := by
  induction rest generalizing index currentX with
  | nil => exact List.Pairwise.nil
  | cons token rest ih =>
    unfold continuationNodes
    rw [List.pairwise_cons]
    refine ⟨?_, ih _ _⟩
    intro b hb
    obtain ⟨j, hj, h1, h2, h3⟩ := continuationNodes_mem measure startNode continuationTokens
      branchId rest _ _ b hb
    refine ⟨?_, ⟨index + 1, j, by omega, rfl, h2⟩, ?_⟩
    · show startNode.tokenIndex + (index : Int) + 1 < b.tokenIndex
      rw [h1]
      have : ((index : Int) + 1) < (j : Int) := by exact_mod_cast hj
      linarith
    · intro hw
      exact ⟨(hw _).1, (h3 hw).1, (h3 hw).2⟩

/-- The anchor followed by its continuation nodes is ordered as a path, when
the anchor's width is a measured one. -/
theorem anchor_chain_pairwise (measure : String → ℚ → ℚ) (startNode : Node)
    (continuationTokens : List Token) (branchId : String)
    (hwidth : NonnegWidths measure → 0 ≤ startNode.width) :
    (startNode :: continuationNodes measure startNode continuationTokens branchId
      continuationTokens 0
        (startNode.x + startNode.width + config.wordSpacing)).Pairwise
      (PathOrder measure startNode.cumulativeProbability continuationTokens) := by
  rw [List.pairwise_cons]
  refine ⟨?_, continuationNodes_pairwise _ _ _ _ _ _ _⟩
  intro b hb
  obtain ⟨j, hj, h1, h2, h3⟩ := continuationNodes_mem measure startNode continuationTokens
    branchId continuationTokens _ _ b hb
  refine ⟨?_, ⟨0, j, Nat.zero_le _, by rw [cumProd_zero, mul_one], h2⟩, ?_⟩
  · rw [h1]
    have : (1 : Int) ≤ (j : Int) := by exact_mod_cast hj
    linarith
  · intro hw
    exact ⟨hwidth hw, (h3 hw).1, (h3 hw).2⟩

/-! ### Consequences of the order -/

theorem cumProd_pos (tokens : List Token)
    (h : ∀ t ∈ tokens, 0 < t.probability ∧ t.probability ≤ 1) (n : Nat) :
    0 < cumProd tokens n := by
  unfold cumProd
  apply List.prod_pos
  intro p hp
  obtain ⟨t, ht, rfl⟩ := List.mem_map.mp hp
  exact (h t (List.mem_of_mem_take ht)).1

theorem cumProd_antitone (tokens : List Token)
    (h : ∀ t ∈ tokens, 0 < t.probability ∧ t.probability ≤ 1) (m n : Nat) (hmn : m ≤ n) :
    cumProd tokens n ≤ cumProd tokens m := by
  induction n with
  | zero =>
    have : m = 0 := by omega
    rw [this]
  | succ k ih =>
    rcases Nat.lt_or_eq_of_le hmn with hlt | heq
    · have hk := ih (by omega)
      refine le_trans ?_ hk
      by_cases hlen : k < tokens.length
      · rw [cumProd_succ tokens k tokens[k] (List.getElem?_eq_getElem hlen)]
        have hp := h tokens[k] (List.getElem_mem _)
        have hpos := cumProd_pos tokens h k
        nlinarith [hp.1, hp.2]
      · unfold cumProd
        rw [List.take_of_length_le (by omega), List.take_of_length_le (by omega)]
    · rw [heq]

theorem cumProd_le_one (tokens : List Token)
    (h : ∀ t ∈ tokens, 0 < t.probability ∧ t.probability ≤ 1) (n : Nat) :
    cumProd tokens n ≤ 1 := by
  have := cumProd_antitone tokens h 0 n (Nat.zero_le _)
  rwa [cumProd_zero] at this

theorem PathOrder.tokenIndex_le (measure : String → ℚ → ℚ) (scale : ℚ) (tokens : List Token)
    (path : List Node) (h : path.Pairwise (PathOrder measure scale tokens)) :
    path.Pairwise (fun a b => a.tokenIndex ≤ b.tokenIndex) :=
  h.imp (fun hab => le_of_lt hab.1)

theorem PathOrder.cumulative (measure : String → ℚ → ℚ) (scale : ℚ) (tokens : List Token)
    (hscale : 0 ≤ scale) (hp : ∀ t ∈ tokens, 0 < t.probability ∧ t.probability ≤ 1)
    (path : List Node) (h : path.Pairwise (PathOrder measure scale tokens)) :
    path.Pairwise (fun a b => b.cumulativeProbability ≤ a.cumulativeProbability) := by
  refine h.imp ?_
  intro a b hab
  obtain ⟨i, j, hij, ha, hb⟩ := hab.2.1
  rw [ha, hb]
  exact mul_le_mul_of_nonneg_left (cumProd_antitone tokens hp i j hij) hscale

theorem PathOrder.thickness (measure : String → ℚ → ℚ) (scale : ℚ) (tokens : List Token)
    (hscale : 0 ≤ scale) (hp : ∀ t ∈ tokens, 0 < t.probability ∧ t.probability ≤ 1)
    (path : List Node) (h : path.Pairwise (PathOrder measure scale tokens)) :
    (controlPoints path).Pairwise (fun a b => b.thickness ≤ a.thickness) := by
  unfold controlPoints
  rw [List.pairwise_map]
  refine (PathOrder.cumulative measure scale tokens hscale hp path h).imp ?_
  intro a b hab
  rw [controlPointOf_thickness, controlPointOf_thickness]
  linarith

theorem PathOrder.controlPoints_x (measure : String → ℚ → ℚ) (scale : ℚ) (tokens : List Token)
    (hw : NonnegWidths measure)
    (path : List Node) (h : path.Pairwise (PathOrder measure scale tokens)) :
    (controlPoints path).Pairwise (fun a b => a.x < b.x) := by
  unfold controlPoints
  rw [List.pairwise_map]
  refine h.imp ?_
  intro a b hab
  obtain ⟨h1, h2, h3⟩ := hab.2.2 hw
  have hsp : (0 : ℚ) < config.wordSpacing := by rw [config_wordSpacing]; norm_num
  show a.x + a.width / 2 < b.x + b.width / 2
  linarith

/-! ### The drawn branch paths of a built tree -/

theorem altNodes_width_nonneg (measure : String → ℚ → ℚ) (st : State) (tokens : List Token)
    (hw : NonnegWidths measure) (index : Nat) (currentX : ℚ) (mainPos : Nat)
    (alts : List AltToken) (altIndex : Nat) :
    ∀ n ∈ altNodes measure st tokens index currentX mainPos alts altIndex, 0 ≤ n.width := by
  induction alts generalizing altIndex with
  | nil => intro n hn; cases hn
  | cons alt rest ih =>
    intro n hn
    unfold altNodes at hn
    rcases List.mem_cons.mp hn with rfl | hn
    · exact (hw _).2
    · exact ih _ n hn

theorem baseNodes_width_nonneg (measure : String → ℚ → ℚ) (st : State) (tokens : List Token)
    (hw : NonnegWidths measure) (rest : List Token) (index : Nat) (currentX : ℚ)
    (len : Nat) :
    ∀ n ∈ baseNodes measure st tokens rest index currentX len, 0 ≤ n.width := by
  induction rest generalizing index currentX len with
  | nil => intro n hn; cases hn
  | cons token rest ih =>
    intro n hn
    unfold baseNodes at hn
    rcases List.mem_append.mp hn with hn | hn
    · rcases List.mem_cons.mp hn with rfl | hn
      · exact (hw _).1
      · exact altNodes_width_nonneg measure st tokens hw _ _ _ _ _ n hn
    · exact ih _ _ _ n hn

theorem sortByTokenIndex_of_pairwise (nodes : List Node)
    (h : nodes.Pairwise (fun a b => a.tokenIndex ≤ b.tokenIndex)) :
    sortByTokenIndex nodes = nodes :=
  List.Sorted.insertionSort_eq h

theorem branchChain_of_anchor (measure : String → ℚ → ℚ) (st : State) (b : ActiveBranch)
    (tree : List Node) (c : List Token) (anchor : Node)
    (hc : st.branchContinuations.lookup b.branchId = some c)
    (ha : tree.find? (fun n => n.branchId == some b.branchId) = some anchor) :
    branchChain measure st b tree
      = continuationNodes measure anchor c b.branchId c 0
          (anchor.x + anchor.width + config.wordSpacing) := by
  unfold branchChain
  rw [hc]
  simp only [ha]

theorem branchChain_ne_nil (measure : String → ℚ → ℚ) (st : State) (b : ActiveBranch)
    (tree : List Node) (h : branchChain measure st b tree ≠ []) :
    ∃ c anchor, st.branchContinuations.lookup b.branchId = some c ∧ c ≠ [] ∧
      tree.find? (fun n => n.branchId == some b.branchId) = some anchor := by
  cases hc : st.branchContinuations.lookup b.branchId with
  | none => exact absurd (branchChain_eq_nil_of_lookup measure st b tree (Or.inl hc)) h
  | some c =>
    cases c with
    | nil => exact absurd (branchChain_eq_nil_of_lookup measure st b tree (Or.inr hc)) h
    | cons t ts =>
      cases ha : tree.find? (fun n => n.branchId == some b.branchId) with
      | none =>
        exfalso
        apply h
        unfold branchChain
        rw [hc]
        simp only [ha]
      | some anchor => exact ⟨t :: ts, anchor, rfl, by simp, rfl⟩

/-- The start node the renderer finds in the built tree for a key is the image
of the first main or alternative node carrying that key. -/
theorem relaxed_start_right (measure : String → ℚ → ℚ) (st : State) (tokens : List Token)
    (k : Option String) (start : Node)
    (h : (relaxAlternativePositions (withBranches measure st st.activeBranches
      (baseNodes measure st tokens tokens 0 config.startX 0))).find? (isBranchStart k)
        = some start) :
    ∃ a, (baseNodes measure st tokens tokens 0 config.startX 0).find?
        (fun n => n.branchId == k) = some a ∧ RelaxFrame a start := by
  obtain ⟨a, ha, hr⟩ := forall₂_find?_right RelaxFrame (isBranchStart k)
    (isBranchStart_frame k) _ _ (relaxAlternativePositions_frame _) start h
  rw [withBranches_find?_start, baseNodes_find?_start] at ha
  exact ⟨a, ha, hr⟩

theorem relaxed_start_left (measure : String → ℚ → ℚ) (st : State) (tokens : List Token)
    (k : Option String) (a : Node)
    (h : (baseNodes measure st tokens tokens 0 config.startX 0).find?
        (fun n => n.branchId == k) = some a) :
    ∃ start, (relaxAlternativePositions (withBranches measure st st.activeBranches
      (baseNodes measure st tokens tokens 0 config.startX 0))).find? (isBranchStart k)
        = some start ∧ RelaxFrame a start := by
  apply forall₂_find?_left RelaxFrame (isBranchStart k)
    (isBranchStart_frame k) _ _ (relaxAlternativePositions_frame _) a
  rw [withBranches_find?_start, baseNodes_find?_start]
  exact h

theorem relaxed_group (measure : String → ℚ → ℚ) (st : State) (tokens : List Token)
    (hnodup : (st.activeBranches.map (fun b => b.branchId)).Nodup)
    (b : ActiveBranch) (hb : b ∈ st.activeBranches) :
    List.Forall₂ RelaxFrame
      (branchChain measure st b (baseNodes measure st tokens tokens 0 config.startX 0))
      ((relaxAlternativePositions (withBranches measure st st.activeBranches
        (baseNodes measure st tokens tokens 0 config.startX 0))).filter
          (inBranchGroup (some b.branchId))) := by
  rw [← withBranches_filter_group measure st _
    (fun k => baseNodes_filter_inBranchGroup measure st tokens k _ _ _ _) hnodup b hb]
  exact forall₂_filter RelaxFrame _ (inBranchGroup_frame _) _ _
    (relaxAlternativePositions_frame _)

theorem relaxed_group_key (measure : String → ℚ → ℚ) (st : State) (tokens : List Token)
    (k : Option String)
    (h : (relaxAlternativePositions (withBranches measure st st.activeBranches
        (baseNodes measure st tokens tokens 0 config.startX 0))).filter (inBranchGroup k) ≠ []) :
    ∃ b ∈ st.activeBranches, k = some b.branchId := by
  by_contra hc
  apply h
  have hk : ∀ b ∈ st.activeBranches, some b.branchId ≠ k := by
    intro b hb heq
    exact hc ⟨b, hb, heq.symm⟩
  have hf := forall₂_filter RelaxFrame (inBranchGroup k) (inBranchGroup_frame k) _ _
    (relaxAlternativePositions_frame (withBranches measure st st.activeBranches
        (baseNodes measure st tokens tokens 0 config.startX 0)))
  rw [withBranches_filter_group_nil measure st _
    (fun k => baseNodes_filter_inBranchGroup measure st tokens k _ _ _ _) k hk] at hf
  exact List.forall₂_nil_left_iff.mp hf

/-- The path drawn for an active branch with a cached continuation `c` and
the anchor `anchor0` among the main and alternative nodes: the image of the
anchor followed by the images of the continuation nodes. -/
theorem relaxed_branch_path (measure : String → ℚ → ℚ) (st : State) (tokens : List Token)
    (hnodup : (st.activeBranches.map (fun b => b.branchId)).Nodup)
    (b : ActiveBranch) (hb : b ∈ st.activeBranches) (c : List Token) (anchor0 : Node)
    (hc : st.branchContinuations.lookup b.branchId = some c)
    (ha : (baseNodes measure st tokens tokens 0 config.startX 0).find?
        (fun n => n.branchId == some b.branchId) = some anchor0) :
    ∃ anchor,
      (relaxAlternativePositions (withBranches measure st st.activeBranches
        (baseNodes measure st tokens tokens 0 config.startX 0))).find?
          (isBranchStart (some b.branchId)) = some anchor ∧
      RelaxFrame anchor0 anchor ∧
      List.Forall₂ RelaxFrame
        (continuationNodes measure anchor0 c b.branchId c 0
          (anchor0.x + anchor0.width + config.wordSpacing))
        ((relaxAlternativePositions (withBranches measure st st.activeBranches
          (baseNodes measure st tokens tokens 0 config.startX 0))).filter
            (inBranchGroup (some b.branchId))) ∧
      sortByTokenIndex ((relaxAlternativePositions (withBranches measure st st.activeBranches
          (baseNodes measure st tokens tokens 0 config.startX 0))).filter
            (inBranchGroup (some b.branchId)))
        = (relaxAlternativePositions (withBranches measure st st.activeBranches
          (baseNodes measure st tokens tokens 0 config.startX 0))).filter
            (inBranchGroup (some b.branchId)) := by
  obtain ⟨anchor, hfind, hframe⟩ := relaxed_start_left measure st tokens _ anchor0 ha
  have hgroup := relaxed_group measure st tokens hnodup b hb
  rw [branchChain_of_anchor measure st b _ c anchor0 hc ha] at hgroup
  refine ⟨anchor, hfind, hframe, hgroup, ?_⟩
  apply sortByTokenIndex_of_pairwise
  exact forall₂_pairwise RelaxFrame
    (PathOrder measure anchor0.cumulativeProbability c) _
    (fun a a2 b b2 ha hb hab => by
      have := PathOrder.frame measure _ c a a2 b b2 ha hb hab
      exact le_of_lt this.1) _ _ hgroup
    (continuationNodes_pairwise measure anchor0 c b.branchId c 0 _)

/-- Every path `renderActiveBranches` draws for a built tree belongs to an
active branch with a non-empty cached continuation and an anchor among the
main and alternative nodes, and is the image of the anchor followed by the
images of the continuation nodes. -/
theorem branchCalls_shape (measure : String → ℚ → ℚ) (st : State) (tokens : List Token)
    (hnodup : (st.activeBranches.map (fun b => b.branchId)).Nodup) (call : BranchCall)
    (hcall : call ∈ branchCalls (relaxAlternativePositions
      (withBranches measure st st.activeBranches
        (baseNodes measure st tokens tokens 0 config.startX 0)))) :
    ∃ b ∈ st.activeBranches, ∃ c anchor0,
      st.branchContinuations.lookup b.branchId = some c ∧ c ≠ [] ∧
      (baseNodes measure st tokens tokens 0 config.startX 0).find?
        (fun n => n.branchId == some b.branchId) = some anchor0 ∧
      call.branchId = some b.branchId ∧
      List.Forall₂ RelaxFrame
        (anchor0 :: continuationNodes measure anchor0 c b.branchId c 0
          (anchor0.x + anchor0.width + config.wordSpacing))
        call.fullPath := by
  obtain ⟨nodes, start, hmem, hne, hfind, hpath⟩ := drawBranchCalls_mem _ _ _ call hcall
  obtain ⟨hnodes, _⟩ := branchGroups_members _ _ _ hmem
  obtain ⟨b, hb, hk⟩ := relaxed_group_key measure st tokens call.branchId (hnodes ▸ hne)
  have hgroup := relaxed_group measure st tokens hnodup b hb
  have hchain : branchChain measure st b (baseNodes measure st tokens tokens 0 config.startX 0)
      ≠ [] := by
    intro hnil
    rw [hnil, ← hk, ← hnodes] at hgroup
    exact hne (List.forall₂_nil_left_iff.mp hgroup)
  obtain ⟨c, anchor0, hc, hcne, ha⟩ := branchChain_ne_nil measure st b _ hchain
  obtain ⟨anchor, hfind2, hframe, hconts, hsort⟩ :=
    relaxed_branch_path measure st tokens hnodup b hb c anchor0 hc ha
  rw [← hk] at hfind2 hconts hsort
  rw [← hnodes] at hconts hsort
  rw [hfind] at hfind2
  cases hfind2
  refine ⟨b, hb, c, anchor0, hc, hcne, ha, hk, ?_⟩
  rw [hpath, hsort]
  exact List.Forall₂.cons hframe hconts

/-- An active branch with a non-empty cached continuation whose anchor is in
the built tree is drawn by exactly one call, on the anchor followed by the
nodes grouped under the branch id. -/
theorem branchCalls_of_branch (measure : String → ℚ → ℚ) (st : State) (tokens : List Token)
    (hnodup : (st.activeBranches.map (fun b => b.branchId)).Nodup)
    (b : ActiveBranch) (hb : b ∈ st.activeBranches) (c : List Token) (anchor : Node)
    (hc : st.branchContinuations.lookup b.branchId = some c) (hcne : c ≠ [])
    (hanchor : (relaxAlternativePositions (withBranches measure st st.activeBranches
        (baseNodes measure st tokens tokens 0 config.startX 0))).find?
          (isBranchStart (some b.branchId)) = some anchor) :
    ∃ anchor0 color,
      (baseNodes measure st tokens tokens 0 config.startX 0).find?
        (fun n => n.branchId == some b.branchId) = some anchor0 ∧
      RelaxFrame anchor0 anchor ∧
      List.Forall₂ RelaxFrame
        (continuationNodes measure anchor0 c b.branchId c 0
          (anchor0.x + anchor0.width + config.wordSpacing))
        ((relaxAlternativePositions (withBranches measure st st.activeBranches
          (baseNodes measure st tokens tokens 0 config.startX 0))).filter
            (inBranchGroup (some b.branchId))) ∧
      (branchCalls (relaxAlternativePositions (withBranches measure st st.activeBranches
          (baseNodes measure st tokens tokens 0 config.startX 0)))).filter
            (fun call => call.branchId == some b.branchId)
        = [{ branchId := some b.branchId
             fullPath := anchor :: (relaxAlternativePositions
               (withBranches measure st st.activeBranches
                 (baseNodes measure st tokens tokens 0 config.startX 0))).filter
                   (inBranchGroup (some b.branchId))
             color := color }] := by
  obtain ⟨anchor0, ha, hframe⟩ := relaxed_start_right measure st tokens _ anchor hanchor
  obtain ⟨anchor2, hfind2, _, hconts, hsort⟩ :=
    relaxed_branch_path measure st tokens hnodup b hb c anchor0 hc ha
  have hne : (relaxAlternativePositions (withBranches measure st st.activeBranches
      (baseNodes measure st tokens tokens 0 config.startX 0))).filter
        (inBranchGroup (some b.branchId)) ≠ [] := by
    intro hnil
    rw [hnil] at hconts
    have hlen := hconts.length_eq
    rw [continuationNodes_length] at hlen
    exact hcne (List.length_eq_zero.mp hlen)
  obtain ⟨color, hfilter⟩ := drawBranchCalls_filter _ _ 0 (some b.branchId) _ anchor
    (mem_branchGroups_of_filter _ _ hne) (branchGroups_nodup_keys _) hne hanchor
  rw [hsort] at hfilter
  exact ⟨anchor0, color, ha, hframe, hconts, hfilter⟩

/-! ### Cumulative probabilities of the built nodes -/

theorem mem_of_lookup_string {β : Type} (entries : List (String × β)) (k : String) (v : β)
    (h : entries.lookup k = some v) : (k, v) ∈ entries := by
  induction entries with
  | nil => simp [List.lookup] at h
  | cons e rest ih =>
    obtain ⟨k0, v0⟩ := e
    by_cases hk : k = k0
    · subst hk
      simp [List.lookup] at h
      subst h
      exact List.mem_cons_self _ _
    · have hb : (k == k0) = false := by simpa using hk
      simp only [List.lookup, hb] at h
      exact List.mem_cons_of_mem _ (ih h)

theorem altNodes_mem (measure : String → ℚ → ℚ) (st : State) (tokens : List Token)
    (index : Nat) (currentX : ℚ) (mainPos : Nat) (alts : List AltToken)
    (ha : ∀ alt ∈ alts, 0 < alt.probability ∧ alt.probability ≤ 1) (altIndex : Nat) :
    ∀ n ∈ altNodes measure st tokens index currentX mainPos alts altIndex,
      ∃ p : ℚ, n.tokenIndex = (index : Int) ∧
        n.cumulativeProbability = cumProd tokens index * p ∧ 0 < p ∧ p ≤ 1 := by
  induction alts generalizing altIndex with
  | nil => intro n hn; cases hn
  | cons alt rest ih =>
    intro n hn
    unfold altNodes at hn
    rcases List.mem_cons.mp hn with rfl | hn
    · exact ⟨alt.probability, rfl, rfl, ha alt (List.mem_cons_self _ _)⟩
    · exact ih (fun a h => ha a (List.mem_cons_of_mem _ h)) _ n hn

theorem baseNodes_alt_mem (measure : String → ℚ → ℚ) (st : State) (tokens rest : List Token)
    (ha : ∀ t ∈ rest, ∀ alt ∈ t.alternatives, 0 < alt.probability ∧ alt.probability ≤ 1)
    (index : Nat) (currentX : ℚ) (len : Nat) :
    ∀ n ∈ baseNodes measure st tokens rest index currentX len, n.isMainPath = false →
      ∃ (i : Nat) (p : ℚ), n.tokenIndex = (i : Int) ∧
        n.cumulativeProbability = cumProd tokens i * p ∧ 0 < p ∧ p ≤ 1 := by
  induction rest generalizing index currentX len with
  | nil => intro n hn; cases hn
  | cons token rest ih =>
    intro n hn hmain
    unfold baseNodes at hn
    rcases List.mem_append.mp hn with hn | hn
    · rcases List.mem_cons.mp hn with rfl | hn
      · cases hmain
      · obtain ⟨p, h1, h2, h3⟩ := altNodes_mem measure st tokens index currentX len
          token.alternatives (ha token (List.mem_cons_self _ _)) 0 n hn
        exact ⟨index, p, h1, h2, h3⟩
    · exact ih (fun t h => ha t (List.mem_cons_of_mem _ h)) _ _ _ n hn hmain

theorem unit_mul_unit (a b : ℚ) (ha : 0 < a ∧ a ≤ 1) (hb : 0 < b ∧ b ≤ 1) :
    0 < a * b ∧ a * b ≤ 1 := by
  refine ⟨mul_pos ha.1 hb.1, ?_⟩
  calc a * b ≤ 1 * 1 := mul_le_mul ha.2 hb.2 (le_of_lt hb.1) (by norm_num)
    _ = 1 := by norm_num

theorem baseNodes_cum_range (measure : String → ℚ → ℚ) (st : State) (tokens rest : List Token)
    (hp : ∀ t ∈ tokens, 0 < t.probability ∧ t.probability ≤ 1)
    (ha : ∀ t ∈ rest, ∀ alt ∈ t.alternatives, 0 < alt.probability ∧ alt.probability ≤ 1)
    (index : Nat) (currentX : ℚ) (len : Nat) :
    ∀ n ∈ baseNodes measure st tokens rest index currentX len,
      0 < n.cumulativeProbability ∧ n.cumulativeProbability ≤ 1 := by
  intro n hn
  by_cases hmain : n.isMainPath = true
  · obtain ⟨j, _, _, h2, _⟩ := baseNodes_main_mem measure st tokens rest index currentX len n hn
      hmain
    rw [h2]
    exact ⟨cumProd_pos tokens hp _, cumProd_le_one tokens hp _⟩
  · obtain ⟨i, p, _, h2, h3⟩ := baseNodes_alt_mem measure st tokens rest ha index currentX len
      n hn (by simpa using hmain)
    rw [h2]
    exact unit_mul_unit _ _ ⟨cumProd_pos tokens hp _, cumProd_le_one tokens hp _⟩ h3

theorem branchChain_cum_range (measure : String → ℚ → ℚ) (st : State)
    (hcont : ∀ entry ∈ st.branchContinuations, ∀ t ∈ entry.2,
      0 < t.probability ∧ t.probability ≤ 1)
    (b : ActiveBranch) (tree : List Node)
    (htree : ∀ n ∈ tree, 0 < n.cumulativeProbability ∧ n.cumulativeProbability ≤ 1) :
    ∀ n ∈ branchChain measure st b tree,
      0 < n.cumulativeProbability ∧ n.cumulativeProbability ≤ 1 := by
  intro n hn
  unfold branchChain at hn
  cases hc : st.branchContinuations.lookup b.branchId with
  | none =>
    rw [hc] at hn
    cases hn
  | some c =>
    rw [hc] at hn
    cases hf : tree.find? (fun n => n.branchId == some b.branchId) with
    | none =>
      simp only [hf] at hn
      cases hn
    | some start =>
      simp only [hf] at hn
      obtain ⟨j, _, _, h2, _⟩ := continuationNodes_mem measure start c b.branchId c 0 _ n hn
      rw [h2]
      have hcp := hcont _ (mem_of_lookup_string _ _ _ hc)
      exact unit_mul_unit _ _ (htree start (List.mem_of_find?_eq_some hf))
        ⟨cumProd_pos c hcp _, cumProd_le_one c hcp _⟩

theorem withBranches_cum_range (measure : String → ℚ → ℚ) (st : State)
    (hcont : ∀ entry ∈ st.branchContinuations, ∀ t ∈ entry.2,
      0 < t.probability ∧ t.probability ≤ 1)
    (branches : List ActiveBranch) (tree : List Node)
    (htree : ∀ n ∈ tree, 0 < n.cumulativeProbability ∧ n.cumulativeProbability ≤ 1) :
    ∀ n ∈ withBranches measure st branches tree,
      0 < n.cumulativeProbability ∧ n.cumulativeProbability ≤ 1 := by
  induction branches generalizing tree with
  | nil => exact htree
  | cons branch rest ih =>
    unfold withBranches
    apply ih
    intro n hn
    rcases List.mem_append.mp hn with hn | hn
    · exact htree n hn
    · exact branchChain_cum_range measure st hcont branch tree htree n hn

theorem cumulativeProbability_frame (a b : Node) (h : RelaxFrame a b) :
    b.cumulativeProbability = a.cumulativeProbability := by
  rw [h.1]

/-! ### The drawn paths are ordered -/

theorem withBranches_filter_main (measure : String → ℚ → ℚ) (st : State)
    (branches : List ActiveBranch) (tree : List Node) :
    (withBranches measure st branches tree).filter (fun n => n.isMainPath)
      = tree.filter (fun n => n.isMainPath) := by
  induction branches generalizing tree with
  | nil => rfl
  | cons branch rest ih =>
    unfold withBranches
    rw [ih, List.filter_append]
    have : (branchChain measure st branch tree).filter (fun n => n.isMainPath) = [] := by
      rw [List.filter_eq_nil_iff]
      exact branchChain_forall (fun n => ¬ n.isMainPath = true) measure st branch tree
        (fun n hm _ _ _ => by simp [hm])
    rw [this, List.append_nil]

/-- The main path of the built tree is ordered as a path. -/
theorem relaxed_main_pairwise (measure : String → ℚ → ℚ) (st : State) (tokens : List Token) :
    ((relaxAlternativePositions (withBranches measure st st.activeBranches
      (baseNodes measure st tokens tokens 0 config.startX 0))).filter
        (fun n => n.isMainPath)).Pairwise (PathOrder measure 1 tokens) := by
  have hf := forall₂_filter RelaxFrame (fun n => n.isMainPath) isMainPath_frame _ _
    (relaxAlternativePositions_frame (withBranches measure st st.activeBranches
      (baseNodes measure st tokens tokens 0 config.startX 0)))
  rw [withBranches_filter_main] at hf
  exact forall₂_pairwise RelaxFrame _ _ (PathOrder.frame measure 1 tokens) _ _ hf
    (baseNodes_main_pairwise measure st tokens tokens 0 config.startX 0)

/-- Every branch path drawn for the built tree is an anchor followed by
continuation nodes and is ordered as a path, scaled by the cumulative
probability of the anchor. -/
theorem branchCalls_pairwise (measure : String → ℚ → ℚ) (st : State) (tokens : List Token)
    (hnodup : (st.activeBranches.map (fun b => b.branchId)).Nodup) (call : BranchCall)
    (hcall : call ∈ branchCalls (relaxAlternativePositions
      (withBranches measure st st.activeBranches
        (baseNodes measure st tokens tokens 0 config.startX 0)))) :
    ∃ (c : List Token) (anchor0 anchor : Node) (conts : List Node) (id : String),
      st.branchContinuations.lookup id = some c ∧
      anchor0 ∈ baseNodes measure st tokens tokens 0 config.startX 0 ∧
      RelaxFrame anchor0 anchor ∧
      call.fullPath = anchor :: conts ∧
      anchor.isBranchContinuation = false ∧
      (∀ n ∈ conts, n.isBranchContinuation = true) ∧
      call.fullPath.Pairwise (PathOrder measure anchor0.cumulativeProbability c) := by
  obtain ⟨b, _, c, anchor0, hc, _, ha, _, hpath⟩ :=
    branchCalls_shape measure st tokens hnodup call hcall
  have hmem : anchor0 ∈ baseNodes measure st tokens tokens 0 config.startX 0 :=
    List.mem_of_find?_eq_some ha
  have hpw := forall₂_pairwise RelaxFrame _ _
    (PathOrder.frame measure anchor0.cumulativeProbability c) _ _ hpath
    (anchor_chain_pairwise measure anchor0 c b.branchId
      (fun hw => baseNodes_width_nonneg measure st tokens hw _ _ _ _ anchor0 hmem))
  obtain ⟨anchor, conts, hframe, hconts, hfull⟩ := List.forall₂_cons_left_iff.mp hpath
  refine ⟨c, anchor0, anchor, conts, b.branchId, hc, hmem, hframe, hfull, ?_, ?_, hpw⟩
  · have h0 := baseNodes_forall (fun n => n.isBranchContinuation = false) measure st tokens
      (fun n _ hc _ => hc) (fun n _ hc _ => hc) tokens 0 config.startX 0 anchor0 hmem
    rw [hframe.1]
    exact h0
  · intro n hn
    obtain ⟨m, hm, hr⟩ := forall₂_mem_right RelaxFrame _ _ hconts n hn
    have := continuationNodes_forall (fun n => n.isBranchContinuation = true) measure anchor0
      c b.branchId (fun n _ hc _ _ => hc) c 0 _ m hm
    rw [hr.1]
    exact this

/-! ### Continuation nodes without the uniqueness of ids -/

theorem withBranches_find?_id (measure : String → ℚ → ℚ) (st : State) (id : String)
    (branches : List ActiveBranch) (tree : List Node) :
    (withBranches measure st branches tree).find? (fun n => n.branchId == some id)
      = tree.find? (fun n => n.branchId == some id) := by
  obtain ⟨ext, hext⟩ := withBranches_extends measure st branches tree
  cases hf : tree.find? (fun n => n.branchId == some id) with
  | some a =>
    rw [hext]
    exact find?_append_of_some _ _ _ _ hf
  | none =>
    rw [List.find?_eq_none] at hf ⊢
    intro n hn
    have := withBranches_no_id measure st id branches tree
      (fun m hm => by simpa using hf m hm) n hn
    simpa using this

theorem withBranches_mem_chain (measure : String → ℚ → ℚ) (st : State) (base : List Node)
    (branches : List ActiveBranch) (tree : List Node)
    (htree : ∀ id, tree.find? (fun n => n.branchId == some id)
      = base.find? (fun n => n.branchId == some id))
    (n : Node) (hn : n ∈ withBranches measure st branches tree) :
    n ∈ tree ∨ ∃ b ∈ branches, n ∈ branchChain measure st b base := by
  induction branches generalizing tree with
  | nil => exact Or.inl hn
  | cons branch rest ih =>
    unfold withBranches at hn
    have hchain : branchChain measure st branch tree = branchChain measure st branch base :=
      branchChain_congr_find measure st branch tree base (htree branch.branchId)
    have hnext : ∀ id, (tree ++ branchChain measure st branch tree).find?
        (fun n => n.branchId == some id) = base.find? (fun n => n.branchId == some id) := by
      intro id
      rw [← htree id]
      exact withBranches_find?_id measure st id [branch] tree
    rcases ih _ hnext hn with h | ⟨b, hb, h⟩
    · rcases List.mem_append.mp h with h | h
      · exact Or.inl h
      · exact Or.inr ⟨branch, List.mem_cons_self _ _, hchain ▸ h⟩
    · exact Or.inr ⟨b, List.mem_cons_of_mem _ hb, h⟩

/-- A node of the built tree that the renderer groups under the key `k` is a
continuation node of the chain anchored at the first main or alternative node
with that key: its token index and cumulative probability are those of the
`j`-th continuation token. -/
theorem relaxed_group_node (measure : String → ℚ → ℚ) (st : State) (tokens : List Token)
    (k : Option String) (n : Node)
    (hn : n ∈ relaxAlternativePositions (withBranches measure st st.activeBranches
      (baseNodes measure st tokens tokens 0 config.startX 0)))
    (hg : inBranchGroup k n = true) :
    ∃ id c anchor0, k = some id ∧ st.branchContinuations.lookup id = some c ∧
      (baseNodes measure st tokens tokens 0 config.startX 0).find?
        (fun n => n.branchId == some id) = some anchor0 ∧
      ∃ j : Nat, n.tokenIndex = anchor0.tokenIndex + (j : Int) ∧
        n.cumulativeProbability = anchor0.cumulativeProbability * cumProd c j := by
  obtain ⟨m, hm, hr⟩ := forall₂_mem_right RelaxFrame _ _ (relaxAlternativePositions_frame _) n hn
  rw [← inBranchGroup_frame k m n hr] at hg
  have hcont : m.isBranchContinuation = true := by
    simp only [inBranchGroup, Bool.and_eq_true] at hg
    exact hg.1.2
  have hid : m.branchId = k := by
    simp only [inBranchGroup, Bool.and_eq_true, beq_iff_eq] at hg
    exact hg.2
  rcases withBranches_mem_chain measure st _ _ _ (fun _ => rfl) m hm with h | ⟨b, _, h⟩
  · have h0 := baseNodes_forall (fun n => n.isBranchContinuation = false) measure st tokens
      (fun n _ hc _ => hc) (fun n _ hc _ => hc) tokens 0 config.startX 0 m h
    rw [h0] at hcont
    cases hcont
  · obtain ⟨c, anchor0, hc, _, ha⟩ := branchChain_ne_nil measure st b _
      (List.ne_nil_of_mem h)
    rw [branchChain_of_anchor measure st b _ c anchor0 hc ha] at h
    have hbid := continuationNodes_forall (fun n => n.branchId = some b.branchId) measure
      anchor0 c b.branchId (fun n _ _ _ h4 => h4) c 0 _ m h
    obtain ⟨j, _, h1, h2, _⟩ := continuationNodes_mem measure anchor0 c b.branchId c 0 _ m h
    refine ⟨b.branchId, c, anchor0, by rw [← hid, hbid], hc, ha, j, ?_, ?_⟩
    · rw [hr.1]
      exact h1
    · rw [hr.1]
      exact h2

theorem sortByTokenIndex_sorted (nodes : List Node) :
    (sortByTokenIndex nodes).Pairwise (fun a b => a.tokenIndex ≤ b.tokenIndex) := by
  haveI : IsTotal Node (fun a b => a.tokenIndex ≤ b.tokenIndex) :=
    ⟨fun a b => le_total a.tokenIndex b.tokenIndex⟩
  haveI : IsTrans Node (fun a b => a.tokenIndex ≤ b.tokenIndex) :=
    ⟨fun a b c hab hbc => le_trans hab hbc⟩
  exact List.sorted_insertionSort (fun a b : Node => a.tokenIndex ≤ b.tokenIndex) nodes

theorem mem_sortByTokenIndex (nodes : List Node) (n : Node) :
    n ∈ sortByTokenIndex nodes ↔ n ∈ nodes :=
  (List.perm_insertionSort (fun a b : Node => a.tokenIndex ≤ b.tokenIndex) nodes).mem_iff

/-- Every branch path drawn for the built tree is the image of an anchor among
the main and alternative nodes, followed by continuation nodes in the order of
their token index, each with the cumulative probability of the anchor times a
prefix product of the cached continuation. -/
theorem branchCalls_cumulative (measure : String → ℚ → ℚ) (st : State) (tokens : List Token)
    (hcont : ∀ entry ∈ st.branchContinuations, ∀ t ∈ entry.2,
      0 < t.probability ∧ t.probability ≤ 1)
    (hbase : ∀ n ∈ baseNodes measure st tokens tokens 0 config.startX 0,
      0 < n.cumulativeProbability ∧ n.cumulativeProbability ≤ 1)
    (call : BranchCall)
    (hcall : call ∈ branchCalls (relaxAlternativePositions
      (withBranches measure st st.activeBranches
        (baseNodes measure st tokens tokens 0 config.startX 0)))) :
    ∃ anchor conts, call.fullPath = anchor :: conts ∧
      anchor.isBranchContinuation = false ∧
      (∀ n ∈ conts, n.isBranchContinuation = true ∧
        n.cumulativeProbability ≤ anchor.cumulativeProbability) ∧
      conts.Pairwise (fun a b => a.tokenIndex ≤ b.tokenIndex) ∧
      conts.Pairwise (fun a b => b.cumulativeProbability ≤ a.cumulativeProbability) := by
  obtain ⟨nodes, start, hmem, hne, hfind, hpath⟩ := drawBranchCalls_mem _ _ _ call hcall
  obtain ⟨hnodes, _⟩ := branchGroups_members _ _ _ hmem
  obtain ⟨anchor0, ha0, hframe⟩ := relaxed_start_right measure st tokens _ start hfind
  have hform : ∀ n ∈ sortByTokenIndex nodes, n.isBranchContinuation = true ∧
      ∃ (c : List Token) (j : Nat),
        (∀ t ∈ c, 0 < t.probability ∧ t.probability ≤ 1) ∧
        (∀ n2 ∈ sortByTokenIndex nodes, ∃ j2 : Nat,
          n2.tokenIndex = anchor0.tokenIndex + (j2 : Int) ∧
          n2.cumulativeProbability = anchor0.cumulativeProbability * cumProd c j2) ∧
        n.tokenIndex = anchor0.tokenIndex + (j : Int) ∧
        n.cumulativeProbability = anchor0.cumulativeProbability * cumProd c j := by
    intro n hn
    rw [mem_sortByTokenIndex, hnodes] at hn
    obtain ⟨hn1, hn2⟩ := List.mem_filter.mp hn
    obtain ⟨id, c, a0, hk, hc, ha, j, h1, h2⟩ :=
      relaxed_group_node measure st tokens _ n hn1 hn2
    rw [hk] at ha0
    rw [ha0] at ha
    cases ha
    refine ⟨?_, c, j, hcont _ (mem_of_lookup_string _ _ _ hc), ?_, h1, h2⟩
    · simp only [inBranchGroup, Bool.and_eq_true] at hn2
      exact hn2.1.2
    · intro n2 hn2'
      rw [mem_sortByTokenIndex, hnodes] at hn2'
      obtain ⟨hm1, hm2⟩ := List.mem_filter.mp hn2'
      obtain ⟨id2, c2, a2, hk2, hc2, ha2, j2, g1, g2⟩ :=
        relaxed_group_node measure st tokens _ n2 hm1 hm2
      rw [hk] at hk2
      cases hk2
      rw [hc] at hc2
      cases hc2
      rw [ha0] at ha2
      cases ha2
      exact ⟨j2, g1, g2⟩
  have hscale : 0 < anchor0.cumulativeProbability :=
    (hbase anchor0 (List.mem_of_find?_eq_some ha0)).1
  have hanchor : start.cumulativeProbability = anchor0.cumulativeProbability :=
    cumulativeProbability_frame anchor0 start hframe
  refine ⟨start, sortByTokenIndex nodes, hpath, ?_, ?_, sortByTokenIndex_sorted nodes, ?_⟩
  · have h0 := baseNodes_forall (fun n => n.isBranchContinuation = false) measure st tokens
      (fun n _ hc _ => hc) (fun n _ hc _ => hc) tokens 0 config.startX 0 anchor0
      (List.mem_of_find?_eq_some ha0)
    rw [hframe.1]
    exact h0
  · intro n hn
    obtain ⟨h1, c, j, hcp, _, _, h3⟩ := hform n hn
    refine ⟨h1, ?_⟩
    rw [h3, hanchor]
    have := cumProd_le_one c hcp j
    nlinarith
  · refine (sortByTokenIndex_sorted nodes).imp_of_mem ?_
    intro a b hma hmb hle
    obtain ⟨_, c, i, hcp, hall, h2, h3⟩ := hform a hma
    obtain ⟨j, g2, g3⟩ := hall b hmb
    rw [h3, g3]
    rw [h2, g2] at hle
    have hij : i ≤ j := by omega
    exact mul_le_mul_of_nonneg_left (cumProd_antitone c hcp i j hij) (le_of_lt hscale)

theorem thickness_of_cumulative (path : List Node)
    (h : path.Pairwise (fun a b => b.cumulativeProbability ≤ a.cumulativeProbability)) :
    (controlPoints path).Pairwise (fun a b => b.thickness ≤ a.thickness) := by
  unfold controlPoints
  rw [List.pairwise_map]
  refine h.imp ?_
  intro a b hab
  rw [controlPointOf_thickness, controlPointOf_thickness]
  linarith

/-! ## The branch paths passed to `drawContinuousMainPath` -/

theorem withBranches_continuation_active (measure : String → ℚ → ℚ) (st : State)
    (branches : List ActiveBranch) (tree : List Node) (n : Node)
    (hn : n ∈ withBranches measure st branches tree) :
    n ∈ tree ∨ (n.isBranchContinuation = true ∧ n.isActiveBranch = true) := by
  induction branches generalizing tree with
  | nil => exact Or.inl hn
  | cons branch rest ih =>
    unfold withBranches at hn
    rcases ih _ hn with h | h
    · rcases List.mem_append.mp h with h | h
      · exact Or.inl h
      · exact Or.inr (branchChain_forall
          (fun m => m.isBranchContinuation = true ∧ m.isActiveBranch = true) measure st branch
          tree (fun m _ hc ha _ => ⟨hc, ha⟩) n h)
    · exact Or.inr h

theorem relaxed_filter_continuation (measure : String → ℚ → ℚ) (st : State)
    (tokens : List Token) (k : Option String) :
    (relaxAlternativePositions (withBranches measure st st.activeBranches
      (baseNodes measure st tokens tokens 0 config.startX 0))).filter
        (fun n => n.isBranchContinuation && n.branchId == k)
      = (relaxAlternativePositions (withBranches measure st st.activeBranches
          (baseNodes measure st tokens tokens 0 config.startX 0))).filter (inBranchGroup k) := by
  apply List.filter_congr
  intro n hn
  obtain ⟨m, hm, hr⟩ := forall₂_mem_right RelaxFrame _ _ (relaxAlternativePositions_frame _) n hn
  have hflags : n.isBranchContinuation = m.isBranchContinuation ∧
      n.isActiveBranch = m.isActiveBranch := by
    rw [hr.1]
    exact ⟨rfl, rfl⟩
  rcases withBranches_continuation_active measure st _ _ m hm with h | h
  · have h0 := baseNodes_forall (fun n => n.isBranchContinuation = false) measure st tokens
      (fun n _ hc _ => hc) (fun n _ hc _ => hc) tokens 0 config.startX 0 m h
    simp [inBranchGroup, hflags.1, h0]
  · simp [inBranchGroup, hflags.1, hflags.2, h.1, h.2]

theorem continuationNodes_texts (measure : String → ℚ → ℚ) (startNode : Node)
    (continuationTokens : List Token) (branchId : String) (rest : List Token) (index : Nat)
    (currentX : ℚ) :
    (continuationNodes measure startNode continuationTokens branchId rest index currentX).map
        (fun n => (n.text, n.probability))
      = rest.map (fun t => (t.text, t.probability)) := by
  induction rest generalizing index currentX with
  | nil => rfl
  | cons token rest ih =>
    unfold continuationNodes
    rw [List.map_cons, List.map_cons, ih]

theorem map_of_frame {β : Type} (f : Node → β) (hf : ∀ a b, RelaxFrame a b → f a = f b)
    (l₁ l₂ : List Node) (h : List.Forall₂ RelaxFrame l₁ l₂) : l₂.map f = l₁.map f := by
  induction h with
  | nil => rfl
  | @cons a b t₁ t₂ hab _ ih => rw [List.map_cons, List.map_cons, ih, hf a b hab]

/-- Claim C22. Let the active branch ids be pairwise distinct, as they are in
every reachable session state. `renderActiveBranches` draws by the calls
`branchCalls tree`, one `drawContinuousMainPath` per call. For every active
branch `b` with a non-empty cached continuation `c` whose anchor (the first
node with the branch id of `b` that is not a continuation) is in the built
tree, exactly one call is made for the branch id of `b`; its node list is the
anchor followed by all continuation nodes of the tree with that branch id, in
tree order. These are `c.length` nodes, `1 + c.length` with the anchor; their
texts and probabilities are those of `c` in order, and the `k`-th has
`tokenIndex = anchor.tokenIndex + k + 1`. -/
theorem renderActiveBranches_full_path (measure : String → ℚ → ℚ) (st : State)
    (tokens : List Token)
    (hnodup : (st.activeBranches.map (fun b => b.branchId)).Nodup) :
    ∃ tree, buildTreeStructure measure st tokens = some tree ∧
      (∀ svg, renderActiveBranches svg tree
        = (branchCalls tree).foldl
            (fun svg call => drawContinuousMainPath svg call.fullPath call.color 0.85) svg) ∧
      ∀ b ∈ st.activeBranches, ∀ (c : List Token) (anchor : Node),
        st.branchContinuations.lookup b.branchId = some c → c ≠ [] →
        tree.find? (fun n => n.branchId == some b.branchId && !n.isBranchContinuation)
          = some anchor →
        ∃ color,
          (branchCalls tree).filter (fun call => call.branchId == some b.branchId)
            = [{ branchId := some b.branchId
                 fullPath := anchor :: tree.filter
                   (fun n => n.isBranchContinuation && n.branchId == some b.branchId)
                 color := color }] ∧
          (anchor :: tree.filter
            (fun n => n.isBranchContinuation && n.branchId == some b.branchId)).length
              = 1 + c.length ∧
          (tree.filter (fun n => n.isBranchContinuation && n.branchId == some b.branchId)).map
              (fun n => (n.text, n.probability))
            = c.map (fun t => (t.text, t.probability)) ∧
          ∀ k, k < c.length → ∃ n,
            (tree.filter
              (fun n => n.isBranchContinuation && n.branchId == some b.branchId))[k]? = some n ∧
            n.tokenIndex = anchor.tokenIndex + (k : Int) + 1 := by
  refine ⟨_, buildTreeStructure_eq measure st tokens, fun svg => renderActiveBranches_eq svg _, ?_⟩
  intro b hb c anchor hc hcne hanchor
  obtain ⟨anchor0, color, _, hframe, hconts, hfilter⟩ :=
    branchCalls_of_branch measure st tokens hnodup b hb c anchor hc hcne hanchor
  rw [relaxed_filter_continuation]
  refine ⟨color, hfilter, ?_, ?_, ?_⟩
  · rw [List.length_cons, ← hconts.length_eq, continuationNodes_length]
    omega
  · rw [map_of_frame (fun n => (n.text, n.probability))
      (fun a b h => by rw [h.1]) _ _ hconts, continuationNodes_texts]
  · intro k hk
    obtain ⟨m, hm, _, _, _, _, h5, _, _⟩ :=
      continuationNodes_getElem? measure anchor0 c b.branchId c 0
        (anchor0.x + anchor0.width + config.wordSpacing) k hk
    obtain ⟨n, hn, hr⟩ := forall₂_getElem? RelaxFrame _ _ hconts k m hm
    refine ⟨n, hn, ?_⟩
    have h1 : n.tokenIndex = m.tokenIndex := by rw [hr.1]
    have h2 : anchor.tokenIndex = anchor0.tokenIndex := by rw [hframe.1]
    rw [h1, h2, h5]
    simp

/-- Witness for claim C22: `branchState` has the single active branch `"0-0"`,
whose anchor is the image of `branchAnchor` and whose cached continuation has
one token; the branch is drawn by one call on two nodes. -/
theorem renderActiveBranches_full_path_witness :
    (branchState.activeBranches.map (fun b => b.branchId)).Nodup ∧
    ∃ tree anchor color, buildTreeStructure exampleMeasure branchState branchTokens = some tree ∧
      (branchCalls tree).filter (fun call => call.branchId == some "0-0")
        = [{ branchId := some "0-0"
             fullPath := anchor :: tree.filter
               (fun n => n.isBranchContinuation && n.branchId == some "0-0")
             color := color }] ∧
      (anchor :: tree.filter
        (fun n => n.isBranchContinuation && n.branchId == some "0-0")).length = 1 + 1 := by
  have hnodup : (branchState.activeBranches.map (fun b => b.branchId)).Nodup := by
    simp [branchState]
  refine ⟨hnodup, ?_⟩
  obtain ⟨tree, hbuild, _, h⟩ :=
    renderActiveBranches_full_path exampleMeasure branchState branchTokens hnodup
  obtain ⟨anchor, hfind, _⟩ := relaxed_start_left exampleMeasure branchState branchTokens
    (some "0-0") branchAnchor (by decide!)
  have htree := Option.some.inj
    ((buildTreeStructure_eq exampleMeasure branchState branchTokens).symm.trans hbuild)
  rw [htree] at hfind
  obtain ⟨color, h1, h2, _⟩ := h branchEntry (by simp [branchState])
    [{ text := "e", probability := 1 / 2, alternatives := [] }] anchor (by decide!) (by simp)
    hfind
  exact ⟨tree, anchor, color, hbuild, h1, h2⟩

/-! ## Interpolation is well defined on the drawn paths -/

theorem config_wordSpacing_pos : 0 < config.wordSpacing := by
  rw [config_wordSpacing]
  norm_num

/-- On a path of at least two nodes with strictly increasing control-point
`x`, adjacent control points differ in `x`, and for a position between the
first and the last control point the bracket search finds a pair around it. -/
theorem interpolation_defined (path : List Node)
    (hinc : (controlPoints path).Pairwise (fun a b => a.x < b.x)) :
    (∀ (j : Nat) (p1 p2 : ControlPoint), (controlPoints path)[j]? = some p1 →
      (controlPoints path)[j + 1]? = some p2 → p2.x - p1.x ≠ 0) ∧
    (2 ≤ path.length → ∀ x : ℚ, ((controlPoints path).getD 0 default).x ≤ x →
      x ≤ ((controlPoints path).getD ((controlPoints path).length - 1) default).x →
      ∃ idx p1 p2, findBracket x (controlPoints path) 0 = idx ∧
        (controlPoints path)[idx]? = some p1 ∧ (controlPoints path)[idx + 1]? = some p2 ∧
        p1.x ≤ x ∧ x ≤ p2.x ∧ p2.x - p1.x ≠ 0 ∧
        0 ≤ (x - p1.x) / (p2.x - p1.x) ∧ (x - p1.x) / (p2.x - p1.x) ≤ 1 ∧
        sampleThickness (controlPoints path) x
          = p1.thickness + (p2.thickness - p1.thickness) *
              smoothstep ((x - p1.x) / (p2.x - p1.x))) := by
  constructor
  · intro j p1 p2 h1 h2
    have := pairwise_x_lt _ hinc j (j + 1) p1 p2 h1 h2 (Nat.lt_succ_self _)
    linarith
  · intro hlen x hx0 hx1
    exact sampleThickness_bracket _ x (by simpa [controlPoints] using hlen) hinc
      (not_lt.mpr hx0) (not_lt.mpr hx1)

/-- Claim C26. Let no measured width be negative (the word spacing `15` is
positive) and let the active branch ids be pairwise distinct, as they are in
every reachable session state. For the main path and for every branch path
`renderActiveBranches` draws of the built tree, the control-point `x` values
`node.x + node.width / 2` are strictly increasing. Hence adjacent control
points never have the same `x`, and for every position between the first and
the last control point the bracket search returns an index `idx` with
`controlPoints[idx].x ≤ x ≤ controlPoints[idx + 1].x`, a non-zero divisor and a
local fraction in `[0, 1]`, from which the thickness is interpolated. -/
theorem drawn_paths_interpolation_defined (measure : String → ℚ → ℚ) (st : State)
    (tokens : List Token) (hw : NonnegWidths measure)
    (hnodup : (st.activeBranches.map (fun b => b.branchId)).Nodup) :
    0 < config.wordSpacing ∧
    ∃ tree, buildTreeStructure measure st tokens = some tree ∧
      (∀ svg, renderMainPath svg tree
        = drawContinuousMainPath svg (tree.filter (fun n => n.isMainPath)) "#4a90e2" 1) ∧
      (∀ svg, renderActiveBranches svg tree
        = (branchCalls tree).foldl
            (fun svg call => drawContinuousMainPath svg call.fullPath call.color 0.85) svg) ∧
      ∀ path : List Node,
        (path = tree.filter (fun n => n.isMainPath) ∨
          ∃ call ∈ branchCalls tree, path = call.fullPath) →
        (controlPoints path).Pairwise (fun a b => a.x < b.x) ∧
        (∀ (j : Nat) (p1 p2 : ControlPoint), (controlPoints path)[j]? = some p1 →
          (controlPoints path)[j + 1]? = some p2 → p2.x - p1.x ≠ 0) ∧
        (2 ≤ path.length → ∀ x : ℚ, ((controlPoints path).getD 0 default).x ≤ x →
          x ≤ ((controlPoints path).getD ((controlPoints path).length - 1) default).x →
          ∃ idx p1 p2, findBracket x (controlPoints path) 0 = idx ∧
            (controlPoints path)[idx]? = some p1 ∧ (controlPoints path)[idx + 1]? = some p2 ∧
            p1.x ≤ x ∧ x ≤ p2.x ∧ p2.x - p1.x ≠ 0 ∧
            0 ≤ (x - p1.x) / (p2.x - p1.x) ∧ (x - p1.x) / (p2.x - p1.x) ≤ 1 ∧
            sampleThickness (controlPoints path) x
              = p1.thickness + (p2.thickness - p1.thickness) *
                  smoothstep ((x - p1.x) / (p2.x - p1.x))) := by
  refine ⟨config_wordSpacing_pos, _, buildTreeStructure_eq measure st tokens, fun _ => rfl,
    fun svg => renderActiveBranches_eq svg _, ?_⟩
  intro path hpath
  have hinc : (controlPoints path).Pairwise (fun a b => a.x < b.x) := by
    rcases hpath with hp | ⟨call, hcall, hp⟩
    · rw [hp]
      exact PathOrder.controlPoints_x measure 1 tokens hw _
        (relaxed_main_pairwise measure st tokens)
    · rw [hp]
      obtain ⟨c, anchor0, _, _, _, _, _, _, _, _, _, hpw⟩ :=
        branchCalls_pairwise measure st tokens hnodup call hcall
      exact PathOrder.controlPoints_x measure _ c hw _ hpw
  exact ⟨hinc, interpolation_defined path hinc⟩

/-- Witness for claim C26: `exampleMeasure` gives no negative width at the two
font sizes and `branchState` has one active branch. -/
theorem drawn_paths_interpolation_defined_witness :
    NonnegWidths exampleMeasure ∧
    (branchState.activeBranches.map (fun b => b.branchId)).Nodup ∧
    ∃ tree, buildTreeStructure exampleMeasure branchState branchTokens = some tree ∧
      (controlPoints (tree.filter (fun n => n.isMainPath))).Pairwise (fun a b => a.x < b.x) ∧
      ∀ call ∈ branchCalls tree,
        (controlPoints call.fullPath).Pairwise (fun a b => a.x < b.x) := by
  have hw : NonnegWidths exampleMeasure := by
    intro text
    simp only [exampleMeasure, config]
    constructor <;> positivity
  have hnodup : (branchState.activeBranches.map (fun b => b.branchId)).Nodup := by
    simp [branchState]
  obtain ⟨_, tree, hbuild, _, _, h⟩ :=
    drawn_paths_interpolation_defined exampleMeasure branchState branchTokens hw hnodup
  exact ⟨hw, hnodup, tree, hbuild, (h _ (Or.inl rfl)).1,
    fun call hcall => (h _ (Or.inr ⟨call, hcall, rfl⟩)).1⟩

/-! ## Cumulative probabilities and thickness along the paths -/

theorem relaxed_node_of_main (measure : String → ℚ → ℚ) (st : State) (tokens : List Token)
    (m : Node)
    (hm : m ∈ relaxAlternativePositions (withBranches measure st st.activeBranches
      (baseNodes measure st tokens tokens 0 config.startX 0)))
    (hmain : m.isMainPath = true) :
    ∃ j : Nat, m.tokenIndex = (j : Int) ∧ m.cumulativeProbability = cumProd tokens (j + 1) := by
  obtain ⟨a, ha, hr⟩ := forall₂_mem_right RelaxFrame _ _ (relaxAlternativePositions_frame _) m hm
  have hflag : a.isMainPath = true := by
    rw [isMainPath_frame a m hr]
    exact hmain
  rcases withBranches_mem measure st _ _ a ha with h | h
  · obtain ⟨j, _, h1, h2, _⟩ := baseNodes_main_mem measure st tokens tokens 0 config.startX 0 a h
      hflag
    refine ⟨j, ?_, ?_⟩
    · rw [hr.1]
      exact h1
    · rw [hr.1]
      exact h2
  · rw [h.1] at hflag
    cases hflag

/-- Claim C28, as amended. Let every token probability, every alternative
probability and every probability of a cached continuation token be in
`(0, 1]`. In the tree `buildTreeStructure` returns, every node has its
cumulative probability in `[0, 1]`; of two main-path nodes the one with the
larger token index has the smaller or equal cumulative probability; an
alternative has at most the cumulative probability of the main-path node one
token before it, and at most `1` at token index `0`; and the control-point
thickness never increases along the main path. Every branch path
`renderActiveBranches` draws is an anchor followed by continuation nodes in the
order of their token index, whose cumulative probabilities are at most the
anchor's and never increase, and the control-point thickness never increases
along the branch path. -/
theorem buildTreeStructure_probabilities (measure : String → ℚ → ℚ) (st : State)
    (tokens : List Token)
    (htok : ∀ t ∈ tokens, (0 < t.probability ∧ t.probability ≤ 1) ∧
      ∀ alt ∈ t.alternatives, 0 < alt.probability ∧ alt.probability ≤ 1)
    (hcont : ∀ entry ∈ st.branchContinuations, ∀ t ∈ entry.2,
      0 < t.probability ∧ t.probability ≤ 1) :
    ∃ tree, buildTreeStructure measure st tokens = some tree ∧
      (∀ n ∈ tree, 0 ≤ n.cumulativeProbability ∧ n.cumulativeProbability ≤ 1) ∧
      (∀ a ∈ tree, ∀ b ∈ tree, a.isMainPath = true → b.isMainPath = true →
        a.tokenIndex ≤ b.tokenIndex → b.cumulativeProbability ≤ a.cumulativeProbability) ∧
      (∀ n ∈ tree, n.isMainPath = false → n.isBranchContinuation = false →
        (n.tokenIndex = 0 → n.cumulativeProbability ≤ 1) ∧
        ∀ m ∈ tree, m.isMainPath = true → m.tokenIndex = n.tokenIndex - 1 →
          n.cumulativeProbability ≤ m.cumulativeProbability) ∧
      (controlPoints (tree.filter (fun n => n.isMainPath))).Pairwise
        (fun a b => b.thickness ≤ a.thickness) ∧
      (∀ svg, renderActiveBranches svg tree
        = (branchCalls tree).foldl
            (fun svg call => drawContinuousMainPath svg call.fullPath call.color 0.85) svg) ∧
      (∀ call ∈ branchCalls tree, ∃ anchor conts,
        call.fullPath = anchor :: conts ∧ anchor.isBranchContinuation = false ∧
        (∀ n ∈ conts, n.isBranchContinuation = true ∧
          n.cumulativeProbability ≤ anchor.cumulativeProbability) ∧
        conts.Pairwise (fun a b => a.tokenIndex ≤ b.tokenIndex) ∧
        conts.Pairwise (fun a b => b.cumulativeProbability ≤ a.cumulativeProbability) ∧
        (controlPoints call.fullPath).Pairwise (fun a b => b.thickness ≤ a.thickness)) := by
  have hp : ∀ t ∈ tokens, 0 < t.probability ∧ t.probability ≤ 1 := fun t ht => (htok t ht).1
  have ha : ∀ t ∈ tokens, ∀ alt ∈ t.alternatives, 0 < alt.probability ∧ alt.probability ≤ 1 :=
    fun t ht => (htok t ht).2
  have hbase := baseNodes_cum_range measure st tokens tokens hp ha 0 config.startX 0
  have hrange : ∀ n ∈ relaxAlternativePositions (withBranches measure st st.activeBranches
      (baseNodes measure st tokens tokens 0 config.startX 0)),
      0 < n.cumulativeProbability ∧ n.cumulativeProbability ≤ 1 := by
    intro n hn
    obtain ⟨m, hm, hr⟩ := forall₂_mem_right RelaxFrame _ _ (relaxAlternativePositions_frame _)
      n hn
    rw [cumulativeProbability_frame m n hr]
    exact withBranches_cum_range measure st hcont _ _ hbase m hm
  have hmainpw := relaxed_main_pairwise measure st tokens
  refine ⟨_, buildTreeStructure_eq measure st tokens,
    fun n hn => ⟨le_of_lt (hrange n hn).1, (hrange n hn).2⟩, ?_, ?_,
    PathOrder.thickness measure 1 tokens (by norm_num) hp _ hmainpw,
    fun svg => renderActiveBranches_eq svg _, ?_⟩
  · intro a ha' b hb' hma hmb hle
    obtain ⟨i, hi1, hi2⟩ := relaxed_node_of_main measure st tokens a ha' hma
    obtain ⟨j, hj1, hj2⟩ := relaxed_node_of_main measure st tokens b hb' hmb
    rw [hi1, hj1] at hle
    rw [hi2, hj2]
    exact cumProd_antitone tokens hp _ _ (by omega)
  · intro n hn hmain hc
    refine ⟨fun _ => (hrange n hn).2, ?_⟩
    intro m hm hmm hidx
    obtain ⟨a, ha', hr⟩ := returned_node_of_base measure st tokens n hn hc
    have hflag : a.isMainPath = false := by
      rw [isMainPath_frame a n hr]
      exact hmain
    obtain ⟨i, p, h1, h2, h3, h4⟩ := baseNodes_alt_mem measure st tokens tokens ha 0
      config.startX 0 a ha' hflag
    obtain ⟨j, hj1, hj2⟩ := relaxed_node_of_main measure st tokens m hm hmm
    have hn1 : n.tokenIndex = (i : Int) := by
      rw [hr.1]
      exact h1
    rw [hj1, hn1] at hidx
    have hij : j + 1 = i := by omega
    rw [cumulativeProbability_frame a n hr, h2, hj2, hij]
    have hpos := cumProd_pos tokens hp i
    nlinarith
  · intro call hcall
    obtain ⟨anchor, conts, hfull, hanchor, hconts, hsorted, hcum⟩ :=
      branchCalls_cumulative measure st tokens hcont hbase call hcall
    refine ⟨anchor, conts, hfull, hanchor, hconts, hsorted, hcum, ?_⟩
    apply thickness_of_cumulative
    rw [hfull, List.pairwise_cons]
    exact ⟨fun n hn => (hconts n hn).2, hcum⟩

/-- Witness for claim C28 as amended: every probability of `branchTokens` and of the
continuation cached in `branchState` is `1` or `1 / 2`. -/
theorem buildTreeStructure_probabilities_witness :
    (∀ t ∈ branchTokens, (0 < t.probability ∧ t.probability ≤ 1) ∧
      ∀ alt ∈ t.alternatives, 0 < alt.probability ∧ alt.probability ≤ 1) ∧
    (∀ entry ∈ branchState.branchContinuations, ∀ t ∈ entry.2,
      0 < t.probability ∧ t.probability ≤ 1) ∧
    ∃ tree, buildTreeStructure exampleMeasure branchState branchTokens = some tree ∧
      (∀ n ∈ tree, 0 ≤ n.cumulativeProbability ∧ n.cumulativeProbability ≤ 1) ∧
      (controlPoints (tree.filter (fun n => n.isMainPath))).Pairwise
        (fun a b => b.thickness ≤ a.thickness) ∧
      ∀ call ∈ branchCalls tree,
        (controlPoints call.fullPath).Pairwise (fun a b => b.thickness ≤ a.thickness) := by
  have htok : ∀ t ∈ branchTokens, (0 < t.probability ∧ t.probability ≤ 1) ∧
      ∀ alt ∈ t.alternatives, 0 < alt.probability ∧ alt.probability ≤ 1 := by
    intro t ht
    simp only [branchTokens, List.mem_cons, List.mem_singleton, List.not_mem_nil, or_false] at ht
    rcases ht with rfl | rfl <;> norm_num
  have hcont : ∀ entry ∈ branchState.branchContinuations, ∀ t ∈ entry.2,
      0 < t.probability ∧ t.probability ≤ 1 := by
    intro entry he t ht
    simp only [branchState, List.mem_singleton] at he
    subst he
    simp only [List.mem_singleton] at ht
    subst ht
    norm_num
  obtain ⟨tree, hbuild, h1, _, _, h4, _, h6⟩ :=
    buildTreeStructure_probabilities exampleMeasure branchState branchTokens htok hcont
  refine ⟨htok, hcont, tree, hbuild, h1, h4, ?_⟩
  intro call hcall
  obtain ⟨_, _, _, _, _, _, _, h⟩ := h6 call hcall
  exact h

/-! ## Thickness of a control point -/

theorem relaxed_filter_main (tree : List Node) :
    (relaxAlternativePositions tree).filter (fun n => n.isMainPath)
      = tree.filter (fun n => n.isMainPath) := by
  have h := relaxAlternativePositions_frame tree
  generalize relaxAlternativePositions tree = out at h
  induction h with
  | nil => rfl
  | @cons a b t₁ t₂ hab _ ih =>
    by_cases hm : a.isMainPath = true
    · have hb : b = a := hab.2 hm
      subst hb
      simp only [List.filter_cons, hm, if_true, ih]
    · have hb : b.isMainPath = a.isMainPath := by rw [hab.1]
      have hm' : a.isMainPath = false := by simpa using hm
      simp only [List.filter_cons, hb, hm', Bool.false_eq_true, if_false, ih]

/-- Claim C10, as amended. The control point `drawContinuousMainPath` derives
from the `i`-th node of a path is the `i`-th control point, has `x = node.x +
node.width / 2` and `thickness = minLineThickness + cumulativeProbability *
(maxLineThickness - minLineThickness)` with `minLineThickness = 8` and
`maxLineThickness = 60`; the thickness does not decrease when the cumulative
probability increases, and it lies in `[8, 60]` when the cumulative probability
lies in `[0, 1]`. -/
theorem controlPoint_of_node (pathNodes : List Node) (i : Nat) (node : Node)
    (h : pathNodes[i]? = some node) :
    (controlPoints pathNodes)[i]? = some (controlPointOf node) ∧
    (controlPointOf node).x = node.x + node.width / 2 ∧
    (controlPointOf node).thickness = config.minLineThickness +
      node.cumulativeProbability * (config.maxLineThickness - config.minLineThickness) ∧
    config.minLineThickness = 8 ∧ config.maxLineThickness = 60 ∧
    (∀ other : Node, node.cumulativeProbability ≤ other.cumulativeProbability →
      (controlPointOf node).thickness ≤ (controlPointOf other).thickness) ∧
    (0 ≤ node.cumulativeProbability → node.cumulativeProbability ≤ 1 →
      8 ≤ (controlPointOf node).thickness ∧ (controlPointOf node).thickness ≤ 60) := by
  refine ⟨by simp [controlPoints, h], rfl, rfl, rfl, rfl, ?_, ?_⟩
  · intro other ho
    rw [controlPointOf_thickness, controlPointOf_thickness]
    linarith
  · intro h0 h1
    rw [controlPointOf_thickness]
    constructor <;> linarith

/-- Witness for claim C10 as amended: the second node of `taperedPath`, of
cumulative probability `1 / 2`. -/
theorem controlPoint_of_node_witness :
    taperedPath[1]? = some (pathNode 75 10 (1 / 2)) ∧
    (controlPoints taperedPath)[1]? = some (controlPointOf (pathNode 75 10 (1 / 2))) ∧
    (controlPointOf (pathNode 75 10 (1 / 2))).thickness = 34 :=
  ⟨rfl, (controlPoint_of_node taperedPath 1 (pathNode 75 10 (1 / 2)) rfl).1, by
    rw [controlPointOf_thickness]
    simp only [pathNode]
    norm_num⟩

/-- Counterexample to claim C10 as stated: in the doubles the script computes
with, the thickness is not strictly increasing in the cumulative probability.
The cumulative probabilities `0.49999999999999994` and `0.5` are both doubles,
the first is the smaller one, and both give the thickness `34`:
`0.49999999999999994 * 52` rounds to `25.999999999999996`, and adding `8`
rounds to `34`. -/
theorem controlPointOfDouble_not_strict :
    roundDouble belowHalf = belowHalf ∧ roundDouble (1 / 2) = 1 / 2 ∧
    (pathNode 50 10 belowHalf).cumulativeProbability
      < (pathNode 50 10 (1 / 2)).cumulativeProbability ∧
    roundDouble (belowHalf * 52) = 26 - 1 / 2 ^ 48 ∧
    (controlPointOfDouble (pathNode 50 10 belowHalf)).thickness = 34 ∧
    (controlPointOfDouble (pathNode 50 10 (1 / 2))).thickness = 34 := by
  decide!

/-! ## Thickness at the midpoint of two control points -/

/-- Claim C6, as amended. For a path of two nodes whose control points are at
`x0 < x1` with thicknesses `t0` and `t1`, the thickness interpolated at
`(x0 + x1) / 2` lies between `min t0 t1` and `max t0 t1`, the bounds
included. -/
theorem sampleThickness_midpoint (n0 n1 : Node)
    (hx : (controlPointOf n0).x < (controlPointOf n1).x) :
    min (controlPointOf n0).thickness (controlPointOf n1).thickness
      ≤ sampleThickness (controlPoints [n0, n1])
          (((controlPointOf n0).x + (controlPointOf n1).x) / 2) ∧
    sampleThickness (controlPoints [n0, n1])
        (((controlPointOf n0).x + (controlPointOf n1).x) / 2)
      ≤ max (controlPointOf n0).thickness (controlPointOf n1).thickness := by
  have hmid : sampleThickness (controlPoints [n0, n1])
        (((controlPointOf n0).x + (controlPointOf n1).x) / 2)
      = ((controlPointOf n0).thickness + (controlPointOf n1).thickness) / 2 :=
    sampleThickness_two_mid (controlPointOf n0) (controlPointOf n1) hx
  rw [hmid]
  constructor
  · rcases le_total (controlPointOf n0).thickness (controlPointOf n1).thickness with h | h
    · rw [min_eq_left h]; linarith
    · rw [min_eq_right h]; linarith
  · rcases le_total (controlPointOf n0).thickness (controlPointOf n1).thickness with h | h
    · rw [max_eq_right h]; linarith
    · rw [max_eq_left h]; linarith

/-- Witness for claim C6 as amended: two nodes with control points at
`55 < 80` and the thicknesses `60` and `34`. -/
theorem sampleThickness_midpoint_witness :
    (controlPointOf (pathNode 50 10 1)).x < (controlPointOf (pathNode 75 10 (1 / 2))).x ∧
    (controlPointOf (pathNode 50 10 1)).thickness = 60 ∧
    (controlPointOf (pathNode 75 10 (1 / 2))).thickness = 34 ∧
    min (controlPointOf (pathNode 50 10 1)).thickness
        (controlPointOf (pathNode 75 10 (1 / 2))).thickness
      ≤ sampleThickness (controlPoints [pathNode 50 10 1, pathNode 75 10 (1 / 2)])
          (((controlPointOf (pathNode 50 10 1)).x +
            (controlPointOf (pathNode 75 10 (1 / 2))).x) / 2) ∧
    sampleThickness (controlPoints [pathNode 50 10 1, pathNode 75 10 (1 / 2)])
        (((controlPointOf (pathNode 50 10 1)).x +
          (controlPointOf (pathNode 75 10 (1 / 2))).x) / 2)
      ≤ max (controlPointOf (pathNode 50 10 1)).thickness
          (controlPointOf (pathNode 75 10 (1 / 2))).thickness :=
  ⟨by simp only [controlPointOf, pathNode]; norm_num,
    by rw [controlPointOf_thickness]; simp only [pathNode]; norm_num,
    by rw [controlPointOf_thickness]; simp only [pathNode]; norm_num,
    sampleThickness_midpoint (pathNode 50 10 1) (pathNode 75 10 (1 / 2))
      (by simp only [controlPointOf, pathNode]; norm_num)⟩

/-- Counterexample to claim C6 as stated: the main path built for
`branchTokens`, two tokens of probability `1`, consists of the nodes
`certainFirst` and `certainSecond`, with control points at `54.5 < 78.5`, both
of thickness `60`. The thickness interpolated at the midpoint is `60`, which is
not strictly between `min 60 60` and `max 60 60`. Different thicknesses do not
make the bounds strict in the doubles the script computes with: for the
cumulative probabilities `1` and `1 - 2 ^ (-53)` the control points at `0` and
`2` have the thicknesses `60` and `60 - 2 ^ (-47)`, and the thickness
interpolated at `1` rounds to `60`, the larger of the two. -/
theorem sampleThickness_midpoint_not_strict :
    ∃ tree, buildTreeStructure exampleMeasure initialState branchTokens = some tree ∧
      tree.filter (fun n => n.isMainPath) = [certainFirst, certainSecond] ∧
      (controlPointOf certainFirst).x = 54.5 ∧ (controlPointOf certainSecond).x = 78.5 ∧
      (controlPointOf certainFirst).thickness = 60 ∧
      (controlPointOf certainSecond).thickness = 60 ∧
      sampleThickness (controlPoints [certainFirst, certainSecond])
        (((controlPointOf certainFirst).x + (controlPointOf certainSecond).x) / 2) = 60 ∧
      ¬ (min (controlPointOf certainFirst).thickness (controlPointOf certainSecond).thickness
          < sampleThickness (controlPoints [certainFirst, certainSecond])
              (((controlPointOf certainFirst).x + (controlPointOf certainSecond).x) / 2) ∧
        sampleThickness (controlPoints [certainFirst, certainSecond])
            (((controlPointOf certainFirst).x + (controlPointOf certainSecond).x) / 2)
          < max (controlPointOf certainFirst).thickness
              (controlPointOf certainSecond).thickness) ∧
      controlPointsDouble [pathNode 0 0 1, pathNode 2 0 (1 - 1 / 2 ^ 53)]
        = [ { x := 0, thickness := 60 }, { x := 2, thickness := 60 - 1 / 2 ^ 47 } ] ∧
      sampleThicknessDouble
        (controlPointsDouble [pathNode 0 0 1, pathNode 2 0 (1 - 1 / 2 ^ 53)]) 1 = 60 := by
  have hmain : (relaxAlternativePositions (withBranches exampleMeasure initialState
      initialState.activeBranches
      (baseNodes exampleMeasure initialState branchTokens branchTokens 0 config.startX 0))).filter
        (fun n => n.isMainPath) = [certainFirst, certainSecond] := by
    rw [relaxed_filter_main]
    decide!
  refine ⟨_, buildTreeStructure_eq exampleMeasure initialState branchTokens, hmain, ?_⟩
  have hx0 : (controlPointOf certainFirst).x = 54.5 := by
    simp only [controlPointOf, certainFirst]; norm_num
  have hx1 : (controlPointOf certainSecond).x = 78.5 := by
    simp only [controlPointOf, certainSecond]; norm_num
  have ht0 : (controlPointOf certainFirst).thickness = 60 := by
    rw [controlPointOf_thickness]; simp only [certainFirst]; norm_num
  have ht1 : (controlPointOf certainSecond).thickness = 60 := by
    rw [controlPointOf_thickness]; simp only [certainSecond]; norm_num
  have hmid := sampleThickness_two_mid (controlPointOf certainFirst) (controlPointOf certainSecond)
    (by rw [hx0, hx1]; norm_num)
  have hs : sampleThickness (controlPoints [certainFirst, certainSecond])
      (((controlPointOf certainFirst).x + (controlPointOf certainSecond).x) / 2) = 60 := by
    show sampleThickness [controlPointOf certainFirst, controlPointOf certainSecond] _ = 60
    rw [hmid, ht0, ht1]
    norm_num
  refine ⟨hx0, hx1, ht0, ht1, hs, ?_, by decide!, by decide!⟩
  rw [hs, ht0, ht1]
  intro hc
  exact absurd hc.1 (by simp)

/-! ## The outline and the clamping on the drawn paths -/

theorem pairwise_first_last {α : Type} (R : α → α → Prop) (l : List α) (d : α)
    (h : l.Pairwise R) (hlen : 2 ≤ l.length) : R (l.getD 0 d) (l.getD (l.length - 1) d) := by
  rw [List.getD_eq_getElem l d (by omega), List.getD_eq_getElem l d (by omega)]
  exact List.pairwise_iff_getElem.mp h 0 (l.length - 1) (by omega) (by omega) (by omega)

/-- Every path drawn for the built tree, the main path or the path of a
branch, is ordered as a path for some scale and token list. -/
theorem drawn_path_pairwise (measure : String → ℚ → ℚ) (st : State) (tokens : List Token)
    (hnodup : (st.activeBranches.map (fun b => b.branchId)).Nodup) (path : List Node)
    (hpath : path = (relaxAlternativePositions (withBranches measure st st.activeBranches
        (baseNodes measure st tokens tokens 0 config.startX 0))).filter (fun n => n.isMainPath) ∨
      ∃ call ∈ branchCalls (relaxAlternativePositions (withBranches measure st st.activeBranches
        (baseNodes measure st tokens tokens 0 config.startX 0))), path = call.fullPath) :
    ∃ scale toks, path.Pairwise (PathOrder measure scale toks) := by
  rcases hpath with hp | ⟨call, hcall, hp⟩
  · exact ⟨1, tokens, hp ▸ relaxed_main_pairwise measure st tokens⟩
  · obtain ⟨c, anchor0, _, _, _, _, _, _, _, _, _, hpw⟩ :=
      branchCalls_pairwise measure st tokens hnodup call hcall
    exact ⟨_, c, hp ▸ hpw⟩

/-- On a drawn path of at least two nodes the first node lies left of the
last: the path starts left of its end, and the first control point is left of
the last one. -/
theorem drawn_path_extent (measure : String → ℚ → ℚ) (scale : ℚ) (toks : List Token)
    (hw : NonnegWidths measure) (path : List Node)
    (h : path.Pairwise (PathOrder measure scale toks)) (hlen : 2 ≤ path.length) :
    pathStartX path < pathEndX path ∧
    (controlPointOf (path.getD 0 default)).x
      < (controlPointOf (path.getD (path.length - 1) default)).x := by
  obtain ⟨h1, h2, h3⟩ := (pairwise_first_last _ path default h hlen).2.2 hw
  have hsp : (0 : ℚ) < config.wordSpacing := config_wordSpacing_pos
  constructor
  · show (path.getD 0 default).x - config.wordSpacing
      < (path.getD (path.length - 1) default).x + (path.getD (path.length - 1) default).width
        + config.wordSpacing
    linarith
  · show (path.getD 0 default).x + (path.getD 0 default).width / 2
      < (path.getD (path.length - 1) default).x + (path.getD (path.length - 1) default).width / 2
    linarith

/-- Claim C8. Let no measured width be negative and let the active branch ids
be pairwise distinct, as they are in every reachable session state. For every
path of at least two nodes that is drawn for the built tree, the main path or
the path of a branch, the outline built by `drawContinuousMainPath` has
`2 * (200 + 1) = 402` points. Sample `k` has `x = startX + (endX - startX) *
(k / 200)` with `startX = first.x - wordSpacing` and `endX = last.x +
last.width + wordSpacing`; outline point `k` is its top point `y0 -
thickness / 2` and outline point `401 - k` its bottom point `y0 +
thickness / 2`, with the same `x`, where `y0` is the `y` of the first node.
The sample `x` values increase strictly with the sample index, so the top
points come in increasing-x order and the bottom points in decreasing-x
order. -/
theorem drawContinuousMainPath_outline (measure : String → ℚ → ℚ) (st : State)
    (tokens : List Token) (hw : NonnegWidths measure)
    (hnodup : (st.activeBranches.map (fun b => b.branchId)).Nodup) :
    ∃ tree, buildTreeStructure measure st tokens = some tree ∧
      (∀ svg, renderMainPath svg tree
        = drawContinuousMainPath svg (tree.filter (fun n => n.isMainPath)) "#4a90e2" 1) ∧
      (∀ svg, renderActiveBranches svg tree
        = (branchCalls tree).foldl
            (fun svg call => drawContinuousMainPath svg call.fullPath call.color 0.85) svg) ∧
      ∀ pathNodes : List Node,
        (pathNodes = tree.filter (fun n => n.isMainPath) ∨
          ∃ call ∈ branchCalls tree, pathNodes = call.fullPath) →
        2 ≤ pathNodes.length →
        ∀ (svg : List SvgPath) (color : String) (opacity : ℚ),
          ∃ p, drawContinuousMainPath svg pathNodes color opacity = svg ++ [p] ∧
            (outlinePoints p.d).length = 2 * (200 + 1) ∧
            pathStartX pathNodes = (pathNodes.getD 0 default).x - config.wordSpacing ∧
            pathEndX pathNodes = (pathNodes.getD (pathNodes.length - 1) default).x +
              (pathNodes.getD (pathNodes.length - 1) default).width + config.wordSpacing ∧
            (∀ k, k ≤ 200 →
              (outlinePoints p.d)[k]? = some
                { x := pathStartX pathNodes +
                    (pathEndX pathNodes - pathStartX pathNodes) * ((k : ℚ) / 200)
                  y := (pathNodes.getD 0 default).y -
                    sampleThickness (controlPoints pathNodes)
                      (pathStartX pathNodes +
                        (pathEndX pathNodes - pathStartX pathNodes) * ((k : ℚ) / 200)) / 2 } ∧
              (outlinePoints p.d)[401 - k]? = some
                { x := pathStartX pathNodes +
                    (pathEndX pathNodes - pathStartX pathNodes) * ((k : ℚ) / 200)
                  y := (pathNodes.getD 0 default).y +
                    sampleThickness (controlPoints pathNodes)
                      (pathStartX pathNodes +
                        (pathEndX pathNodes - pathStartX pathNodes) * ((k : ℚ) / 200)) / 2 }) ∧
            pathStartX pathNodes < pathEndX pathNodes ∧
            (∀ i j : Nat, i < j → j ≤ 200 →
              pathStartX pathNodes +
                  (pathEndX pathNodes - pathStartX pathNodes) * ((i : ℚ) / 200)
                < pathStartX pathNodes +
                    (pathEndX pathNodes - pathStartX pathNodes) * ((j : ℚ) / 200)) := by
  refine ⟨_, buildTreeStructure_eq measure st tokens, fun _ => rfl,
    fun svg => renderActiveBranches_eq svg _, ?_⟩
  intro pathNodes hpath hlen svg color opacity
  obtain ⟨scale, toks, hpw⟩ := drawn_path_pairwise measure st tokens hnodup pathNodes hpath
  have hext := (drawn_path_extent measure scale toks hw pathNodes hpw hlen).1
  obtain ⟨p, hp, h402, hs, he, hk, hinc⟩ := outline_of_two_le svg pathNodes color opacity hlen
  exact ⟨p, hp, h402, hs, he, hk, hext, hinc hext⟩

/-- Witness for claim C8: `exampleMeasure` gives no negative width at the two
font sizes, `branchState` has one active branch, and the main path built for
`branchTokens` has two nodes; it is drawn from `startX = 35` to
`endX = 98`. -/
theorem drawContinuousMainPath_outline_witness :
    NonnegWidths exampleMeasure ∧
    (branchState.activeBranches.map (fun b => b.branchId)).Nodup ∧
    ∃ tree, buildTreeStructure exampleMeasure branchState branchTokens = some tree ∧
      (tree.filter (fun n => n.isMainPath)).length = 2 ∧
      pathStartX (tree.filter (fun n => n.isMainPath)) = 35 ∧
      pathEndX (tree.filter (fun n => n.isMainPath)) = 98 ∧
      ∃ p, drawContinuousMainPath [] (tree.filter (fun n => n.isMainPath)) "#4a90e2" 1 = [p] ∧
        (outlinePoints p.d).length = 402 := by
  have hw : NonnegWidths exampleMeasure := by
    intro text
    simp only [exampleMeasure, config]
    constructor <;> positivity
  have hnodup : (branchState.activeBranches.map (fun b => b.branchId)).Nodup := by
    simp [branchState]
  obtain ⟨tree, hbuild, _, _, h⟩ :=
    drawContinuousMainPath_outline exampleMeasure branchState branchTokens hw hnodup
  have htree := (buildTreeStructure_eq exampleMeasure branchState branchTokens).symm.trans hbuild
  have hmain : tree.filter (fun n => n.isMainPath) = [certainFirst, certainSecond] := by
    rw [← Option.some.inj htree, relaxed_filter_main]
    decide!
  have hlen : (tree.filter (fun n => n.isMainPath)).length = 2 := by rw [hmain]; rfl
  obtain ⟨p, hp, h402, _⟩ := h _ (Or.inl rfl) (by omega) [] "#4a90e2" 1
  refine ⟨hw, hnodup, tree, hbuild, hlen, ?_, ?_, p, by simpa using hp, h402⟩
  · rw [hmain]
    simp only [pathStartX, certainFirst, List.getD_cons_zero, config]
    norm_num
  · rw [hmain]
    simp [pathEndX, certainFirst, certainSecond, config]
    norm_num

/-- Claim C9. Let no measured width be negative and let the active branch ids
be pairwise distinct, as they are in every reachable session state. For every
path of at least two nodes that is drawn for the built tree, the main path or
the path of a branch, and every position `x`: if `x` is less than the first
control point's `x`, the sampled thickness is the first control point's
thickness, and if `x` is greater than the last control point's `x`, it is the
last control point's thickness. The first control point is left of the
last. -/
theorem sampleThickness_clamped (measure : String → ℚ → ℚ) (st : State)
    (tokens : List Token) (hw : NonnegWidths measure)
    (hnodup : (st.activeBranches.map (fun b => b.branchId)).Nodup) :
    ∃ tree, buildTreeStructure measure st tokens = some tree ∧
      ∀ pathNodes : List Node,
        (pathNodes = tree.filter (fun n => n.isMainPath) ∨
          ∃ call ∈ branchCalls tree, pathNodes = call.fullPath) →
        2 ≤ pathNodes.length →
        (controlPoints pathNodes).getD 0 default = controlPointOf (pathNodes.getD 0 default) ∧
        (controlPoints pathNodes).getD ((controlPoints pathNodes).length - 1) default
          = controlPointOf (pathNodes.getD (pathNodes.length - 1) default) ∧
        (controlPointOf (pathNodes.getD 0 default)).x
          < (controlPointOf (pathNodes.getD (pathNodes.length - 1) default)).x ∧
        ∀ x : ℚ,
          (x < (controlPointOf (pathNodes.getD 0 default)).x →
            sampleThickness (controlPoints pathNodes) x
              = (controlPointOf (pathNodes.getD 0 default)).thickness) ∧
          (x > (controlPointOf (pathNodes.getD (pathNodes.length - 1) default)).x →
            sampleThickness (controlPoints pathNodes) x
              = (controlPointOf (pathNodes.getD (pathNodes.length - 1) default)).thickness) := by
  refine ⟨_, buildTreeStructure_eq measure st tokens, ?_⟩
  intro pathNodes hpath hlen
  obtain ⟨scale, toks, hpw⟩ := drawn_path_pairwise measure st tokens hnodup pathNodes hpath
  have hext := (drawn_path_extent measure scale toks hw pathNodes hpw hlen).2
  have hfirst : (controlPoints pathNodes).getD 0 default
      = controlPointOf (pathNodes.getD 0 default) :=
    getD_map_of_lt controlPointOf pathNodes 0 default default (by omega)
  have hlast : (controlPoints pathNodes).getD ((controlPoints pathNodes).length - 1) default
      = controlPointOf (pathNodes.getD (pathNodes.length - 1) default) := by
    have hl : (controlPoints pathNodes).length = pathNodes.length := by simp [controlPoints]
    rw [hl]
    exact getD_map_of_lt controlPointOf pathNodes _ default default (by omega)
  refine ⟨hfirst, hlast, hext, fun x => ?_⟩
  obtain ⟨h1, _, h3⟩ := sampleThickness_clamped_of_two_le pathNodes x hlen
  exact ⟨h1, h3 (le_of_lt hext)⟩

/-- Witness for claim C9: on the main path built for `branchTokens`, with
control points at `54.5` and `78.5` of thickness `60`, the thickness at
`x = 40` and at `x = 90` is `60`. -/
theorem sampleThickness_clamped_witness :
    NonnegWidths exampleMeasure ∧
    (branchState.activeBranches.map (fun b => b.branchId)).Nodup ∧
    ∃ tree, buildTreeStructure exampleMeasure branchState branchTokens = some tree ∧
      tree.filter (fun n => n.isMainPath) = [certainFirst, certainSecond] ∧
      (controlPointOf certainFirst).x = 54.5 ∧ (controlPointOf certainSecond).x = 78.5 ∧
      sampleThickness (controlPoints (tree.filter (fun n => n.isMainPath))) 40
        = (controlPointOf certainFirst).thickness ∧
      sampleThickness (controlPoints (tree.filter (fun n => n.isMainPath))) 90
        = (controlPointOf certainSecond).thickness := by
  have hw : NonnegWidths exampleMeasure := by
    intro text
    simp only [exampleMeasure, config]
    constructor <;> positivity
  have hnodup : (branchState.activeBranches.map (fun b => b.branchId)).Nodup := by
    simp [branchState]
  obtain ⟨tree, hbuild, h⟩ :=
    sampleThickness_clamped exampleMeasure branchState branchTokens hw hnodup
  have htree := (buildTreeStructure_eq exampleMeasure branchState branchTokens).symm.trans hbuild
  have hmain : tree.filter (fun n => n.isMainPath) = [certainFirst, certainSecond] := by
    rw [← Option.some.inj htree, relaxed_filter_main]
    decide!
  have hx0 : (controlPointOf certainFirst).x = 54.5 := by
    simp only [controlPointOf, certainFirst]; norm_num
  have hx1 : (controlPointOf certainSecond).x = 78.5 := by
    simp only [controlPointOf, certainSecond]; norm_num
  obtain ⟨_, _, _, hx⟩ := h _ (Or.inl rfl) (by rw [hmain]; decide)
  rw [hmain] at hx
  have h40 := (hx 40).1 (by
    show (40 : ℚ) < (controlPointOf certainFirst).x
    rw [hx0]; norm_num)
  have h90 := (hx 90).2 (by
    show (90 : ℚ) > (controlPointOf certainSecond).x
    rw [hx1]; norm_num)
  exact ⟨hw, hnodup, tree, hbuild, hmain, hx0, hx1, by rw [hmain]; exact h40,
    by rw [hmain]; exact h90⟩

/-! ## Rounding in the sampled thickness and in the cumulative probability -/

/-- Counterexample to claim C25 as stated: in the doubles the script computes
with, a sample at the `x` of a control point can get a thickness below every
control-point thickness. For the tokens `"ab"` of probability `1` and `"c"` of
probability `0.33`, measured `30.125` and `15.125` wide, the main path has the
control points `(65.0625, 60)` and `(102.6875, 25.16)`, and it is sampled from
`35` to `125.25`. Sample `150` is at `x = 102.6875`, the `x` of the last
control point, where the interpolation computes `60 + (25.16 - 60) * 1`; the
difference rounds to `-34.84` and the sum to `25.159999999999997`, one unit in
the last place below `25.16`. -/
theorem samplesDouble_overshoot :
    ∃ tree, buildTreeStructure roundingMeasure initialState roundingTokens = some tree ∧
      tree.filter (fun n => n.isMainPath) = [roundingFirst, roundingSecond] ∧
      controlPointsDouble [roundingFirst, roundingSecond]
        = [ { x := 65.0625, thickness := 60 },
            { x := 102.6875, thickness := 7081910414040105 / 2 ^ 48 } ] ∧
      roundDouble (2516 / 100) = 7081910414040105 / 2 ^ 48 ∧
      pathStartXDouble [roundingFirst, roundingSecond] = 35 ∧
      pathEndXDouble [roundingFirst, roundingSecond] = 125.25 ∧
      (samplesDouble (controlPointsDouble [roundingFirst, roundingSecond])
          (pathStartXDouble [roundingFirst, roundingSecond])
          (pathEndXDouble [roundingFirst, roundingSecond]))[150]?
        = some { x := 102.6875, thickness := 7081910414040104 / 2 ^ 48 } ∧
      ∀ cp ∈ controlPointsDouble [roundingFirst, roundingSecond],
        sampleThicknessDouble (controlPointsDouble [roundingFirst, roundingSecond]) 102.6875
          < cp.thickness := by
  have hmain : (relaxAlternativePositions (withBranches roundingMeasure initialState
      initialState.activeBranches
      (baseNodes roundingMeasure initialState roundingTokens roundingTokens 0
        config.startX 0))).filter (fun n => n.isMainPath)
      = [roundingFirst, roundingSecond] := by
    rw [relaxed_filter_main]
    decide!
  have hcps : controlPointsDouble [roundingFirst, roundingSecond]
      = [ { x := 65.0625, thickness := 60 },
          { x := 102.6875, thickness := 7081910414040105 / 2 ^ 48 } ] := by
    decide!
  have hs : sampleThicknessDouble
      [ { x := 65.0625, thickness := 60 },
        { x := 102.6875, thickness := 7081910414040105 / 2 ^ 48 } ] 102.6875
      = 7081910414040104 / 2 ^ 48 := by
    decide!
  refine ⟨_, buildTreeStructure_eq roundingMeasure initialState roundingTokens, hmain, hcps,
    by decide!, by decide!, by decide!, by decide!, ?_⟩
  intro cp hcp
  rw [hcps] at hcp ⊢
  rw [hs]
  simp only [List.mem_cons, List.mem_singleton, List.not_mem_nil, or_false] at hcp
  rcases hcp with rfl | rfl <;> norm_num

theorem underflowTokens_at_189 :
    calculateCumulativeProbabilityDouble underflowTokens 189 = some (3 / 2 ^ 1074) := by
  decide!

theorem underflowTokens_at_190 :
    calculateCumulativeProbabilityDouble underflowTokens 190 = some 0 := by
  decide!

/-- Counterexample to claim C28 as stated: in the doubles the script computes
with, the cumulative probability of a main-path node can be `0` although every
probability is in `(0, 1]`. For 200 tokens of probability `0.02` the product
`calculateCumulativeProbability` accumulates is `1.5e-323`, three times the
smallest positive double, at index `189` and underflows to `0` at index
`190`. -/
theorem calculateCumulativeProbabilityDouble_underflow :
    underflowTokens.length = 200 ∧
    (∀ t ∈ underflowTokens, (0 < t.probability ∧ t.probability ≤ 1) ∧
      ∀ alt ∈ t.alternatives, 0 < alt.probability ∧ alt.probability ≤ 1) ∧
    calculateCumulativeProbabilityDouble underflowTokens 189 = some (3 / 2 ^ 1074) ∧
    calculateCumulativeProbabilityDouble underflowTokens 190 = some 0 := by
  refine ⟨List.length_replicate _ _, ?_, underflowTokens_at_189, underflowTokens_at_190⟩
  intro t ht
  have hp : (0 : ℚ) < roundDouble (2 / 100) ∧ roundDouble (2 / 100) ≤ 1 := by decide!
  rw [List.eq_of_mem_replicate ht]
  exact ⟨hp, fun alt halt => by cases halt⟩

/-! ## The relaxation reads only the layout fields -/

theorem forall₂_getElem?_cases {α β : Type} (R : α → β → Prop) (l₁ : List α) (l₂ : List β)
    (h : List.Forall₂ R l₁ l₂) (q : Nat) :
    (l₁[q]? = none ∧ l₂[q]? = none) ∨ ∃ a b, l₁[q]? = some a ∧ l₂[q]? = some b ∧ R a b := by
  induction h generalizing q with
  | nil => exact Or.inl ⟨rfl, rfl⟩
  | @cons a b t₁ t₂ hab _ ih =>
    cases q with
    | zero => exact Or.inr ⟨a, b, by simp, by simp, hab⟩
    | succ i => simpa using ih i

theorem forall₂_of_getElem? {α β : Type} (R : α → β → Prop) (l₁ : List α) (l₂ : List β)
    (hlen : l₁.length = l₂.length)
    (h : ∀ (i : Nat) (a : α) (b : β), l₁[i]? = some a → l₂[i]? = some b → R a b) :
    List.Forall₂ R l₁ l₂ := by
  induction l₁ generalizing l₂ with
  | nil =>
    cases l₂ with
    | nil => exact List.Forall₂.nil
    | cons b t => cases hlen
  | cons a t ih =>
    cases l₂ with
    | nil => cases hlen
    | cons b t₂ =>
      refine List.Forall₂.cons (h 0 a b (by simp) (by simp)) (ih t₂ (by simpa using hlen) ?_)
      intro i x y hx hy
      exact h (i + 1) x y (by simpa using hx) (by simpa using hy)

theorem groupAlternatives_sameInput (s₁ s₂ : List Node)
    (h : List.Forall₂ SameLayoutInput s₁ s₂) (pos : Nat) (groups : List (Int × List Nat)) :
    groupAlternatives s₁ pos groups = groupAlternatives s₂ pos groups := by
  induction h generalizing pos groups with
  | nil => rfl
  | @cons a b t₁ t₂ hab _ ih =>
    unfold groupAlternatives
    rw [hab.1, hab.2.1, ih]

theorem groupIndex_sameInput (t₁ t₂ : List Node) (h : List.Forall₂ SameLayoutInput t₁ t₂)
    (p : Nat) (t : Int) : groupIndex t₁ p t = groupIndex t₂ p t := by
  unfold groupIndex
  have ht := List.forall₂_take p h
  generalize t₁.take p = a at ht
  generalize t₂.take p = b at ht
  induction ht with
  | nil => rfl
  | @cons x y l₁ l₂ hxy _ ih =>
    have hin : inGroup t x = inGroup t y := by simp [inGroup, hxy.1, hxy.2.1]
    simp only [List.filter_cons, hin]
    split
    · simp [ih]
    · exact ih

theorem initPositions_main (tree : List Node) (p : Nat) (n : Node) (hp : tree[p]? = some n)
    (hm : n.isMainPath = true) :
    (initPositions (alternativesByToken tree) tree)[p]? = some n := by
  rw [initPositions_getElem?_of_not_mem _ _ p, hp]
  intro g hg hmem
  have := alternativesByToken_nonMain tree g hg p hmem n hp
  rw [hm] at this
  cases this

theorem initPositions_length (tree : List Node) :
    (initPositions (alternativesByToken tree) tree).length = tree.length :=
  (initPositions_frame tree _ (alternativesByToken_nonMain tree) tree
    (forall₂_relaxFrame_refl tree)).length_eq.symm

theorem initPositions_sameLayout (t₁ t₂ : List Node)
    (h : List.Forall₂ SameLayoutInput t₁ t₂) :
    List.Forall₂ SameLayout (initPositions (alternativesByToken t₁) t₁)
      (initPositions (alternativesByToken t₂) t₂) := by
  apply forall₂_of_getElem?
  · rw [initPositions_length, initPositions_length]
    exact h.length_eq
  · intro i a b ha hb
    rcases forall₂_getElem?_cases _ _ _ h i with ⟨h1, _⟩ | ⟨n₁, n₂, h1, h2, hs⟩
    · have hlt : i < (initPositions (alternativesByToken t₁) t₁).length := by
        by_contra hc
        rw [List.getElem?_eq_none (by omega)] at ha
        cases ha
      rw [initPositions_length] at hlt
      rw [List.getElem?_eq_getElem hlt] at h1
      cases h1
    · by_cases hm : n₁.isMainPath = true
      · have hm2 : n₂.isMainPath = true := by rw [← hs.1]; exact hm
        rw [initPositions_main t₁ i n₁ h1 hm] at ha
        rw [initPositions_main t₂ i n₂ h2 hm2] at hb
        cases ha
        cases hb
        exact ⟨hs.1, hs.2.1, hs.2.2.1, hs.2.2.2 hm⟩
      · have hm1 : n₁.isMainPath = false := by simpa using hm
        have hm2 : n₂.isMainPath = false := by rw [← hs.1]; exact hm1
        rw [initPositions_node t₁ i n₁ h1 hm1] at ha
        rw [initPositions_node t₂ i n₂ h2 hm2] at hb
        cases ha
        cases hb
        refine ⟨hs.1, hs.2.1, hs.2.2.1, ?_⟩
        show initialY (groupIndex t₁ i n₁.tokenIndex) = initialY (groupIndex t₂ i n₂.tokenIndex)
        rw [groupIndex_sameInput t₁ t₂ h, hs.2.1]

theorem sameTokenForce_sameLayout (t₁ t₂ : List Node) (h : List.Forall₂ SameLayout t₁ t₂)
    (pos : Nat) (a b : Node) (hab : SameLayout a b) (force : ℚ) (q : Nat) :
    sameTokenForce t₁ pos a force q = sameTokenForce t₂ pos b force q := by
  unfold sameTokenForce
  rcases forall₂_getElem?_cases _ _ _ h q with ⟨h1, h2⟩ | ⟨o₁, o₂, h1, h2, hr⟩
  · rw [h1, h2]
  · rw [h1, h2]
    simp only
    rw [hab.2.2.2, hr.2.2.2]

theorem adjacentForce_sameLayout (t₁ t₂ : List Node) (h : List.Forall₂ SameLayout t₁ t₂)
    (a b : Node) (hab : SameLayout a b) (force : ℚ) (q : Nat) :
    adjacentForce t₁ a force q = adjacentForce t₂ b force q := by
  unfold adjacentForce
  rcases forall₂_getElem?_cases _ _ _ h q with ⟨h1, h2⟩ | ⟨o₁, o₂, h1, h2, hr⟩
  · rw [h1, h2]
  · rw [h1, h2]
    simp only
    rw [hab.2.2.2, hr.2.2.2, hab.2.2.1, hr.2.2.1]

theorem nodeForce_sameLayout (t₁ t₂ : List Node) (h : List.Forall₂ SameLayout t₁ t₂)
    (groups : List (Int × List Nat)) (pos : Nat) (a b : Node) (hab : SameLayout a b) :
    nodeForce t₁ groups pos a = nodeForce t₂ groups pos b := by
  have h1 : sameTokenForce t₁ pos a = sameTokenForce t₂ pos b :=
    funext (fun force => funext (fun q => sameTokenForce_sameLayout t₁ t₂ h pos a b hab force q))
  have h2 : adjacentForce t₁ a = adjacentForce t₂ b :=
    funext (fun force => funext (fun q => adjacentForce_sameLayout t₁ t₂ h a b hab force q))
  unfold nodeForce
  rw [h1, h2, hab.2.1, hab.2.2.2]

theorem applyForces_sameLayout (w₁ w₂ : List Node) (hw : List.Forall₂ SameLayout w₁ w₂)
    (groups : List (Int × List Nat)) (s₁ s₂ : List Node) (hs : List.Forall₂ SameLayout s₁ s₂)
    (pos : Nat) :
    List.Forall₂ SameLayout (applyForces w₁ groups s₁ pos) (applyForces w₂ groups s₂ pos) := by
  induction hs generalizing pos with
  | nil => exact List.Forall₂.nil
  | @cons a b l₁ l₂ hab _ ih =>
    unfold applyForces
    refine List.Forall₂.cons ?_ (ih (pos + 1))
    rw [nodeForce_sameLayout w₁ w₂ hw groups pos a b hab, hab.1]
    by_cases hm : b.isMainPath = true
    · have hn : (!b.isMainPath) = false := by simp [hm]
      rw [hn]
      simpa using hab
    · have hn : (!b.isMainPath) = true := by simpa using hm
      rw [if_pos hn, if_pos hn]
      exact ⟨rfl, hab.2.1, hab.2.2.1, by
        show a.y + _ = b.y + _
        rw [hab.2.2.2]⟩

theorem relaxLoop_sameLayout (groups : List (Int × List Nat)) (n : Nat) (t₁ t₂ : List Node)
    (h : List.Forall₂ SameLayout t₁ t₂) :
    List.Forall₂ SameLayout (relaxLoop groups n t₁) (relaxLoop groups n t₂) := by
  induction n generalizing t₁ t₂ with
  | zero => exact h
  | succ k ih =>
    unfold relaxLoop
    exact ih _ _ (applyForces_sameLayout t₁ t₂ h groups t₁ t₂ h 0)

theorem relaxAlternativePositions_sameLayout (t₁ t₂ : List Node)
    (h : List.Forall₂ SameLayoutInput t₁ t₂) :
    List.Forall₂ SameLayout (relaxAlternativePositions t₁) (relaxAlternativePositions t₂) := by
  have hg : alternativesByToken t₁ = alternativesByToken t₂ :=
    groupAlternatives_sameInput t₁ t₂ h 0 []
  unfold relaxAlternativePositions
  have hi := initPositions_sameLayout t₁ t₂ h
  rw [hg] at hi ⊢
  exact relaxLoop_sameLayout _ _ _ _ hi

theorem map_y_of_sameLayout (t₁ t₂ : List Node) (h : List.Forall₂ SameLayout t₁ t₂) :
    t₁.map (fun n => n.y) = t₂.map (fun n => n.y) := by
  induction h with
  | nil => rfl
  | @cons a b l₁ l₂ hab _ ih =>
    simp only [List.map_cons, ih, hab.2.2.2]

/-! ## The order in which the groups are visited -/

theorem lookup_perm (g₁ g₂ : List (Int × List Nat)) (hp : g₁.Perm g₂)
    (hn : (g₂.map Prod.fst).Nodup) (k : Int) : g₁.lookup k = g₂.lookup k := by
  have hn₁ : (g₁.map Prod.fst).Nodup := (hp.map Prod.fst).nodup_iff.mpr hn
  cases h2 : g₂.lookup k with
  | some ms =>
    exact lookup_of_mem_nodup g₁ k ms hn₁ (hp.mem_iff.mpr (mem_of_lookup g₂ k ms h2))
  | none =>
    cases h1 : g₁.lookup k with
    | none => rfl
    | some ms =>
      have := lookup_of_mem_nodup g₂ k ms hn (hp.mem_iff.mp (mem_of_lookup g₁ k ms h1))
      rw [h2] at this
      cases this

theorem initPositions_perm (tree : List Node) (groups : List (Int × List Nat))
    (hp : groups.Perm (alternativesByToken tree)) :
    initPositions groups tree = initPositions (alternativesByToken tree) tree := by
  have hnd : ∀ g ∈ alternativesByToken tree, g.2.Nodup := by
    intro g hg
    obtain ⟨k, ms⟩ := g
    rw [alternativesByToken_members tree k ms hg]
    exact membersFrom_nodup k tree 0
  have hdis := alternativesByToken_disjoint tree
  have hdis' : groups.Pairwise (fun g g' => ∀ q, q ∈ g.2 → q ∉ g'.2) := by
    refine (hp.pairwise_iff ?_).mpr hdis
    intro g g' hgg q hq hq'
    exact hgg q hq' hq
  apply List.ext_getElem?
  intro p
  by_cases hmem : ∃ g ∈ alternativesByToken tree, p ∈ g.2
  · obtain ⟨g, hg, hpg⟩ := hmem
    obtain ⟨c, hc⟩ := List.mem_iff_getElem?.mp hpg
    rw [initPositions_getElem?_of_mem _ tree hnd hdis g hg p c hc,
      initPositions_getElem?_of_mem _ tree (fun g' hg' => hnd g' (hp.mem_iff.mp hg')) hdis' g
        (hp.mem_iff.mpr hg) p c hc]
  · have hno : ∀ g ∈ alternativesByToken tree, p ∉ g.2 := fun g hg hpg => hmem ⟨g, hg, hpg⟩
    rw [initPositions_getElem?_of_not_mem _ tree p hno,
      initPositions_getElem?_of_not_mem _ tree p (fun g hg => hno g (hp.mem_iff.mp hg))]

theorem nodeForce_groups (tree : List Node) (g₁ g₂ : List (Int × List Nat))
    (h : ∀ k, groupOf g₁ k = groupOf g₂ k) (pos : Nat) (node : Node) :
    nodeForce tree g₁ pos node = nodeForce tree g₂ pos node := by
  unfold nodeForce
  simp only [h]

theorem applyForces_groups (whole : List Node) (g₁ g₂ : List (Int × List Nat))
    (h : ∀ k, groupOf g₁ k = groupOf g₂ k) (suffix : List Node) (pos : Nat) :
    applyForces whole g₁ suffix pos = applyForces whole g₂ suffix pos := by
  induction suffix generalizing pos with
  | nil => rfl
  | cons a rest ih =>
    unfold applyForces
    rw [ih, nodeForce_groups whole g₁ g₂ h]

theorem relaxLoop_groups (g₁ g₂ : List (Int × List Nat))
    (h : ∀ k, groupOf g₁ k = groupOf g₂ k) (n : Nat) (tree : List Node) :
    relaxLoop g₁ n tree = relaxLoop g₂ n tree := by
  induction n generalizing tree with
  | zero => rfl
  | succ k ih =>
    unfold relaxLoop relaxStep
    rw [applyForces_groups tree g₁ g₂ h, ih]

/-- Claim C20. The `y` values after relaxation are a function of the layout
fields of the input nodes alone: two trees of which the nodes agree, position
by position, on the main-path flag, the token index, `x` and, for main-path
nodes, `y`, have the same `y` values after relaxation, whatever their other
fields and whatever `y` their alternatives had before; trees that agree on
every field are a special case. The result does not depend on the order in
which the groups of `alternativesByToken` are enumerated either. Consequently
`buildTreeStructure` returns the same tree for the same tokens, active
branches, cached continuations and measurement function, whatever else the
session state holds. -/
theorem relaxAlternativePositions_deterministic :
    (∀ a : Node, SameLayoutInput a a) ∧
    (∀ tree₁ tree₂ : List Node, List.Forall₂ SameLayoutInput tree₁ tree₂ →
      (relaxAlternativePositions tree₁).map (fun n => n.y)
        = (relaxAlternativePositions tree₂).map (fun n => n.y)) ∧
    (∀ (tree : List Node) (groups : List (Int × List Nat)),
      groups.Perm (alternativesByToken tree) →
      relaxLoop groups iterations (initPositions groups tree)
        = relaxAlternativePositions tree) ∧
    (∀ (measure measure' : String → ℚ → ℚ) (st st' : State) (tokens tokens' : List Token),
      (∀ text fontSize, measure text fontSize = measure' text fontSize) →
      tokens = tokens' →
      st.activeBranches = st'.activeBranches →
      st.branchContinuations = st'.branchContinuations →
      buildTreeStructure measure st tokens = buildTreeStructure measure' st' tokens') := by
  refine ⟨fun a => ⟨rfl, rfl, rfl, fun _ => rfl⟩, ?_, ?_, ?_⟩
  · intro tree₁ tree₂ h
    exact map_y_of_sameLayout _ _ (relaxAlternativePositions_sameLayout tree₁ tree₂ h)
  · intro tree groups hp
    unfold relaxAlternativePositions
    rw [initPositions_perm tree groups hp]
    apply relaxLoop_groups
    intro k
    unfold groupOf
    rw [lookup_perm groups _ hp (alternativesByToken_nodup_keys tree)]
  · intro measure measure' st st' tokens tokens' hm ht ha hc
    have hmeasure : measure = measure' := funext (fun text => funext (fun size => hm text size))
    subst hmeasure
    subst ht
    rw [buildTreeStructure_eq, buildTreeStructure_eq,
      baseNodes_congr measure st st' ha, withBranches_congr measure st st' hc, ha]

end TokenTree
